import Mathlib

/-!
cdiff: edit-script computation and unified-diff hunk assembly

A shallow embedding of `src/diff.cpp` (`Diff::calculate`, `Diff::generateHunk`,
`Diff::generateUnidiff`) and `src/diff_item.h`.

Conventions of the embedding.

* `std::vector` accesses through `operator[]` are checked: an index outside the
  allocated range is undefined behaviour in the program and is reported here as a
  fault (`none`, `StepOutcome.fault`, `CalcResult.outOfRange`).
* `int` values of `Diff::calculate` are integers; they are bounded by `N + M + 1`,
  and the program allocates vectors of `2 * (N + M) + 1` elements, so no `int`
  overflow is modelled.
* `unsigned short` and `unsigned int` values of `Diff::generateUnidiff` are natural
  numbers reduced modulo `2 ^ 16` and `2 ^ 32`.
-/

set_option autoImplicit false
set_option linter.all false
set_option linter.unusedSectionVars false

namespace Cdiff

/-! ## Data model (`diff_item.h`) -/

/-- Kind of change of a line: `enum class Change`. -/
inductive Change where
  | Equal
  | Remove
  | Insert
  deriving DecidableEq, Repr

/-- One operation of the edit script: `class DiffItem`. -/
structure DiffItem where
  change : Change
  lineOld : Nat
  lineNew : Nat
  deriving DecidableEq, Repr

/-! ## Checked vector access -/

/-- Read `v[idx]`; `none` when `idx` is outside the allocated range. -/
def vecRead {β : Type} (v : List β) (idx : Int) : Option β :=
  if 0 ≤ idx then v[idx.toNat]? else none

/-- Write `v[idx] = b`; `none` when `idx` is outside the allocated range. -/
def vecWrite {β : Type} (v : List β) (idx : Int) (b : β) : Option (List β) :=
  if 0 ≤ idx ∧ idx.toNat < v.length then some (v.set idx.toNat b) else none

/-! ## `Diff::calculate` -/

/-- The expression `(x - 1 < 0) ? 0 : (x - 1)` converted to `unsigned int`. -/
def lineIndex (x : Int) : Nat :=
  if x - 1 < 0 then 0 else (x - 1).toNat

/-- Outcome of one iteration of the loop over `k`. -/
inductive StepOutcome where
  | done (items : List DiffItem)
  | next (v_x : List Int) (v_history : List (List DiffItem))
  | fault
  deriving DecidableEq, Repr

/-- Result of `Diff::calculate`. -/
inductive CalcResult where
  | script (items : List DiffItem)
  | exhausted
  | outOfRange
  deriving DecidableEq, Repr

/-- The condition `k == -d || (k != -d && v_x[MAX + k - 1] < v_x[MAX + k + 1])`,
with its short-circuit evaluation. -/
def fromRight (v_x : List Int) (MAX d k : Int) : Option Bool :=
  if k = -d then some true
  else
    match vecRead v_x (MAX + k - 1), vecRead v_x (MAX + k + 1) with
    | some l, some r => some (decide (l < r))
    | _, _ => none

section Calculate

variable {α : Type} [DecidableEq α]

/-- The loop `while(x < N && y < M && original[x] == modified[y])` that appends the
unchanged lines to `history`. The first argument bounds the number of iterations;
`N + 1` is always enough. -/
def snake (original modified : List α) :
    Nat → Int → Int → List DiffItem → Option (Int × Int × List DiffItem)
  | 0, _, _, _ => none
  | fuel + 1, x, y, history =>
    if x < (original.length : Int) ∧ y < (modified.length : Int) then
      match vecRead original x, vecRead modified y with
      | some a, some b =>
        if a = b then
          snake original modified fuel (x + 1) (y + 1)
            (history ++ [⟨Change.Equal, lineIndex (x + 1), lineIndex (y + 1)⟩])
        else some (x, y, history)
      | _, _ => none
    else some (x, y, history)

/-- First part of the body of the loop over `k` (lines 83 to 131 of `diff.cpp`):
choice of the neighbouring diagonal, the recorded insertion or removal, and the
run of unchanged lines. The result is `(x, y, history)`. -/
def advance (original modified : List α) (d k : Int)
    (v_x : List Int) (v_history : List (List DiffItem)) :
    Option (Int × Int × List DiffItem) :=
  let N : Int := original.length
  let M : Int := modified.length
  let MAX : Int := N + M
  match fromRight v_x MAX d k with
  | none => none
  | some right =>
    let src : Int := if right then MAX + k + 1 else MAX + k - 1
    match vecRead v_x src, vecRead v_history src with
    | some oldX, some hist0 =>
      let x : Int := if right then oldX else oldX + 1
      let y : Int := x - k
      match (if 1 ≤ y ∧ y ≤ M then fromRight v_x MAX d k else some false) with
      | none => none
      | some ins =>
        let hist1 : List DiffItem :=
          if ins then hist0 ++ [⟨Change.Insert, lineIndex x, lineIndex y⟩]
          else if 1 ≤ x ∧ x ≤ N then hist0 ++ [⟨Change.Remove, lineIndex x, lineIndex y⟩]
          else hist0
        snake original modified (original.length + 1) x y hist1
    | _, _ => none

/-- Body of the loop over `k` (lines 83 to 145 of `diff.cpp`): `advance`, then the
test for the end of both sequences and the update of `v_x` and `v_history`. -/
def diagStep (original modified : List α) (d k : Int)
    (v_x : List Int) (v_history : List (List DiffItem)) : StepOutcome :=
  let N : Int := original.length
  let M : Int := modified.length
  let MAX : Int := N + M
  match advance original modified d k v_x v_history with
  | none => StepOutcome.fault
  | some (x, y, history) =>
    if N ≤ x ∧ M ≤ y then StepOutcome.done history
    else
      match vecWrite v_x (MAX + k) x, vecWrite v_history (MAX + k) history with
      | some v_x2, some v_history2 => StepOutcome.next v_x2 v_history2
      | _, _ => StepOutcome.fault

/-- The loop `for(int k = -d; k <= d; k += 2)`; it is entered with `k = -d` and
`d + 1` as the iteration bound. -/
def diagLoop (original modified : List α) (d : Int) :
    Nat → Int → List Int → List (List DiffItem) → StepOutcome
  | 0, _, v_x, v_history => StepOutcome.next v_x v_history
  | fuel + 1, k, v_x, v_history =>
    if k ≤ d then
      match diagStep original modified d k v_x v_history with
      | StepOutcome.next v_x2 v_history2 =>
        diagLoop original modified d fuel (k + 2) v_x2 v_history2
      | r => r
    else StepOutcome.next v_x v_history

/-- The loop `for(int d = 0; d <= MAX; d++)` followed by the `throw`; the first
argument is the number of values of `d` still to be tried. -/
def roundLoop (original modified : List α) :
    Nat → Nat → List Int → List (List DiffItem) → CalcResult
  | 0, _, _, _ => CalcResult.exhausted
  | fuel + 1, d, v_x, v_history =>
    match diagLoop original modified (d : Int) (d + 1) (-(d : Int)) v_x v_history with
    | StepOutcome.done items => CalcResult.script items
    | StepOutcome.fault => CalcResult.outOfRange
    | StepOutcome.next v_x2 v_history2 =>
      roundLoop original modified fuel (d + 1) v_x2 v_history2

/-- `Diff::calculate`: Myers' O(ND) algorithm with a stored history per diagonal. -/
def calculate (original modified : List α) : CalcResult :=
  let MAX : Nat := original.length + modified.length
  roundLoop original modified (MAX + 1) 0
    (List.replicate (MAX * 2 + 1) 0) (List.replicate (MAX * 2 + 1) [])

end Calculate

/-! ## `Diff::generateUnidiff`: hunk assembly -/

/-- Conversion to `unsigned short`. -/
def u16 (n : Nat) : Nat := n % 65536

/-- Conversion to `unsigned int`. -/
def u32 (n : Nat) : Nat := n % 4294967296

/-- The `unsigned int` value of `n - 1`. -/
def pred32 (n : Nat) : Nat := u32 (n + 4294967295)

/-- The local variables of `Diff::generateUnidiff` that drive the scan. -/
structure ScanState where
  isHunk : Bool
  hunkStart : Nat
  hunkEnd : Nat
  linesCount : Nat
  equalsCount : Nat
  removesCount : Nat
  insertsCount : Nat
  endPos : Nat
  i : Nat
  j : Nat
  deriving DecidableEq, Repr

/-- The arguments of one call `generateHunk(os, ch, start, end, linesChangedOld,
linesChangedNew)`. -/
structure HunkCall where
  start : Nat
  stop : Nat
  linesChangedOld : Nat
  linesChangedNew : Nat
  deriving DecidableEq, Repr

/-- The call `generateHunk(os, ch, hunkStart, hunkEnd, equalsCount + removesCount,
equalsCount + insertsCount)`; the sums are converted to `unsigned short`. -/
def hunkOf (s : ScanState) : HunkCall :=
  ⟨s.hunkStart, s.hunkEnd, u16 (s.equalsCount + s.removesCount),
    u16 (s.equalsCount + s.insertsCount)⟩

/-- The loop `for(j = hunkEnd + 1; j < end; j++)` (lines 335 to 349). The result is
`(isHunk, j, hunkEnd, equalsCount)` at the exit of the loop. -/
def lookAhead (items : List DiffItem) (endPos : Nat) :
    Nat → Nat → Nat → Nat → Option (Bool × Nat × Nat × Nat)
  | 0, _, _, _ => none
  | fuel + 1, j, hunkEnd, equalsCount =>
    if j < endPos then
      match items[j]? with
      | none => none
      | some it =>
        if it.change ≠ Change.Equal then some (true, j, hunkEnd, equalsCount)
        else lookAhead items endPos fuel (u32 (j + 1)) (u16 (hunkEnd + 1))
          (u16 (equalsCount + 1))
    else some (false, j, hunkEnd, equalsCount)

/-- The loop `for(j = i; j < end; j++)` (lines 373 to 383). The result is
`(isHunk, j)` at the exit of the loop. -/
def mergeCheck (items : List DiffItem) (itemCount endPos : Nat) :
    Nat → Nat → Bool → Option (Bool × Nat)
  | 0, _, _ => none
  | fuel + 1, j, isHunk =>
    if j < endPos then
      match items[j]? with
      | none => none
      | some it =>
        if it.change ≠ Change.Equal then some (isHunk, j)
        else if j = pred32 endPos ∧ u32 (j + 1) < itemCount then
          match items[u32 (j + 1)]? with
          | none => none
          | some nx =>
            mergeCheck items itemCount endPos fuel (u32 (j + 1))
              (if nx.change ≠ Change.Equal then true else isHunk)
        else mergeCheck items itemCount endPos fuel (u32 (j + 1)) isHunk
    else some (isHunk, j)

/-- The statement at lines 403 to 409: print the hunk when the last item has been
reached and the hunk has not been printed yet. -/
def finalCheck (itemCount : Nat) (s : ScanState) : List HunkCall :=
  if s.i = pred32 itemCount ∧ s.hunkStart < itemCount then [hunkOf s] else []

/-- How the body of the scan loop is left. -/
inductive BodyExit where
  | goOn
  | breakLoop
  deriving DecidableEq, Repr

/-- The part of the loop body for an unchanged line inside a hunk (lines 324 to
399), followed by the statement at line 403 when control reaches it. -/
def closeHunk (items : List DiffItem) (C itemCount : Nat) (s : ScanState) :
    Option (ScanState × List HunkCall × BodyExit) :=
  let s2 : ScanState := { s with isHunk := false, linesCount := 0 }
  let end1 : Nat := min (u32 (s2.hunkEnd + C + 1)) itemCount
  match lookAhead items end1 (itemCount + 1) (s2.hunkEnd + 1) s2.hunkEnd s2.equalsCount with
  | none => none
  | some (found, j1, hunkEnd1, equalsCount1) =>
    let s3 : ScanState :=
      { s2 with isHunk := found, j := j1, hunkEnd := hunkEnd1, equalsCount := equalsCount1,
                endPos := end1, i := pred32 j1 }
    if j1 = pred32 itemCount then some (s3, [hunkOf s3], BodyExit.breakLoop)
    else if s3.isHunk then some (s3, [], BodyExit.goOn)
    else
      let end2 : Nat := min (u32 (end1 + C)) itemCount
      match mergeCheck items itemCount end2 (itemCount + 1) s3.i false with
      | none => none
      | some (merge, j2) =>
        let s4 : ScanState := { s3 with endPos := end2, j := j2, isHunk := merge }
        if merge then some (s4, [], BodyExit.goOn)
        else
          let hs : Nat := u16 (s4.hunkEnd + 1)
          let s5 : ScanState :=
            { s4 with linesCount := 0, equalsCount := 0, insertsCount := 0,
                      removesCount := 0, hunkStart := hs, i := pred32 hs,
                      j := u32 (pred32 hs + 1) }
          some (s5, hunkOf s4 :: finalCheck itemCount s5, BodyExit.goOn)

/-- The body of the loop `for(i = 0, j = 1; i < itemCount; i++, j++)` (lines 286
to 410): the new state, the hunks printed, and whether the loop is left by
`break`. -/
def scanBody (items : List DiffItem) (C itemCount : Nat) (s : ScanState) :
    Option (ScanState × List HunkCall × BodyExit) :=
  match items[s.i]? with
  | none => none
  | some it =>
    let s1 : ScanState :=
      if s.isHunk then s
      else if it.change ≠ Change.Equal then
        { s with isHunk := true, hunkEnd := u16 (pred32 s.i) }
      else if C ≤ s.linesCount then
        { s with hunkStart := u16 (s.hunkStart + 1), linesCount := u16 (s.linesCount + 1) }
      else
        { s with equalsCount := u16 (s.equalsCount + 1),
                 linesCount := u16 (s.linesCount + 1) }
    if s1.isHunk then
      match it.change with
      | Change.Insert =>
        let s2 : ScanState :=
          { s1 with hunkEnd := u16 (s1.hunkEnd + 1), insertsCount := u16 (s1.insertsCount + 1) }
        some (s2, finalCheck itemCount s2, BodyExit.goOn)
      | Change.Remove =>
        let s2 : ScanState :=
          { s1 with hunkEnd := u16 (s1.hunkEnd + 1), removesCount := u16 (s1.removesCount + 1) }
        some (s2, finalCheck itemCount s2, BodyExit.goOn)
      | Change.Equal => closeHunk items C itemCount s1
    else some (s1, [], BodyExit.goOn)

/-- The increments `i++, j++` of the scan loop. -/
def nextIteration (s : ScanState) : ScanState :=
  { s with i := u32 (s.i + 1), j := u32 (s.j + 1) }

/-- The scan loop `for(i = 0, j = 1; i < itemCount; i++, j++)`: the list of hunks
printed, in order. The first argument bounds the number of iterations. -/
def scanLoop (items : List DiffItem) (C itemCount : Nat) :
    Nat → ScanState → Option (List HunkCall)
  | 0, _ => none
  | fuel + 1, s =>
    if s.i < itemCount then
      match scanBody items C itemCount s with
      | none => none
      | some (_, hunks, BodyExit.breakLoop) => some hunks
      | some (s2, hunks, BodyExit.goOn) =>
        match scanLoop items C itemCount fuel (nextIteration s2) with
        | none => none
        | some rest => some (hunks ++ rest)
    else some []

/-- The initial values of the local variables of `Diff::generateUnidiff`. -/
def initialScan : ScanState :=
  { isHunk := false, hunkStart := 0, hunkEnd := 0, linesCount := 0, equalsCount := 0,
    removesCount := 0, insertsCount := 0, endPos := 0, i := 0, j := 1 }

/-- The hunks that `Diff::generateUnidiff` prints for the script `items` with
`C = options.getContextLines()`, as the list of calls of `generateHunk`. -/
def unidiffHunks (items : List DiffItem) (C : Nat) : Option (List HunkCall) :=
  let itemCount : Nat := u32 items.length
  scanLoop items C itemCount (2 * itemCount + 1) initialScan

/-! ## `Diff::generateHunk` and the text of the output -/

/-- The body line printed for one item of the hunk (lines 193 to 208). -/
def bodyLine (original modified : List String) (it : DiffItem) : Option String :=
  match it.change with
  | Change.Remove => (original[it.lineOld]?).map (fun l => "-" ++ l ++ "\n")
  | Change.Insert => (modified[it.lineNew]?).map (fun l => "+" ++ l ++ "\n")
  | Change.Equal => (original[it.lineOld]?).map (fun l => " " ++ l ++ "\n")

/-- The loop `for(int i = start; i <= end; i++)` of `generateHunk`; the first
argument is the number of iterations left. -/
def hunkBody (original modified : List String) (items : List DiffItem) :
    Nat → Nat → Option String
  | 0, _ => some ""
  | n + 1, i =>
    match items[i]? with
    | none => none
    | some it =>
      match bodyLine original modified it, hunkBody original modified items n (i + 1) with
      | some l, some rest => some (l ++ rest)
      | _, _ => none

/-- The range line `@@ -a,b +c,d @@` of a hunk (lines 177 to 185). -/
def hunkHeader (items : List DiffItem) (h : HunkCall) : Option String :=
  match items[h.start]? with
  | none => none
  | some it =>
    some ("@@ -" ++ toString (u32 (it.lineOld + 1)) ++ "," ++ toString h.linesChangedOld
      ++ " +" ++ toString (u32 (it.lineNew + 1)) ++ "," ++ toString h.linesChangedNew
      ++ " @@\n")

/-- `Diff::generateHunk`: the text written to the stream for one hunk. -/
def generateHunk (original modified : List String) (items : List DiffItem)
    (h : HunkCall) : Option String :=
  match hunkHeader items h, hunkBody original modified items (h.stop + 1 - h.start) h.start with
  | some hd, some body => some (hd ++ body)
  | _, _ => none

/-- The text of all hunks, in the order of the calls. -/
def hunksText (original modified : List String) (items : List DiffItem) :
    List HunkCall → Option String
  | [] => some ""
  | h :: hs =>
    match generateHunk original modified items h, hunksText original modified items hs with
    | some t, some rest => some (t ++ rest)
    | _, _ => none

/-- `Diff::generateUnidiff`: the text written to the stream when colours are not in
use and neither the colour handler nor the modification dates raise an exception.
The time stamps are the results of `DateTime::format` for the two files and
`endingNewLine` is the result of `FileHelper::hasEndingNewLine(modifiedFilename)`. -/
def generateUnidiff (original modified : List String) (items : List DiffItem)
    (originalFilename originalStamp modifiedFilename modifiedStamp : String)
    (C : Nat) (endingNewLine : Bool) : Option String :=
  match unidiffHunks items C with
  | none => none
  | some hunks =>
    match hunksText original modified items hunks with
    | none => none
    | some body =>
      some ("--- " ++ originalFilename ++ "\t" ++ originalStamp ++ "\n"
        ++ "+++ " ++ modifiedFilename ++ "\t" ++ modifiedStamp ++ "\n"
        ++ body
        ++ (if endingNewLine then "" else "\\ No newline at end of file\n"))

/-! ## Specification vocabulary for hunks -/

/-- The items of the script range `[start, stop]` of a hunk. -/
def hunkItems (items : List DiffItem) (h : HunkCall) : List DiffItem :=
  (items.drop h.start).take (h.stop + 1 - h.start)

/-- The number of items with change `c` at the script indices `a ≤ k < b`. -/
def countChange (c : Change) (items : List DiffItem) (a b : Nat) : Nat :=
  ((items.drop a).take (b - a)).countP (fun it => decide (it.change = c))

/-! ## Specification vocabulary for edit scripts -/

section Scripts

variable {α : Type} [DecidableEq α]

/-- The original indices carried by the `Equal` and `Remove` operations of a script,
in script order. -/
def originalIndices (s : List DiffItem) : List Nat :=
  (s.filter (fun it => decide (it.change ≠ Change.Insert))).map DiffItem.lineOld

/-- The modified indices carried by the `Equal` and `Insert` operations of a script,
in script order. -/
def modifiedIndices (s : List DiffItem) : List Nat :=
  (s.filter (fun it => decide (it.change ≠ Change.Remove))).map DiffItem.lineNew

/-- Replaying a script: copy `A[i]` on `Equal`, skip `A[i]` on `Remove`, emit `B[j]`
on `Insert`. -/
def replay (A B : List α) (s : List DiffItem) : List α :=
  s.filterMap (fun it =>
    match it.change with
    | Change.Equal => A[it.lineOld]?
    | Change.Remove => none
    | Change.Insert => B[it.lineNew]?)

/-- The number of operations of a script that are not `Equal`. -/
def editCount (s : List DiffItem) : Nat :=
  (s.filter (fun it => decide (it.change ≠ Change.Equal))).length

/-- A script transforms `A` into `B`: its `Equal` and `Remove` operations carry the
original indices `0, ..., N - 1` in order, its `Equal` and `Insert` operations
carry the modified indices `0, ..., M - 1` in order, and its replay is `B`. -/
def Transforms (A B : List α) (s : List DiffItem) : Prop :=
  originalIndices s = List.range A.length ∧ modifiedIndices s = List.range B.length
    ∧ replay A B s = B

/-- Length of a longest common subsequence of the first `i` lines of `A` and the
first `j` lines of `B` (the dynamic-programming recurrence). -/
def lcsLength (A B : List α) : Nat → Nat → Nat
  | 0, _ => 0
  | _ + 1, 0 => 0
  | i + 1, j + 1 =>
    if i < A.length ∧ j < B.length ∧ A[i]? = B[j]? then lcsLength A B i j + 1
    else max (lcsLength A B i (j + 1)) (lcsLength A B (i + 1) j)

/-- A history is a valid script from `(0, 0)` to the point `(x, y)` of the edit graph
with `e` operations that are not `Equal`. -/
structure Valid (A B : List α) (h : List DiffItem) (x y e : Nat) : Prop where
  olds : originalIndices h = List.range x
  news : modifiedIndices h = List.range y
  same : ∀ it ∈ h, it.change = Change.Equal →
    ∃ a, A[it.lineOld]? = some a ∧ B[it.lineNew]? = some a
  cost : editCount h = e

/-- Paths of the edit graph of `A` and `B`: `Reach A B x y e` when `(x, y)` is
reached from `(0, 0)` with exactly `e` horizontal and vertical edges. -/
inductive Reach (A B : List α) : Nat → Nat → Nat → Prop where
  | start : Reach A B 0 0 0
  | diag {x y e : Nat} : Reach A B x y e → (∃ a, A[x]? = some a ∧ B[y]? = some a) →
      Reach A B (x + 1) (y + 1) e
  | right {x y e : Nat} : Reach A B x y e → x < A.length → Reach A B (x + 1) y (e + 1)
  | down {x y e : Nat} : Reach A B x y e → y < B.length → Reach A B x (y + 1) (e + 1)

/-- The histories that `Diff::calculate` builds along a path of the edit graph, with
the exact line numbers it records: `Path A B h x y e` when `h` is the history of a
path from `(0, 0)` to `(x, y)` with `e` horizontal and vertical edges. -/
inductive Path (A B : List α) : List DiffItem → Nat → Nat → Nat → Prop where
  | nil : Path A B [] 0 0 0
  | equal {h : List DiffItem} {x y e : Nat} : Path A B h x y e →
      (∃ a, A[x]? = some a ∧ B[y]? = some a) →
      Path A B (h ++ [⟨Change.Equal, x, y⟩]) (x + 1) (y + 1) e
  | remove {h : List DiffItem} {x y e : Nat} : Path A B h x y e → x < A.length →
      Path A B (h ++ [⟨Change.Remove, x, y - 1⟩]) (x + 1) y (e + 1)
  | insert {h : List DiffItem} {x y e : Nat} : Path A B h x y e → y < B.length →
      Path A B (h ++ [⟨Change.Insert, x - 1, y⟩]) x (y + 1) (e + 1)

end Scripts

/-! ## Invariants of `Diff::calculate` used by the proofs -/

section Invariants

variable {α : Type} [DecidableEq α]

/-- The point and history that `advance` computes on diagonal `k` in round `d` from
the values `xl`, `hl` stored for diagonal `k - 1` and `xr`, `hr` stored for
diagonal `k + 1`. -/
def stepFrom (A B : List α) (d k : Int) (xl xr : Int) (hl hr : List DiffItem) :
    Option (Int × Int × List DiffItem) :=
  let right : Bool := decide (k = -d ∨ xl < xr)
  let x : Int := if right then xr else xl + 1
  let y : Int := x - k
  let hist0 : List DiffItem := if right then hr else hl
  let hist1 : List DiffItem :=
    if (decide (1 ≤ y ∧ y ≤ (B.length : Int)) && right) then
      hist0 ++ [⟨Change.Insert, lineIndex x, lineIndex y⟩]
    else if 1 ≤ x ∧ x ≤ (A.length : Int) then
      hist0 ++ [⟨Change.Remove, lineIndex x, lineIndex y⟩]
    else hist0
  snake A B (A.length + 1) x y hist1

/-- What is known of the value `x` and the history `h` stored for diagonal `k`
after round `d`. -/
structure Good (A B : List α) (d : Nat) (k x : Int) (h : List DiffItem) : Prop where
  nonneg : 0 ≤ x
  ynonneg : k ≤ x
  far : (d : Int) ≤ x + (x - k)
  valid : x ≤ (A.length : Int) → x - k ≤ (B.length : Int) →
    Path A B h x.toNat (x - k).toNat d
  maximal : ¬ (x < (A.length : Int) ∧ x - k < (B.length : Int)
    ∧ A[x.toNat]? = B[(x - k).toNat]?)

/-- The value of `v_x[MAX + k]`. -/
def xAt (A B : List α) (vx : List Int) (k : Int) : Int :=
  (vecRead vx ((A.length : Int) + (B.length : Int) + k)).getD 0

/-- The value of `v_history[MAX + k]`. -/
def hAt (A B : List α) (vh : List (List DiffItem)) (k : Int) : List DiffItem :=
  (vecRead vh ((A.length : Int) + (B.length : Int) + k)).getD []

/-- The point `(x, x - k)` does not end the computation. -/
def Open (A B : List α) (k x : Int) : Prop :=
  ¬ ((A.length : Int) ≤ x ∧ (B.length : Int) ≤ x - k)

/-- Invariant of `v_x` and `v_history` when round `d` has been completed. -/
structure Inv (A B : List α) (d : Nat) (vx : List Int) (vh : List (List DiffItem)) :
    Prop where
  lenx : vx.length = 2 * (A.length + B.length) + 1
  lenh : vh.length = 2 * (A.length + B.length) + 1
  entry : ∀ j : Nat, j ≤ d →
    Good A B d (-(d : Int) + 2 * j) (xAt A B vx (-(d : Int) + 2 * j))
      (hAt A B vh (-(d : Int) + 2 * j))
    ∧ Open A B (-(d : Int) + 2 * j) (xAt A B vx (-(d : Int) + 2 * j))
  unset : ∀ k : Int, (d : Int) < k → xAt A B vx k = 0
  low : ∀ j : Nat, j ≤ d → ∀ k x : Int, k = -(d : Int) + 2 * j → x = xAt A B vx k →
    (B.length : Int) < x - k →
    ∃ j2 : Nat, j2 ≤ d ∧ -(d : Int) + 2 * j2 = k + 2 * (x - k - B.length)
      ∧ x + (x - k - B.length) ≤ xAt A B vx (k + 2 * (x - k - B.length))
  high : ∀ j : Nat, j ≤ d → ∀ k x : Int, k = -(d : Int) + 2 * j → x = xAt A B vx k →
    (A.length : Int) < x →
    ∃ j2 : Nat, j2 ≤ d ∧ -(d : Int) + 2 * j2 = k - 2 * (x - A.length)
      ∧ (x - k) + (x - A.length)
        ≤ xAt A B vx (k - 2 * (x - A.length)) - (k - 2 * (x - A.length))
  reach : ∀ x y : Nat, Reach A B x y d →
    ∃ j : Nat, j ≤ d ∧ (x : Int) - y = -(d : Int) + 2 * j
      ∧ (x : Int) ≤ xAt A B vx ((x : Int) - y)
  noReach : ∀ e : Nat, e ≤ d → ¬ Reach A B A.length B.length e

/-- State of `v_x'` and `v_history'` inside round `e`, when the first `j` diagonals
have been processed starting from `v_x` and `v_history`. -/
structure Mid (A B : List α) (e j : Nat) (vx : List Int) (vh : List (List DiffItem))
    (vx2 : List Int) (vh2 : List (List DiffItem)) : Prop where
  lenx : vx2.length = 2 * (A.length + B.length) + 1
  lenh : vh2.length = 2 * (A.length + B.length) + 1
  same : ∀ k : Int, (∀ i : Nat, i < j → k ≠ -(e : Int) + 2 * i) →
    vecRead vx2 ((A.length : Int) + (B.length : Int) + k)
        = vecRead vx ((A.length : Int) + (B.length : Int) + k)
      ∧ vecRead vh2 ((A.length : Int) + (B.length : Int) + k)
        = vecRead vh ((A.length : Int) + (B.length : Int) + k)
  done : ∀ i : Nat, i < j →
    advance A B (e : Int) (-(e : Int) + 2 * i) vx vh
        = some (xAt A B vx2 (-(e : Int) + 2 * i),
            xAt A B vx2 (-(e : Int) + 2 * i) - (-(e : Int) + 2 * i),
            hAt A B vh2 (-(e : Int) + 2 * i))
      ∧ Open A B (-(e : Int) + 2 * i) (xAt A B vx2 (-(e : Int) + 2 * i))

end Invariants

/-! ## Invariants of the scan loop of `Diff::generateUnidiff` used by the proofs -/

/-- A printed hunk covers a non-empty range of the script and its two counts are
the tallies of that range. -/
structure HunkOK (items : List DiffItem) (h : HunkCall) : Prop where
  ordered : h.start ≤ h.stop
  inside : h.stop < items.length
  old : h.linesChangedOld
    = countChange Change.Equal items h.start (h.stop + 1)
      + countChange Change.Remove items h.start (h.stop + 1)
  new : h.linesChangedNew
    = countChange Change.Equal items h.start (h.stop + 1)
      + countChange Change.Insert items h.start (h.stop + 1)

/-- Invariant of the scan loop at the loop head. -/
structure ScanInv (items : List DiffItem) (s : ScanState) : Prop where
  start_le : s.hunkStart ≤ s.i
  i_le : s.i ≤ items.length
  equals : s.equalsCount = countChange Change.Equal items s.hunkStart s.i
  removes : s.removesCount = countChange Change.Remove items s.hunkStart s.i
  inserts : s.insertsCount = countChange Change.Insert items s.hunkStart s.i
  inHunk : s.isHunk = true → s.hunkEnd + 1 = s.i ∧ s.hunkStart < s.i
  outside : s.isHunk = false →
    ∀ k, s.hunkStart ≤ k → k < s.i → ∃ it, items[k]? = some it ∧ it.change = Change.Equal

/-- Termination measure of the scan loop. -/
def scanMeasure (items : List DiffItem) (s : ScanState) : Nat :=
  2 * (items.length - s.i) + (if s.isHunk then 1 else 0)

/-- The scan loop started in state `s` ends and prints hunks with the script ranges
`rs`. -/
def Emits (items : List DiffItem) (C : Nat) (s : ScanState) (rs : List (Nat × Nat)) :
    Prop :=
  ∃ f hs, scanLoop items C items.length f s = some hs
    ∧ hs.map (fun h => (h.start, h.stop)) = rs

/-! ## Further specification vocabulary -/

/-- The number of operations of a script with change `c`. -/
def changeCount (c : Change) (s : List DiffItem) : Nat :=
  s.countP (fun it => decide (it.change = c))

/-! ## The states visited by `Diff::calculate` -/

/-- The values of `d`, `k`, `v_x` and `v_history` when the body of the loop over `k`
is entered. -/
structure LoopState where
  d : Int
  k : Int
  v_x : List Int
  v_history : List (List DiffItem)
  deriving DecidableEq, Repr

/-- The predecessor diagonal as the specification prescribes it: `k + 1` (the result
`true`) when `k = -d`, or when `k ≠ d` and the `x` stored for `k + 1` strictly
exceeds the `x` stored for `k - 1`; otherwise `k - 1` (the result `false`).
`stored j` is the `x` stored for diagonal `j`, when there is one. -/
def choosePredecessor (stored : Int → Option Int) (d k : Int) : Option Bool :=
  if k = -d then some true
  else if k ≠ d then
    match stored (k - 1), stored (k + 1) with
    | some l, some r => some (decide (l < r))
    | _, _ => none
  else some false

section Visits

variable {α : Type} [DecidableEq α]

/-- The states in which the loop `for(int k = -d; k <= d; k += 2)` enters its body,
in order: the loop of `diagLoop`, recording the state at each entry. -/
def diagVisits (original modified : List α) (d : Int) :
    Nat → Int → List Int → List (List DiffItem) → List LoopState
  | 0, _, _, _ => []
  | fuel + 1, k, v_x, v_history =>
    if k ≤ d then
      ⟨d, k, v_x, v_history⟩ ::
        (match diagStep original modified d k v_x v_history with
          | StepOutcome.next v_x2 v_history2 =>
            diagVisits original modified d fuel (k + 2) v_x2 v_history2
          | _ => [])
    else []

/-- The states in which the body of the loop over `k` is entered during the rounds
of `roundLoop`, in order. -/
def roundVisits (original modified : List α) :
    Nat → Nat → List Int → List (List DiffItem) → List LoopState
  | 0, _, _, _ => []
  | fuel + 1, d, v_x, v_history =>
    diagVisits original modified (d : Int) (d + 1) (-(d : Int)) v_x v_history
      ++ (match diagLoop original modified (d : Int) (d + 1) (-(d : Int)) v_x v_history with
          | StepOutcome.next v_x2 v_history2 =>
            roundVisits original modified fuel (d + 1) v_x2 v_history2
          | _ => [])

/-- The pairs `(d, k)` visited by `Diff::calculate`, with the contents of `v_x` and
`v_history` at the visit, in order. -/
def visits (original modified : List α) : List LoopState :=
  let MAX : Nat := original.length + modified.length
  roundVisits original modified (MAX + 1) 0
    (List.replicate (MAX * 2 + 1) 0) (List.replicate (MAX * 2 + 1) [])

/-- The code's choice of the neighbouring diagonal agrees with the specification's
at a state, and the code's reads are inside `v_x`. -/
def ChoiceAgrees (A B : List α) (s : LoopState) : Prop :=
  fromRight s.v_x ((A.length : Int) + (B.length : Int)) s.d s.k
      = choosePredecessor
          (fun j => vecRead s.v_x ((A.length : Int) + (B.length : Int) + j)) s.d s.k
    ∧ (fromRight s.v_x ((A.length : Int) + (B.length : Int)) s.d s.k).isSome = true

end Visits


/-! ## Scripts with one replaced line -/

/-- The script that replaces line `p` of `N` lines: the unchanged lines before it,
the removal of the old line, the insertion of the new line, the unchanged lines
after it. -/
def replaceScript (N p : Nat) : List DiffItem :=
  (List.range p).map (fun t => (⟨Change.Equal, t, t⟩ : DiffItem))
    ++ [⟨Change.Remove, p, p - 1⟩, ⟨Change.Insert, p, p⟩]
    ++ (List.range (N - (p + 1))).map (fun t => (⟨Change.Equal, p + 1 + t, p + 1 + t⟩ : DiffItem))

/-- The body lines printed for unchanged lines. -/
def contextLines (l : List String) : String :=
  (l.map (fun s => " " ++ s ++ "\n")).foldr (fun a b => a ++ b) ""

/-- A sequence of `n` pairwise distinct lines: line `i` consists of `i` letters
`a`. -/
def manyLines (n : Nat) : List String :=
  (List.range n).map (fun i => String.mk (List.replicate i 'a'))

/-! ## Runs of changed operations -/

/-- The item at script index `k` is not `Equal`. -/
def ChangedAt (items : List DiffItem) (k : Nat) : Prop :=
  ∃ it, items[k]? = some it ∧ it.change ≠ Change.Equal

/-- The item at script index `k` is `Equal`. -/
def EqualAt (items : List DiffItem) (k : Nat) : Prop :=
  ∃ it, items[k]? = some it ∧ it.change = Change.Equal

/-- The script indices `a, ..., b` are a maximal run of consecutive operations that
are not `Equal`: every operation of the range is a change, and the range can be
extended on neither side. -/
def IsChangeRun (items : List DiffItem) (a b : Nat) : Prop :=
  a ≤ b ∧ (∀ k, a ≤ k → k ≤ b → ChangedAt items k)
    ∧ (a = 0 ∨ EqualAt items (a - 1))
    ∧ (b + 1 = items.length ∨ EqualAt items (b + 1))

/-- The maximal runs of operations that are not `Equal` in the items `rest`, which
stand at the script indices `pos, pos + 1, ...`; `run` is the index at which the
run that is open at `pos` began, when there is one. -/
def changeRunsFrom : List DiffItem → Nat → Option Nat → List (Nat × Nat)
  | [], _, none => []
  | [], pos, some a => [(a, pos - 1)]
  | it :: rest, pos, none =>
    if it.change = Change.Equal then changeRunsFrom rest (pos + 1) none
    else changeRunsFrom rest (pos + 1) (some pos)
  | it :: rest, pos, some a =>
    if it.change = Change.Equal then (a, pos - 1) :: changeRunsFrom rest (pos + 1) none
    else changeRunsFrom rest (pos + 1) (some a)

/-- The maximal runs of operations that are not `Equal` of a script, in order, as
pairs of the first and the last script index. -/
def changeRuns (items : List DiffItem) : List (Nat × Nat) :=
  changeRunsFrom items 0 none

/-! ## Colours (`color_handler.h`, `color_handler.cpp`) -/

/-- The colours of the output: `enum class Color`. -/
inductive Color where
  | Red
  | Green
  | Magenta
  deriving DecidableEq, Repr

/-- What `Diff::generateHunk` and `Diff::generateUnidiff` do, in order: writing to
the stream `os`, writing to `std::cerr`, and calling the colour handler. The call
of `resetColor` made by the destructor of the colour handler is an effect too. -/
inductive Effect where
  | os (text : String)
  | cerr (text : String)
  | setColor (color : Color)
  | resetColor
  deriving DecidableEq, Repr

/-- The text written to the stream `os`. -/
def writtenText : List Effect → String
  | [] => ""
  | Effect.os t :: rest => t ++ writtenText rest
  | _ :: rest => writtenText rest

/-- The calls of the colour handler among the effects. -/
def colourCalls (effects : List Effect) : List Effect :=
  effects.filter (fun e =>
    match e with
    | Effect.setColor _ => true
    | Effect.resetColor => true
    | _ => false)

/-- A `ColorHandler` after its construction: whether the program is compiled for
Windows (`_WIN32`), and the member `useAnsi`. -/
structure ColorHandler where
  windows : Bool
  useAnsi : Bool
  deriving DecidableEq, Repr

/-- The constructor `ColorHandler::ColorHandler(forceAnsi)`. On Windows without
`forceAnsi` it throws when no handle for the standard output is found
(`handleFound = false`) or when the attributes of the console cannot be stored
(`attributesStored = false`); on the other systems it sets `useAnsi`. The error is
the text of `what()`. -/
def ColorHandler.create (windows forceAnsi handleFound attributesStored : Bool) :
    Except String ColorHandler :=
  if windows then
    if forceAnsi then Except.ok ⟨true, true⟩
    else if handleFound = false then Except.error "could not get a handle for stdout"
    else if attributesStored = false then Except.error "could not store console attributes"
    else Except.ok ⟨true, false⟩
  else Except.ok ⟨false, true⟩

/-- What a call of the colour handler does to the console. -/
inductive ConsoleEffect where
  | cout (text : String)
  | attribute (color : Option Color)
  deriving DecidableEq, Repr

/-- The member `ansiCodes`: the escape codes of the three colours, and the code that
resets the colour. -/
def ansiCodes : Option Color → String
  | some Color.Red => "\x1b[31m"
  | some Color.Green => "\x1b[32m"
  | some Color.Magenta => "\x1b[35m"
  | none => "\x1b[0m"

/-- `ColorHandler::setColor` (`color = some c`) and `ColorHandler::resetColor`
(`color = none`): the escape code is written to `std::cout` when `useAnsi` is set,
and on Windows the console attribute is set. -/
def ColorHandler.apply (ch : ColorHandler) (color : Option Color) : List ConsoleEffect :=
  (if ch.useAnsi then [ConsoleEffect.cout (ansiCodes color)] else [])
    ++ (if ch.windows then [ConsoleEffect.attribute color] else [])

/-- What the effects of `Diff::generateUnidiff` do to the console through the colour
handler `ch`. -/
def consoleEffects (ch : ColorHandler) : List Effect → List ConsoleEffect
  | [] => []
  | Effect.setColor c :: rest => ch.apply (some c) ++ consoleEffects ch rest
  | Effect.resetColor :: rest => ch.apply none ++ consoleEffects ch rest
  | _ :: rest => consoleEffects ch rest

/-! ## Program options (`options.h`) -/

/-- The program options: `class Options`, with the default values of its
constructor. -/
structure Options where
  useColors : Bool := false
  forceAnsiCodes : Bool := false
  outputToFile : Bool := false
  contextLines : Nat := 3
  outputFilePath : String := ""
  deriving DecidableEq, Repr

/-- The local `useColors` of `Diff::generateHunk` and `Diff::generateUnidiff`:
`options.getUseColors() && !options.getOutputToFile()`. -/
def useColorsOf (options : Options) : Bool :=
  options.useColors && !options.outputToFile

/-! ## `Diff::generateHunk` and `Diff::generateUnidiff` with the colour handler -/

/-- The effects of the statements that print the range line of a hunk (lines 175 to
187). -/
def hunkHeaderEffects (useColors : Bool) (items : List DiffItem) (h : HunkCall) :
    Option (List Effect) :=
  match items[h.start]? with
  | none => none
  | some it =>
    some ((if useColors then [Effect.setColor Color.Magenta] else [])
      ++ [Effect.os ("@@ -" ++ toString (u32 (it.lineOld + 1)) ++ ","
            ++ toString h.linesChangedOld
            ++ " +" ++ toString (u32 (it.lineNew + 1)) ++ "," ++ toString h.linesChangedNew
            ++ " @@\n")]
      ++ (if useColors then [Effect.resetColor] else []))

/-- The effects of the body of the loop of `generateHunk` for one item (lines 193 to
208). -/
def bodyLineEffects (useColors : Bool) (original modified : List String) (it : DiffItem) :
    Option (List Effect) :=
  match it.change with
  | Change.Remove =>
    (original[it.lineOld]?).map (fun l =>
      (if useColors then [Effect.setColor Color.Red] else [])
        ++ [Effect.os ("-" ++ l ++ "\n")]
        ++ (if useColors then [Effect.resetColor] else []))
  | Change.Insert =>
    (modified[it.lineNew]?).map (fun l =>
      (if useColors then [Effect.setColor Color.Green] else [])
        ++ [Effect.os ("+" ++ l ++ "\n")]
        ++ (if useColors then [Effect.resetColor] else []))
  | Change.Equal => (original[it.lineOld]?).map (fun l => [Effect.os (" " ++ l ++ "\n")])

/-- The effects of the loop `for(int i = start; i <= end; i++)` of `generateHunk`;
the argument before the index is the number of iterations left. -/
def hunkBodyEffects (useColors : Bool) (original modified : List String)
    (items : List DiffItem) : Nat → Nat → Option (List Effect)
  | 0, _ => some []
  | n + 1, i =>
    match items[i]? with
    | none => none
    | some it =>
      match bodyLineEffects useColors original modified it,
          hunkBodyEffects useColors original modified items n (i + 1) with
      | some l, some rest => some (l ++ rest)
      | _, _ => none

/-- `Diff::generateHunk`: its effects, in order. -/
def generateHunkEffects (options : Options) (original modified : List String)
    (items : List DiffItem) (h : HunkCall) : Option (List Effect) :=
  let useColors : Bool := useColorsOf options
  match hunkHeaderEffects useColors items h,
      hunkBodyEffects useColors original modified items (h.stop + 1 - h.start) h.start with
  | some hd, some body => some (hd ++ body)
  | _, _ => none

/-- The effects of the calls of `generateHunk`, in the order of the calls. -/
def hunksEffects (options : Options) (original modified : List String)
    (items : List DiffItem) : List HunkCall → Option (List Effect)
  | [] => some []
  | h :: hs =>
    match generateHunkEffects options original modified items h,
        hunksEffects options original modified items hs with
    | some t, some rest => some (t ++ rest)
    | _, _ => none

/-- `Diff::generateUnidiff`: its effects, in order, from the creation of the colour
handler to its destruction at the end of the function. `handler` is the result of
the constructor of `ColorHandler` (`Except.error what` when it throws an exception
with the message `what`), `stamps` are the results of `DateTime::format` for the
two files (`Except.error what` when `FileHelper::getLastModifiedDate` throws), and
`endingNewLine` is the result of `FileHelper::hasEndingNewLine(modifiedFilename)`.
The colour handler is destroyed, and its destructor calls `resetColor`, whenever
the function returns after the handler has been created. -/
def generateUnidiffEffects (options : Options) (handler : Except String ColorHandler)
    (original modified : List String) (items : List DiffItem)
    (originalFilename modifiedFilename : String) (stamps : Except String (String × String))
    (endingNewLine : Bool) : Option (List Effect) :=
  let useColors : Bool := useColorsOf options
  match handler with
  | Except.error what =>
    some [Effect.cerr ("Error: " ++ what
      ++ "\nCould not initialize colors. Try disabling them.\n")]
  | Except.ok _ =>
    match stamps with
    | Except.error what => some [Effect.cerr ("Error: " ++ what ++ "\n"), Effect.resetColor]
    | Except.ok (originalStamp, modifiedStamp) =>
      match unidiffHunks items options.contextLines with
      | none => none
      | some hunks =>
        match hunksEffects options original modified items hunks with
        | none => none
        | some body =>
          some ((if useColors then [Effect.setColor Color.Red] else [])
            ++ [Effect.os ("--- " ++ originalFilename ++ "\t" ++ originalStamp ++ "\n")]
            ++ (if useColors then [Effect.setColor Color.Green] else [])
            ++ [Effect.os ("+++ " ++ modifiedFilename ++ "\t" ++ modifiedStamp ++ "\n")]
            ++ (if useColors then [Effect.resetColor] else [])
            ++ body
            ++ (if endingNewLine then [] else [Effect.os "\\ No newline at end of file\n"])
            ++ [Effect.resetColor])

/-! ## Specification vocabulary for the text of the output -/

/-- The body line of the specification for one operation: `' ' + A[i]` for `Equal`,
`'-' + A[i]` for `Remove`, `'+' + B[j]` for `Insert`, each ended by a line feed. -/
def specLine (A B : List String) (op : DiffItem) : String :=
  match op.change with
  | Change.Equal => " " ++ (A[op.lineOld]?).getD "" ++ "\n"
  | Change.Remove => "-" ++ (A[op.lineOld]?).getD "" ++ "\n"
  | Change.Insert => "+" ++ (B[op.lineNew]?).getD "" ++ "\n"

/-- The concatenation of a list of strings. -/
def concat : List String → String
  | [] => ""
  | s :: rest => s ++ concat rest

/-- The line that reports a missing line feed at the end of the modified file. -/
def noNewlineLine : String := "\\ No newline at end of file"

/-- The text `t` ends with the line `l`: it ends with `l` and a line feed, and `l`
stands at the start of the text or after a line feed. -/
def EndsWithLine (t l : String) : Prop :=
  ∃ before : List Char, t.data = before ++ l.data ++ ['\n']
    ∧ (before = [] ∨ ∃ b, before = b ++ ['\n'])

/-- The characters `t` are empty or end with a line feed. -/
def EndsNL (t : List Char) : Prop :=
  t = [] ∨ ∃ b, t = b ++ ['\n']

/-- The characters `t` end with a complete line that stands at the start of `t` or
after a line feed, contains no line feed, and starts with a character that is not a
backslash. -/
def EndsGood (t : List Char) : Prop :=
  ∃ q c l, t = q ++ c :: l ++ ['\n'] ∧ EndsNL q ∧ c ≠ '\\' ∧ c ≠ '\n' ∧ '\n' ∉ l

/-! ## `StringHelper` (`string_helper.cpp`) -/

/-- `StringHelper::contains`: `str.find_first_of(chars) != std::string::npos`. -/
def contains (str chars : String) : Bool :=
  str.data.any (fun c => chars.data.contains c)

/-- `StringHelper::isInVector`. -/
def isInVector (v : List String) (str : String) : Bool :=
  v.contains str

/-- `StringHelper::toUppercase`: `std::toupper` applied to every character. -/
def toUppercase (str : String) : String :=
  ⟨str.data.map Char.toUpper⟩

/-- `s.find_last_of(chars)`: the last position of `s` that holds one of the
characters `chars`; `none` stands for `std::string::npos`. -/
def findLastOf : List Char → List Char → Option Nat
  | [], _ => none
  | c :: rest, chars =>
    match findLastOf rest chars with
    | some i => some (i + 1)
    | none => if chars.contains c then some 0 else none

/-- `StringHelper::getBaseFilename`: `path.substr(path.find_last_of("/\\") + 1)`;
`npos + 1` is `0`. -/
def getBaseFilename (path : String) : String :=
  match findLastOf path.data ['/', '\\'] with
  | some i => ⟨path.data.drop (i + 1)⟩
  | none => ⟨path.data.drop 0⟩

/-- The local `reservedNames` of `StringHelper::isValidFilename`. -/
def reservedNames : List String :=
  ["CON", "PRN", "AUX", "NUL", "COM1", "COM2", "COM3", "LPT1", "LPT2", "LPT3"]

/-- `StringHelper::isValidFilename`; the length of a `std::string` is its number of
bytes. -/
def isValidFilename (str : String) : Bool :=
  let maxLen : Nat := 255
  let invalidChars : String := "\\/:*?\"<>|"
  let baseName : String := getBaseFilename str
  !(decide (baseName.data = []) || decide (baseName.utf8ByteSize > maxLen)
    || contains baseName invalidChars
    || isInVector reservedNames (toUppercase baseName))

/-- The exceptions of the program: the class of the exception and the text of
`what()`. -/
inductive Failure where
  | invalidArgument (what : String)
  | outOfRange (what : String)
  | rangeError (what : String)
  deriving DecidableEq, Repr

/-- The result of a function that may throw: a value, an exception, or undefined
behaviour (an access outside a vector). -/
inductive Run (β : Type) where
  | value (b : β)
  | raise (e : Failure)
  | undefined
  deriving DecidableEq, Repr

/-- The characters that `std::isspace` accepts in the default locale. -/
def isSpace (c : Char) : Bool :=
  c = ' ' || c = '\t' || c = '\n' || c = '\x0b' || c = '\x0c' || c = '\r'

/-- The value of a decimal digit. -/
def digitValue (c : Char) : Nat := c.toNat - '0'.toNat

/-- The number written by a list of decimal digits, after the digits that gave
`acc`. -/
def digitsValue : List Char → Nat → Nat
  | [], acc => acc
  | c :: rest, acc => digitsValue rest (10 * acc + digitValue c)

/-- `std::stoll(str)` of the standard library, in base 10: white space is skipped,
then a sign may stand, then the longest run of digits is read; what follows the
digits is ignored. `std::invalid_argument` is thrown when there is no digit and
`std::out_of_range` when the number is not a `long long`; the text of `what()` of
both is the name of the function. -/
def stoll (str : String) : Run Int :=
  let s : List Char := str.data.dropWhile isSpace
  let negative : Bool := decide (s.head? = some '-')
  let rest : List Char :=
    if s.head? = some '-' ∨ s.head? = some '+' then s.drop 1 else s
  let digits : List Char := rest.takeWhile Char.isDigit
  if digits = [] then Run.raise (Failure.invalidArgument "stoll")
  else
    let v : Int := if negative then -(digitsValue digits 0 : Int) else (digitsValue digits 0 : Int)
    if -9223372036854775808 ≤ v ∧ v ≤ 9223372036854775807 then Run.value v
    else Run.raise (Failure.outOfRange "stoll")

/-- `StringHelper::str2uint`; `UINT_MAX` is `4294967295`. -/
def str2uint (str : String) : Run Nat :=
  match stoll str with
  | Run.value l =>
    if 0 ≤ l ∧ l ≤ 4294967295 then Run.value l.toNat
    else Run.raise (Failure.rangeError "value is out of acceptable range")
  | Run.raise e => Run.raise e
  | Run.undefined => Run.undefined

/-! ## `ArgParser` (`argument.h`, `arg_parser.cpp`) and the arguments of `main.cpp` -/

/-- A command line argument: `class Argument`. -/
structure Argument where
  name : String
  isBool : Bool
  value : String
  deriving DecidableEq, Repr

/-- The list of valid arguments of `main`. -/
def registered : List Argument :=
  [⟨"-h", true, "false"⟩, ⟨"--help", true, "false"⟩, ⟨"-c", true, "false"⟩,
    ⟨"--color", true, "false"⟩, ⟨"-a", true, "false"⟩, ⟨"--force-ansi", true, "false"⟩,
    ⟨"-o", false, ""⟩, ⟨"--out-file", false, ""⟩, ⟨"-n", false, "3"⟩,
    ⟨"--lines", false, "3"⟩]

/-- `ArgParser::getArgumentIndex`; `none` stands for `ELEMENT_DOES_NOT_EXIST`. -/
def getArgumentIndex : List Argument → String → Option Nat
  | [], _ => none
  | a :: rest, name =>
    if a.name = name then some 0
    else
      match getArgumentIndex rest name with
      | some i => some (i + 1)
      | none => none

/-- `ArgParser::getArgumentValue`. -/
def getArgumentValue (args : List Argument) (name : String) : String :=
  match getArgumentIndex args name with
  | none => ""
  | some index =>
    match args[index]? with
    | some a => a.value
    | none => ""

/-- The statement `args[index].setValue(value)`; `none` when `index` is outside the
vector. -/
def setValue (args : List Argument) (index : Nat) (value : String) :
    Option (List Argument) :=
  match args[index]? with
  | some a => some (args.set index { a with value := value })
  | none => none

/-- `s.find(c)`: the first position of `s` that holds `c`; `none` stands for
`std::string::npos`. -/
def findChar : List Char → Char → Option Nat
  | [], _ => none
  | x :: rest, c =>
    if x = c then some 0
    else
      match findChar rest c with
      | some i => some (i + 1)
      | none => none

/-- The loop `for(std::size_t i = 0; i < argvCount - 2; i++)` of `ArgParser::parse`
(lines 152 to 194), entered with `argvCount ≥ 2`. The argument before `i` bounds
the number of iterations; `argvCount` is always enough. -/
def parseLoop (argv : List String) (argvCount : Nat) :
    Nat → Nat → List Argument → Run (List Argument)
  | 0, _, _ => Run.undefined
  | fuel + 1, i, args =>
    if i < argvCount - 2 then
      match argv[i]? with
      | none => Run.undefined
      | some a =>
        match getArgumentIndex args a with
        | some index =>
          match args[index]? with
          | none => Run.undefined
          | some arg =>
            if arg.isBool then
              match setValue args index "true" with
              | none => Run.undefined
              | some args2 => parseLoop argv argvCount fuel (i + 1) args2
            else if i + 1 < argvCount - 2 then
              match argv[i + 1]? with
              | none => Run.undefined
              | some v =>
                if getArgumentIndex args v = none then
                  match setValue args index v with
                  | none => Run.undefined
                  | some args2 => parseLoop argv argvCount fuel (i + 1 + 1) args2
                else Run.raise (Failure.invalidArgument "invalid arguments")
            else Run.raise (Failure.invalidArgument "invalid arguments")
        | none =>
          match findChar a.data '=' with
          | none => Run.raise (Failure.invalidArgument "invalid arguments")
          | some pos =>
            match getArgumentIndex args ⟨a.data.take pos⟩ with
            | none => Run.raise (Failure.invalidArgument "invalid arguments")
            | some index =>
              match setValue args index ⟨a.data.drop (pos + 1)⟩ with
              | none => Run.undefined
              | some args2 => parseLoop argv argvCount fuel (i + 1) args2
    else Run.value args

/-- The loop of `ArgParser::parse` as a recursion over the arguments of the command
line that it has still to read, which are the arguments before the two paths. It is
used to reason about `parseLoop`. -/
def parseTokens : List String → List Argument → Run (List Argument)
  | [], args => Run.value args
  | a :: rest, args =>
    match getArgumentIndex args a with
    | some index =>
      match args[index]? with
      | none => Run.undefined
      | some arg =>
        if arg.isBool then
          match setValue args index "true" with
          | none => Run.undefined
          | some args2 => parseTokens rest args2
        else
          match rest with
          | [] => Run.raise (Failure.invalidArgument "invalid arguments")
          | v :: rest2 =>
            if getArgumentIndex args v = none then
              match setValue args index v with
              | none => Run.undefined
              | some args2 => parseTokens rest2 args2
            else Run.raise (Failure.invalidArgument "invalid arguments")
    | none =>
      match findChar a.data '=' with
      | none => Run.raise (Failure.invalidArgument "invalid arguments")
      | some pos =>
        match getArgumentIndex args ⟨a.data.take pos⟩ with
        | none => Run.raise (Failure.invalidArgument "invalid arguments")
        | some index =>
          match setValue args index ⟨a.data.drop (pos + 1)⟩ with
          | none => Run.undefined
          | some args2 => parseTokens rest args2

/-- The names of the arguments of `main` that take a value. -/
def valueFlags : List String := ["-o", "--out-file", "-n", "--lines"]

/-- `ArgParser::parse`: the list of arguments with the values of the command line
`argv` (the arguments after the name of the program). -/
def parse (argv : List String) (args : List Argument) : Run (List Argument) :=
  let argvCount : Nat := argv.length
  if 0 < argvCount ∧ (argv[0]? = some "-h" ∨ argv[0]? = some "--help") then
    match argv[0]? with
    | none => Run.undefined
    | some a =>
      match getArgumentIndex args a with
      | none => Run.undefined
      | some index =>
        match setValue args index "true" with
        | none => Run.undefined
        | some args2 => Run.value args2
  else if argvCount < 2 then Run.raise (Failure.invalidArgument "missing required arguments")
  else parseLoop argv argvCount argvCount 0 args

/-! ## `AppController::parseArguments` (`app_controller.cpp`) -/

/-- What `AppController::parseArguments` leaves when it returns `true`: the options
and the paths of the two files. -/
structure Settings where
  options : Options
  originalFilename : String
  modifiedFilename : String
  deriving DecidableEq, Repr

/-- The statements of `AppController::parseArguments` that set the number of context
lines (lines 121 to 140), from the values of `-n` and `--lines`; `current` is the
number stored in the options before. -/
def contextLinesOf (valueN valueLines : String) (current : Nat) : Run Nat :=
  let first : Nat := if valueN = "3" ∧ valueLines = "3" then 3 else current
  if valueN ≠ "3" then str2uint valueN
  else if valueLines ≠ "3" then str2uint valueLines
  else Run.value first

/-- `AppController::parseArguments` for the command line `argv` (the arguments after
the name of the program) and the list `args` of valid arguments: `none` when the
help has been displayed and the function returns `false`. -/
def parseArguments (argv : List String) (args : List Argument) : Run (Option Settings) :=
  match parse argv args with
  | Run.raise e => Run.raise e
  | Run.undefined => Run.undefined
  | Run.value parsed =>
    if getArgumentValue parsed "-h" = "true" ∨ getArgumentValue parsed "--help" = "true" then
      Run.value none
    else
      let useColors : Bool :=
        decide (getArgumentValue parsed "-c" = "true")
          || decide (getArgumentValue parsed "--color" = "true")
      let forceAnsiCodes : Bool :=
        decide (getArgumentValue parsed "-a" = "true")
          || decide (getArgumentValue parsed "--force-ansi" = "true")
      let outputFilePath : String :=
        if getArgumentValue parsed "-o" ≠ "" then getArgumentValue parsed "-o"
        else if getArgumentValue parsed "--out-file" ≠ "" then
          getArgumentValue parsed "--out-file"
        else ""
      if outputFilePath ≠ "" ∧ isValidFilename outputFilePath = false then
        Run.raise (Failure.invalidArgument "output file name is not valid")
      else
        let outputToFile : Bool := decide (outputFilePath ≠ "")
        match contextLinesOf (getArgumentValue parsed "-n")
            (getArgumentValue parsed "--lines") 3 with
        | Run.raise e => Run.raise e
        | Run.undefined => Run.undefined
        | Run.value contextLines =>
          match argv[argv.length - 2]?, argv[argv.length - 1]? with
          | some originalFilename, some modifiedFilename =>
            if isValidFilename originalFilename = false
                ∨ isValidFilename modifiedFilename = false then
              Run.raise (Failure.invalidArgument "input file name is not valid")
            else
              Run.value (some
                ⟨⟨useColors, forceAnsiCodes, outputToFile, contextLines, outputFilePath⟩,
                  originalFilename, modifiedFilename⟩)
          | _, _ => Run.undefined

/-! ## `DateTime::format` (`date_time.cpp`) -/

/-- The fields of `class DateTime`: the `unsigned short` and `unsigned int` fields of
the date and time, and `offset`, the UTC offset in seconds, a `long long`. -/
structure DateTime where
  year : Nat
  month : Nat
  day : Nat
  hour : Nat
  minute : Nat
  second : Nat
  nanoseconds : Nat
  offset : Int
  deriving DecidableEq, Repr

/-- The text of a number written after `std::setw(2) << std::setfill('0')`: it is
filled with `0` on the left up to a width of two characters, and never cut. -/
def setw2 (text : String) : String :=
  String.mk (List.replicate (2 - text.length) '0') ++ text

/-- `DateTime::format` (lines 281 to 301). `offsetHours` and `offsetMinutes` are
computed from `std::abs(offset)`, which is not negative, so they are natural numbers
here; `std::abs` of the least `long long` is undefined, which is the result
`none`, as is an offset outside the type. -/
def DateTime.format (dt : DateTime) : Option String :=
  if -9223372036854775808 < dt.offset ∧ dt.offset ≤ 9223372036854775807 then
    let offsetHours : Nat := dt.offset.natAbs / 3600
    let offsetMinutes : Nat := (dt.offset.natAbs - offsetHours * 3600) * 60
    some (toString dt.year ++ "-"
      ++ setw2 (toString dt.month) ++ "-"
      ++ setw2 (toString dt.day) ++ " "
      ++ setw2 (toString dt.hour) ++ ":"
      ++ setw2 (toString dt.minute) ++ ":"
      ++ setw2 (toString dt.second) ++ "."
      ++ toString dt.nanoseconds ++ " "
      ++ (if 0 ≤ dt.offset then "+" else "-")
      ++ setw2 (toString offsetHours)
      ++ setw2 (toString offsetMinutes))
  else none

/-- The date and time that `DateTime::format` writes before the UTC offset, with the
blank that follows it. -/
def dateTimeText (dt : DateTime) : String :=
  toString dt.year ++ "-"
    ++ setw2 (toString dt.month) ++ "-"
    ++ setw2 (toString dt.day) ++ " "
    ++ setw2 (toString dt.hour) ++ ":"
    ++ setw2 (toString dt.minute) ++ ":"
    ++ setw2 (toString dt.second) ++ "."
    ++ toString dt.nanoseconds ++ " "

/-- The UTC offset as the specification renders it: a sign and four digits, `±HHMM`,
where `HH = |offset| div 3600` and `MM = (|offset| mod 3600) div 60`, both filled
with `0` to two digits. -/
def specOffset (offset : Int) : String :=
  (if 0 ≤ offset then "+" else "-")
    ++ setw2 (toString (offset.natAbs / 3600))
    ++ setw2 (toString (offset.natAbs % 3600 / 60))

/-! ## The iterations of the scan loop of `Diff::generateUnidiff` -/

/-- The state of the scan loop `for(i = 0, j = 1; i < itemCount; i++, j++)` after `n`
complete iterations started in state `s`, at the loop head. The result is `none`
when the loop has ended before that, by its condition or by `break`, or when an
access has left `items`. -/
def scanIterate (items : List DiffItem) (C itemCount : Nat) :
    Nat → ScanState → Option ScanState
  | 0, s => some s
  | n + 1, s =>
    if s.i < itemCount then
      match scanBody items C itemCount s with
      | some (s2, _, BodyExit.goOn) => scanIterate items C itemCount n (nextIteration s2)
      | _ => none
    else none

/-- A script of 65537 insertions followed by one unchanged line, as for an original
file of one line and a modified file that puts 65537 lines before it. -/
def longInsertScript : List DiffItem :=
  (List.range 65537).map (fun j => (⟨Change.Insert, 0, j⟩ : DiffItem))
    ++ [⟨Change.Equal, 0, 65537⟩]

/-! ## Sequencing of steps that may throw -/

/-- Two statements in sequence, the first of which may throw: the second one is run
on the value of the first; an exception or the undefined behaviour of the first is
the outcome of both. -/
def Run.andThen {β γ : Type} (r : Run β) (f : β → Run γ) : Run γ :=
  match r with
  | Run.value b => f b
  | Run.raise e => Run.raise e
  | Run.undefined => Run.undefined

/-! ## Correctness of `Diff::calculate` -/

section MyersProofs

variable {α : Type} [DecidableEq α]

/-! ## Checked vector access: basic facts -/

theorem vecRead_of_nonneg {β : Type} (v : List β) (i : Int) (h : 0 ≤ i) :
    vecRead v i = v[i.toNat]? := by
  simp [vecRead, h]

theorem vecRead_some_of_lt {β : Type} (v : List β) (i : Int) (h : 0 ≤ i)
    (h2 : i < v.length) : ∃ b, vecRead v i = some b := by
  have h3 : i.toNat < v.length := by omega
  exact ⟨v[i.toNat], by rw [vecRead_of_nonneg v i h, List.getElem?_eq_getElem h3]⟩

theorem vecWrite_of_lt {β : Type} (v : List β) (i : Int) (b : β) (h : 0 ≤ i)
    (h2 : i < v.length) : vecWrite v i b = some (v.set i.toNat b) := by
  have h3 : i.toNat < v.length := by omega
  simp [vecWrite, h, h3]

theorem vecRead_set_self {β : Type} (v : List β) (i : Int) (b : β) (h : 0 ≤ i)
    (h2 : i < v.length) : vecRead (v.set i.toNat b) i = some b := by
  have h3 : i.toNat < v.length := by omega
  rw [vecRead_of_nonneg _ i h, List.getElem?_set_self h3]

theorem vecRead_set_ne {β : Type} (v : List β) (i j : Int) (b : β) (h : 0 ≤ i)
    (hij : i ≠ j) : vecRead (v.set i.toNat b) j = vecRead v j := by
  unfold vecRead
  split
  · rename_i hj
    have : i.toNat ≠ j.toNat := by omega
    rw [List.getElem?_set_ne this]
  · rfl

theorem vecRead_replicate {β : Type} (n : Nat) (b : β) (i : Int) (h : 0 ≤ i)
    (h2 : i < n) : vecRead (List.replicate n b) i = some b := by
  have h3 : i.toNat < n := by omega
  rw [vecRead_of_nonneg _ i h, List.getElem?_replicate]
  simp [h3]

theorem Valid.nil (A B : List α) : Valid A B [] 0 0 0 :=
  ⟨rfl, rfl, by simp, rfl⟩

theorem Valid.snoc_equal {A B : List α} {h : List DiffItem} {x y e : Nat}
    (hv : Valid A B h x y e) (i j : Nat) (hi : i = x) (hj : j = y)
    (hab : ∃ a, A[x]? = some a ∧ B[y]? = some a) :
    Valid A B (h ++ [⟨Change.Equal, i, j⟩]) (x + 1) (y + 1) e := by
  subst hi hj
  refine ⟨?_, ?_, ?_, ?_⟩
  · have := hv.olds
    simp [originalIndices] at this
    simp [originalIndices, List.filter_append, List.range_succ, this]
  · have := hv.news
    simp [modifiedIndices] at this
    simp [modifiedIndices, List.filter_append, List.range_succ, this]
  · intro it hit hc
    rcases List.mem_append.1 hit with h1 | h1
    · exact hv.same it h1 hc
    · simp at h1
      subst h1
      exact hab
  · have := hv.cost
    simp [editCount] at this
    simp [editCount, List.filter_append, this]

theorem Valid.snoc_remove {A B : List α} {h : List DiffItem} {x y e : Nat}
    (hv : Valid A B h x y e) (i j : Nat) (hi : i = x) :
    Valid A B (h ++ [⟨Change.Remove, i, j⟩]) (x + 1) y (e + 1) := by
  subst hi
  refine ⟨?_, ?_, ?_, ?_⟩
  · have := hv.olds
    simp [originalIndices] at this
    simp [originalIndices, List.filter_append, List.range_succ, this]
  · have := hv.news
    simp [modifiedIndices] at this
    simp [modifiedIndices, List.filter_append, this]
  · intro it hit hc
    rcases List.mem_append.1 hit with h1 | h1
    · exact hv.same it h1 hc
    · simp at h1
      subst h1
      simp at hc
  · have := hv.cost
    simp [editCount] at this
    simp [editCount, List.filter_append, this]

theorem Valid.snoc_insert {A B : List α} {h : List DiffItem} {x y e : Nat}
    (hv : Valid A B h x y e) (i j : Nat) (hj : j = y) :
    Valid A B (h ++ [⟨Change.Insert, i, j⟩]) x (y + 1) (e + 1) := by
  subst hj
  refine ⟨?_, ?_, ?_, ?_⟩
  · have := hv.olds
    simp [originalIndices] at this
    simp [originalIndices, List.filter_append, this]
  · have := hv.news
    simp [modifiedIndices] at this
    simp [modifiedIndices, List.filter_append, List.range_succ, this]
  · intro it hit hc
    rcases List.mem_append.1 hit with h1 | h1
    · exact hv.same it h1 hc
    · simp at h1
      subst h1
      simp at hc
  · have := hv.cost
    simp [editCount] at this
    simp [editCount, List.filter_append, this]

/-- The run of unchanged lines: the loop stops, it moves along the diagonal inside
the grid, it stops where no further match is possible, and it keeps valid
histories valid. -/
theorem snake_spec (A B : List α) :
    ∀ (fuel : Nat) (x y : Int) (h : List DiffItem), 0 ≤ x → 0 ≤ y → 0 < fuel →
      (A.length : Int) - x < fuel →
      ∃ x2 y2 h2, snake A B fuel x y h = some (x2, y2, h2) ∧ x ≤ x2 ∧ x2 - x = y2 - y ∧
        (x < x2 → x2 ≤ A.length ∧ y2 ≤ B.length) ∧
        ¬ (x2 < A.length ∧ y2 < B.length ∧ A[x2.toNat]? = B[y2.toNat]?) ∧
        (∀ e, Path A B h x.toNat y.toNat e → Path A B h2 x2.toNat y2.toNat e) := by
  intro fuel
  induction fuel with
  | zero => intro x y h _ _ h0; omega
  | succ n ih =>
    intro x y h hx hy _ hfuel
    unfold snake
    by_cases hc : x < (A.length : Int) ∧ y < (B.length : Int)
    · rw [if_pos hc]
      have hxn : x.toNat < A.length := by omega
      have hyn : y.toNat < B.length := by omega
      rw [vecRead_of_nonneg A x hx, vecRead_of_nonneg B y hy,
        List.getElem?_eq_getElem hxn, List.getElem?_eq_getElem hyn]
      by_cases hab : A[x.toNat] = B[y.toNat]
      · simp only [hab, if_true]
        obtain ⟨x2, y2, h2, hs, h1, h3, h4, h5, h6⟩ :=
          ih (x + 1) (y + 1)
            (h ++ [⟨Change.Equal, lineIndex (x + 1), lineIndex (y + 1)⟩])
            (by omega) (by omega) (by omega) (by omega)
        refine ⟨x2, y2, h2, hs, by omega, by omega, ?_, h5, ?_⟩
        · intro _
          by_cases hlt : x + 1 < x2
          · exact h4 hlt
          · have : x2 = x + 1 := by omega
            constructor <;> omega
        · intro e hv
          apply h6
          have e1 : (x + 1).toNat = x.toNat + 1 := by omega
          have e2 : (y + 1).toNat = y.toNat + 1 := by omega
          have e3 : lineIndex (x + 1) = x.toNat := by
            simp only [lineIndex]; split <;> omega
          have e4 : lineIndex (y + 1) = y.toNat := by
            simp only [lineIndex]; split <;> omega
          rw [e1, e2, e3, e4]
          refine Path.equal hv ⟨A[x.toNat], ?_, ?_⟩
          · exact List.getElem?_eq_getElem hxn
          · rw [hab]; exact List.getElem?_eq_getElem hyn
      · simp only [hab, if_false]
        refine ⟨x, y, h, rfl, le_refl _, by omega, fun hlt => absurd hlt (lt_irrefl _), ?_,
          fun e hv => hv⟩
        rintro ⟨_, _, heq⟩
        rw [List.getElem?_eq_getElem hxn, List.getElem?_eq_getElem hyn] at heq
        exact hab (Option.some.inj heq)
    · rw [if_neg hc]
      refine ⟨x, y, h, rfl, le_refl _, by omega, fun hlt => absurd hlt (lt_irrefl _), ?_,
        fun e hv => hv⟩
      rintro ⟨h1, h2, _⟩
      exact hc ⟨h1, h2⟩

theorem advance_eq_stepFrom (A B : List α) (d k : Int) (vx : List Int)
    (vh : List (List DiffItem)) (xl xr : Int) (hl hr : List DiffItem)
    (h1 : k ≠ -d → vecRead vx ((A.length : Int) + (B.length : Int) + k - 1) = some xl)
    (h2 : vecRead vx ((A.length : Int) + (B.length : Int) + k + 1) = some xr)
    (h3 : k ≠ -d → vecRead vh ((A.length : Int) + (B.length : Int) + k - 1) = some hl)
    (h4 : vecRead vh ((A.length : Int) + (B.length : Int) + k + 1) = some hr) :
    advance A B d k vx vh = stepFrom A B d k xl xr hl hr := by
  unfold advance stepFrom fromRight
  by_cases hk : k = -d
  · simp [hk] at h2 h4 ⊢
    simp [h2, h4]
    by_cases hy : 1 ≤ xr + d ∧ xr + d ≤ (B.length : Int) <;> simp [hy]
  · have h1' := h1 hk
    have h3' := h3 hk
    by_cases hlt : xl < xr
    · simp [hk, h1', h2, h4, hlt]
      by_cases hy : 1 ≤ xr - k ∧ xr ≤ (B.length : Int) + k <;> simp [hy]
    · simp [hk, h1', h2, h3', hlt]

theorem step_down (A B : List α) (d : Nat) (k xl xr : Int) (hl hr : List DiffItem)
    (hg : Good A B d (k + 1) xr hr)
    (hsel : k = -((d : Int) + 1) ∨ xl < xr) :
    ∃ x2 h2, stepFrom A B ((d : Int) + 1) k xl xr hl hr = some (x2, x2 - k, h2)
      ∧ Good A B (d + 1) k x2 h2 ∧ xr ≤ x2
      ∧ (x2 = xr ∨ (x2 ≤ (A.length : Int) ∧ x2 - k ≤ (B.length : Int))) := by
  have hx := hg.nonneg
  have hy := hg.ynonneg
  unfold stepFrom
  simp only [hsel, decide_True, if_true, Bool.and_true]
  obtain ⟨x2, y2, h2, hs, h1, h3, h4, h5, h6⟩ :=
    snake_spec A B (A.length + 1) xr (xr - k)
      (if decide (1 ≤ xr - k ∧ xr - k ≤ (B.length : Int)) = true then
        hr ++ [⟨Change.Insert, lineIndex xr, lineIndex (xr - k)⟩]
      else if 1 ≤ xr ∧ xr ≤ (A.length : Int) then
        hr ++ [⟨Change.Remove, lineIndex xr, lineIndex (xr - k)⟩]
      else hr) hx (by omega) (by omega) (by push_cast; omega)
  have hy2 : y2 = x2 - k := by omega
  subst hy2
  refine ⟨x2, h2, hs, ⟨by omega, by omega, by push_cast; have := hg.far; omega, ?_, h5⟩,
    h1, ?_⟩
  · intro hxN hyM
    have hv := hg.valid (by omega) (by omega)
    apply h6
    have hins : 1 ≤ xr - k ∧ xr - k ≤ (B.length : Int) := by omega
    simp only [hins, and_self, decide_True, if_true]
    have e2 : (xr - k).toNat = (xr - (k + 1)).toNat + 1 := by omega
    have e3 : lineIndex xr = xr.toNat - 1 := by
      simp only [lineIndex]; split <;> omega
    have e4 : lineIndex (xr - k) = (xr - (k + 1)).toNat := by
      simp only [lineIndex]; split <;> omega
    rw [e2, e3, e4]
    exact Path.insert hv (by omega)
  · by_cases hlt : xr < x2
    · exact Or.inr (h4 hlt)
    · exact Or.inl (by omega)

theorem step_right (A B : List α) (d : Nat) (k xl xr : Int) (hl hr : List DiffItem)
    (hg : Good A B d (k - 1) xl hl)
    (hsel : ¬ (k = -((d : Int) + 1) ∨ xl < xr)) :
    ∃ x2 h2, stepFrom A B ((d : Int) + 1) k xl xr hl hr = some (x2, x2 - k, h2)
      ∧ Good A B (d + 1) k x2 h2 ∧ xl + 1 ≤ x2
      ∧ (x2 = xl + 1 ∨ (x2 ≤ (A.length : Int) ∧ x2 - k ≤ (B.length : Int))) := by
  have hx := hg.nonneg
  have hy := hg.ynonneg
  unfold stepFrom
  simp only [hsel, decide_False, if_false, Bool.and_false, Bool.false_eq_true]
  obtain ⟨x2, y2, h2, hs, h1, h3, h4, h5, h6⟩ :=
    snake_spec A B (A.length + 1) (xl + 1) (xl + 1 - k)
      (if 1 ≤ xl + 1 ∧ xl + 1 ≤ (A.length : Int) then
        hl ++ [⟨Change.Remove, lineIndex (xl + 1), lineIndex (xl + 1 - k)⟩]
      else hl) (by omega) (by omega) (by omega) (by push_cast; omega)
  have hy2 : y2 = x2 - k := by omega
  subst hy2
  refine ⟨x2, h2, hs, ⟨by omega, by omega, by push_cast; have := hg.far; omega, ?_, h5⟩,
    h1, ?_⟩
  · intro hxN hyM
    have hv := hg.valid (by omega) (by omega)
    apply h6
    have hrem : 1 ≤ xl + 1 ∧ xl + 1 ≤ (A.length : Int) := by omega
    simp only [hrem, and_self, if_true]
    have e1 : (xl + 1).toNat = xl.toNat + 1 := by omega
    have e2 : (xl + 1 - k).toNat = (xl - (k - 1)).toNat := by congr 1; omega
    have e3 : lineIndex (xl + 1) = xl.toNat := by
      simp only [lineIndex]; split <;> omega
    have e4 : lineIndex (xl + 1 - k) = (xl - (k - 1)).toNat - 1 := by
      simp only [lineIndex]; split <;> omega
    rw [e1, e2, e3, e4]
    exact Path.remove hv (by omega)
  · by_cases hlt : xl + 1 < x2
    · exact Or.inr (h4 hlt)
    · exact Or.inl (by omega)

theorem read_xAt (A B : List α) (vx : List Int) (idx k : Int)
    (hlen : vx.length = 2 * (A.length + B.length) + 1)
    (hidx : idx = (A.length : Int) + (B.length : Int) + k)
    (h1 : -((A.length : Int) + B.length) ≤ k) (h2 : k ≤ (A.length : Int) + B.length) :
    vecRead vx idx = some (xAt A B vx k) := by
  subst hidx
  obtain ⟨b, hb⟩ := vecRead_some_of_lt vx ((A.length : Int) + (B.length : Int) + k)
    (by omega) (by rw [hlen]; push_cast; omega)
  simp [xAt, hb]

theorem read_hAt (A B : List α) (vh : List (List DiffItem)) (idx k : Int)
    (hlen : vh.length = 2 * (A.length + B.length) + 1)
    (hidx : idx = (A.length : Int) + (B.length : Int) + k)
    (h1 : -((A.length : Int) + B.length) ≤ k) (h2 : k ≤ (A.length : Int) + B.length) :
    vecRead vh idx = some (hAt A B vh k) := by
  subst hidx
  obtain ⟨b, hb⟩ := vecRead_some_of_lt vh ((A.length : Int) + (B.length : Int) + k)
    (by omega) (by rw [hlen]; push_cast; omega)
  simp [hAt, hb]

/-- Under the round invariant, `advance` on diagonal `k` of the next round is
`stepFrom` applied to the stored values of the two neighbours. -/
theorem advance_of_inv (A B : List α) (d : Nat) (vx : List Int)
    (vh : List (List DiffItem)) (hinv : Inv A B d vx vh) (j : Nat) (k : Int)
    (hj : j ≤ d + 1) (hk : k = -((d : Int) + 1) + 2 * j)
    (hd : d + 1 ≤ A.length + B.length) (hk1 : k + 1 ≤ (A.length : Int) + B.length) :
    advance A B ((d : Int) + 1) k vx vh
      = stepFrom A B ((d : Int) + 1) k (xAt A B vx (k - 1)) (xAt A B vx (k + 1))
          (hAt A B vh (k - 1)) (hAt A B vh (k + 1)) := by
  apply advance_eq_stepFrom
  · intro hne
    exact read_xAt A B vx _ _ hinv.lenx (by omega) (by omega) (by omega)
  · exact read_xAt A B vx _ _ hinv.lenx (by omega) (by omega) (by omega)
  · intro hne
    exact read_hAt A B vh _ _ hinv.lenh (by omega) (by omega) (by omega)
  · exact read_hAt A B vh _ _ hinv.lenh (by omega) (by omega) (by omega)

/-- One diagonal of round `d + 1`, computed from the state after round `d`. -/
theorem inv_step (A B : List α) (d : Nat) (vx : List Int)
    (vh : List (List DiffItem)) (hinv : Inv A B d vx vh) (j : Nat) (k : Int)
    (hj : j ≤ d + 1) (hk : k = -((d : Int) + 1) + 2 * j) :
    ∃ x2 h2,
      stepFrom A B ((d : Int) + 1) k (xAt A B vx (k - 1)) (xAt A B vx (k + 1))
          (hAt A B vh (k - 1)) (hAt A B vh (k + 1)) = some (x2, x2 - k, h2)
      ∧ Good A B (d + 1) k x2 h2
      ∧ (1 ≤ j → xAt A B vx (k - 1) + 1 ≤ x2)
      ∧ (j ≤ d → xAt A B vx (k + 1) ≤ x2)
      ∧ ((j ≤ d ∧ x2 = xAt A B vx (k + 1)) ∨ (1 ≤ j ∧ x2 = xAt A B vx (k - 1) + 1)
          ∨ (x2 ≤ (A.length : Int) ∧ x2 - k ≤ (B.length : Int))) := by
  by_cases hsel : k = -((d : Int) + 1) ∨ xAt A B vx (k - 1) < xAt A B vx (k + 1)
  · -- the value of diagonal `k + 1` is taken
    have hjd : j ≤ d := by
      rcases hsel with h | h
      · omega
      · by_contra hc
        have hjj : j = d + 1 := by omega
        have h0 : xAt A B vx (k + 1) = 0 := hinv.unset (k + 1) (by omega)
        have hg := (hinv.entry d (le_refl d)).1
        have hkk : k - 1 = -(d : Int) + 2 * (d : Nat) := by omega
        rw [← hkk] at hg
        have := hg.nonneg
        omega
    have hg := (hinv.entry j hjd).1
    have hkk : k + 1 = -(d : Int) + 2 * (j : Nat) := by omega
    rw [← hkk] at hg
    obtain ⟨x2, h2, hs, hgood, hle, hor⟩ :=
      step_down A B d k (xAt A B vx (k - 1)) (xAt A B vx (k + 1)) (hAt A B vh (k - 1))
        (hAt A B vh (k + 1)) hg hsel
    refine ⟨x2, h2, hs, hgood, ?_, fun _ => hle, ?_⟩
    · intro h1j
      rcases hsel with h | h
      · omega
      · omega
    · rcases hor with h | h
      · exact Or.inl ⟨hjd, h⟩
      · exact Or.inr (Or.inr h)
  · -- the value of diagonal `k - 1` is taken
    have hj1 : 1 ≤ j := by
      by_contra hc
      exact hsel (Or.inl (by omega))
    have hg := (hinv.entry (j - 1) (by omega)).1
    have hkk : k - 1 = -(d : Int) + 2 * ((j - 1 : Nat) : Int) := by omega
    rw [← hkk] at hg
    obtain ⟨x2, h2, hs, hgood, hle, hor⟩ :=
      step_right A B d k (xAt A B vx (k - 1)) (xAt A B vx (k + 1)) (hAt A B vh (k - 1))
        (hAt A B vh (k + 1)) hg hsel
    refine ⟨x2, h2, hs, hgood, fun _ => hle, ?_, ?_⟩
    · intro _
      have : ¬ xAt A B vx (k - 1) < xAt A B vx (k + 1) := fun h => hsel (Or.inr h)
      omega
    · rcases hor with h | h
      · exact Or.inr (Or.inl ⟨hj1, h⟩)
      · exact Or.inr (Or.inr h)

/-- A point that ends the computation is the corner `(N, M)` of the grid. -/
theorem inv_terminal (A B : List α) (d : Nat) (vx : List Int)
    (vh : List (List DiffItem)) (hinv : Inv A B d vx vh) (j : Nat) (k x2 : Int)
    (hj : j ≤ d + 1) (hk : k = -((d : Int) + 1) + 2 * j)
    (hor : (j ≤ d ∧ x2 = xAt A B vx (k + 1)) ∨ (1 ≤ j ∧ x2 = xAt A B vx (k - 1) + 1)
          ∨ (x2 ≤ (A.length : Int) ∧ x2 - k ≤ (B.length : Int)))
    (hN : (A.length : Int) ≤ x2) (hM : (B.length : Int) ≤ x2 - k) :
    x2 = A.length ∧ x2 - k = B.length := by
  rcases hor with ⟨hjd, hx⟩ | ⟨hj1, hx⟩ | ⟨h1, h2⟩
  · have hkk : k + 1 = -(d : Int) + 2 * (j : Nat) := by omega
    have hopen := (hinv.entry j hjd).2
    rw [← hkk, ← hx] at hopen
    unfold Open at hopen
    by_cases hgt : (A.length : Int) < x2
    · obtain ⟨j2, hj2, hk2, hle⟩ := hinv.high j hjd (k + 1) x2 hkk hx hgt
      have hopen2 := (hinv.entry j2 hj2).2
      rw [hk2] at hopen2
      unfold Open at hopen2
      exfalso
      apply hopen2
      constructor <;> omega
    · constructor <;> omega
  · have hkk : k - 1 = -(d : Int) + 2 * ((j - 1 : Nat) : Int) := by omega
    have hopen := (hinv.entry (j - 1) (by omega)).2
    rw [← hkk] at hopen
    unfold Open at hopen
    by_cases hgt : (B.length : Int) < x2 - k
    · obtain ⟨j2, hj2, hk2, hle⟩ :=
        hinv.low (j - 1) (by omega) (k - 1) (xAt A B vx (k - 1)) hkk rfl (by omega)
      have hopen2 := (hinv.entry j2 hj2).2
      rw [hk2] at hopen2
      unfold Open at hopen2
      exfalso
      apply hopen2
      constructor <;> omega
    · constructor <;> omega
  · constructor <;> omega

theorem xAt_set_self (A B : List α) (vx : List Int) (k v : Int)
    (hlen : vx.length = 2 * (A.length + B.length) + 1)
    (h1 : -((A.length : Int) + B.length) ≤ k) (h2 : k ≤ (A.length : Int) + B.length) :
    xAt A B (vx.set ((A.length : Int) + (B.length : Int) + k).toNat v) k = v := by
  unfold xAt
  rw [vecRead_set_self vx _ v (by omega) (by rw [hlen]; push_cast; omega)]
  rfl

theorem hAt_set_self (A B : List α) (vh : List (List DiffItem)) (k : Int)
    (v : List DiffItem)
    (hlen : vh.length = 2 * (A.length + B.length) + 1)
    (h1 : -((A.length : Int) + B.length) ≤ k) (h2 : k ≤ (A.length : Int) + B.length) :
    hAt A B (vh.set ((A.length : Int) + (B.length : Int) + k).toNat v) k = v := by
  unfold hAt
  rw [vecRead_set_self vh _ v (by omega) (by rw [hlen]; push_cast; omega)]
  rfl

/-- The values read by `advance` in the middle of a round are those of the state at
the start of the round. -/
theorem advance_of_mid (A B : List α) (d : Nat) (vx : List Int)
    (vh : List (List DiffItem)) (hinv : Inv A B d vx vh) (j : Nat) (k : Int)
    (vx2 : List Int) (vh2 : List (List DiffItem))
    (hmid : Mid A B (d + 1) j vx vh vx2 vh2)
    (hj : j ≤ d + 1) (hk : k = -((d : Int) + 1) + 2 * j)
    (hd : d + 1 ≤ A.length + B.length) (hk1 : k + 1 ≤ (A.length : Int) + B.length) :
    advance A B ((d : Int) + 1) k vx2 vh2
      = stepFrom A B ((d : Int) + 1) k (xAt A B vx (k - 1)) (xAt A B vx (k + 1))
          (hAt A B vh (k - 1)) (hAt A B vh (k + 1)) := by
  have hs1 := hmid.same (k - 1) (by intro i _; push_cast; omega)
  have hs2 := hmid.same (k + 1) (by intro i _; push_cast; omega)
  have e1 : (A.length : Int) + (B.length : Int) + k - 1
      = (A.length : Int) + (B.length : Int) + (k - 1) := by omega
  have e2 : (A.length : Int) + (B.length : Int) + k + 1
      = (A.length : Int) + (B.length : Int) + (k + 1) := by omega
  apply advance_eq_stepFrom
  · intro hne
    rw [e1, hs1.1]
    exact read_xAt A B vx _ _ hinv.lenx rfl (by omega) (by omega)
  · rw [e2, hs2.1]
    exact read_xAt A B vx _ _ hinv.lenx rfl (by omega) (by omega)
  · intro hne
    rw [e1, hs1.2]
    exact read_hAt A B vh _ _ hinv.lenh rfl (by omega) (by omega)
  · rw [e2, hs2.2]
    exact read_hAt A B vh _ _ hinv.lenh rfl (by omega) (by omega)

/-- One iteration of the loop over `k` in round `d + 1`: the computation ends with a
valid script for `(N, M)`, or the iteration stores the new point. -/
theorem diagStep_mid (A B : List α) (d : Nat) (vx : List Int)
    (vh : List (List DiffItem)) (hinv : Inv A B d vx vh) (j : Nat)
    (vx2 : List Int) (vh2 : List (List DiffItem))
    (hmid : Mid A B (d + 1) j vx vh vx2 vh2)
    (hj : j ≤ d + 1) (hd : d + 1 ≤ A.length + B.length) (hB : 1 ≤ B.length)
    (hlast : d + 1 = A.length + B.length → j ≤ A.length) :
    (∃ h, diagStep A B ((d : Int) + 1) (-((d : Int) + 1) + 2 * j) vx2 vh2
          = StepOutcome.done h
        ∧ Path A B h A.length B.length (d + 1))
    ∨ (∃ vx3 vh3, diagStep A B ((d : Int) + 1) (-((d : Int) + 1) + 2 * j) vx2 vh2
          = StepOutcome.next vx3 vh3
        ∧ Mid A B (d + 1) (j + 1) vx vh vx3 vh3
        ∧ (d + 1 = A.length + B.length → j < A.length)) := by
  have hk1 : -((d : Int) + 1) + 2 * j + 1 ≤ (A.length : Int) + B.length := by
    by_cases hc : d + 1 = A.length + B.length
    · have := hlast hc
      omega
    · omega
  obtain ⟨x2, h2, hs, hgood, hm1, hm2, hor⟩ := inv_step A B d vx vh hinv j _ hj rfl
  have hadv := advance_of_mid A B d vx vh hinv j _ vx2 vh2 hmid hj rfl hd hk1
  have hadv0 := advance_of_inv A B d vx vh hinv j _ hj rfl hd hk1
  unfold diagStep
  rw [hadv, hs]
  simp only []
  by_cases hterm : (A.length : Int) ≤ x2 ∧ (B.length : Int) ≤ x2 - (-((d : Int) + 1) + 2 * j)
  · left
    rw [if_pos hterm]
    obtain ⟨e1, e2⟩ := inv_terminal A B d vx vh hinv j _ x2 hj rfl hor hterm.1 hterm.2
    refine ⟨h2, rfl, ?_⟩
    have hv := hgood.valid (by omega) (by omega)
    rw [e2, e1] at hv
    simpa using hv
  · right
    rw [if_neg hterm]
    have hlo : -((A.length : Int) + B.length) ≤ -((d : Int) + 1) + 2 * j := by omega
    have hhi : -((d : Int) + 1) + 2 * (j : Int) ≤ (A.length : Int) + B.length := by omega
    rw [vecWrite_of_lt vx2 _ x2 (by omega) (by rw [hmid.lenx]; push_cast; omega),
      vecWrite_of_lt vh2 _ h2 (by omega) (by rw [hmid.lenh]; push_cast; omega)]
    refine ⟨_, _, rfl, ⟨?_, ?_, ?_, ?_⟩, ?_⟩
    · rw [List.length_set]; exact hmid.lenx
    · rw [List.length_set]; exact hmid.lenh
    · intro k hkne
      have hne : k ≠ -((d : Int) + 1) + 2 * j := by
        have := hkne j (Nat.lt_succ_self j)
        push_cast at this
        exact this
      have hs := hmid.same k (fun i hi => hkne i (Nat.lt_succ_of_lt hi))
      rw [vecRead_set_ne vx2 _ _ x2 (by omega) (by omega),
        vecRead_set_ne vh2 _ _ h2 (by omega) (by omega)]
      exact hs
    · intro i hi
      have hcast : (((d + 1 : Nat) : Int)) = (d : Int) + 1 := by push_cast; rfl
      rcases Nat.lt_succ_iff_lt_or_eq.1 hi with hlt | heq
      · have hdone := hmid.done i hlt
        have hne : (A.length : Int) + (B.length : Int) + (-((d : Int) + 1) + 2 * j)
            ≠ (A.length : Int) + (B.length : Int) + (-(((d + 1 : Nat) : Int)) + 2 * i) := by
          push_cast; omega
        have ex : xAt A B (vx2.set ((A.length : Int) + (B.length : Int)
              + (-((d : Int) + 1) + 2 * j)).toNat x2) (-(((d + 1 : Nat) : Int)) + 2 * i)
            = xAt A B vx2 (-(((d + 1 : Nat) : Int)) + 2 * i) := by
          unfold xAt
          rw [vecRead_set_ne vx2 _ _ x2 (by omega) hne]
        have eh : hAt A B (vh2.set ((A.length : Int) + (B.length : Int)
              + (-((d : Int) + 1) + 2 * j)).toNat h2) (-(((d + 1 : Nat) : Int)) + 2 * i)
            = hAt A B vh2 (-(((d + 1 : Nat) : Int)) + 2 * i) := by
          unfold hAt
          rw [vecRead_set_ne vh2 _ _ h2 (by omega) hne]
        rw [ex, eh]
        exact hdone
      · subst heq
        rw [hcast, xAt_set_self A B vx2 _ x2 hmid.lenx hlo hhi,
          hAt_set_self A B vh2 _ h2 hmid.lenh hlo hhi, hadv0, hs]
        exact ⟨rfl, hterm⟩
    · intro hc
      have := hlast hc
      have hfar := hgood.far
      by_contra hnlt
      apply hterm
      push_cast at hfar
      constructor <;> omega

/-- The loop over `k` in round `d + 1`: it ends the computation with a valid script
for `(N, M)`, or it completes the round (only possible before round `N + M`). -/
theorem diagLoop_mid (A B : List α) (d : Nat) (vx : List Int)
    (vh : List (List DiffItem)) (hinv : Inv A B d vx vh)
    (hd : d + 1 ≤ A.length + B.length) (hB : 1 ≤ B.length) :
    ∀ (fuel j : Nat) (vx2 : List Int) (vh2 : List (List DiffItem)),
      Mid A B (d + 1) j vx vh vx2 vh2 → fuel + j = d + 2 →
      (d + 1 = A.length + B.length → j ≤ A.length) →
      (∃ h, diagLoop A B ((d : Int) + 1) fuel (-((d : Int) + 1) + 2 * j) vx2 vh2
            = StepOutcome.done h
          ∧ Path A B h A.length B.length (d + 1))
      ∨ (d + 1 < A.length + B.length
          ∧ ∃ vx3 vh3, diagLoop A B ((d : Int) + 1) fuel (-((d : Int) + 1) + 2 * j) vx2 vh2
              = StepOutcome.next vx3 vh3
            ∧ Mid A B (d + 1) (d + 2) vx vh vx3 vh3) := by
  intro fuel
  induction fuel with
  | zero =>
    intro j vx2 vh2 hmid hfj hlast
    right
    have hj : j = d + 2 := by omega
    subst hj
    refine ⟨?_, vx2, vh2, rfl, hmid⟩
    by_contra hc
    have := hlast (by omega)
    omega
  | succ n ih =>
    intro j vx2 vh2 hmid hfj hlast
    have hj : j ≤ d + 1 := by omega
    unfold diagLoop
    rw [if_pos (by omega)]
    rcases diagStep_mid A B d vx vh hinv j vx2 vh2 hmid hj hd hB hlast with
      ⟨h, hstep, hv⟩ | ⟨vx3, vh3, hstep, hmid3, hlt⟩
    · left
      exact ⟨h, by rw [hstep], hv⟩
    · rw [hstep]
      simp only []
      have hk : -((d : Int) + 1) + 2 * (j : Int) + 2 = -((d : Int) + 1) + 2 * ((j + 1 : Nat) : Int) := by
        push_cast; ring
      rw [hk]
      exact ih (j + 1) vx3 vh3 hmid3 (by omega) (fun hc => by have := hlt hc; omega)

/-- Facts about the values stored by a completed round `d + 1`. -/
theorem mid_key (A B : List α) (d : Nat) (vx : List Int)
    (vh : List (List DiffItem)) (hinv : Inv A B d vx vh)
    (vx3 : List Int) (vh3 : List (List DiffItem))
    (hmid : Mid A B (d + 1) (d + 2) vx vh vx3 vh3)
    (hd : d + 1 < A.length + B.length) (j : Nat) (hj : j ≤ d + 1) (k : Int)
    (hk : k = -((d : Int) + 1) + 2 * j) :
    Good A B (d + 1) k (xAt A B vx3 k) (hAt A B vh3 k) ∧ Open A B k (xAt A B vx3 k)
      ∧ (1 ≤ j → xAt A B vx (k - 1) + 1 ≤ xAt A B vx3 k)
      ∧ (j ≤ d → xAt A B vx (k + 1) ≤ xAt A B vx3 k)
      ∧ ((j ≤ d ∧ xAt A B vx3 k = xAt A B vx (k + 1))
          ∨ (1 ≤ j ∧ xAt A B vx3 k = xAt A B vx (k - 1) + 1)
          ∨ (xAt A B vx3 k ≤ (A.length : Int) ∧ xAt A B vx3 k - k ≤ (B.length : Int))) := by
  obtain ⟨x2, h2, hs, hgood, hm1, hm2, hor⟩ := inv_step A B d vx vh hinv j k hj hk
  have hadv0 := advance_of_inv A B d vx vh hinv j k hj hk (by omega) (by omega)
  have hdone := hmid.done j (by omega)
  have hcast : (((d + 1 : Nat) : Int)) = (d : Int) + 1 := by push_cast; rfl
  rw [hcast, ← hk, hadv0, hs] at hdone
  obtain ⟨heq, hopen⟩ := hdone
  have h1 : x2 = xAt A B vx3 k := by
    have := congrArg (fun t : Int × Int × List DiffItem => t.1) (Option.some.inj heq)
    exact this
  have h3 : h2 = hAt A B vh3 k := by
    have := congrArg (fun t : Int × Int × List DiffItem => t.2.2) (Option.some.inj heq)
    exact this
  rw [← h1, ← h3]
  rw [← h1] at hopen
  exact ⟨hgood, hopen, hm1, hm2, hor⟩

theorem xAt_congr (A B : List α) (vx vx2 : List Int) (k : Int)
    (h : vecRead vx2 ((A.length : Int) + (B.length : Int) + k)
      = vecRead vx ((A.length : Int) + (B.length : Int) + k)) :
    xAt A B vx2 k = xAt A B vx k := by
  unfold xAt
  rw [h]

/-- Every path of the edit graph with `d + 1` horizontal and vertical edges ends no
further than the point stored for its diagonal by round `d + 1`. -/
theorem reach_next (A B : List α) (d : Nat) (vx vx3 : List Int)
    (hreach : ∀ x y : Nat, Reach A B x y d →
      ∃ j : Nat, j ≤ d ∧ (x : Int) - y = -(d : Int) + 2 * j
        ∧ (x : Int) ≤ xAt A B vx ((x : Int) - y))
    (hkey : ∀ (j : Nat) (k : Int), j ≤ d + 1 → k = -((d : Int) + 1) + 2 * j →
      ¬ (xAt A B vx3 k < (A.length : Int) ∧ xAt A B vx3 k - k < (B.length : Int)
          ∧ A[(xAt A B vx3 k).toNat]? = B[(xAt A B vx3 k - k).toNat]?)
      ∧ 0 ≤ xAt A B vx3 k ∧ k ≤ xAt A B vx3 k
      ∧ (1 ≤ j → xAt A B vx (k - 1) + 1 ≤ xAt A B vx3 k)
      ∧ (j ≤ d → xAt A B vx (k + 1) ≤ xAt A B vx3 k)) :
    ∀ (x y c : Nat), Reach A B x y c → c = d + 1 →
      ∃ j : Nat, j ≤ d + 1 ∧ (x : Int) - y = -((d : Int) + 1) + 2 * j
        ∧ (x : Int) ≤ xAt A B vx3 ((x : Int) - y) := by
  intro x y c hr
  induction hr with
  | start => intro h; omega
  | @diag x y e hr hab ih =>
    intro hc
    obtain ⟨j, hj, hk, hle⟩ := ih hc
    obtain ⟨a, ha, hb⟩ := hab
    have hk2 : ((x + 1 : Nat) : Int) - ((y + 1 : Nat) : Int) = (x : Int) - y := by
      push_cast; ring
    rw [hk2]
    refine ⟨j, hj, hk, ?_⟩
    obtain ⟨hmax, h0, hky, _, _⟩ := hkey j ((x : Int) - y) hj hk
    by_contra hlt
    have hxe : xAt A B vx3 ((x : Int) - y) = x := by push_cast at hlt; omega
    apply hmax
    have hxl : x < A.length := by
      by_contra hn
      rw [List.getElem?_eq_none (by omega)] at ha
      exact Option.noConfusion ha
    have hyl : y < B.length := by
      by_contra hn
      rw [List.getElem?_eq_none (by omega)] at hb
      exact Option.noConfusion hb
    rw [hxe]
    refine ⟨by omega, by omega, ?_⟩
    have e1 : ((x : Int)).toNat = x := by omega
    have e2 : ((x : Int) - ((x : Int) - y)).toNat = y := by omega
    rw [e1, e2, ha, hb]
  | @right x y e hr hx _ =>
    intro hc
    have he : e = d := by omega
    subst he
    obtain ⟨j, hj, hk, hle⟩ := hreach x y hr
    refine ⟨j + 1, by omega, by push_cast; omega, ?_⟩
    obtain ⟨_, _, _, hm1, _⟩ := hkey (j + 1) (((x + 1 : Nat) : Int) - y) (by omega)
      (by push_cast; omega)
    have hm := hm1 (by omega)
    have e1 : ((x + 1 : Nat) : Int) - (y : Int) - 1 = (x : Int) - y := by push_cast; ring
    rw [e1] at hm
    push_cast at hm ⊢
    omega
  | @down x y e hr hy _ =>
    intro hc
    have he : e = d := by omega
    subst he
    obtain ⟨j, hj, hk, hle⟩ := hreach x y hr
    refine ⟨j, by omega, by push_cast; omega, ?_⟩
    obtain ⟨_, _, _, _, hm2⟩ := hkey j ((x : Int) - ((y + 1 : Nat) : Int)) (by omega)
      (by push_cast; omega)
    have hm := hm2 hj
    have e1 : (x : Int) - ((y + 1 : Nat) : Int) + 1 = (x : Int) - y := by push_cast; ring
    rw [e1] at hm
    omega

/-- The round invariant is preserved by a completed round. -/
theorem inv_next (A B : List α) (d : Nat) (vx : List Int)
    (vh : List (List DiffItem)) (hinv : Inv A B d vx vh)
    (vx3 : List Int) (vh3 : List (List DiffItem))
    (hmid : Mid A B (d + 1) (d + 2) vx vh vx3 vh3)
    (hd : d + 1 < A.length + B.length) :
    Inv A B (d + 1) vx3 vh3 := by
  have hcast : (((d + 1 : Nat) : Int)) = (d : Int) + 1 := by push_cast; rfl
  have key := mid_key A B d vx vh hinv vx3 vh3 hmid hd
  have hreach : ∀ (x y : Nat), Reach A B x y (d + 1) →
      ∃ j : Nat, j ≤ d + 1 ∧ (x : Int) - y = -((d : Int) + 1) + 2 * j
        ∧ (x : Int) ≤ xAt A B vx3 ((x : Int) - y) := by
    intro x y hr
    refine reach_next A B d vx vx3 hinv.reach ?_ x y (d + 1) hr rfl
    intro j k hj hk
    obtain ⟨hg, _, hm1, hm2, _⟩ := key j hj k hk
    exact ⟨hg.maximal, hg.nonneg, hg.ynonneg, hm1, hm2⟩
  refine ⟨hmid.lenx, hmid.lenh, ?_, ?_, ?_, ?_, ?_, ?_⟩
  · intro j hj
    rw [hcast]
    obtain ⟨hg, ho, _⟩ := key j hj _ rfl
    exact ⟨hg, ho⟩
  · intro k hk
    have hs := hmid.same k (by intro i hi; push_cast at hk ⊢; omega)
    rw [xAt_congr A B vx vx3 k hs.1]
    exact hinv.unset k (by push_cast at hk; omega)
  · intro j hj k x hk hx hlt
    rw [hcast] at hk ⊢
    obtain ⟨hg, ho, hm1, hm2, hor⟩ := key j hj k hk
    rw [← hx] at hor
    rcases hor with ⟨hjd, hxe⟩ | ⟨hj1, hxe⟩ | ⟨_, hin⟩
    · by_cases hy : (B.length : Int) < x - (k + 1)
      · obtain ⟨j2, hj2, hk2, hle⟩ := hinv.low j hjd (k + 1) x (by omega) hxe hy
        refine ⟨j2 + 1, by omega, by push_cast; omega, ?_⟩
        obtain ⟨_, _, hm1', _, _⟩ := key (j2 + 1) (by omega) (k + 2 * (x - k - B.length))
          (by push_cast; omega)
        have hm := hm1' (by omega)
        have e1 : k + 2 * (x - k - (B.length : Int)) - 1
            = k + 1 + 2 * (x - (k + 1) - (B.length : Int)) := by ring
        rw [e1] at hm
        omega
      · refine ⟨j + 1, by omega, by push_cast; omega, ?_⟩
        obtain ⟨_, _, hm1', _, _⟩ := key (j + 1) (by omega) (k + 2 * (x - k - B.length))
          (by push_cast; omega)
        have hm := hm1' (by omega)
        have e1 : k + 2 * (x - k - (B.length : Int)) - 1 = k + 1 := by omega
        rw [e1] at hm
        omega
    · obtain ⟨j2, hj2, hk2, hle⟩ := hinv.low (j - 1) (by omega) (k - 1)
        (xAt A B vx (k - 1)) (by omega) rfl (by omega)
      refine ⟨j2 + 1, by omega, by push_cast; omega, ?_⟩
      obtain ⟨_, _, hm1', _, _⟩ := key (j2 + 1) (by omega) (k + 2 * (x - k - B.length))
        (by push_cast; omega)
      have hm := hm1' (by omega)
      have e1 : k + 2 * (x - k - (B.length : Int)) - 1
          = k - 1 + 2 * (xAt A B vx (k - 1) - (k - 1) - (B.length : Int)) := by
        rw [hxe]; ring
      rw [e1] at hm
      omega
    · omega
  · intro j hj k x hk hx hlt
    rw [hcast] at hk ⊢
    obtain ⟨hg, ho, hm1, hm2, hor⟩ := key j hj k hk
    rw [← hx] at hor
    rcases hor with ⟨hjd, hxe⟩ | ⟨hj1, hxe⟩ | ⟨hin, _⟩
    · obtain ⟨j2, hj2, hk2, hle⟩ := hinv.high j hjd (k + 1) x (by omega) hxe hlt
      refine ⟨j2, by omega, by omega, ?_⟩
      obtain ⟨_, _, _, hm2', _⟩ := key j2 (by omega) (k - 2 * (x - A.length))
        (by omega)
      have hm := hm2' hj2
      have e1 : k - 2 * (x - (A.length : Int)) + 1
          = k + 1 - 2 * (x - (A.length : Int)) := by ring
      rw [e1] at hm
      omega
    · by_cases hxx : (A.length : Int) < xAt A B vx (k - 1)
      · obtain ⟨j2, hj2, hk2, hle⟩ := hinv.high (j - 1) (by omega) (k - 1)
          (xAt A B vx (k - 1)) (by omega) rfl hxx
        refine ⟨j2, by omega, by omega, ?_⟩
        obtain ⟨_, _, _, hm2', _⟩ := key j2 (by omega) (k - 2 * (x - A.length))
          (by omega)
        have hm := hm2' hj2
        have e1 : k - 2 * (x - (A.length : Int)) + 1
            = k - 1 - 2 * (xAt A B vx (k - 1) - (A.length : Int)) := by
          rw [hxe]; ring
        rw [e1] at hm
        omega
      · refine ⟨j - 1, by omega, by omega, ?_⟩
        obtain ⟨_, _, _, hm2', _⟩ := key (j - 1) (by omega) (k - 2 * (x - A.length))
          (by omega)
        have hm := hm2' (by omega)
        have e1 : k - 2 * (x - (A.length : Int)) + 1 = k - 1 := by omega
        rw [e1] at hm
        omega
    · omega
  · intro x y hr
    rw [hcast]
    exact hreach x y hr
  · intro e he hr
    rcases Nat.lt_or_ge e (d + 1) with hlt | hge
    · exact hinv.noReach e (by omega) hr
    · have he1 : e = d + 1 := by omega
      subst he1
      obtain ⟨j, hj, hk, hle⟩ := hreach _ _ hr
      obtain ⟨_, ho, _⟩ := key j hj _ hk
      apply ho
      constructor <;> omega

/-- Paths without horizontal or vertical edge stay on diagonal `0` and end no
further than a point `t` of that diagonal where no match is possible. -/
theorem reach_zero (A B : List α) (t : Int) (h0 : 0 ≤ t)
    (hmax : ¬ (t < (A.length : Int) ∧ t - 0 < (B.length : Int)
      ∧ A[t.toNat]? = B[(t - 0).toNat]?)) :
    ∀ (x y c : Nat), Reach A B x y c → c = 0 → x = y ∧ (x : Int) ≤ t := by
  intro x y c hr
  induction hr with
  | start => intro _; exact ⟨rfl, by simpa using h0⟩
  | @diag x y e hr hab ih =>
    intro hc
    obtain ⟨hxy, hle⟩ := ih hc
    subst hxy
    obtain ⟨a, ha, hb⟩ := hab
    refine ⟨rfl, ?_⟩
    by_contra hlt
    have hxe : t = x := by push_cast at hlt; omega
    apply hmax
    have hxl : x < A.length := by
      by_contra hn
      rw [List.getElem?_eq_none (by omega)] at ha
      exact Option.noConfusion ha
    have hyl : x < B.length := by
      by_contra hn
      rw [List.getElem?_eq_none (by omega)] at hb
      exact Option.noConfusion hb
    rw [hxe]
    refine ⟨by omega, by omega, ?_⟩
    have e1 : ((x : Int)).toNat = x := by omega
    have e2 : ((x : Int) - 0).toNat = x := by omega
    rw [e1, e2, ha, hb]
  | right _ _ _ => intro hc; omega
  | down _ _ _ => intro hc; omega

/-- Round `0`: the computation ends with a valid script without any change, or the
round invariant holds afterwards. -/
theorem round_zero (A B : List α) (hB : 1 ≤ B.length) :
    (∃ h, diagLoop A B 0 1 0 (List.replicate ((A.length + B.length) * 2 + 1) 0)
          (List.replicate ((A.length + B.length) * 2 + 1) []) = StepOutcome.done h
        ∧ Path A B h A.length B.length 0)
    ∨ (∃ vx vh, diagLoop A B 0 1 0 (List.replicate ((A.length + B.length) * 2 + 1) 0)
          (List.replicate ((A.length + B.length) * 2 + 1) []) = StepOutcome.next vx vh
        ∧ Inv A B 0 vx vh) := by
  have hadv : advance A B 0 0 (List.replicate ((A.length + B.length) * 2 + 1) 0)
      (List.replicate ((A.length + B.length) * 2 + 1) [])
      = stepFrom A B 0 0 0 0 [] [] := by
    apply advance_eq_stepFrom
    · intro h; exact absurd rfl h
    · exact vecRead_replicate _ _ _ (by omega) (by push_cast; omega)
    · intro h; exact absurd rfl h
    · exact vecRead_replicate _ _ _ (by omega) (by push_cast; omega)
  have hstep : stepFrom A B 0 0 0 0 [] [] = snake A B (A.length + 1) 0 0 [] := by
    unfold stepFrom
    simp
  obtain ⟨x2, y2, h2, hs, h1, h3, h4, h5, h6⟩ :=
    snake_spec A B (A.length + 1) 0 0 [] (le_refl _) (le_refl _) (by omega)
      (by push_cast; omega)
  have hy2 : y2 = x2 := by omega
  subst hy2
  have hv : Path A B h2 y2.toNat y2.toNat 0 := by
    have := h6 0 (by simpa using (Path.nil : Path A B [] 0 0 0))
    exact this
  unfold diagLoop
  rw [if_pos (le_refl _)]
  unfold diagStep
  rw [hadv, hstep, hs]
  simp only []
  by_cases hterm : (A.length : Int) ≤ y2 ∧ (B.length : Int) ≤ y2
  · left
    rw [if_pos hterm]
    have hpos : (0 : Int) < y2 := by omega
    have := h4 hpos
    have e1 : y2.toNat = A.length := by omega
    have e2 : y2.toNat = B.length := by omega
    refine ⟨h2, rfl, ?_⟩
    have hv2 := hv
    rw [e2] at hv2
    have e3 : B.length = A.length := by omega
    exact e3 ▸ hv2
  · right
    rw [if_neg hterm]
    have hmax : ¬ (y2 < (A.length : Int) ∧ y2 - 0 < (B.length : Int)
        ∧ A[y2.toNat]? = B[(y2 - 0).toNat]?) := by
      simpa using h5
    have hgrid : y2 ≤ (A.length : Int) ∧ y2 ≤ (B.length : Int) := by
      by_cases hpos : (0 : Int) < y2
      · exact h4 hpos
      · constructor <;> omega
    rw [vecWrite_of_lt _ _ y2 (by omega) (by rw [List.length_replicate]; push_cast; omega),
      vecWrite_of_lt _ _ h2 (by omega) (by rw [List.length_replicate]; push_cast; omega)]
    simp only [diagLoop, add_zero]
    have hlenx : ((List.replicate ((A.length + B.length) * 2 + 1) (0 : Int)).set
        ((A.length : Int) + (B.length : Int)).toNat y2).length
        = 2 * (A.length + B.length) + 1 := by
      rw [List.length_set, List.length_replicate]; omega
    have hlenh : ((List.replicate ((A.length + B.length) * 2 + 1) ([] : List DiffItem)).set
        ((A.length : Int) + (B.length : Int)).toNat h2).length
        = 2 * (A.length + B.length) + 1 := by
      rw [List.length_set, List.length_replicate]; omega
    have hx0 : xAt A B ((List.replicate ((A.length + B.length) * 2 + 1) (0 : Int)).set
        ((A.length : Int) + (B.length : Int)).toNat y2) 0 = y2 := by
      unfold xAt
      simp only [add_zero]
      rw [vecRead_set_self _ _ y2 (by omega) (by rw [List.length_replicate]; push_cast; omega)]
      rfl
    have hh0 : hAt A B ((List.replicate ((A.length + B.length) * 2 + 1)
        ([] : List DiffItem)).set ((A.length : Int) + (B.length : Int)).toNat h2) 0
        = h2 := by
      unfold hAt
      simp only [add_zero]
      rw [vecRead_set_self _ _ h2 (by omega) (by rw [List.length_replicate]; push_cast; omega)]
      rfl
    have hreach : ∀ x y : Nat, Reach A B x y 0 → x = y ∧ (x : Int) ≤ y2 :=
      fun x y hr => reach_zero A B y2 (by omega) hmax x y 0 hr rfl
    refine ⟨_, _, rfl, ⟨hlenx, hlenh, ?_, ?_, ?_, ?_, ?_, ?_⟩⟩
    · intro j hj
      have hj0 : j = 0 := by omega
      subst hj0
      simp only [Nat.cast_zero, neg_zero, mul_zero, add_zero]
      rw [hx0, hh0]
      refine ⟨⟨by omega, by omega, by simp; omega, ?_, hmax⟩, ?_⟩
      · intro _ _
        simpa using hv
      · unfold Open
        simpa using hterm
    · intro k hk
      unfold xAt
      rw [vecRead_set_ne _ _ _ y2 (by omega) (by push_cast at hk; omega)]
      unfold vecRead
      split
      · rw [List.getElem?_replicate]
        split <;> rfl
      · rfl
    · intro j hj k x hk hx hlt
      have hj0 : j = 0 := by omega
      subst hj0
      simp only [Nat.cast_zero, neg_zero, mul_zero, add_zero] at hk
      subst hk
      rw [hx0] at hx
      omega
    · intro j hj k x hk hx hlt
      have hj0 : j = 0 := by omega
      subst hj0
      simp only [Nat.cast_zero, neg_zero, mul_zero, add_zero] at hk
      subst hk
      rw [hx0] at hx
      omega
    · intro x y hr
      obtain ⟨hxy, hle⟩ := hreach x y hr
      subst hxy
      refine ⟨0, le_refl _, by simp, ?_⟩
      simp only [sub_self]
      rw [hx0]
      exact hle
    · intro e he hr
      have he0 : e = 0 := by omega
      subst he0
      obtain ⟨hxy, hle⟩ := hreach _ _ hr
      apply hterm
      constructor <;> omega

theorem mid_start (A B : List α) (e : Nat) (vx : List Int) (vh : List (List DiffItem))
    (hlx : vx.length = 2 * (A.length + B.length) + 1)
    (hlh : vh.length = 2 * (A.length + B.length) + 1) :
    Mid A B e 0 vx vh vx vh :=
  ⟨hlx, hlh, fun _ _ => ⟨rfl, rfl⟩, fun i hi => absurd hi (Nat.not_lt_zero i)⟩

/-- The rounds after round `d`: the computation ends with a valid script whose
number of changes is the least number of horizontal and vertical edges of a path
to `(N, M)`. -/
theorem roundLoop_spec (A B : List α) (hB : 1 ≤ B.length) :
    ∀ (fuel d : Nat) (vx : List Int) (vh : List (List DiffItem)),
      Inv A B d vx vh → d + fuel = A.length + B.length →
      ∃ h e, roundLoop A B fuel (d + 1) vx vh = CalcResult.script h
        ∧ Path A B h A.length B.length e
        ∧ ∀ e2, Reach A B A.length B.length e2 → e ≤ e2 := by
  intro fuel
  induction fuel with
  | zero =>
    intro d vx vh hinv hd
    exfalso
    obtain ⟨hg, ho⟩ := hinv.entry A.length (by omega)
    have := hg.far
    apply ho
    constructor <;> omega
  | succ n ih =>
    intro d vx vh hinv hd
    unfold roundLoop
    have hcast : (((d + 1 : Nat) : Int)) = (d : Int) + 1 := by push_cast; rfl
    have hk0 : -((d : Int) + 1) = -((d : Int) + 1) + 2 * ((0 : Nat) : Int) := by simp
    rw [hcast, hk0]
    rcases diagLoop_mid A B d vx vh hinv (by omega) hB (d + 1 + 1) 0 vx vh
        (mid_start A B (d + 1) vx vh hinv.lenx hinv.lenh) (by omega) (fun _ => Nat.zero_le _)
      with ⟨h, hloop, hv⟩ | ⟨hlt, vx3, vh3, hloop, hmid⟩
    · rw [hloop]
      refine ⟨h, d + 1, rfl, hv, ?_⟩
      intro e2 hr
      by_contra hc
      exact hinv.noReach e2 (by omega) hr
    · rw [hloop]
      simp only []
      exact ih (d + 1) vx3 vh3 (inv_next A B d vx vh hinv vx3 vh3 hmid hlt) (by omega)

/-- `Diff::calculate` on a non-empty modified sequence: it returns a script, the
script is valid for the whole of both sequences, and no path of the edit graph to
`(N, M)` has fewer horizontal and vertical edges than the script has changes. -/
theorem calculate_spec (A B : List α) (hB : 1 ≤ B.length) :
    ∃ h e, calculate A B = CalcResult.script h
      ∧ Path A B h A.length B.length e
      ∧ ∀ e2, Reach A B A.length B.length e2 → e ≤ e2 := by
  unfold calculate
  simp only []
  unfold roundLoop
  simp only [Nat.cast_zero, neg_zero, zero_add]
  rcases round_zero A B hB with ⟨h, hloop, hv⟩ | ⟨vx, vh, hloop, hinv⟩
  · rw [hloop]
    exact ⟨h, 0, rfl, hv, fun _ _ => Nat.zero_le _⟩
  · rw [hloop]
    simp only []
    exact roundLoop_spec A B hB (A.length + B.length) 0 vx vh hinv (by omega)

/-- A history built along a path is a valid script. -/
theorem valid_of_path (A B : List α) (h : List DiffItem) (x y e : Nat)
    (hp : Path A B h x y e) : Valid A B h x y e := by
  induction hp with
  | nil => exact Valid.nil A B
  | equal _ hab ih => exact ih.snoc_equal _ _ rfl rfl hab
  | remove _ _ ih => exact ih.snoc_remove _ _ rfl
  | insert _ _ ih => exact ih.snoc_insert _ _ rfl

/-- A history built along a path gives a path of the edit graph. -/
theorem reach_of_path (A B : List α) (h : List DiffItem) (x y e : Nat)
    (hp : Path A B h x y e) : Reach A B x y e := by
  induction hp with
  | nil => exact Reach.start
  | equal _ hab ih => exact Reach.diag ih hab
  | remove _ hx ih => exact Reach.right ih hx
  | insert _ hy ih => exact Reach.down ih hy

theorem filterMap_range_getElem? (B : List α) :
    ∀ n : Nat, n ≤ B.length → (List.range n).filterMap (fun i => B[i]?) = B.take n := by
  intro n
  induction n with
  | zero => intro _; rfl
  | succ n ih =>
    intro hn
    rw [List.range_succ, List.filterMap_append, ih (by omega), List.take_succ]
    have hlt : n < B.length := by omega
    simp [List.getElem?_eq_getElem hlt]

/-- Replaying a valid script for the whole of both sequences yields the modified
sequence. -/
theorem replay_of_valid (A B : List α) (s : List DiffItem) (x e : Nat)
    (hv : Valid A B s x B.length e) : replay A B s = B := by
  have key : ∀ t : List DiffItem,
      (∀ it ∈ t, it.change = Change.Equal →
        ∃ a, A[it.lineOld]? = some a ∧ B[it.lineNew]? = some a) →
      replay A B t = (modifiedIndices t).filterMap (fun i => B[i]?) := by
    intro t
    induction t with
    | nil => intro _; rfl
    | cons it t ih =>
      intro hsame
      have ih2 := ih (fun it2 h2 => hsame it2 (List.mem_cons_of_mem _ h2))
      unfold replay modifiedIndices at ih2 ⊢
      rcases hc : it.change with _ | _ | _
      · obtain ⟨a, ha, hb⟩ := hsame it (List.mem_cons_self _ _) hc
        simp [List.filterMap_cons, List.filter_cons, hc, ha, hb] at ih2 ⊢
        exact ih2
      · simp [List.filterMap_cons, List.filter_cons, hc] at ih2 ⊢
        exact ih2
      · simp [List.filterMap_cons, List.filter_cons, hc] at ih2 ⊢
        rcases hb : B[it.lineNew]? with _ | b
        · simpa [hb] using ih2
        · simpa [hb] using ih2
  rw [key s hv.same, hv.news, filterMap_range_getElem? B B.length (le_refl _)]
  simp

theorem range_eq_snoc {l : List Nat} {a x : Nat} (h : l ++ [a] = List.range x) :
    ∃ x2, x = x2 + 1 ∧ l = List.range x2 ∧ a = x2 := by
  cases x with
  | zero => simp at h
  | succ x2 =>
    rw [List.range_succ] at h
    obtain ⟨h1, h2⟩ := List.append_inj' h rfl
    exact ⟨x2, rfl, h1, by simpa using h2⟩

/-- A valid script inside the grid is a path of the edit graph. -/
theorem reach_of_valid (A B : List α) (s : List DiffItem) :
    ∀ (x y e : Nat), Valid A B s x y e → x ≤ A.length → y ≤ B.length →
      Reach A B x y e := by
  induction s using List.reverseRecOn with
  | nil =>
    intro x y e hv _ _
    have h1 := hv.olds
    have h2 := hv.news
    have h3 := hv.cost
    simp [originalIndices] at h1
    simp [modifiedIndices] at h2
    simp [editCount] at h3
    have hx : x = 0 := by
      cases x with
      | zero => rfl
      | succ n => simp [List.range_succ] at h1
    have hy : y = 0 := by
      cases y with
      | zero => rfl
      | succ n => simp [List.range_succ] at h2
    subst hx hy h3
    exact Reach.start
  | append_singleton s it ih =>
    intro x y e hv hx hy
    have h1 := hv.olds
    have h2 := hv.news
    have h3 := hv.cost
    have hsame : ∀ it2 ∈ s, it2.change = Change.Equal →
        ∃ a, A[it2.lineOld]? = some a ∧ B[it2.lineNew]? = some a :=
      fun it2 hm => hv.same it2 (List.mem_append_left _ hm)
    unfold originalIndices at h1
    unfold modifiedIndices at h2
    unfold editCount at h3
    rw [List.filter_append, List.map_append] at h1 h2
    rw [List.filter_append, List.length_append] at h3
    rcases hc : it.change with _ | _ | _
    · simp [List.filter_cons, hc] at h1 h2 h3
      obtain ⟨x2, hx2, ho, hio⟩ := range_eq_snoc h1
      obtain ⟨y2, hy2, hn, hin⟩ := range_eq_snoc h2
      subst hx2 hy2
      have hv2 : Valid A B s x2 y2 e :=
        ⟨by simpa [originalIndices] using ho, by simpa [modifiedIndices] using hn, hsame,
          by simpa [editCount] using h3⟩
      have hab := hv.same it (List.mem_append_right _ (List.mem_singleton_self _)) hc
      rw [hio, hin] at hab
      exact Reach.diag (ih x2 y2 e hv2 (by omega) (by omega)) hab
    · simp [List.filter_cons, hc] at h1 h2 h3
      obtain ⟨x2, hx2, ho, hio⟩ := range_eq_snoc h1
      subst hx2
      cases e with
      | zero => omega
      | succ e2 =>
        have hv2 : Valid A B s x2 y e2 :=
          ⟨by simpa [originalIndices] using ho, by simpa [modifiedIndices] using h2, hsame,
            by simp [editCount]; omega⟩
        exact Reach.right (ih x2 y e2 hv2 (by omega) hy) (by omega)
    · simp [List.filter_cons, hc] at h1 h2 h3
      obtain ⟨y2, hy2, hn, hin⟩ := range_eq_snoc h2
      subst hy2
      cases e with
      | zero => omega
      | succ e2 =>
        have hv2 : Valid A B s x y2 e2 :=
          ⟨by simpa [originalIndices] using h1, by simpa [modifiedIndices] using hn, hsame,
            by simp [editCount]; omega⟩
        exact Reach.down (ih x y2 e2 hv2 hx (by omega)) (by omega)

theorem filterMap_eq_pointwise {β γ : Type} (f g : β → Option γ) :
    ∀ l : List β, (∀ b ∈ l, (f b).isSome = (g b).isSome) →
      l.filterMap f = l.filterMap g → ∀ b ∈ l, f b = g b := by
  intro l
  induction l with
  | nil => intro _ _ b hb; simp at hb
  | cons c l ih =>
    intro hsome heq b hb
    have hc := hsome c (List.mem_cons_self _ _)
    rcases hf : f c with _ | u <;> rcases hg : g c with _ | v
    · simp [List.filterMap_cons, hf, hg] at heq
      rcases List.mem_cons.1 hb with h | h
      · subst h; rw [hf, hg]
      · exact ih (fun b hb => hsome b (List.mem_cons_of_mem _ hb)) heq b h
    · simp [hf, hg] at hc
    · simp [hf, hg] at hc
    · simp [List.filterMap_cons, hf, hg] at heq
      rcases List.mem_cons.1 hb with h | h
      · subst h; rw [hf, hg, heq.1]
      · exact ih (fun b hb => hsome b (List.mem_cons_of_mem _ hb)) heq.2 b h

/-- A script that transforms `A` into `B` is a valid script for the whole of both
sequences. -/
theorem valid_of_transforms (A B : List α) (s : List DiffItem) (h : Transforms A B s) :
    Valid A B s A.length B.length (editCount s) := by
  obtain ⟨ho, hn, hr⟩ := h
  refine ⟨ho, hn, ?_, rfl⟩
  have hold : ∀ it ∈ s, it.change ≠ Change.Insert → it.lineOld < A.length := by
    intro it hit hc
    have : it.lineOld ∈ originalIndices s := by
      unfold originalIndices
      exact List.mem_map.2 ⟨it, List.mem_filter.2 ⟨hit, by simpa using hc⟩, rfl⟩
    rw [ho] at this
    exact List.mem_range.1 this
  have hnew : ∀ it ∈ s, it.change ≠ Change.Remove → it.lineNew < B.length := by
    intro it hit hc
    have : it.lineNew ∈ modifiedIndices s := by
      unfold modifiedIndices
      exact List.mem_map.2 ⟨it, List.mem_filter.2 ⟨hit, by simpa using hc⟩, rfl⟩
    rw [hn] at this
    exact List.mem_range.1 this
  have hB : s.filterMap (fun it => if it.change = Change.Remove then none
      else B[it.lineNew]?) = B := by
    have h1 : s.filterMap (fun it => if it.change = Change.Remove then none
        else B[it.lineNew]?) = (modifiedIndices s).filterMap (fun i => B[i]?) := by
      unfold modifiedIndices
      rw [List.filterMap_map]
      clear ho hn hr hold hnew
      induction s with
      | nil => rfl
      | cons it t ih =>
        by_cases hc : it.change = Change.Remove
        · simp [List.filterMap_cons, List.filter_cons, hc] at ih ⊢
          exact ih
        · simp [List.filterMap_cons, List.filter_cons, hc] at ih ⊢
          rcases hb : B[it.lineNew]? with _ | b
          · simpa [hb] using ih
          · simpa [hb] using ih
    rw [h1, hn, filterMap_range_getElem? B B.length (le_refl _)]
    simp
  have hpt := filterMap_eq_pointwise
    (fun it : DiffItem =>
      match it.change with
      | Change.Equal => A[it.lineOld]?
      | Change.Remove => none
      | Change.Insert => B[it.lineNew]?)
    (fun it => if it.change = Change.Remove then none else B[it.lineNew]?) s ?_ ?_
  · intro it hit hc
    have h1 := hpt it hit
    have hlo := hold it hit (by rw [hc]; decide)
    simp [hc] at h1
    refine ⟨A[it.lineOld], List.getElem?_eq_getElem hlo, ?_⟩
    rw [← h1]
    exact List.getElem?_eq_getElem hlo
  · intro it hit
    rcases hc : it.change with _ | _ | _
    · have hlo := hold it hit (by rw [hc]; decide)
      have hln := hnew it hit (by rw [hc]; decide)
      simp [hc, List.getElem?_eq_getElem hlo, List.getElem?_eq_getElem hln]
    · simp [hc]
    · simp [hc]
  · rw [hB]
    exact hr

theorem lcsLength_zero_left (A B : List α) (j : Nat) : lcsLength A B 0 j = 0 := by
  unfold lcsLength; rfl

theorem lcsLength_zero_right (A B : List α) (i : Nat) : lcsLength A B i 0 = 0 := by
  cases i <;> (unfold lcsLength; rfl)

theorem lcsLength_succ (A B : List α) (i j : Nat) :
    lcsLength A B (i + 1) (j + 1)
      = if i < A.length ∧ j < B.length ∧ A[i]? = B[j]? then lcsLength A B i j + 1
        else max (lcsLength A B i (j + 1)) (lcsLength A B (i + 1) j) := by
  rw [lcsLength]

/-- The table of the recurrence grows by at most one from a cell to the next one
in a row or in a column. -/
theorem lcsLength_steps (A B : List α) :
    ∀ (n x y : Nat), x + y = n →
      lcsLength A B x y ≤ lcsLength A B (x + 1) y
      ∧ lcsLength A B x y ≤ lcsLength A B x (y + 1)
      ∧ lcsLength A B (x + 1) y ≤ lcsLength A B x y + 1
      ∧ lcsLength A B x (y + 1) ≤ lcsLength A B x y + 1 := by
  intro n
  induction n using Nat.strong_induction_on with
  | _ n ih =>
    intro x y hxy
    refine ⟨?_, ?_, ?_, ?_⟩
    · cases y with
      | zero => simp [lcsLength_zero_right]
      | succ y2 =>
        have h := ih (x + y2) (by omega) x y2 rfl
        rw [lcsLength_succ]
        split
        · omega
        · exact le_max_left _ _
    · cases x with
      | zero => simp [lcsLength_zero_left]
      | succ x2 =>
        have h := ih (x2 + y) (by omega) x2 y rfl
        rw [lcsLength_succ]
        split
        · omega
        · exact le_max_right _ _
    · cases y with
      | zero => simp [lcsLength_zero_right]
      | succ y2 =>
        have h := ih (x + y2) (by omega) x y2 rfl
        rw [lcsLength_succ]
        split
        · omega
        · apply max_le <;> omega
    · cases x with
      | zero => simp [lcsLength_zero_left]
      | succ x2 =>
        have h := ih (x2 + y) (by omega) x2 y rfl
        rw [lcsLength_succ]
        split
        · omega
        · apply max_le <;> omega

/-- Every path of the edit graph to `(x, y)` has at least `x + y - 2 * LCS` horizontal
and vertical edges. -/
theorem reach_lower (A B : List α) (x y e : Nat) (hr : Reach A B x y e) :
    x + y ≤ e + 2 * lcsLength A B x y := by
  induction hr with
  | start => simp
  | @diag x y e hr hab ih =>
    obtain ⟨a, ha, hb⟩ := hab
    have hxl : x < A.length := by
      by_contra hn
      rw [List.getElem?_eq_none (by omega)] at ha
      exact Option.noConfusion ha
    have hyl : y < B.length := by
      by_contra hn
      rw [List.getElem?_eq_none (by omega)] at hb
      exact Option.noConfusion hb
    rw [lcsLength_succ, if_pos ⟨hxl, hyl, by rw [ha, hb]⟩]
    omega
  | @right x y e hr hx ih =>
    have := (lcsLength_steps A B (x + y) x y rfl).1
    omega
  | @down x y e hr hy ih =>
    have := (lcsLength_steps A B (x + y) x y rfl).2.1
    omega

theorem reach_down_only (A B : List α) : ∀ y : Nat, y ≤ B.length → Reach A B 0 y y := by
  intro y
  induction y with
  | zero => intro _; exact Reach.start
  | succ n ih => intro h; exact Reach.down (ih (by omega)) (by omega)

theorem reach_right_only (A B : List α) : ∀ x : Nat, x ≤ A.length → Reach A B x 0 x := by
  intro x
  induction x with
  | zero => intro _; exact Reach.start
  | succ n ih => intro h; exact Reach.right (ih (by omega)) (by omega)

/-- Some path of the edit graph to `(x, y)` has exactly `x + y - 2 * LCS` horizontal
and vertical edges. -/
theorem reach_exists (A B : List α) :
    ∀ (n x y : Nat), x + y = n → x ≤ A.length → y ≤ B.length →
      ∃ e, Reach A B x y e ∧ e + 2 * lcsLength A B x y = x + y := by
  intro n
  induction n using Nat.strong_induction_on with
  | _ n ih =>
    intro x y hxy hx hy
    cases x with
    | zero =>
      exact ⟨y, reach_down_only A B y hy, by simp [lcsLength_zero_left]⟩
    | succ x2 =>
      cases y with
      | zero =>
        exact ⟨x2 + 1, reach_right_only A B (x2 + 1) hx, by simp [lcsLength_zero_right]⟩
      | succ y2 =>
        rw [lcsLength_succ]
        by_cases hm : x2 < A.length ∧ y2 < B.length ∧ A[x2]? = B[y2]?
        · rw [if_pos hm]
          obtain ⟨e, hr, he⟩ := ih (x2 + y2) (by omega) x2 y2 rfl (by omega) (by omega)
          refine ⟨e, Reach.diag hr ⟨A[x2], List.getElem?_eq_getElem hm.1, ?_⟩, by omega⟩
          rw [← hm.2.2]
          exact List.getElem?_eq_getElem hm.1
        · rw [if_neg hm]
          by_cases hle : lcsLength A B (x2 + 1) y2 ≤ lcsLength A B x2 (y2 + 1)
          · rw [max_eq_left hle]
            obtain ⟨e, hr, he⟩ :=
              ih (x2 + (y2 + 1)) (by omega) x2 (y2 + 1) rfl (by omega) hy
            exact ⟨e + 1, Reach.right hr (by omega), by omega⟩
          · rw [max_eq_right (by omega)]
            obtain ⟨e, hr, he⟩ :=
              ih (x2 + 1 + y2) (by omega) (x2 + 1) y2 rfl hx (by omega)
            exact ⟨e + 1, Reach.down hr (by omega), by omega⟩

/-- A sublist of a list extended by one element either is a sublist of the list or
ends with that element. -/
theorem sublist_snoc_cases {β : Type} (l t : List β) (a : β) (h : l.Sublist (t ++ [a])) :
    l.Sublist t ∨ ∃ l2, l = l2 ++ [a] ∧ l2.Sublist t := by
  obtain ⟨l1, l2, hl, h1, h2⟩ := List.sublist_append_iff.1 h
  rcases List.sublist_singleton.1 h2 with h3 | h3
  · left
    subst h3
    rw [hl, List.append_nil]
    exact h1
  · right
    subst h3
    exact ⟨l1, hl, h1⟩

/-- The recurrence `lcsLength` computes the length of a longest common subsequence
of the first `i` lines of `A` and the first `j` lines of `B`. -/
theorem lcsLength_isLongest (A B : List α) :
    ∀ (n i j : Nat), i + j = n → i ≤ A.length → j ≤ B.length →
      (∃ l : List α, l.Sublist (A.take i) ∧ l.Sublist (B.take j)
        ∧ l.length = lcsLength A B i j)
      ∧ ∀ l : List α, l.Sublist (A.take i) → l.Sublist (B.take j) →
          l.length ≤ lcsLength A B i j := by
  intro n
  induction n using Nat.strong_induction_on with
  | _ n ih =>
    intro i j hij hi hj
    cases i with
    | zero =>
      refine ⟨⟨[], by simp, by simp, by simp [lcsLength_zero_left]⟩, ?_⟩
      intro l h1 _
      simp at h1
      simp [h1]
    | succ i =>
      cases j with
      | zero =>
        refine ⟨⟨[], by simp, by simp, by simp [lcsLength_zero_right]⟩, ?_⟩
        intro l _ h2
        simp at h2
        simp [h2]
      | succ j =>
        have hiA : i < A.length := by omega
        have hjB : j < B.length := by omega
        have eA : A.take (i + 1) = A.take i ++ [A[i]] := by
          rw [List.take_succ, List.getElem?_eq_getElem hiA]; rfl
        have eB : B.take (j + 1) = B.take j ++ [B[j]] := by
          rw [List.take_succ, List.getElem?_eq_getElem hjB]; rfl
        have h00 := ih (i + j) (by omega) i j rfl (by omega) (by omega)
        have h01 := ih (i + (j + 1)) (by omega) i (j + 1) rfl (by omega) hj
        have h10 := ih (i + 1 + j) (by omega) (i + 1) j rfl hi (by omega)
        have hst1 := lcsLength_steps A B (i + (j + 1)) i (j + 1) rfl
        have hst2 := lcsLength_steps A B (i + 1 + j) (i + 1) j rfl
        have subA : (A.take i).Sublist (A.take (i + 1)) := by
          rw [eA]; exact List.sublist_append_left _ _
        have subB : (B.take j).Sublist (B.take (j + 1)) := by
          rw [eB]; exact List.sublist_append_left _ _
        constructor
        · rw [lcsLength_succ]
          by_cases hm : i < A.length ∧ j < B.length ∧ A[i]? = B[j]?
          · rw [if_pos hm]
            obtain ⟨l, h1, h2, h3⟩ := h00.1
            have hab : A[i] = B[j] := by
              have := hm.2.2
              rw [List.getElem?_eq_getElem hiA, List.getElem?_eq_getElem hjB] at this
              exact Option.some.inj this
            refine ⟨l ++ [A[i]], ?_, ?_, by simp [h3]⟩
            · rw [eA]; exact List.Sublist.append h1 (List.Sublist.refl _)
            · rw [eB, hab]; exact List.Sublist.append h2 (List.Sublist.refl _)
          · rw [if_neg hm]
            by_cases hle : lcsLength A B (i + 1) j ≤ lcsLength A B i (j + 1)
            · rw [max_eq_left hle]
              obtain ⟨l, h1, h2, h3⟩ := h01.1
              exact ⟨l, h1.trans subA, h2, h3⟩
            · rw [max_eq_right (by omega)]
              obtain ⟨l, h1, h2, h3⟩ := h10.1
              exact ⟨l, h1, h2.trans subB, h3⟩
        · intro l h1 h2
          have h1' := h1
          have h2' := h2
          rw [eA] at h1'
          rw [eB] at h2'
          rcases sublist_snoc_cases l _ _ h1' with ha | ⟨l1, hl1, ha⟩
          · have := h01.2 l ha h2
            omega
          · rcases sublist_snoc_cases l _ _ h2' with hb | ⟨l2, hl2, hb⟩
            · have := h10.2 l h1 hb
              omega
            · have heq : l1 ++ [A[i]] = l2 ++ [B[j]] := by rw [← hl1, ← hl2]
              obtain ⟨e1, e2⟩ := List.append_inj' heq rfl
              have hab : A[i] = B[j] := by simpa using e2
              subst e1
              have := h00.2 l1 ha hb
              rw [lcsLength_succ, if_pos ⟨hiA, hjB, by
                rw [List.getElem?_eq_getElem hiA, List.getElem?_eq_getElem hjB, hab]⟩]
              rw [hl1]
              simp
              omega

end MyersProofs

/-! ## The scan loop of `Diff::generateUnidiff`: invariant and termination -/

theorem u16_of_lt (n : Nat) (h : n < 65536) : u16 n = n := by
  unfold u16; omega

theorem u32_of_lt (n : Nat) (h : n < 4294967296) : u32 n = n := by
  unfold u32; omega

theorem pred32_of_pos (n : Nat) (h0 : 0 < n) (h : n < 4294967296) : pred32 n = n - 1 := by
  unfold pred32 u32; omega

theorem countChange_self (c : Change) (items : List DiffItem) (a : Nat) :
    countChange c items a a = 0 := by
  simp [countChange]

theorem countChange_le (c : Change) (items : List DiffItem) (a b : Nat) :
    countChange c items a b ≤ b - a := by
  unfold countChange
  refine le_trans (List.countP_le_length _) ?_
  rw [List.length_take]
  exact Nat.min_le_left _ _

theorem countChange_succ (c : Change) (items : List DiffItem) (a b : Nat) (it : DiffItem)
    (hab : a ≤ b) (hit : items[b]? = some it) :
    countChange c items a (b + 1)
      = countChange c items a b + (if it.change = c then 1 else 0) := by
  unfold countChange
  have e : b + 1 - a = (b - a) + 1 := by omega
  rw [e, List.take_succ, List.getElem?_drop]
  have e2 : a + (b - a) = b := by omega
  rw [e2, hit]
  simp [List.countP_append, List.countP_cons]

theorem countChange_head (c : Change) (items : List DiffItem) (a b : Nat) (it : DiffItem)
    (hab : a < b) (hit : items[a]? = some it) :
    countChange c items a b
      = (if it.change = c then 1 else 0) + countChange c items (a + 1) b := by
  unfold countChange
  have hlt : a < items.length := by
    by_contra hn
    rw [List.getElem?_eq_none (by omega)] at hit
    exact Option.noConfusion hit
  have hd : items.drop a = it :: items.drop (a + 1) := by
    rw [List.drop_eq_getElem_cons hlt]
    congr 1
    rw [List.getElem?_eq_getElem hlt] at hit
    exact Option.some.inj hit
  have e : b - a = (b - (a + 1)) + 1 := by omega
  rw [hd, e, List.take_succ_cons, List.countP_cons]
  simp
  omega

/-- The first look-ahead loop: it ends, it passes over unchanged items only, and it
reports a change exactly when it stops on one before the end position. -/
theorem lookAhead_spec (items : List DiffItem) (endPos : Nat)
    (hn : items.length < 65536) (hend : endPos ≤ items.length) :
    ∀ (fuel j hunkEnd equalsCount : Nat), hunkEnd + 1 = j → endPos - j < fuel →
      equalsCount + (endPos - j) < 65536 →
      ∃ found j1,
        lookAhead items endPos fuel j hunkEnd equalsCount
          = some (found, j1, j1 - 1, equalsCount + (j1 - j))
        ∧ j ≤ j1
        ∧ (∀ k, j ≤ k → k < j1 → ∃ it, items[k]? = some it ∧ it.change = Change.Equal)
        ∧ (found = true → j1 < endPos
            ∧ ∃ it, items[j1]? = some it ∧ it.change ≠ Change.Equal)
        ∧ (found = false → j1 = max j endPos) := by
  intro fuel
  induction fuel with
  | zero => intro j hunkEnd equalsCount _ h; omega
  | succ f ih =>
    intro j hunkEnd equalsCount hj hfuel heq
    unfold lookAhead
    by_cases hlt : j < endPos
    · rw [if_pos hlt]
      have hjn : j < items.length := by omega
      rw [List.getElem?_eq_getElem hjn]
      simp only []
      by_cases hc : items[j].change = Change.Equal
      · rw [if_neg (by simpa using hc)]
        rw [u32_of_lt (j + 1) (by omega), u16_of_lt (hunkEnd + 1) (by omega),
          u16_of_lt (equalsCount + 1) (by omega)]
        obtain ⟨found, j1, hs, h1, h2, h3, h4⟩ :=
          ih (j + 1) (hunkEnd + 1) (equalsCount + 1) (by omega) (by omega) (by omega)
        refine ⟨found, j1, ?_, by omega, ?_, h3, ?_⟩
        · rw [hs]
          have : equalsCount + 1 + (j1 - (j + 1)) = equalsCount + (j1 - j) := by omega
          rw [this]
        · intro k hk1 hk2
          by_cases hkj : k = j
          · subst hkj
            exact ⟨items[k], List.getElem?_eq_getElem hjn, hc⟩
          · exact h2 k (by omega) hk2
        · intro hf
          have := h4 hf
          omega
      · rw [if_pos (by simpa using hc)]
        refine ⟨true, j, ?_, le_refl _, ?_, ?_, ?_⟩
        · have e1 : j - 1 = hunkEnd := by omega
          simp [e1]
        · intro k hk1 hk2; omega
        · intro _
          exact ⟨hlt, items[j], List.getElem?_eq_getElem hjn, hc⟩
        · intro hf; exact absurd hf (by simp)
    · rw [if_neg hlt]
      refine ⟨false, j, ?_, le_refl _, ?_, ?_, ?_⟩
      · have e1 : j - 1 = hunkEnd := by omega
        simp [e1]
      · intro k hk1 hk2; omega
      · intro hf; exact absurd hf (by simp)
      · intro _; omega

/-- The second look-ahead loop: it ends, and it keeps the hunk open only when the
items from its start to the end position are unchanged and the item at the end
position is a change. -/
theorem mergeCheck_spec (items : List DiffItem) (endPos : Nat)
    (hn : items.length < 4294967296) (hend : endPos ≤ items.length) :
    ∀ (fuel j : Nat) (b : Bool), endPos - j < fuel →
      ∃ m j2, mergeCheck items items.length endPos fuel j b = some (m, j2)
        ∧ (m = true → b = true
            ∨ (j < endPos ∧ endPos < items.length
              ∧ (∀ k, j ≤ k → k < endPos →
                  ∃ it, items[k]? = some it ∧ it.change = Change.Equal)
              ∧ ∃ it, items[endPos]? = some it ∧ it.change ≠ Change.Equal)) := by
  intro fuel
  induction fuel with
  | zero => intro j b h; omega
  | succ f ih =>
    intro j b hfuel
    unfold mergeCheck
    by_cases hlt : j < endPos
    · rw [if_pos hlt]
      have hjn : j < items.length := by omega
      rw [List.getElem?_eq_getElem hjn]
      simp only []
      by_cases hc : items[j].change = Change.Equal
      · rw [if_neg (by simpa using hc)]
        rw [u32_of_lt (j + 1) (by omega), pred32_of_pos endPos (by omega) (by omega)]
        by_cases hlast : j = endPos - 1 ∧ j + 1 < items.length
        · rw [if_pos hlast]
          have hj1 : j + 1 < items.length := hlast.2
          rw [List.getElem?_eq_getElem hj1]
          simp only []
          obtain ⟨m, j2, hs, hm⟩ :=
            ih (j + 1) (if items[j + 1].change ≠ Change.Equal then true else b) (by omega)
          refine ⟨m, j2, hs, ?_⟩
          intro hmt
          rcases hm hmt with h | h
          · by_cases hnx : items[j + 1].change = Change.Equal
            · left; simpa [hnx] using h
            · right
              have he : endPos = j + 1 := by omega
              refine ⟨hlt, by omega, ?_, ?_⟩
              · intro k hk1 hk2
                have : k = j := by omega
                subst this
                exact ⟨items[k], List.getElem?_eq_getElem hjn, hc⟩
              · rw [he]
                exact ⟨items[j + 1], List.getElem?_eq_getElem hj1, hnx⟩
          · omega
        · rw [if_neg hlast]
          obtain ⟨m, j2, hs, hm⟩ := ih (j + 1) b (by omega)
          refine ⟨m, j2, hs, ?_⟩
          intro hmt
          rcases hm hmt with h | ⟨h1, h2, h3, h4⟩
          · exact Or.inl h
          · right
            refine ⟨hlt, h2, ?_, h4⟩
            intro k hk1 hk2
            by_cases hkj : k = j
            · subst hkj
              exact ⟨items[k], List.getElem?_eq_getElem hjn, hc⟩
            · exact h3 k (by omega) hk2
      · rw [if_pos (by simpa using hc)]
        exact ⟨b, j, rfl, fun h => Or.inl h⟩
    · rw [if_neg hlt]
      exact ⟨b, j, rfl, fun h => Or.inl h⟩

theorem countP_three (l : List DiffItem) :
    l.countP (fun it => decide (it.change = Change.Equal))
      + l.countP (fun it => decide (it.change = Change.Remove))
      + l.countP (fun it => decide (it.change = Change.Insert)) = l.length := by
  induction l with
  | nil => rfl
  | cons it t ih =>
    rcases hc : it.change with _ | _ | _ <;> simp [List.countP_cons, hc] <;> omega

theorem countChange_sum_le (items : List DiffItem) (a b : Nat) :
    countChange Change.Equal items a b + countChange Change.Remove items a b
      + countChange Change.Insert items a b ≤ b - a := by
  unfold countChange
  rw [countP_three, List.length_take]
  exact Nat.min_le_left _ _

/-- Tallies over a range extended by a run of unchanged items. -/
theorem countChange_equal_run (items : List DiffItem) (a i : Nat) (hai : a ≤ i) :
    ∀ (m : Nat),
      (∀ k, i ≤ k → k < i + m → ∃ it, items[k]? = some it ∧ it.change = Change.Equal) →
      countChange Change.Equal items a (i + m) = countChange Change.Equal items a i + m
      ∧ countChange Change.Remove items a (i + m) = countChange Change.Remove items a i
      ∧ countChange Change.Insert items a (i + m) = countChange Change.Insert items a i := by
  intro m
  induction m with
  | zero => intro _; simp
  | succ m ih =>
    intro h
    obtain ⟨h1, h2, h3⟩ := ih (fun k hk1 hk2 => h k hk1 (by omega))
    obtain ⟨it, hit, hc⟩ := h (i + m) (by omega) (by omega)
    have e : i + (m + 1) = i + m + 1 := by omega
    rw [e, countChange_succ _ items a (i + m) it (by omega) hit,
      countChange_succ _ items a (i + m) it (by omega) hit,
      countChange_succ _ items a (i + m) it (by omega) hit, h1, h2, h3]
    simp [hc]
    omega

/-- An unchanged item inside a hunk: the hunk printed, if any, is well formed, and
when the loop goes on the invariant holds again and the measure has decreased. -/
theorem closeHunk_spec (items : List DiffItem) (C : Nat) (hn : items.length < 65536)
    (hC : C < 4294967296) (s : ScanState) (hinv : ScanInv items s)
    (hi : s.i < items.length) (hh : s.isHunk = true) (it : DiffItem)
    (hit : items[s.i]? = some it) (hc : it.change = Change.Equal) :
    ∃ s2 hs ex, closeHunk items C items.length s = some (s2, hs, ex)
      ∧ (∀ h ∈ hs, HunkOK items h)
      ∧ (ex = BodyExit.goOn → ScanInv items (nextIteration s2)
          ∧ scanMeasure items (nextIteration s2) < scanMeasure items s) := by
  obtain ⟨hEnd, hStart⟩ := hinv.inHunk hh
  have hsum := countChange_sum_le items s.hunkStart s.i
  have heq := hinv.equals
  have hrem := hinv.removes
  have hins := hinv.inserts
  have hend1 : min (u32 (s.hunkEnd + C + 1)) items.length ≤ items.length :=
    Nat.min_le_right _ _
  obtain ⟨found, j1, hla, hj1, hrun, hfound, hnot⟩ :=
    lookAhead_spec items (min (u32 (s.hunkEnd + C + 1)) items.length) hn hend1
      (items.length + 1) (s.hunkEnd + 1) s.hunkEnd s.equalsCount rfl (by omega) (by omega)
  have hj1n : j1 ≤ items.length := by
    cases found with
    | true => have := (hfound rfl).1; omega
    | false => have := hnot rfl; omega
  -- tallies of the range `[hunkStart, j1)`
  have hcount := countChange_equal_run items s.hunkStart s.i (by omega) (j1 - s.i)
    (fun k hk1 hk2 => hrun k (by omega) (by omega))
  have ej : s.i + (j1 - s.i) = j1 := by omega
  rw [ej] at hcount
  obtain ⟨hc1, hc2, hc3⟩ := hcount
  have hsum1 := countChange_sum_le items s.hunkStart j1
  have hpred : pred32 j1 = j1 - 1 := pred32_of_pos j1 (by omega) (by omega)
  have hpredn : pred32 items.length = items.length - 1 :=
    pred32_of_pos _ (by omega) (by omega)
  have hok : HunkOK items
      ⟨s.hunkStart, j1 - 1, u16 (s.equalsCount + (j1 - (s.hunkEnd + 1)) + s.removesCount),
        u16 (s.equalsCount + (j1 - (s.hunkEnd + 1)) + s.insertsCount)⟩ := by
    have e1 : j1 - 1 + 1 = j1 := by omega
    refine ⟨by simp; omega, by simp; omega, ?_, ?_⟩
    · simp only [e1]
      rw [u16_of_lt _ (by omega), hc1, hc2]
      omega
    · simp only [e1]
      rw [u16_of_lt _ (by omega), hc1, hc3]
      omega
  have hnextH : ∀ (s3 : ScanState), s3.isHunk = true → s3.hunkStart = s.hunkStart →
      s3.hunkEnd = j1 - 1 → s3.i = j1 - 1 →
      s3.equalsCount = s.equalsCount + (j1 - (s.hunkEnd + 1)) →
      s3.removesCount = s.removesCount → s3.insertsCount = s.insertsCount →
      ScanInv items (nextIteration s3) := by
    intro s3 h1 h2 h3 h4 h5 h6 h7
    have ei : u32 (s3.i + 1) = j1 := by rw [h4, u32_of_lt _ (by omega)]; omega
    refine ⟨?_, ?_, ?_, ?_, ?_, ?_, ?_⟩
    · simp only [nextIteration, ei, h2]; omega
    · simp only [nextIteration, ei]; exact hj1n
    · simp only [nextIteration, ei, h2, h5, hc1]; omega
    · simp only [nextIteration, ei, h2, h6, hc2]; omega
    · simp only [nextIteration, ei, h2, h7, hc3]; omega
    · intro _
      simp only [nextIteration, ei, h2, h3]; omega
    · intro hf
      simp only [nextIteration] at hf
      rw [h1] at hf
      exact absurd hf (by simp)
  unfold closeHunk
  simp only []
  rw [hla]
  simp only []
  by_cases hbrk : j1 = pred32 items.length
  · rw [if_pos hbrk]
    refine ⟨_, _, BodyExit.breakLoop, rfl, ?_, fun h => absurd h (by simp)⟩
    intro h hmem
    simp only [List.mem_singleton] at hmem
    subst hmem
    exact hok
  · rw [if_neg hbrk]
    cases found with
    | true =>
      simp only [if_true]
      refine ⟨_, _, BodyExit.goOn, rfl, fun h hm => absurd hm (List.not_mem_nil _), fun _ => ?_⟩
      obtain ⟨hlt, it2, hit2, hne⟩ := hfound rfl
      have hgt : s.i < j1 := by
        rcases Nat.lt_or_ge s.i j1 with h | h
        · exact h
        · have : j1 = s.i := by omega
          rw [this, hit] at hit2
          have := Option.some.inj hit2
          rw [← this] at hne
          exact absurd hc hne
      refine ⟨hnextH _ rfl rfl rfl (by simp [hpred]) rfl rfl rfl, ?_⟩
      simp only [scanMeasure, nextIteration, hpred, hh, if_true]
      rw [u32_of_lt _ (by omega)]
      omega
    | false =>
      simp only [Bool.false_eq_true, if_false]
      have hend2 : min (u32 (min (u32 (s.hunkEnd + C + 1)) items.length + C)) items.length
          ≤ items.length := Nat.min_le_right _ _
      obtain ⟨m, j2, hmc, hm⟩ :=
        mergeCheck_spec items
          (min (u32 (min (u32 (s.hunkEnd + C + 1)) items.length + C)) items.length)
          (by omega) hend2 (items.length + 1) (pred32 j1) false (by omega)
      rw [hmc]
      simp only []
      cases m with
      | true =>
        simp only [if_true]
        refine ⟨_, _, BodyExit.goOn, rfl, fun h hm => absurd hm (List.not_mem_nil _),
          fun _ => ?_⟩
        have hgt : s.i < j1 := by
          rcases hm rfl with h | ⟨h1, h2, h3, it2, hit2, hne⟩
          · exact absurd h (by simp)
          · by_contra hle
            have hji : j1 = s.i := by omega
            have hmax := hnot rfl
            rw [hpred, hji] at h1
            have hne2 : min (u32 (min (u32 (s.hunkEnd + C + 1)) items.length + C))
                items.length ≠ s.i := by
              intro he
              rw [he, hit] at hit2
              have := Option.some.inj hit2
              rw [← this] at hne
              exact absurd hc hne
            have hu1 : u32 (s.hunkEnd + C + 1) = (s.hunkEnd + C + 1) % 4294967296 := rfl
            have hu2 : u32 (min (u32 (s.hunkEnd + C + 1)) items.length + C)
                = (min (u32 (s.hunkEnd + C + 1)) items.length + C) % 4294967296 := rfl
            rw [hu2] at h1 h2 hne2
            rw [hu1] at h1 h2 hne2 hmax
            omega
        refine ⟨hnextH _ rfl rfl rfl (by simp [hpred]) rfl rfl rfl, ?_⟩
        simp only [scanMeasure, nextIteration, hpred, hh, if_true]
        rw [u32_of_lt _ (by omega)]
        omega
      | false =>
        simp only [Bool.false_eq_true, if_false]
        have ehs : u16 (j1 - 1 + 1) = j1 := by rw [u16_of_lt _ (by omega)]; omega
        have hfin : finalCheck items.length
            { isHunk := false, hunkStart := u16 (j1 - 1 + 1), hunkEnd := j1 - 1,
              linesCount := 0, equalsCount := 0, removesCount := 0, insertsCount := 0,
              endPos := min (u32 (min (u32 (s.hunkEnd + C + 1)) items.length + C))
                items.length,
              i := pred32 (u16 (j1 - 1 + 1)), j := u32 (pred32 (u16 (j1 - 1 + 1)) + 1) }
            = [] := by
          unfold finalCheck
          simp only [ehs, hpred, hpredn]
          rw [if_neg (by omega)]
        refine ⟨_, _, BodyExit.goOn, rfl, ?_, fun _ => ⟨?_, ?_⟩⟩
        · intro h hmem
          rw [hfin] at hmem
          simp only [List.mem_singleton] at hmem
          subst hmem
          exact hok
        · have ei : u32 (pred32 j1 + 1) = j1 := by
            rw [hpred, u32_of_lt _ (by omega)]; omega
          refine ⟨?_, ?_, ?_, ?_, ?_, ?_, ?_⟩
          · simp only [nextIteration, ehs, ei]; exact le_refl _
          · simp only [nextIteration, ehs, ei]; exact hj1n
          · simp only [nextIteration, ehs, ei, countChange_self]
          · simp only [nextIteration, ehs, ei, countChange_self]
          · simp only [nextIteration, ehs, ei, countChange_self]
          · intro hf
            simp only [nextIteration] at hf
            exact absurd hf (by simp)
          · intro _ k hk1 hk2
            simp only [nextIteration, ehs, ei] at hk1 hk2
            omega
        · simp only [scanMeasure, nextIteration, ehs, hpred, hh, if_true]
          rw [u32_of_lt _ (by omega)]
          simp
          omega

theorem u16_pred_succ (i : Nat) (h : i < 65536) : u16 (u16 (pred32 i) + 1) = i := by
  unfold u16 pred32 u32
  omega

/-- One iteration of the scan loop: the hunks printed are well formed, and when the
loop goes on the invariant holds again and the measure has decreased. -/
theorem scanBody_spec (items : List DiffItem) (C : Nat) (hn : items.length < 65536)
    (hC : C < 4294967296) (s : ScanState) (hinv : ScanInv items s)
    (hi : s.i < items.length) :
    ∃ s2 hs ex, scanBody items C items.length s = some (s2, hs, ex)
      ∧ (∀ h ∈ hs, HunkOK items h)
      ∧ (ex = BodyExit.goOn → ScanInv items (nextIteration s2)
          ∧ scanMeasure items (nextIteration s2) < scanMeasure items s) := by
  have hit : items[s.i]? = some items[s.i] := List.getElem?_eq_getElem hi
  have hsum := countChange_sum_le items s.hunkStart s.i
  have hsum1 := countChange_sum_le items s.hunkStart (s.i + 1)
  have hs1 := countChange_succ Change.Equal items s.hunkStart s.i _ hinv.start_le hit
  have hs2 := countChange_succ Change.Remove items s.hunkStart s.i _ hinv.start_le hit
  have hs3 := countChange_succ Change.Insert items s.hunkStart s.i _ hinv.start_le hit
  have heq := hinv.equals
  have hrem := hinv.removes
  have hins := hinv.inserts
  have hstart := hinv.start_le
  have hu : u32 (s.i + 1) = s.i + 1 := u32_of_lt _ (by omega)
  -- a changed item, inside or outside a hunk
  have hchange : ∀ (s1 : ScanState), s1.hunkStart = s.hunkStart → s1.i = s.i →
      s1.equalsCount = s.equalsCount → s1.removesCount = s.removesCount →
      s1.insertsCount = s.insertsCount → u16 (s1.hunkEnd + 1) = s.i →
      items[s.i].change ≠ Change.Equal →
      ∀ (s2 : ScanState), s2.isHunk = true → s2.hunkStart = s.hunkStart → s2.i = s.i →
        s2.hunkEnd = s.i → s2.equalsCount = s.equalsCount →
        s2.removesCount
          = s.removesCount + (if items[s.i].change = Change.Remove then 1 else 0) →
        s2.insertsCount
          = s.insertsCount + (if items[s.i].change = Change.Insert then 1 else 0) →
        (∀ h ∈ finalCheck items.length s2, HunkOK items h)
          ∧ ScanInv items (nextIteration s2)
          ∧ scanMeasure items (nextIteration s2) < scanMeasure items s := by
    intro s1 _ _ _ _ _ _ hne s2 h1 h2 h3 h4 h5 h6 h7
    have hne' : ¬ items[s.i].change = Change.Equal := hne
    simp only [hne', if_false, Nat.add_zero] at hs1
    refine ⟨?_, ⟨?_, ?_, ?_, ?_, ?_, ?_, ?_⟩, ?_⟩
    · intro h hmem
      unfold finalCheck at hmem
      split at hmem
      · simp only [List.mem_singleton] at hmem
        subst hmem
        refine ⟨?_, ?_, ?_, ?_⟩
        · show s2.hunkStart ≤ s2.hunkEnd
          rw [h2, h4]; exact hstart
        · show s2.hunkEnd < items.length
          rw [h4]; exact hi
        · show u16 (s2.equalsCount + s2.removesCount)
            = countChange Change.Equal items s2.hunkStart (s2.hunkEnd + 1)
              + countChange Change.Remove items s2.hunkStart (s2.hunkEnd + 1)
          rw [h2, h4, h5, h6, u16_of_lt _ (by split <;> omega)]
          omega
        · show u16 (s2.equalsCount + s2.insertsCount)
            = countChange Change.Equal items s2.hunkStart (s2.hunkEnd + 1)
              + countChange Change.Insert items s2.hunkStart (s2.hunkEnd + 1)
          rw [h2, h4, h5, h7, u16_of_lt _ (by split <;> omega)]
          omega
      · exact absurd hmem (List.not_mem_nil _)
    · simp only [nextIteration, h2, h3, hu]; omega
    · simp only [nextIteration, h3, hu]; omega
    · simp only [nextIteration, h2, h3, hu, h5]; omega
    · simp only [nextIteration, h2, h3, hu, h6]; omega
    · simp only [nextIteration, h2, h3, hu, h7]; omega
    · intro _
      refine ⟨?_, ?_⟩ <;> simp only [nextIteration, h2, h3, hu, h4] <;> omega
    · intro hf
      simp only [nextIteration] at hf
      rw [h1] at hf
      exact absurd hf (by simp)
    · simp only [scanMeasure, nextIteration, h1, h3, hu, if_true]
      split <;> omega
  unfold scanBody
  rw [hit]
  simp only []
  cases hh : s.isHunk with
  | true =>
    simp only [if_true, hh]
    obtain ⟨hEnd, _⟩ := hinv.inHunk hh
    rcases hc : items[s.i].change with _ | _ | _
    · simp only []
      exact closeHunk_spec items C hn hC s hinv hi hh _ hit hc
    · simp only []
      have := hchange s rfl rfl rfl rfl rfl (by rw [hEnd, u16_of_lt _ (by omega)])
        (by rw [hc]; decide)
        { s with isHunk := true, hunkEnd := u16 (s.hunkEnd + 1),
                 removesCount := u16 (s.removesCount + 1) }
        rfl rfl rfl (by simp only []; rw [hEnd, u16_of_lt _ (by omega)]) rfl
        (by simp only [hc, if_true]; rw [u16_of_lt _ (by rw [hc] at hs2; simp at hs2; omega)])
        (by simp [hc])
      exact ⟨_, _, BodyExit.goOn, rfl, this.1, fun _ => this.2⟩
    · simp only []
      have := hchange s rfl rfl rfl rfl rfl (by rw [hEnd, u16_of_lt _ (by omega)])
        (by rw [hc]; decide)
        { s with isHunk := true, hunkEnd := u16 (s.hunkEnd + 1),
                 insertsCount := u16 (s.insertsCount + 1) }
        rfl rfl rfl (by simp only []; rw [hEnd, u16_of_lt _ (by omega)]) rfl
        (by simp [hc])
        (by simp only [hc, if_true]; rw [u16_of_lt _ (by rw [hc] at hs3; simp at hs3; omega)])
      exact ⟨_, _, BodyExit.goOn, rfl, this.1, fun _ => this.2⟩
  | false =>
    simp only [Bool.false_eq_true, if_false]
    have hout := hinv.outside hh
    rcases hc : items[s.i].change with _ | _ | _
    · -- an unchanged item outside a hunk
      simp only [ne_eq, not_true_eq_false, if_false]
      have hs1' : countChange Change.Equal items s.hunkStart (s.i + 1)
          = countChange Change.Equal items s.hunkStart s.i + 1 := by
        rw [hs1, hc]; simp
      have hs2' : countChange Change.Remove items s.hunkStart (s.i + 1)
          = countChange Change.Remove items s.hunkStart s.i := by
        rw [hs2, hc]; simp
      have hs3' : countChange Change.Insert items s.hunkStart (s.i + 1)
          = countChange Change.Insert items s.hunkStart s.i := by
        rw [hs3, hc]; simp
      by_cases hl : C ≤ s.linesCount
      · simp only [hl, if_true, hh, Bool.false_eq_true, if_false]
        refine ⟨_, _, BodyExit.goOn, rfl, fun h hm => absurd hm (List.not_mem_nil _),
          fun _ => ⟨?_, ?_⟩⟩
        · have hus : u16 (s.hunkStart + 1) = s.hunkStart + 1 := u16_of_lt _ (by omega)
          have hfirst : ∃ it, items[s.hunkStart]? = some it ∧ it.change = Change.Equal := by
            by_cases hlt : s.hunkStart < s.i
            · exact hout s.hunkStart (le_refl _) hlt
            · have : s.hunkStart = s.i := by omega
              rw [this]
              exact ⟨_, hit, hc⟩
          obtain ⟨it0, hit0, hc0⟩ := hfirst
          have hh1 := countChange_head Change.Equal items s.hunkStart (s.i + 1) it0
            (by omega) hit0
          have hh2 := countChange_head Change.Remove items s.hunkStart (s.i + 1) it0
            (by omega) hit0
          have hh3 := countChange_head Change.Insert items s.hunkStart (s.i + 1) it0
            (by omega) hit0
          simp only [hc0, if_true] at hh1
          simp [hc0] at hh2 hh3
          refine ⟨?_, ?_, ?_, ?_, ?_, ?_, ?_⟩
          · simp only [nextIteration, hu, hus]; omega
          · simp only [nextIteration, hu]; omega
          · simp only [nextIteration, hu, hus]; omega
          · simp only [nextIteration, hu, hus]; omega
          · simp only [nextIteration, hu, hus]; omega
          · intro hf
            simp only [nextIteration] at hf
            exact absurd hf (by simp)
          · intro _ k hk1 hk2
            simp only [nextIteration, hu, hus] at hk1 hk2
            by_cases hki : k = s.i
            · rw [hki]; exact ⟨_, hit, hc⟩
            · exact hout k (by omega) (by omega)
        · simp only [scanMeasure, nextIteration, hu, hh]
          simp
          omega
      · simp only [hl, if_false, hh, Bool.false_eq_true]
        refine ⟨_, _, BodyExit.goOn, rfl, fun h hm => absurd hm (List.not_mem_nil _),
          fun _ => ⟨?_, ?_⟩⟩
        · have hue : u16 (s.equalsCount + 1) = s.equalsCount + 1 := u16_of_lt _ (by omega)
          refine ⟨?_, ?_, ?_, ?_, ?_, ?_, ?_⟩
          · simp only [nextIteration, hu]; omega
          · simp only [nextIteration, hu]; omega
          · simp only [nextIteration, hu, hue]; omega
          · simp only [nextIteration, hu]; omega
          · simp only [nextIteration, hu]; omega
          · intro hf
            simp only [nextIteration] at hf
            exact absurd hf (by simp)
          · intro _ k hk1 hk2
            simp only [nextIteration, hu] at hk1 hk2
            by_cases hki : k = s.i
            · rw [hki]; exact ⟨_, hit, hc⟩
            · exact hout k (by omega) (by omega)
        · simp only [scanMeasure, nextIteration, hu, hh]
          simp
          omega
    · simp only [ne_eq, reduceCtorEq, not_false_eq_true, if_true]
      have hrz : s.removesCount = 0 ∧ s.insertsCount = 0 := by
        have := countChange_equal_run items s.hunkStart s.hunkStart (le_refl _)
          (s.i - s.hunkStart) (fun k hk1 hk2 => hout k hk1 (by omega))
        have e : s.hunkStart + (s.i - s.hunkStart) = s.i := by omega
        rw [e] at this
        simp only [countChange_self] at this
        omega
      have := hchange { s with isHunk := true, hunkEnd := u16 (pred32 s.i) }
        rfl rfl rfl rfl rfl (u16_pred_succ s.i (by omega)) (by rw [hc]; decide)
        { s with isHunk := true, hunkEnd := u16 (u16 (pred32 s.i) + 1),
                 removesCount := u16 (s.removesCount + 1) }
        rfl rfl rfl (u16_pred_succ s.i (by omega)) rfl
        (by simp only [hc, if_true]; rw [u16_of_lt _ (by omega)])
        (by simp [hc])
      exact ⟨_, _, BodyExit.goOn, rfl, this.1, fun _ => this.2⟩
    · simp only [ne_eq, reduceCtorEq, not_false_eq_true, if_true]
      have hrz : s.removesCount = 0 ∧ s.insertsCount = 0 := by
        have := countChange_equal_run items s.hunkStart s.hunkStart (le_refl _)
          (s.i - s.hunkStart) (fun k hk1 hk2 => hout k hk1 (by omega))
        have e : s.hunkStart + (s.i - s.hunkStart) = s.i := by omega
        rw [e] at this
        simp only [countChange_self] at this
        omega
      have := hchange { s with isHunk := true, hunkEnd := u16 (pred32 s.i) }
        rfl rfl rfl rfl rfl (u16_pred_succ s.i (by omega)) (by rw [hc]; decide)
        { s with isHunk := true, hunkEnd := u16 (u16 (pred32 s.i) + 1),
                 insertsCount := u16 (s.insertsCount + 1) }
        rfl rfl rfl (u16_pred_succ s.i (by omega)) rfl
        (by simp [hc])
        (by simp only [hc, if_true]; rw [u16_of_lt _ (by omega)])
      exact ⟨_, _, BodyExit.goOn, rfl, this.1, fun _ => this.2⟩

/-- The scan loop ends within the measure of its state, and every hunk it prints is
well formed. -/
theorem scanLoop_spec (items : List DiffItem) (C : Nat) (hn : items.length < 65536)
    (hC : C < 4294967296) :
    ∀ (fuel : Nat) (s : ScanState), ScanInv items s → scanMeasure items s < fuel →
      ∃ hs, scanLoop items C items.length fuel s = some hs ∧ ∀ h ∈ hs, HunkOK items h := by
  intro fuel
  induction fuel with
  | zero => intro s _ h; omega
  | succ f ih =>
    intro s hinv hm
    unfold scanLoop
    by_cases hi : s.i < items.length
    · rw [if_pos hi]
      obtain ⟨s2, hs, ex, hb, hok, hgo⟩ := scanBody_spec items C hn hC s hinv hi
      rw [hb]
      cases ex with
      | breakLoop => exact ⟨hs, rfl, hok⟩
      | goOn =>
        obtain ⟨hinv2, hlt⟩ := hgo rfl
        obtain ⟨rest, hr, hokr⟩ := ih (nextIteration s2) hinv2 (by omega)
        simp only [hr]
        refine ⟨hs ++ rest, rfl, ?_⟩
        intro h hmem
        rcases List.mem_append.1 hmem with h1 | h1
        · exact hok h h1
        · exact hokr h h1
    · rw [if_neg hi]
      exact ⟨[], rfl, fun h hm => absurd hm (List.not_mem_nil _)⟩

theorem scanInv_initial (items : List DiffItem) : ScanInv items initialScan := by
  refine ⟨le_refl _, Nat.zero_le _, ?_, ?_, ?_, ?_, ?_⟩
  · simp [initialScan, countChange_self]
  · simp [initialScan, countChange_self]
  · simp [initialScan, countChange_self]
  · intro h; simp [initialScan] at h
  · intro _ k hk1 hk2
    simp [initialScan] at hk2

/-- `Diff::generateUnidiff` assembles hunks for every script of fewer than 65536
operations, and every hunk is well formed. -/
theorem unidiffHunks_spec (items : List DiffItem) (C : Nat) (hn : items.length < 65536)
    (hC : C < 4294967296) :
    ∃ hs, unidiffHunks items C = some hs ∧ ∀ h ∈ hs, HunkOK items h := by
  unfold unidiffHunks
  simp only []
  rw [u32_of_lt items.length (by omega)]
  exact scanLoop_spec items C hn hC _ _ (scanInv_initial items)
    (by simp [scanMeasure, initialScan])

theorem countP_or_eq (l : List DiffItem) (c1 c2 : Change) (hne : c1 ≠ c2) :
    l.countP (fun it => decide (it.change = c1 ∨ it.change = c2))
      = l.countP (fun it => decide (it.change = c1))
        + l.countP (fun it => decide (it.change = c2)) := by
  induction l with
  | nil => rfl
  | cons it t ih =>
    simp only [List.countP_cons, ih]
    by_cases h1 : it.change = c1
    · have h2 : ¬ it.change = c2 := fun h => hne (h1.symm.trans h)
      have h3 : ¬ c1 = c2 := hne
      simp [h1, h3]
      omega
    · by_cases h2 : it.change = c2
      · have h3 : ¬ c2 = c1 := fun h => hne h.symm
        simp [h2, h3]
        omega
      · simp [h1, h2]


/-! ## The scan loop of `Diff::generateUnidiff`: runs of items -/

theorem scanLoop_mono (items : List DiffItem) (C n : Nat) :
    ∀ (f : Nat) (s : ScanState) (r : List HunkCall),
      scanLoop items C n f s = some r → ∀ k, scanLoop items C n (f + k) s = some r := by
  intro f
  induction f with
  | zero => intro s r h; simp [scanLoop] at h
  | succ f ih =>
    intro s r h k
    have e : f + 1 + k = (f + k) + 1 := by omega
    rw [e]
    unfold scanLoop at h ⊢
    by_cases hi : s.i < n
    · rw [if_pos hi] at h ⊢
      rcases hb : scanBody items C n s with _ | ⟨s2, hs, ex⟩
      · rw [hb] at h; simp at h
      · rw [hb] at h
        cases ex with
        | breakLoop => simpa using h
        | goOn =>
          simp only [] at h ⊢
          rcases hr : scanLoop items C n f (nextIteration s2) with _ | rest
          · rw [hr] at h; simp at h
          · rw [hr] at h
            rw [ih _ _ hr k]
            exact h
    · rw [if_neg hi] at h ⊢
      exact h

theorem emits_end (items : List DiffItem) (C : Nat) (s : ScanState)
    (h : ¬ s.i < items.length) : Emits items C s [] :=
  ⟨1, [], by unfold scanLoop; rw [if_neg h], rfl⟩

theorem emits_step (items : List DiffItem) (C : Nat) (s s2 : ScanState)
    (hs : List HunkCall) (rs : List (Nat × Nat)) (hi : s.i < items.length)
    (hb : scanBody items C items.length s = some (s2, hs, BodyExit.goOn))
    (hr : Emits items C (nextIteration s2) rs) :
    Emits items C s (hs.map (fun h => (h.start, h.stop)) ++ rs) := by
  obtain ⟨f, rest, hf, hm⟩ := hr
  refine ⟨f + 1, hs ++ rest, ?_, by rw [List.map_append, hm]⟩
  unfold scanLoop
  rw [if_pos hi, hb]
  simp only [hf]

theorem emits_break (items : List DiffItem) (C : Nat) (s s2 : ScanState)
    (hs : List HunkCall) (hi : s.i < items.length)
    (hb : scanBody items C items.length s = some (s2, hs, BodyExit.breakLoop)) :
    Emits items C s (hs.map (fun h => (h.start, h.stop))) := by
  refine ⟨1, hs, ?_, rfl⟩
  unfold scanLoop
  rw [if_pos hi, hb]

/-- The ranges printed by the scan loop from the initial state are the ranges of
the hunks of `Diff::generateUnidiff`. -/
theorem unidiffHunks_of_emits (items : List DiffItem) (C : Nat)
    (hn : items.length < 65536) (hC : C < 4294967296) (rs : List (Nat × Nat))
    (h : Emits items C initialScan rs) :
    ∃ hs, unidiffHunks items C = some hs ∧ hs.map (fun h => (h.start, h.stop)) = rs
      ∧ ∀ h ∈ hs, HunkOK items h := by
  obtain ⟨hs, hu, hok⟩ := unidiffHunks_spec items C hn hC
  obtain ⟨f, hs2, hf, hm⟩ := h
  refine ⟨hs, hu, ?_, hok⟩
  unfold unidiffHunks at hu
  simp only [] at hu
  rw [u32_of_lt items.length (by omega)] at hu
  have h1 := scanLoop_mono items C items.length _ _ _ hu f
  have h2 := scanLoop_mono items C items.length _ _ _ hf (2 * items.length + 1)
  rw [Nat.add_comm] at h2
  rw [h1] at h2
  rw [Option.some.inj h2]
  exact hm

/-- A run of `m` unchanged items outside a hunk prints nothing; it moves the start
of the next hunk past the items beyond the first `C` ones. -/
theorem emits_equal_run (items : List DiffItem) (C : Nat) (hn : items.length < 65536)
    (rs : List (Nat × Nat)) :
    ∀ (m l hs he eq rem ins ep i j : Nat), i + m ≤ items.length → hs ≤ i →
      l + m < 65536 →
      (∀ k, i ≤ k → k < i + m → ∃ it, items[k]? = some it ∧ it.change = Change.Equal) →
      (∀ eq2 j2, Emits items C
        ⟨false, hs + (max (l + m) C - max l C), he, l + m, eq2, rem, ins, ep, i + m, j2⟩ rs) →
      Emits items C ⟨false, hs, he, l, eq, rem, ins, ep, i, j⟩ rs := by
  intro m
  induction m with
  | zero =>
    intro l hs he eq rem ins ep i j _ _ _ _ hk
    have := hk eq j
    simpa using this
  | succ m ih =>
    intro l hs he eq rem ins ep i j him hhs hl hrun hk
    obtain ⟨it, hit, hc⟩ := hrun i (le_refl _) (by omega)
    have hi : i < items.length := by omega
    have hbody : ∃ eq2, scanBody items C items.length
        ⟨false, hs, he, l, eq, rem, ins, ep, i, j⟩
        = some (⟨false, hs + (if C ≤ l then 1 else 0), he, l + 1, eq2, rem, ins, ep, i, j⟩,
            [], BodyExit.goOn) := by
      unfold scanBody
      simp only [hit, hc]
      by_cases hcl : C ≤ l
      · refine ⟨eq, ?_⟩
        simp [hcl, u16_of_lt (hs + 1) (by omega), u16_of_lt (l + 1) (by omega)]
      · refine ⟨u16 (eq + 1), ?_⟩
        simp [hcl, u16_of_lt (l + 1) (by omega)]
    obtain ⟨eq2, hb⟩ := hbody
    have := emits_step items C _ _ _ rs hi hb ?_
    · simpa using this
    · simp only [nextIteration]
      rw [u32_of_lt (i + 1) (by omega)]
      apply ih (l + 1) (hs + (if C ≤ l then 1 else 0)) he eq2 rem ins ep (i + 1) _
        (by omega) (by split <;> omega) (by omega)
        (fun k hk1 hk2 => hrun k (by omega) (by omega))
      intro eq3 j3
      have := hk eq3 j3
      have e1 : hs + (if C ≤ l then 1 else 0) + (max (l + 1 + m) C - max (l + 1) C)
          = hs + (max (l + (m + 1)) C - max l C) := by
        split <;> omega
      have e2 : l + 1 + m = l + (m + 1) := by omega
      have e3 : i + 1 + m = i + (m + 1) := by omega
      rw [e1, e2, e3]
      exact this

/-- A changed item, inside or outside a hunk: the hunk goes on to the next item, or
it is printed when the item is the last one of the script. -/
theorem emits_change (items : List DiffItem) (C : Nat) (hn : items.length < 65536)
    (rs : List (Nat × Nat)) (b : Bool) (hs he l eq rem ins ep i j : Nat)
    (hi : i < items.length) (hhs : hs ≤ i) (hmode : b = true → he + 1 = i)
    (hne : ∃ it, items[i]? = some it ∧ it.change ≠ Change.Equal)
    (hgo : i + 1 < items.length → ∀ rem2 ins2 j2,
      Emits items C ⟨true, hs, i, l, eq, rem2, ins2, ep, i + 1, j2⟩ rs)
    (hlast : i + 1 = items.length → rs = [(hs, i)]) :
    Emits items C ⟨b, hs, he, l, eq, rem, ins, ep, i, j⟩ rs := by
  obtain ⟨it, hit, hc⟩ := hne
  have hend : u16 ((if b then he else u16 (pred32 i)) + 1) = i := by
    cases b with
    | true =>
      have := hmode rfl
      simp only [if_true]
      rw [u16_of_lt _ (by omega)]; omega
    | false => simpa using u16_pred_succ i (by omega)
  have hpredn : pred32 items.length = items.length - 1 :=
    pred32_of_pos _ (by omega) (by omega)
  have hbody : ∃ rem2 ins2, scanBody items C items.length
      ⟨b, hs, he, l, eq, rem, ins, ep, i, j⟩
      = some (⟨true, hs, i, l, eq, rem2, ins2, ep, i, j⟩,
          finalCheck items.length ⟨true, hs, i, l, eq, rem2, ins2, ep, i, j⟩,
          BodyExit.goOn) := by
    unfold scanBody
    simp only [hit]
    rcases hcc : it.change with _ | _ | _
    · exact absurd hcc hc
    · refine ⟨u16 (rem + 1), ins, ?_⟩
      cases b with
      | true => simp at hend; simp [hend]
      | false => simp at hend; simp [hend]
    · refine ⟨rem, u16 (ins + 1), ?_⟩
      cases b with
      | true => simp at hend; simp [hend]
      | false => simp at hend; simp [hend]
  obtain ⟨rem2, ins2, hb⟩ := hbody
  by_cases hl : i + 1 = items.length
  · have hfin : finalCheck items.length ⟨true, hs, i, l, eq, rem2, ins2, ep, i, j⟩
        = [hunkOf ⟨true, hs, i, l, eq, rem2, ins2, ep, i, j⟩] := by
      unfold finalCheck
      rw [if_pos ⟨by simp only []; rw [hpredn]; omega, by simp only []; omega⟩]
    rw [hfin] at hb
    have := emits_step items C _ _ _ [] hi hb
      (emits_end items C _ (by simp only [nextIteration]; rw [u32_of_lt _ (by omega)]; omega))
    rw [hlast hl]
    simpa [hunkOf] using this
  · have hfin : finalCheck items.length ⟨true, hs, i, l, eq, rem2, ins2, ep, i, j⟩ = [] := by
      unfold finalCheck
      rw [if_neg (by simp only []; rw [hpredn]; omega)]
    rw [hfin] at hb
    have := emits_step items C _ _ _ rs hi hb ?_
    · simpa using this
    · simp only [nextIteration]
      rw [u32_of_lt (i + 1) (by omega)]
      exact hgo (by omega) rem2 ins2 _

/-- A run of `m ≥ 1` changed items: the hunk goes on after the run, or it is printed
when the run reaches the end of the script. -/
theorem emits_change_run (items : List DiffItem) (C : Nat) (hn : items.length < 65536)
    (rs : List (Nat × Nat)) :
    ∀ (m : Nat) (b : Bool) (hs he l eq rem ins ep i j : Nat),
      i + (m + 1) ≤ items.length → hs ≤ i → (b = true → he + 1 = i) →
      (∀ k, i ≤ k → k < i + (m + 1) →
        ∃ it, items[k]? = some it ∧ it.change ≠ Change.Equal) →
      (i + (m + 1) < items.length → ∀ rem2 ins2 j2,
        Emits items C ⟨true, hs, i + m, l, eq, rem2, ins2, ep, i + (m + 1), j2⟩ rs) →
      (i + (m + 1) = items.length → rs = [(hs, i + m)]) →
      Emits items C ⟨b, hs, he, l, eq, rem, ins, ep, i, j⟩ rs := by
  intro m
  induction m with
  | zero =>
    intro b hs he l eq rem ins ep i j him hhs hmode hrun hgo hlast
    exact emits_change items C hn rs b hs he l eq rem ins ep i j (by omega) hhs hmode
      (hrun i (le_refl _) (by omega)) hgo hlast
  | succ m ih =>
    intro b hs he l eq rem ins ep i j him hhs hmode hrun hgo hlast
    apply emits_change items C hn rs b hs he l eq rem ins ep i j (by omega) hhs hmode
      (hrun i (le_refl _) (by omega))
    · intro _ rem2 ins2 j2
      apply ih true hs i l eq rem2 ins2 ep (i + 1) j2 (by omega) (by omega) (fun _ => rfl)
        (fun k hk1 hk2 => hrun k (by omega) (by omega))
      · intro hlt rem3 ins3 j3
        have := hgo (by omega) rem3 ins3 j3
        have e1 : i + 1 + m = i + (m + 1) := by omega
        have e2 : i + 1 + (m + 1) = i + (m + 1 + 1) := by omega
        rw [e1, e2]
        exact this
      · intro hl
        have := hlast (by omega)
        have e1 : i + 1 + m = i + (m + 1) := by omega
        rw [e1]
        exact this
    · intro hl; omega

/-- The first look-ahead loop over unchanged items only: it runs to the end position
without reporting a change, whatever the value of the counter of unchanged
lines. -/
theorem lookAhead_equal_run (items : List DiffItem) (endPos : Nat)
    (hn : items.length < 65536) (hend : endPos ≤ items.length) :
    ∀ (fuel j hunkEnd equalsCount : Nat), hunkEnd + 1 = j → endPos - j < fuel →
      (∀ k, j ≤ k → k < endPos → ∃ it, items[k]? = some it ∧ it.change = Change.Equal) →
      ∃ eq2, lookAhead items endPos fuel j hunkEnd equalsCount
          = some (false, max j endPos, max j endPos - 1, eq2) := by
  intro fuel
  induction fuel with
  | zero => intro j hunkEnd equalsCount _ h; omega
  | succ f ih =>
    intro j hunkEnd equalsCount hj hfuel hrun
    unfold lookAhead
    by_cases hlt : j < endPos
    · rw [if_pos hlt]
      obtain ⟨it, hit, hc⟩ := hrun j (le_refl _) hlt
      rw [hit]
      simp only []
      rw [if_neg (by simpa using hc)]
      rw [u32_of_lt (j + 1) (by omega), u16_of_lt (hunkEnd + 1) (by omega)]
      obtain ⟨eq2, hs⟩ := ih (j + 1) (hunkEnd + 1) (u16 (equalsCount + 1)) (by omega)
        (by omega) (fun k hk1 hk2 => hrun k (by omega) hk2)
      refine ⟨eq2, ?_⟩
      rw [hs]
      have e1 : max (j + 1) endPos = max j endPos := by omega
      rw [e1]
    · rw [if_neg hlt]
      refine ⟨equalsCount, ?_⟩
      have e1 : max j endPos = j := by omega
      have e2 : j - 1 = hunkEnd := by omega
      rw [e1, e2]

/-- An unchanged item inside a hunk, when the `C` next items (or all items up to the
end of the script) are unchanged and the item at the second end position is not a
change: the hunk is printed up to the first end position. -/
theorem emits_close (items : List DiffItem) (C : Nat) (hn : items.length < 65536)
    (hC : C < 65536) (rs : List (Nat × Nat)) (hs he l eq rem ins ep i j : Nat)
    (hi : i < items.length) (hhe : he + 1 = i)
    (hcur : ∃ it, items[i]? = some it ∧ it.change = Change.Equal)
    (hrun : ∀ k, i ≤ k → k < min (i + C) items.length →
      ∃ it, items[k]? = some it ∧ it.change = Change.Equal)
    (hnm : min (min (i + C) items.length + C) items.length < items.length →
      ∃ it, items[min (min (i + C) items.length + C) items.length]? = some it
        ∧ it.change = Change.Equal)
    (hlast : min (i + C) items.length + 1 = items.length →
      rs = [(hs, min (i + C) items.length - 1)])
    (hgo : min (i + C) items.length + 1 ≠ items.length →
      ∃ rs2, rs = (hs, min (i + C) items.length - 1) :: rs2
        ∧ ∀ he2 ep2 j2, Emits items C
            ⟨false, min (i + C) items.length, he2, 0, 0, 0, 0, ep2,
              min (i + C) items.length, j2⟩ rs2) :
    Emits items C ⟨true, hs, he, l, eq, rem, ins, ep, i, j⟩ rs := by
  obtain ⟨it, hit, hc⟩ := hcur
  have hu1 : u32 (he + C + 1) = i + C := by
    rw [u32_of_lt _ (by omega)]; omega
  have hend1 : min (i + C) items.length ≤ items.length := Nat.min_le_right _ _
  obtain ⟨eq2, hla⟩ :=
    lookAhead_equal_run items (min (i + C) items.length) hn hend1
      (items.length + 1) (he + 1) he eq rfl (by omega)
      (fun k hk1 hk2 => hrun k (by omega) hk2)
  have hmax : max (he + 1) (min (i + C) items.length) = min (i + C) items.length := by
    omega
  rw [hmax] at hla
  have hpred : pred32 (min (i + C) items.length) = min (i + C) items.length - 1 :=
    pred32_of_pos _ (by omega) (by omega)
  have hpredn : pred32 items.length = items.length - 1 :=
    pred32_of_pos _ (by omega) (by omega)
  have hu2 : u32 (min (i + C) items.length + C) = min (i + C) items.length + C :=
    u32_of_lt _ (by omega)
  have hend2 : min (min (i + C) items.length + C) items.length ≤ items.length :=
    Nat.min_le_right _ _
  obtain ⟨m, j2, hmc, hm⟩ :=
    mergeCheck_spec items (min (min (i + C) items.length + C) items.length)
      (by omega) hend2 (items.length + 1) (min (i + C) items.length - 1) false (by omega)
  have hmf : m = false := by
    cases m with
    | false => rfl
    | true =>
      rcases hm rfl with h | ⟨_, h2, _, it2, hit2, hne⟩
      · exact absurd h (by simp)
      · obtain ⟨it3, hit3, hc3⟩ := hnm h2
        rw [hit2] at hit3
        have := Option.some.inj hit3
        rw [this] at hne
        exact absurd hc3 hne
  subst hmf
  have ehs : u16 (min (i + C) items.length - 1 + 1) = min (i + C) items.length := by
    rw [u16_of_lt _ (by omega)]; omega
  by_cases hl : min (i + C) items.length + 1 = items.length
  · have hbody : scanBody items C items.length ⟨true, hs, he, l, eq, rem, ins, ep, i, j⟩
        = some (⟨false, hs, min (i + C) items.length - 1, 0, eq2, rem, ins,
              min (i + C) items.length, min (i + C) items.length - 1,
              min (i + C) items.length⟩,
            [hunkOf ⟨false, hs, min (i + C) items.length - 1, 0, eq2, rem, ins,
              min (i + C) items.length, min (i + C) items.length - 1,
              min (i + C) items.length⟩], BodyExit.breakLoop) := by
      unfold scanBody
      simp only [hit, hc, if_true]
      unfold closeHunk
      simp only [hu1, hla, hpred, hpredn]
      rw [if_pos (by omega)]
    have := emits_break items C _ _ _ hi hbody
    rw [hlast hl]
    simpa [hunkOf] using this
  · obtain ⟨rs2, hrs, hk⟩ := hgo hl
    have hbody : scanBody items C items.length ⟨true, hs, he, l, eq, rem, ins, ep, i, j⟩
        = some (⟨false, min (i + C) items.length, min (i + C) items.length - 1, 0, 0, 0, 0,
              min (min (i + C) items.length + C) items.length,
              min (i + C) items.length - 1,
              u32 (min (i + C) items.length - 1 + 1)⟩,
            [hunkOf ⟨false, hs, min (i + C) items.length - 1, 0, eq2, rem, ins,
              min (min (i + C) items.length + C) items.length,
              min (i + C) items.length - 1, j2⟩], BodyExit.goOn) := by
      unfold scanBody
      simp only [hit, hc, if_true]
      unfold closeHunk
      simp only [hu1, hla, hpred, hpredn, hu2, hmc]
      rw [if_neg (by omega)]
      simp only [Bool.false_eq_true, if_false, ehs, hpred]
      have hfin : ∀ jj, finalCheck items.length
          ⟨false, min (i + C) items.length, min (i + C) items.length - 1, 0, 0, 0, 0,
            min (min (i + C) items.length + C) items.length,
            min (i + C) items.length - 1, jj⟩ = [] := by
        intro jj
        unfold finalCheck
        rw [if_neg (by simp only [hpredn]; omega)]
      rw [hfin]
    have := emits_step items C _ _ _ rs2 hi hbody ?_
    · rw [hrs]
      simpa [hunkOf] using this
    · simp only [nextIteration]
      have e1 : u32 (min (i + C) items.length - 1 + 1) = min (i + C) items.length := by
        rw [u32_of_lt _ (by omega)]; omega
      rw [e1]
      exact hk _ _ _

/-- Unchanged items outside a hunk up to the end of the script: nothing is
printed. -/
theorem emits_equal_tail (items : List DiffItem) (C : Nat) (hn : items.length < 65536)
    (hs he eq rem ins ep i j : Nat) (hi : i ≤ items.length) (hhs : hs ≤ i)
    (hrun : ∀ k, i ≤ k → k < items.length →
      ∃ it, items[k]? = some it ∧ it.change = Change.Equal) :
    Emits items C ⟨false, hs, he, 0, eq, rem, ins, ep, i, j⟩ [] := by
  apply emits_equal_run items C hn [] (items.length - i) 0 hs he eq rem ins ep i j
    (by omega) hhs (by omega) (fun k hk1 hk2 => hrun k hk1 (by omega))
  intro eq2 j2
  exact emits_end items C _ (by simp only []; omega)

/-- An unchanged item inside a hunk when all items up to the end of the script are
unchanged: the hunk is printed with at most `C` items of trailing context, and
nothing else is printed. -/
theorem emits_tail (items : List DiffItem) (C : Nat) (hn : items.length < 65536)
    (hC : C < 65536) (hs he l eq rem ins ep i j : Nat)
    (hi : i < items.length) (hhe : he + 1 = i)
    (hrun : ∀ k, i ≤ k → k < items.length →
      ∃ it, items[k]? = some it ∧ it.change = Change.Equal) :
    Emits items C ⟨true, hs, he, l, eq, rem, ins, ep, i, j⟩
      [(hs, he + min C (items.length - i))] := by
  apply emits_close items C hn hC _ hs he l eq rem ins ep i j hi hhe
    (hrun i (le_refl _) hi) (fun k hk1 hk2 => hrun k hk1 (by omega))
    (fun h => hrun _ (by omega) h)
  · intro hl
    have e : min (i + C) items.length - 1 = he + min C (items.length - i) := by omega
    rw [e]
  · intro hl
    refine ⟨[], ?_, ?_⟩
    · have e : min (i + C) items.length - 1 = he + min C (items.length - i) := by omega
      rw [e]
    · intro he2 ep2 j2
      exact emits_equal_tail items C hn _ he2 0 0 0 ep2 _ j2 (Nat.min_le_right _ _)
        (le_refl _) (fun k hk1 hk2 => hrun k (by omega) hk2)

/-- Two runs of changes separated by exactly `2 * C + 1` unchanged items are printed
in two hunks. The script has `a` unchanged items, `r1 + 1` changes, `2 * C + 1`
unchanged items, `r2 + 1` changes and `b` unchanged items. -/
theorem emits_two_runs (items : List DiffItem) (C a r1 r2 b : Nat)
    (hn : items.length < 65536)
    (hlen : items.length = a + (r1 + 1) + (2 * C + 1) + (r2 + 1) + b)
    (hE0 : ∀ k, k < a → ∃ it, items[k]? = some it ∧ it.change = Change.Equal)
    (hR1 : ∀ k, a ≤ k → k < a + (r1 + 1) →
      ∃ it, items[k]? = some it ∧ it.change ≠ Change.Equal)
    (hE1 : ∀ k, a + (r1 + 1) ≤ k → k < a + (r1 + 1) + (2 * C + 1) →
      ∃ it, items[k]? = some it ∧ it.change = Change.Equal)
    (hR2 : ∀ k, a + (r1 + 1) + (2 * C + 1) ≤ k →
      k < a + (r1 + 1) + (2 * C + 1) + (r2 + 1) →
      ∃ it, items[k]? = some it ∧ it.change ≠ Change.Equal)
    (hE2 : ∀ k, a + (r1 + 1) + (2 * C + 1) + (r2 + 1) ≤ k → k < items.length →
      ∃ it, items[k]? = some it ∧ it.change = Change.Equal) :
    Emits items C initialScan
      [(a - min a C, a + r1 + C),
       (a + (r1 + 1) + C + 1, a + (r1 + 1) + (2 * C + 1) + r2 + min C b)] := by
  have hC : C < 65536 := by omega
  unfold initialScan
  -- the leading unchanged items
  apply emits_equal_run items C hn _ a 0 0 0 0 0 0 0 0 1 (by omega) (le_refl _) (by omega)
    (fun k _ hk2 => hE0 k (by omega))
  intro eq2 j2
  -- the first run of changes
  apply emits_change_run items C hn _ r1 false _ _ _ _ _ _ _ (0 + a) _ (by omega)
    (by omega) (fun h => absurd h (by simp))
    (fun k hk1 hk2 => hR1 k (by omega) (by omega))
  swap
  · intro h; omega
  intro _ rem2 ins2 j3
  -- the first unchanged item after the first run
  apply emits_close items C hn hC _ _ _ _ _ _ _ _ (0 + a + (r1 + 1)) _ (by omega) (by omega)
    (hE1 _ (by omega) (by omega)) (fun k hk1 hk2 => hE1 k (by omega) (by omega))
    (fun h => hE1 _ (by omega) (by omega))
  · intro h; omega
  intro _
  refine ⟨[(a + (r1 + 1) + C + 1, a + (r1 + 1) + (2 * C + 1) + r2 + min C b)], ?_, ?_⟩
  · have e1 : 0 + (max (0 + a) C - max 0 C) = a - min a C := by omega
    have e2 : min (0 + a + (r1 + 1) + C) items.length - 1 = a + r1 + C := by omega
    rw [e1, e2]
  intro he2 ep2 j4
  have e3 : min (0 + a + (r1 + 1) + C) items.length = a + (r1 + 1) + C := by omega
  rw [e3]
  -- the unchanged items before the second run
  apply emits_equal_run items C hn _ (C + 1) 0 _ _ _ _ _ _ (a + (r1 + 1) + C) _ (by omega)
    (le_refl _) (by omega) (fun k hk1 hk2 => hE1 k (by omega) (by omega))
  intro eq3 j5
  have e4 : a + (r1 + 1) + C + (max (0 + (C + 1)) C - max 0 C) = a + (r1 + 1) + C + 1 := by
    omega
  rw [e4]
  -- the second run of changes
  apply emits_change_run items C hn _ r2 false _ _ _ _ _ _ _ (a + (r1 + 1) + C + (C + 1)) _
    (by omega) (by omega) (fun h => absurd h (by simp))
    (fun k hk1 hk2 => hR2 k (by omega) (by omega))
  · intro hlt rem3 ins3 j6
    -- the trailing unchanged items
    have := emits_tail items C hn hC (a + (r1 + 1) + C + 1)
      (a + (r1 + 1) + C + (C + 1) + r2) (0 + (C + 1)) eq3 rem3 ins3 ep2
      (a + (r1 + 1) + C + (C + 1) + (r2 + 1)) j6 (by omega) (by omega)
      (fun k hk1 hk2 => hE2 k (by omega) hk2)
    have e5 : a + (r1 + 1) + C + (C + 1) + r2
        + min C (items.length - (a + (r1 + 1) + C + (C + 1) + (r2 + 1)))
        = a + (r1 + 1) + (2 * C + 1) + r2 + min C b := by omega
    rw [e5] at this
    exact this
  · intro hl
    have e6 : a + (r1 + 1) + C + (C + 1) + r2
        = a + (r1 + 1) + (2 * C + 1) + r2 + min C b := by omega
    rw [e6]

theorem getElem?_segment {β : Type} (pre seg post : List β) (k : Nat)
    (h1 : pre.length ≤ k) (h2 : k < pre.length + seg.length) :
    ∃ it, (pre ++ seg ++ post)[k]? = some it ∧ it ∈ seg := by
  have hk : k - pre.length < seg.length := by omega
  refine ⟨seg[k - pre.length], ?_, List.getElem_mem _⟩
  rw [List.append_assoc, List.getElem?_append_right h1,
    List.getElem?_append_left hk, List.getElem?_eq_getElem hk]

/-- The hunks of a script made of unchanged items, a run of changes, exactly
`2 * C + 1` unchanged items, a run of changes, and unchanged items. -/
theorem unidiffHunks_two_runs (C : Nat) (E0 R1 E1 R2 E2 : List DiffItem)
    (hE0 : ∀ it ∈ E0, it.change = Change.Equal)
    (hR1 : ∀ it ∈ R1, it.change ≠ Change.Equal) (hR1ne : R1 ≠ [])
    (hE1 : ∀ it ∈ E1, it.change = Change.Equal) (hgap : E1.length = 2 * C + 1)
    (hR2 : ∀ it ∈ R2, it.change ≠ Change.Equal) (hR2ne : R2 ≠ [])
    (hE2 : ∀ it ∈ E2, it.change = Change.Equal)
    (hn : (E0 ++ R1 ++ E1 ++ R2 ++ E2).length < 65536) :
    ∃ h1 h2, unidiffHunks (E0 ++ R1 ++ E1 ++ R2 ++ E2) C = some [h1, h2]
      ∧ h1.start = E0.length - min E0.length C
      ∧ h1.stop = E0.length + R1.length - 1 + C
      ∧ h2.start = E0.length + R1.length + C + 1
      ∧ h2.stop = E0.length + R1.length + E1.length + R2.length - 1 + min C E2.length := by
  have hr1 : 1 ≤ R1.length := by
    cases R1 with
    | nil => exact absurd rfl hR1ne
    | cons a t => simp
  have hr2 : 1 ≤ R2.length := by
    cases R2 with
    | nil => exact absurd rfl hR2ne
    | cons a t => simp
  have hlen : (E0 ++ R1 ++ E1 ++ R2 ++ E2).length
      = E0.length + R1.length + E1.length + R2.length + E2.length := by
    simp only [List.length_append]
  have hemits := emits_two_runs (E0 ++ R1 ++ E1 ++ R2 ++ E2) C E0.length (R1.length - 1)
    (R2.length - 1) E2.length hn (by rw [hlen]; omega) ?_ ?_ ?_ ?_ ?_
  · obtain ⟨hs, hu, hm, _⟩ := unidiffHunks_of_emits _ C hn (by omega) _ hemits
    rcases hs with _ | ⟨h1, _ | ⟨h2, _ | ⟨h3, t⟩⟩⟩
    · simp at hm
    · simp at hm
    · simp only [List.map_cons, List.map_nil, List.cons.injEq, Prod.mk.injEq, and_true] at hm
      obtain ⟨⟨a1, a2⟩, a3, a4⟩ := hm
      exact ⟨h1, h2, hu, a1, by omega, by omega, by omega⟩
    · simp at hm
  · intro k hk
    have := getElem?_segment [] E0 (R1 ++ E1 ++ R2 ++ E2) k (Nat.zero_le _) (by simpa using hk)
    obtain ⟨it, hit, hmem⟩ := this
    refine ⟨it, ?_, hE0 it hmem⟩
    simpa [List.append_assoc] using hit
  · intro k hk1 hk2
    obtain ⟨it, hit, hmem⟩ := getElem?_segment E0 R1 (E1 ++ R2 ++ E2) k hk1 (by omega)
    refine ⟨it, ?_, hR1 it hmem⟩
    simpa [List.append_assoc] using hit
  · intro k hk1 hk2
    obtain ⟨it, hit, hmem⟩ := getElem?_segment (E0 ++ R1) E1 (R2 ++ E2) k
      (by rw [List.length_append]; omega) (by rw [List.length_append]; omega)
    refine ⟨it, ?_, hE1 it hmem⟩
    simpa [List.append_assoc] using hit
  · intro k hk1 hk2
    obtain ⟨it, hit, hmem⟩ := getElem?_segment (E0 ++ R1 ++ E1) R2 E2 k
      (by simp only [List.length_append]; omega) (by simp only [List.length_append]; omega)
    refine ⟨it, ?_, hR2 it hmem⟩
    simpa [List.append_assoc] using hit
  · intro k hk1 hk2
    obtain ⟨it, hit, hmem⟩ := getElem?_segment (E0 ++ R1 ++ E1 ++ R2) E2 [] k
      (by simp only [List.length_append]; omega)
      (by simp only [List.length_append] at hk2 ⊢; omega)
    refine ⟨it, ?_, hE2 it hmem⟩
    simpa [List.append_assoc] using hit

/-- A script without unchanged item is printed as one hunk that covers it from its
first to its last item. -/
theorem unidiffHunks_all_changes (items : List DiffItem) (C : Nat)
    (hn : items.length < 65536) (hC : C < 4294967296) (hne : items ≠ [])
    (hall : ∀ it ∈ items, it.change ≠ Change.Equal) :
    ∃ h, unidiffHunks items C = some [h] ∧ h.start = 0 ∧ h.stop = items.length - 1
      ∧ HunkOK items h := by
  have hlen : 1 ≤ items.length := by
    cases items with
    | nil => exact absurd rfl hne
    | cons a t => simp
  have hemits : Emits items C initialScan [(0, items.length - 1)] := by
    unfold initialScan
    apply emits_change_run items C hn _ (items.length - 1) false 0 0 0 0 0 0 0 0 1
      (by omega) (le_refl _) (fun h => absurd h (by simp))
    · intro k _ hk2
      have hk : k < items.length := by omega
      exact ⟨items[k], List.getElem?_eq_getElem hk, hall _ (List.getElem_mem _)⟩
    · intro h; omega
    · intro _
      simp
  obtain ⟨hs, hu, hm, hok⟩ := unidiffHunks_of_emits _ C hn hC _ hemits
  rcases hs with _ | ⟨h1, _ | ⟨h2, t⟩⟩
  · simp at hm
  · simp only [List.map_cons, List.map_nil, List.cons.injEq, Prod.mk.injEq, and_true] at hm
    exact ⟨h1, hu, hm.1, hm.2, hok h1 (List.mem_singleton_self _)⟩
  · simp at hm

theorem countChange_inserts (c : Change) (M : Nat) :
    countChange c ((List.range M).map (fun j => (⟨Change.Insert, 0, j⟩ : DiffItem))) 0 M
      = if c = Change.Insert then M else 0 := by
  unfold countChange
  simp only [List.drop_zero, Nat.sub_zero]
  rw [List.take_of_length_le (by simp), List.countP_map]
  by_cases hc : c = Change.Insert
  · subst hc
    rw [if_pos rfl]
    have h1 : (List.range M).countP ((fun it : DiffItem => decide (it.change = Change.Insert))
        ∘ fun j => (⟨Change.Insert, 0, j⟩ : DiffItem)) = (List.range M).length := by
      rw [List.countP_eq_length]
      intro j _
      simp
    rw [h1, List.length_range]
  · have : ¬ Change.Insert = c := fun h => hc h.symm
    rw [if_neg hc, List.countP_eq_zero]
    intro j _
    simp [this]

/-- The hunks of the script of `M` insertions at original line `0`. -/
theorem unidiffHunks_inserts (M C : Nat) (hM1 : 1 ≤ M) (hM : M < 65536)
    (hC : C < 4294967296) :
    unidiffHunks ((List.range M).map (fun j => (⟨Change.Insert, 0, j⟩ : DiffItem))) C
      = some [⟨0, M - 1, 0, M⟩] := by
  have hlen : ((List.range M).map (fun j => (⟨Change.Insert, 0, j⟩ : DiffItem))).length = M := by
    simp
  obtain ⟨h, hu, h1, h2, hok⟩ := unidiffHunks_all_changes
    ((List.range M).map (fun j => (⟨Change.Insert, 0, j⟩ : DiffItem))) C
    (by rw [hlen]; exact hM) hC
    (by intro hnil; rw [hnil] at hlen; simp at hlen; omega)
    (by
      intro it hit
      obtain ⟨j, _, hj⟩ := List.mem_map.1 hit
      rw [← hj]
      simp)
  rw [hu]
  have ho := hok.old
  have hnw := hok.new
  rw [h1, h2, hlen] at ho hnw
  have e : M - 1 + 1 = M := by omega
  rw [e, countChange_inserts, countChange_inserts] at ho
  rw [e, countChange_inserts, countChange_inserts] at hnw
  simp at ho hnw
  rw [hlen] at h2
  cases h with
  | mk s t o w =>
    simp only at h1 h2 ho hnw
    subst h1 h2 ho hnw
    rfl

/-- The body lines of the hunk of the script of insertions. -/
theorem hunkBody_inserts (B : List String) :
    ∀ (n i : Nat), i + n ≤ B.length →
      hunkBody [] B ((List.range B.length).map (fun j => (⟨Change.Insert, 0, j⟩ : DiffItem)))
          n i
        = some ((((B.drop i).take n).map (fun l => "+" ++ l ++ "\n")).foldr
            (fun a b => a ++ b) "") := by
  intro n
  induction n with
  | zero => intro i _; simp [hunkBody]
  | succ n ih =>
    intro i hi
    have hlt : i < B.length := by omega
    have hit : ((List.range B.length).map (fun j => (⟨Change.Insert, 0, j⟩ : DiffItem)))[i]?
        = some ⟨Change.Insert, 0, i⟩ := by
      rw [List.getElem?_map, List.getElem?_range hlt]
      rfl
    unfold hunkBody
    rw [hit]
    simp only [bodyLine, List.getElem?_eq_getElem hlt, Option.map_some']
    rw [ih (i + 1) (by omega)]
    simp only []
    rw [List.drop_eq_getElem_cons hlt, List.take_succ_cons, List.map_cons, List.foldr_cons]

/-- The text of the hunk printed for an empty original sequence. -/
theorem generateHunk_inserts (B : List String) (hB : 1 ≤ B.length) :
    generateHunk [] B ((List.range B.length).map (fun j => (⟨Change.Insert, 0, j⟩ : DiffItem)))
        ⟨0, B.length - 1, 0, B.length⟩
      = some ("@@ -1,0 +1," ++ toString B.length ++ " @@\n"
          ++ (B.map (fun l => "+" ++ l ++ "\n")).foldr (fun a b => a ++ b) "") := by
  have hit : ((List.range B.length).map (fun j => (⟨Change.Insert, 0, j⟩ : DiffItem)))[0]?
      = some ⟨Change.Insert, 0, 0⟩ := by
    rw [List.getElem?_map, List.getElem?_range (by omega)]
    rfl
  unfold generateHunk hunkHeader
  simp only [hit]
  have e : B.length - 1 + 1 - 0 = B.length := by omega
  rw [e, hunkBody_inserts B B.length 0 (by omega)]
  simp only [List.drop_zero, List.take_length]
  have h1 : ("@@ -" ++ toString (u32 (0 + 1)) ++ "," ++ toString 0 ++ " +"
      ++ toString (u32 (0 + 1)) ++ ",") = "@@ -1,0 +1," := by decide
  rw [h1]


/-! ## Further properties of the recorded paths -/

section PathProofs
variable {α : Type} [DecidableEq α]

/-- A path of the edit graph without horizontal and vertical edges stays on the main
diagonal and its history consists of `Equal` operations. -/
theorem path_zero (A B : List α) (h : List DiffItem) (x y e : Nat)
    (hp : Path A B h x y e) :
    e = 0 → x = y ∧ h = (List.range x).map (fun i => (⟨Change.Equal, i, i⟩ : DiffItem)) := by
  induction hp with
  | nil => intro _; exact ⟨rfl, rfl⟩
  | @equal h x y e _ _ ih =>
    intro he
    obtain ⟨hxy, hh⟩ := ih he
    subst hxy
    refine ⟨rfl, ?_⟩
    rw [List.range_succ, List.map_append, hh]
    rfl
  | remove _ _ _ => intro he; omega
  | insert _ _ _ => intro he; omega

/-- The main diagonal of the edit graph of `A` with itself. -/
theorem reach_diagonal (A : List α) : ∀ n : Nat, n ≤ A.length → Reach A A n n 0 := by
  intro n
  induction n with
  | zero => intro _; exact Reach.start
  | succ n ih =>
    intro hn
    have hlt : n < A.length := by omega
    exact Reach.diag (ih (by omega)) ⟨A[n], List.getElem?_eq_getElem hlt,
      List.getElem?_eq_getElem hlt⟩

/-- The script of `Diff::calculate` for two identical non-empty sequences. -/
theorem calculate_same (A : List α) (hA : A ≠ []) :
    calculate A A
      = CalcResult.script
          ((List.range A.length).map (fun i => (⟨Change.Equal, i, i⟩ : DiffItem))) := by
  have hlen : 1 ≤ A.length := by
    cases A with
    | nil => exact absurd rfl hA
    | cons a t => simp
  obtain ⟨s, e, hs, hp, hmin⟩ := calculate_spec A A hlen
  have he := hmin 0 (reach_diagonal A A.length (le_refl _))
  rw [hs, (path_zero A A s _ _ e hp (by omega)).2]

/-- Exchanging the two sequences mirrors the paths of the edit graph. -/
theorem reach_swap (A B : List α) (x y e : Nat) (hr : Reach A B x y e) :
    Reach B A y x e := by
  induction hr with
  | start => exact Reach.start
  | diag _ hab ih =>
    obtain ⟨a, h1, h2⟩ := hab
    exact Reach.diag ih ⟨a, h2, h1⟩
  | right _ hx ih => exact Reach.down ih hx
  | down _ hy ih => exact Reach.right ih hy

/-- The operations of a script that differ from `c` and those equal to `c`. -/
theorem filter_ne_length (c : Change) (s : List DiffItem) :
    (s.filter (fun it => decide (it.change ≠ c))).length + changeCount c s = s.length := by
  induction s with
  | nil => rfl
  | cons a t ih =>
    unfold changeCount at ih ⊢
    by_cases hc : a.change = c
    · simp [List.filter_cons, List.countP_cons, hc] at ih ⊢
      omega
    · simp [List.filter_cons, List.countP_cons, hc] at ih ⊢
      omega

/-- The numbers of `Equal`, `Remove` and `Insert` operations of a valid script. -/
theorem valid_counts (A B : List α) (s : List DiffItem) (x y e : Nat)
    (hv : Valid A B s x y e) :
    changeCount Change.Equal s + changeCount Change.Remove s = x
      ∧ changeCount Change.Equal s + changeCount Change.Insert s = y
      ∧ changeCount Change.Remove s + changeCount Change.Insert s = e := by
  have h1 := congrArg List.length hv.olds
  have h2 := congrArg List.length hv.news
  have h3 := hv.cost
  unfold originalIndices at h1
  unfold modifiedIndices at h2
  unfold editCount at h3
  rw [List.length_map, List.length_range] at h1 h2
  have f1 := filter_ne_length Change.Insert s
  have f2 := filter_ne_length Change.Remove s
  have f3 := filter_ne_length Change.Equal s
  have f4 := countP_three s
  unfold changeCount at f1 f2 f3 ⊢
  omega

/-- Along the history of a path the recorded line numbers never decrease, and they
stay below the point reached. -/
theorem path_sorted (A B : List α) (h : List DiffItem) (x y e : Nat)
    (hp : Path A B h x y e) :
    (∀ it ∈ h, it.lineOld ≤ x - 1 ∧ it.lineNew ≤ y - 1)
      ∧ (h.map DiffItem.lineOld).Pairwise (fun a b => a ≤ b)
      ∧ (h.map DiffItem.lineNew).Pairwise (fun a b => a ≤ b) := by
  induction hp with
  | nil => simp
  | @equal h x y e _ _ ih =>
    obtain ⟨hb, ho, hn⟩ := ih
    refine ⟨?_, ?_, ?_⟩
    · intro it hit
      rcases List.mem_append.1 hit with hm | hm
      · have := hb it hm
        omega
      · simp at hm
        subst hm
        simp
    · rw [List.map_append, List.pairwise_append]
      refine ⟨ho, by simp, ?_⟩
      intro a ha b hb2
      obtain ⟨it, hit, rfl⟩ := List.mem_map.1 ha
      simp at hb2
      subst hb2
      have := hb it hit
      omega
    · rw [List.map_append, List.pairwise_append]
      refine ⟨hn, by simp, ?_⟩
      intro a ha b hb2
      obtain ⟨it, hit, rfl⟩ := List.mem_map.1 ha
      simp at hb2
      subst hb2
      have := hb it hit
      omega
  | @remove h x y e _ _ ih =>
    obtain ⟨hb, ho, hn⟩ := ih
    refine ⟨?_, ?_, ?_⟩
    · intro it hit
      rcases List.mem_append.1 hit with hm | hm
      · have := hb it hm
        omega
      · simp at hm
        subst hm
        simp
    · rw [List.map_append, List.pairwise_append]
      refine ⟨ho, by simp, ?_⟩
      intro a ha b hb2
      obtain ⟨it, hit, rfl⟩ := List.mem_map.1 ha
      simp at hb2
      subst hb2
      have := hb it hit
      omega
    · rw [List.map_append, List.pairwise_append]
      refine ⟨hn, by simp, ?_⟩
      intro a ha b hb2
      obtain ⟨it, hit, rfl⟩ := List.mem_map.1 ha
      simp at hb2
      subst hb2
      have := hb it hit
      omega
  | @insert h x y e _ _ ih =>
    obtain ⟨hb, ho, hn⟩ := ih
    refine ⟨?_, ?_, ?_⟩
    · intro it hit
      rcases List.mem_append.1 hit with hm | hm
      · have := hb it hm
        omega
      · simp at hm
        subst hm
        simp
    · rw [List.map_append, List.pairwise_append]
      refine ⟨ho, by simp, ?_⟩
      intro a ha b hb2
      obtain ⟨it, hit, rfl⟩ := List.mem_map.1 ha
      simp at hb2
      subst hb2
      have := hb it hit
      omega
    · rw [List.map_append, List.pairwise_append]
      refine ⟨hn, by simp, ?_⟩
      intro a ha b hb2
      obtain ⟨it, hit, rfl⟩ := List.mem_map.1 ha
      simp at hb2
      subst hb2
      have := hb it hit
      omega

/-- Every operation recorded along a path refers to existing lines. -/
theorem path_in_bounds (A B : List α) (h : List DiffItem) (x y e : Nat)
    (hp : Path A B h x y e) :
    ∀ it ∈ h,
      (it.change = Change.Equal → it.lineOld < A.length ∧ it.lineNew < B.length
        ∧ A[it.lineOld]? = B[it.lineNew]?)
      ∧ (it.change = Change.Remove → it.lineOld < A.length)
      ∧ (it.change = Change.Insert → it.lineNew < B.length) := by
  induction hp with
  | nil => simp
  | @equal h x y e _ hab ih =>
    intro it hit
    rcases List.mem_append.1 hit with hm | hm
    · exact ih it hm
    · simp at hm
      subst hm
      obtain ⟨a, h1, h2⟩ := hab
      have hx : x < A.length := by
        by_contra hc
        rw [List.getElem?_eq_none (by omega)] at h1
        cases h1
      have hy : y < B.length := by
        by_contra hc
        rw [List.getElem?_eq_none (by omega)] at h2
        cases h2
      simp [hx, hy, h1, h2]
  | @remove h x y e _ hx ih =>
    intro it hit
    rcases List.mem_append.1 hit with hm | hm
    · exact ih it hm
    · simp at hm
      subst hm
      simp [hx]
  | @insert h x y e _ hy ih =>
    intro it hit
    rcases List.mem_append.1 hit with hm | hm
    · exact ih it hm
    · simp at hm
      subst hm
      simp [hy]

end PathProofs

/-! ## The choice of the neighbouring diagonal at the visited states -/

section VisitProofs

variable {α : Type} [DecidableEq α]

/-- The choice in the middle of round `d + 1`, from the invariants of the round. -/
theorem choice_of_mid (A B : List α) (d : Nat) (vx : List Int)
    (vh : List (List DiffItem)) (hinv : Inv A B d vx vh) (j : Nat)
    (vx2 : List Int) (vh2 : List (List DiffItem))
    (hmid : Mid A B (d + 1) j vx vh vx2 vh2)
    (hj : j ≤ d + 1) (hd : d + 1 ≤ A.length + B.length) (hB : 1 ≤ B.length)
    (hlast : d + 1 = A.length + B.length → j ≤ A.length) :
    ChoiceAgrees A B ⟨(d : Int) + 1, -((d : Int) + 1) + 2 * j, vx2, vh2⟩ := by
  unfold ChoiceAgrees
  simp only []
  by_cases hk0 : -((d : Int) + 1) + 2 * (j : Int) = -((d : Int) + 1)
  · unfold fromRight choosePredecessor
    rw [if_pos hk0, if_pos hk0]
    exact ⟨rfl, rfl⟩
  · have hj1 : 1 ≤ j := by omega
    have e1 : (A.length : Int) + (B.length : Int) + (-((d : Int) + 1) + 2 * (j : Int)) - 1
        = (A.length : Int) + (B.length : Int) + (-((d : Int) + 1) + 2 * (j : Int) - 1) := by
      omega
    have e2 : (A.length : Int) + (B.length : Int) + (-((d : Int) + 1) + 2 * (j : Int)) + 1
        = (A.length : Int) + (B.length : Int) + (-((d : Int) + 1) + 2 * (j : Int) + 1) := by
      omega
    have hjd : j = d + 1 → d + 1 < A.length + B.length := by
      intro hjeq
      by_contra hc
      have := hlast (by omega)
      omega
    have hs1 := hmid.same (-((d : Int) + 1) + 2 * (j : Int) - 1)
      (by intro i _; push_cast; omega)
    have hs2 := hmid.same (-((d : Int) + 1) + 2 * (j : Int) + 1)
      (by intro i _; push_cast; omega)
    have hr1 : vecRead vx2
        ((A.length : Int) + (B.length : Int) + (-((d : Int) + 1) + 2 * (j : Int) - 1))
        = some (xAt A B vx (-((d : Int) + 1) + 2 * (j : Int) - 1)) := by
      rw [hs1.1]
      exact read_xAt A B vx _ _ hinv.lenx rfl (by omega) (by omega)
    have hr2 : vecRead vx2
        ((A.length : Int) + (B.length : Int) + (-((d : Int) + 1) + 2 * (j : Int) + 1))
        = some (xAt A B vx (-((d : Int) + 1) + 2 * (j : Int) + 1)) := by
      rw [hs2.1]
      by_cases hjeq : j = d + 1
      · have := hjd hjeq
        exact read_xAt A B vx _ _ hinv.lenx rfl (by omega) (by omega)
      · exact read_xAt A B vx _ _ hinv.lenx rfl (by omega) (by omega)
    unfold fromRight choosePredecessor
    beta_reduce
    rw [if_neg hk0, if_neg hk0, e1, e2, hr1, hr2]
    by_cases hkd : -((d : Int) + 1) + 2 * (j : Int) = (d : Int) + 1
    · have hjeq : j = d + 1 := by omega
      have hz := hinv.unset (-((d : Int) + 1) + 2 * (j : Int) + 1) (by omega)
      have hg := (hinv.entry d (le_refl _)).1.nonneg
      have ek : -((d : Int) + 1) + 2 * (j : Int) - 1 = -(d : Int) + 2 * (d : Int) := by omega
      rw [if_neg (by simpa using hkd), hz, ek]
      simp only [Option.isSome_some, and_true]
      have : ¬ (xAt A B vx (-(d : Int) + 2 * (d : Int)) < 0) := by omega
      simp [this]
    · rw [if_pos hkd]
      exact ⟨rfl, rfl⟩

/-- The states visited by the loop over `k` in round `d + 1`. -/
theorem diagVisits_agree (A B : List α) (d : Nat) (vx : List Int)
    (vh : List (List DiffItem)) (hinv : Inv A B d vx vh)
    (hd : d + 1 ≤ A.length + B.length) (hB : 1 ≤ B.length) :
    ∀ (fuel j : Nat) (vx2 : List Int) (vh2 : List (List DiffItem)),
      Mid A B (d + 1) j vx vh vx2 vh2 → fuel + j = d + 2 →
      (d + 1 = A.length + B.length → j ≤ A.length) →
      ∀ s ∈ diagVisits A B ((d : Int) + 1) fuel (-((d : Int) + 1) + 2 * j) vx2 vh2,
        ChoiceAgrees A B s := by
  intro fuel
  induction fuel with
  | zero =>
    intro j vx2 vh2 _ _ _ s hs
    unfold diagVisits at hs
    cases hs
  | succ n ih =>
    intro j vx2 vh2 hmid hfj hlast s hs
    have hj : j ≤ d + 1 := by omega
    unfold diagVisits at hs
    rw [if_pos (by omega)] at hs
    rcases List.mem_cons.1 hs with hs | hs
    · rw [hs]
      exact choice_of_mid A B d vx vh hinv j vx2 vh2 hmid hj hd hB hlast
    · rcases diagStep_mid A B d vx vh hinv j vx2 vh2 hmid hj hd hB hlast with
        ⟨h, hstep, _⟩ | ⟨vx3, vh3, hstep, hmid3, hlt⟩
      · rw [hstep] at hs
        cases hs
      · rw [hstep] at hs
        simp only [] at hs
        have hk : -((d : Int) + 1) + 2 * (j : Int) + 2
            = -((d : Int) + 1) + 2 * ((j + 1 : Nat) : Int) := by
          push_cast; ring
        rw [hk] at hs
        exact ih (j + 1) vx3 vh3 hmid3 (by omega) (fun hc => by have := hlt hc; omega) s hs

/-- The states visited in the rounds after round `d`. -/
theorem roundVisits_agree (A B : List α) (hB : 1 ≤ B.length) :
    ∀ (fuel d : Nat) (vx : List Int) (vh : List (List DiffItem)),
      Inv A B d vx vh → d + fuel = A.length + B.length →
      ∀ s ∈ roundVisits A B fuel (d + 1) vx vh, ChoiceAgrees A B s := by
  intro fuel
  induction fuel with
  | zero =>
    intro d vx vh _ _ s hs
    unfold roundVisits at hs
    cases hs
  | succ n ih =>
    intro d vx vh hinv hd s hs
    unfold roundVisits at hs
    have hcast : (((d + 1 : Nat) : Int)) = (d : Int) + 1 := by push_cast; rfl
    have hk0 : -((d : Int) + 1) = -((d : Int) + 1) + 2 * ((0 : Nat) : Int) := by simp
    rw [hcast, hk0] at hs
    rcases List.mem_append.1 hs with hs | hs
    · exact diagVisits_agree A B d vx vh hinv (by omega) hB (d + 1 + 1) 0 vx vh
        (mid_start A B (d + 1) vx vh hinv.lenx hinv.lenh) (by omega)
        (fun _ => Nat.zero_le _) s hs
    · rcases diagLoop_mid A B d vx vh hinv (by omega) hB (d + 1 + 1) 0 vx vh
          (mid_start A B (d + 1) vx vh hinv.lenx hinv.lenh) (by omega)
          (fun _ => Nat.zero_le _)
        with ⟨h, hloop, _⟩ | ⟨hlt, vx3, vh3, hloop, hmid⟩
      · rw [hloop] at hs
        cases hs
      · rw [hloop] at hs
        simp only [] at hs
        exact ih (d + 1) vx3 vh3 (inv_next A B d vx vh hinv vx3 vh3 hmid hlt) (by omega) s hs

/-- For a non-empty modified sequence, at every pair `(d, k)` visited by
`Diff::calculate` the code's condition selects the neighbouring diagonal that the
specification prescribes, and it reads `v_x` inside its allocated range. -/
theorem visits_agree (A B : List α) (hB : 1 ≤ B.length) :
    ∀ s ∈ visits A B, ChoiceAgrees A B s := by
  intro s hs
  unfold visits at hs
  simp only [] at hs
  unfold roundVisits at hs
  simp only [Nat.cast_zero, neg_zero, zero_add] at hs
  rcases List.mem_append.1 hs with hs | hs
  · unfold diagVisits at hs
    rw [if_pos (le_refl _)] at hs
    rcases List.mem_cons.1 hs with hs | hs
    · rw [hs]
      unfold ChoiceAgrees fromRight choosePredecessor
      simp
    · exfalso
      have hnil : ∀ (k : Int) (v : List Int) (w : List (List DiffItem)),
          diagVisits A B 0 0 k v w = [] := by
        intro k v w
        unfold diagVisits
        rfl
      cases hstep : diagStep A B 0 0 (List.replicate ((A.length + B.length) * 2 + 1) 0)
          (List.replicate ((A.length + B.length) * 2 + 1) []) with
      | done h => rw [hstep] at hs; cases hs
      | fault => rw [hstep] at hs; cases hs
      | next v w =>
        rw [hstep] at hs
        simp only [] at hs
        rw [hnil] at hs
        cases hs
  · rcases round_zero A B hB with ⟨h, hloop, _⟩ | ⟨vx, vh, hloop, hinv⟩
    · rw [hloop] at hs
      cases hs
    · rw [hloop] at hs
      simp only [] at hs
      exact roundVisits_agree A B hB (A.length + B.length) 0 vx vh hinv (by omega) s hs

end VisitProofs

/-! ## Order of the printed hunks -/

/-- The hunks printed by the part of the loop body for an unchanged line inside a
hunk: at most one, starting at `hunkStart`; when a hunk is printed and the loop
goes on, `hunkStart` is set right after the hunk. -/
theorem closeHunk_order (items : List DiffItem) (C n : Nat) (hn : n < 4294967296)
    (s s2 : ScanState) (hs : List HunkCall) (ex : BodyExit)
    (hb : closeHunk items C n s = some (s2, hs, ex)) :
    (∀ h ∈ hs, h.start = s.hunkStart) ∧ hs.length ≤ 1
      ∧ (ex = BodyExit.goOn →
          (hs = [] ∧ s2.hunkStart = s.hunkStart)
          ∨ ∃ h, hs = [h] ∧ s2.hunkStart = u16 (h.stop + 1)) := by
  unfold closeHunk at hb
  simp only [] at hb
  split at hb
  · cases hb
  · rename_i found j1 hunkEnd1 equalsCount1 hla
    split at hb
    · simp only [Option.some.injEq, Prod.mk.injEq] at hb
      obtain ⟨_, h2, h3⟩ := hb
      subst h2 h3
      refine ⟨?_, by simp, ?_⟩
      · intro h hh
        simp at hh
        subst hh
        rfl
      · intro hc
        cases hc
    · split at hb
      · simp only [Option.some.injEq, Prod.mk.injEq] at hb
        obtain ⟨h1, h2, h3⟩ := hb
        subst h1 h2 h3
        refine ⟨by simp, by simp, ?_⟩
        intro _
        left
        exact ⟨rfl, rfl⟩
      · split at hb
        · cases hb
        · rename_i merge j2 hmc
          split at hb
          · simp only [Option.some.injEq, Prod.mk.injEq] at hb
            obtain ⟨h1, h2, h3⟩ := hb
            subst h1 h2 h3
            refine ⟨by simp, by simp, ?_⟩
            intro _
            left
            exact ⟨rfl, rfl⟩
          · simp only [Option.some.injEq, Prod.mk.injEq] at hb
            obtain ⟨h1, h2, h3⟩ := hb
            unfold finalCheck at h2
            rw [if_neg] at h2
            swap
            · simp only []
              unfold pred32 u32 u16
              omega
            subst h1 h2 h3
            refine ⟨?_, by simp, ?_⟩
            · intro h hh
              simp at hh
              subst hh
              rfl
            · intro _
              right
              exact ⟨_, rfl, rfl⟩

/-- The hunks printed by one iteration of the scan loop: at most one, starting at
`hunkStart`; `hunkStart` never decreases, and after a printed hunk either the loop
ends or `hunkStart` lies behind the hunk. -/
theorem scanBody_order (items : List DiffItem) (C : Nat) (hn : items.length < 65536)
    (hC : C < 4294967296) (s : ScanState) (hinv : ScanInv items s)
    (hi : s.i < items.length) (s2 : ScanState) (hs : List HunkCall) (ex : BodyExit)
    (hb : scanBody items C items.length s = some (s2, hs, ex)) :
    (∀ h ∈ hs, h.start = s.hunkStart) ∧ hs.length ≤ 1
      ∧ (ex = BodyExit.goOn → s.hunkStart ≤ (nextIteration s2).hunkStart
          ∧ ∀ h ∈ hs, h.stop < (nextIteration s2).hunkStart
              ∨ ¬ (nextIteration s2).i < items.length) := by
  obtain ⟨s3, hs3, ex3, hb3, hok3, _⟩ := scanBody_spec items C hn hC s hinv hi
  rw [hb] at hb3
  simp only [Option.some.injEq, Prod.mk.injEq] at hb3
  obtain ⟨_, e2, _⟩ := hb3
  subst e2
  have hstart := hinv.start_le
  have hfinal : ∀ st : ScanState, st.i = s.i → st.hunkStart = s.hunkStart →
      (∀ h ∈ finalCheck items.length st, h.start = s.hunkStart)
        ∧ (finalCheck items.length st).length ≤ 1
        ∧ (BodyExit.goOn = BodyExit.goOn → s.hunkStart ≤ (nextIteration st).hunkStart
          ∧ ∀ h ∈ finalCheck items.length st, h.stop < (nextIteration st).hunkStart
              ∨ ¬ (nextIteration st).i < items.length) := by
    intro st h1 h2
    unfold finalCheck
    by_cases hc : st.i = pred32 items.length ∧ st.hunkStart < items.length
    · rw [if_pos hc]
      refine ⟨?_, by simp, fun _ => ⟨?_, ?_⟩⟩
      · intro h hh
        simp at hh
        subst hh
        exact h2
      · simp only [nextIteration]
        omega
      · intro h _
        right
        simp only [nextIteration]
        have := hc.1
        unfold pred32 u32 at this
        unfold u32
        omega
    · rw [if_neg hc]
      refine ⟨by simp, by simp, fun _ => ⟨?_, by simp⟩⟩
      simp only [nextIteration]
      omega
  have hclose : ∀ st : ScanState, st.hunkStart = s.hunkStart →
      closeHunk items C items.length st = some (s2, hs, ex) →
      (∀ h ∈ hs, h.start = s.hunkStart) ∧ hs.length ≤ 1
        ∧ (ex = BodyExit.goOn → s.hunkStart ≤ (nextIteration s2).hunkStart
          ∧ ∀ h ∈ hs, h.stop < (nextIteration s2).hunkStart
              ∨ ¬ (nextIteration s2).i < items.length) := by
    intro st h1 hcl
    obtain ⟨a1, a2, a3⟩ := closeHunk_order items C items.length (by omega) st s2 hs ex hcl
    refine ⟨fun h hh => by rw [a1 h hh, h1], a2, ?_⟩
    intro hgo
    rcases a3 hgo with ⟨e1, e2⟩ | ⟨h, e1, e2⟩
    · subst e1
      refine ⟨?_, by simp⟩
      simp only [nextIteration]
      omega
    · subst e1
      have hk := hok3 h (by simp)
      have hst := a1 h (by simp)
      have ho := hk.ordered
      have hin := hk.inside
      have e3 : u16 (h.stop + 1) = h.stop + 1 := u16_of_lt _ (by omega)
      refine ⟨?_, ?_⟩
      · simp only [nextIteration]
        omega
      · intro h2 hh2
        simp at hh2
        subst hh2
        left
        simp only [nextIteration]
        omega
  obtain ⟨it, hit⟩ : ∃ it, items[s.i]? = some it :=
    ⟨items[s.i], List.getElem?_eq_getElem hi⟩
  unfold scanBody at hb
  rw [hit] at hb
  simp only [] at hb
  cases hh : s.isHunk
  · cases hc : it.change
    · simp only [hh, hc, Bool.false_eq_true, if_false, ne_eq, not_true_eq_false] at hb
      by_cases hl : C ≤ s.linesCount
      · simp only [hl, if_true, Bool.false_eq_true, if_false, hh, Option.some.injEq,
          Prod.mk.injEq] at hb
        obtain ⟨e1, e2, e3⟩ := hb
        subst e1 e2 e3
        refine ⟨by simp, by simp, ?_⟩
        intro _
        refine ⟨?_, by simp⟩
        simp only [nextIteration]
        rw [u16_of_lt _ (by omega)]
        omega
      · simp only [hl, if_false, Bool.false_eq_true, hh, Option.some.injEq,
          Prod.mk.injEq] at hb
        obtain ⟨e1, e2, e3⟩ := hb
        subst e1 e2 e3
        refine ⟨by simp, by simp, ?_⟩
        intro _
        refine ⟨?_, by simp⟩
        simp only [nextIteration]
        omega
    · simp only [hh, hc, Bool.false_eq_true, if_false, ne_eq, reduceCtorEq,
        not_false_eq_true, if_true, Option.some.injEq, Prod.mk.injEq] at hb
      obtain ⟨e1, e2, e3⟩ := hb
      subst e1 e2 e3
      exact hfinal _ (by rfl) (by rfl)
    · simp only [hh, hc, Bool.false_eq_true, if_false, ne_eq, reduceCtorEq,
        not_false_eq_true, if_true, Option.some.injEq, Prod.mk.injEq] at hb
      obtain ⟨e1, e2, e3⟩ := hb
      subst e1 e2 e3
      exact hfinal _ (by rfl) (by rfl)
  · cases hc : it.change
    · simp only [hh, hc, if_true] at hb
      exact hclose s rfl hb
    · simp only [hh, hc, if_true, Option.some.injEq, Prod.mk.injEq] at hb
      obtain ⟨e1, e2, e3⟩ := hb
      subst e1 e2 e3
      exact hfinal _ (by rfl) (by rfl)
    · simp only [hh, hc, if_true, Option.some.injEq, Prod.mk.injEq] at hb
      obtain ⟨e1, e2, e3⟩ := hb
      subst e1 e2 e3
      exact hfinal _ (by rfl) (by rfl)

/-- The hunks printed by the scan loop started in a state that satisfies the loop
invariant: they start at or after `hunkStart`, and each of them ends before the
next one starts. -/
theorem scanLoop_order (items : List DiffItem) (C : Nat) (hn : items.length < 65536)
    (hC : C < 4294967296) :
    ∀ (fuel : Nat) (s : ScanState) (hs : List HunkCall), ScanInv items s →
      scanLoop items C items.length fuel s = some hs →
      (∀ h ∈ hs, s.hunkStart ≤ h.start)
        ∧ hs.Pairwise (fun a b => a.stop < b.start) := by
  intro fuel
  induction fuel with
  | zero =>
    intro s hs _ hl
    unfold scanLoop at hl
    cases hl
  | succ n ih =>
    intro s hs hinv hl
    unfold scanLoop at hl
    by_cases hi : s.i < items.length
    · rw [if_pos hi] at hl
      obtain ⟨s2, hk, ex, hb, _, hnext⟩ := scanBody_spec items C hn hC s hinv hi
      obtain ⟨o1, o2, o3⟩ := scanBody_order items C hn hC s hinv hi s2 hk ex hb
      rw [hb] at hl
      cases ex with
      | breakLoop =>
        simp only [Option.some.injEq] at hl
        subst hl
        refine ⟨fun h hh => by rw [o1 h hh], ?_⟩
        match hk, o2 with
        | [], _ => exact List.Pairwise.nil
        | [a], _ => exact List.pairwise_singleton _ _
      | goOn =>
        simp only [] at hl
        obtain ⟨hinv2, _⟩ := hnext rfl
        obtain ⟨p1, p2⟩ := o3 rfl
        cases hrest : scanLoop items C items.length n (nextIteration s2) with
        | none => rw [hrest] at hl; cases hl
        | some rest =>
          rw [hrest] at hl
          simp only [Option.some.injEq] at hl
          subst hl
          obtain ⟨q1, q2⟩ := ih (nextIteration s2) rest hinv2 hrest
          refine ⟨?_, ?_⟩
          · intro h hh
            rcases List.mem_append.1 hh with hm | hm
            · rw [o1 h hm]
            · have := q1 h hm
              omega
          · rw [List.pairwise_append]
            refine ⟨?_, q2, ?_⟩
            · match hk, o2 with
              | [], _ => exact List.Pairwise.nil
              | [a], _ => exact List.pairwise_singleton _ _
            · intro a ha b hb2
              rcases p2 a ha with hlt | hend
              · have := q1 b hb2
                omega
              · exfalso
                cases n with
                | zero => unfold scanLoop at hrest; cases hrest
                | succ m =>
                  unfold scanLoop at hrest
                  rw [if_neg hend] at hrest
                  simp only [Option.some.injEq] at hrest
                  subst hrest
                  cases hb2
    · rw [if_neg hi] at hl
      simp only [Option.some.injEq] at hl
      subst hl
      exact ⟨by simp, List.Pairwise.nil⟩

/-- For a script of fewer than 65536 operations, `Diff::generateUnidiff` assembles
its hunks; each covers a non-empty range inside the script with the counts of that
range, and each hunk ends before the next one starts. -/
theorem unidiffHunks_order (items : List DiffItem) (C : Nat) (hn : items.length < 65536)
    (hC : C < 4294967296) :
    ∃ hs, unidiffHunks items C = some hs ∧ (∀ h ∈ hs, HunkOK items h)
      ∧ hs.Pairwise (fun a b => a.stop < b.start) := by
  obtain ⟨hs, hu, hok⟩ := unidiffHunks_spec items C hn hC
  refine ⟨hs, hu, hok, ?_⟩
  unfold unidiffHunks at hu
  simp only [] at hu
  rw [u32_of_lt _ (by omega)] at hu
  exact (scanLoop_order items C hn hC _ initialScan hs (scanInv_initial items) hu).2

/-! ## The script for one replaced line -/

section ReplaceProofs

variable {α : Type} [DecidableEq α]

theorem lineIndex_succ (n : Nat) : lineIndex ((n : Int) + 1) = n := by
  simp only [lineIndex]
  split <;> omega

theorem lineIndex_cast (n : Nat) : lineIndex (n : Int) = n - 1 := by
  simp only [lineIndex]
  split <;> omega

/-- The run of unchanged lines from `(x, y)`: `m` equal pairs of lines followed by a
pair that differs or by the end of a sequence. -/
theorem snake_diag (A B : List α) :
    ∀ (m fuel x y : Nat) (h : List DiffItem), m < fuel →
      (∀ t, t < m → ∃ a, A[x + t]? = some a ∧ B[y + t]? = some a) →
      ¬ (x + m < A.length ∧ y + m < B.length ∧ A[x + m]? = B[y + m]?) →
      snake A B fuel (x : Int) (y : Int) h
        = some (((x + m : Nat) : Int), ((y + m : Nat) : Int),
            h ++ (List.range m).map (fun t => (⟨Change.Equal, x + t, y + t⟩ : DiffItem))) := by
  intro m
  induction m with
  | zero =>
    intro fuel x y h hf _ hstop
    obtain ⟨f, rfl⟩ : ∃ f, fuel = f + 1 := ⟨fuel - 1, by omega⟩
    unfold snake
    simp only [Nat.add_zero, List.range_zero, List.map_nil, List.append_nil]
    by_cases hc : (x : Int) < (A.length : Int) ∧ (y : Int) < (B.length : Int)
    · rw [if_pos hc]
      have hxn : x < A.length := by omega
      have hyn : y < B.length := by omega
      rw [vecRead_of_nonneg A x (by omega), vecRead_of_nonneg B y (by omega)]
      simp only [Int.toNat_ofNat]
      rw [List.getElem?_eq_getElem hxn, List.getElem?_eq_getElem hyn]
      have hab : A[x] ≠ B[y] := by
        intro hab
        apply hstop
        refine ⟨hxn, hyn, ?_⟩
        simp only [Nat.add_zero]
        rw [List.getElem?_eq_getElem hxn, List.getElem?_eq_getElem hyn, hab]
      simp only [hab, if_false]
    · rw [if_neg hc]
  | succ m ih =>
    intro fuel x y h hf hrun hstop
    obtain ⟨f, rfl⟩ : ∃ f, fuel = f + 1 := ⟨fuel - 1, by omega⟩
    obtain ⟨a, ha, hb⟩ := hrun 0 (by omega)
    simp only [Nat.add_zero] at ha hb
    have hxn : x < A.length := by
      by_contra hc
      rw [List.getElem?_eq_none (by omega)] at ha
      cases ha
    have hyn : y < B.length := by
      by_contra hc
      rw [List.getElem?_eq_none (by omega)] at hb
      cases hb
    unfold snake
    rw [if_pos ⟨by omega, by omega⟩]
    rw [vecRead_of_nonneg A x (by omega), vecRead_of_nonneg B y (by omega)]
    simp only [Int.toNat_ofNat]
    rw [ha, hb]
    simp only [if_true]
    have e1 : (x : Int) + 1 = ((x + 1 : Nat) : Int) := by push_cast; rfl
    have e2 : (y : Int) + 1 = ((y + 1 : Nat) : Int) := by push_cast; rfl
    rw [lineIndex_succ, lineIndex_succ, e1, e2]
    rw [ih f (x + 1) (y + 1) _ (by omega)
      (fun t ht => by
        have := hrun (t + 1) (by omega)
        rw [show x + 1 + t = x + (t + 1) by omega, show y + 1 + t = y + (t + 1) by omega]
        exact this)
      (by
        rw [show x + 1 + m = x + (m + 1) by omega, show y + 1 + m = y + (m + 1) by omega]
        exact hstop)]
    have e3 : x + 1 + m = x + (m + 1) := by omega
    have e4 : y + 1 + m = y + (m + 1) := by omega
    rw [e3, e4, List.range_succ_eq_map, List.map_cons, List.map_map, List.append_assoc]
    simp only [Nat.add_zero, List.singleton_append, Function.comp_def]
    have hmap : (List.range m).map
          (fun t => (⟨Change.Equal, x + 1 + t, y + 1 + t⟩ : DiffItem))
        = (List.range m).map
          (fun t => (⟨Change.Equal, x + t.succ, y + t.succ⟩ : DiffItem)) := by
      apply List.map_congr_left
      intro t _
      rw [show x + 1 + t = x + t.succ by omega, show y + 1 + t = y + t.succ by omega]
    rw [hmap]

/-- The step taken from the diagonal `k + 1` (a move down). -/
theorem stepFrom_down (A B : List α) (d k xl xr : Int) (hl hr : List DiffItem)
    (hsel : k = -d ∨ xl < xr) :
    stepFrom A B d k xl xr hl hr
      = snake A B (A.length + 1) xr (xr - k)
          (if 1 ≤ xr - k ∧ xr - k ≤ (B.length : Int) then
            hr ++ [⟨Change.Insert, lineIndex xr, lineIndex (xr - k)⟩]
          else if 1 ≤ xr ∧ xr ≤ (A.length : Int) then
            hr ++ [⟨Change.Remove, lineIndex xr, lineIndex (xr - k)⟩]
          else hr) := by
  unfold stepFrom
  simp only [hsel, decide_True, if_true, Bool.and_true, decide_eq_true_eq]

/-- The step taken from the diagonal `k - 1` (a move to the right). -/
theorem stepFrom_right (A B : List α) (d k xl xr : Int) (hl hr : List DiffItem)
    (hsel : ¬ (k = -d ∨ xl < xr)) :
    stepFrom A B d k xl xr hl hr
      = snake A B (A.length + 1) (xl + 1) (xl + 1 - k)
          (if 1 ≤ xl + 1 ∧ xl + 1 ≤ (A.length : Int) then
            hl ++ [⟨Change.Remove, lineIndex (xl + 1), lineIndex (xl + 1 - k)⟩]
          else hl) := by
  unfold stepFrom
  simp only [hsel, decide_False, Bool.and_false, Bool.false_eq_true, if_false]

theorem xAt_set_ne (A B : List α) (vx : List Int) (k k2 v : Int)
    (h1 : -((A.length : Int) + B.length) ≤ k) (hne : k ≠ k2) :
    xAt A B (vx.set ((A.length : Int) + (B.length : Int) + k).toNat v) k2 = xAt A B vx k2 := by
  unfold xAt
  rw [vecRead_set_ne vx _ _ v (by omega) (by omega)]

theorem hAt_set_ne (A B : List α) (vh : List (List DiffItem)) (k k2 : Int)
    (v : List DiffItem)
    (h1 : -((A.length : Int) + B.length) ≤ k) (hne : k ≠ k2) :
    hAt A B (vh.set ((A.length : Int) + (B.length : Int) + k).toNat v) k2 = hAt A B vh k2 := by
  unfold hAt
  rw [vecRead_set_ne vh _ _ v (by omega) (by omega)]

/-- One iteration of the loop over `k`, from the values stored for the two
neighbouring diagonals. -/
theorem diagStep_eval (A B : List α) (d k : Int) (vx : List Int)
    (vh : List (List DiffItem))
    (hlx : vx.length = 2 * (A.length + B.length) + 1)
    (hlh : vh.length = 2 * (A.length + B.length) + 1)
    (hk1 : -((A.length : Int) + B.length) ≤ k) (hk2 : k + 1 ≤ (A.length : Int) + B.length)
    (hkm : k ≠ -d → -((A.length : Int) + B.length) ≤ k - 1)
    (x y : Int) (h : List DiffItem)
    (hstep : stepFrom A B d k (xAt A B vx (k - 1)) (xAt A B vx (k + 1))
        (hAt A B vh (k - 1)) (hAt A B vh (k + 1)) = some (x, y, h)) :
    diagStep A B d k vx vh
      = if (A.length : Int) ≤ x ∧ (B.length : Int) ≤ y then StepOutcome.done h
        else StepOutcome.next (vx.set ((A.length : Int) + (B.length : Int) + k).toNat x)
          (vh.set ((A.length : Int) + (B.length : Int) + k).toNat h) := by
  have hadv : advance A B d k vx vh = some (x, y, h) := by
    rw [← hstep]
    apply advance_eq_stepFrom
    · intro hne
      have := hkm hne
      exact read_xAt A B vx _ _ hlx (by omega) (by omega) (by omega)
    · exact read_xAt A B vx _ _ hlx (by omega) (by omega) (by omega)
    · intro hne
      have := hkm hne
      exact read_hAt A B vh _ _ hlh (by omega) (by omega) (by omega)
    · exact read_hAt A B vh _ _ hlh (by omega) (by omega) (by omega)
  unfold diagStep
  simp only [hadv]
  by_cases hc : (A.length : Int) ≤ x ∧ (B.length : Int) ≤ y
  · rw [if_pos hc, if_pos hc]
  · rw [if_neg hc, if_neg hc]
    rw [vecWrite_of_lt vx _ x (by omega) (by rw [hlx]; push_cast; omega),
      vecWrite_of_lt vh _ h (by omega) (by rw [hlh]; push_cast; omega)]

theorem xAt_replicate (A B : List α) (n : Nat) (k : Int) :
    xAt A B (List.replicate n 0) k = 0 := by
  unfold xAt vecRead
  split
  · rw [List.getElem?_replicate]
    split <;> rfl
  · rfl

theorem hAt_replicate (A B : List α) (n : Nat) (k : Int) :
    hAt A B (List.replicate n []) k = [] := by
  unfold hAt vecRead
  split
  · rw [List.getElem?_replicate]
    split <;> rfl
  · rfl

/-- Round 0 on two sequences that agree on their first `p` lines and differ at line
`p`. -/
theorem replace_round0 (A B : List α) (p : Nat) (hp : p < A.length)
    (hlen : B.length = A.length)
    (hsame : ∀ i, i < A.length → i ≠ p → ∃ a, A[i]? = some a ∧ B[i]? = some a)
    (hdiag : A[p]? ≠ B[p]?) :
    diagStep A B 0 0 (List.replicate ((A.length + B.length) * 2 + 1) 0)
        (List.replicate ((A.length + B.length) * 2 + 1) [])
      = StepOutcome.next
          ((List.replicate ((A.length + B.length) * 2 + 1) (0 : Int)).set
            ((A.length : Int) + (B.length : Int) + 0).toNat (p : Int))
          ((List.replicate ((A.length + B.length) * 2 + 1) ([] : List DiffItem)).set
            ((A.length : Int) + (B.length : Int) + 0).toNat
            ((List.range p).map (fun t => (⟨Change.Equal, t, t⟩ : DiffItem)))) := by
  have hs := diagStep_eval A B 0 0 (List.replicate ((A.length + B.length) * 2 + 1) 0)
    (List.replicate ((A.length + B.length) * 2 + 1) [])
    (by rw [List.length_replicate]; omega) (by rw [List.length_replicate]; omega)
    (by omega) (by omega) (fun h => absurd rfl h) (p : Int) (p : Int)
    ((List.range p).map (fun t => (⟨Change.Equal, t, t⟩ : DiffItem)))
    (by
      rw [xAt_replicate, xAt_replicate, hAt_replicate, hAt_replicate,
        stepFrom_down A B 0 0 0 0 [] [] (Or.inl (by norm_num))]
      have hsn := snake_diag A B p (A.length + 1) 0 0 [] (by omega)
        (fun t ht => by
          simp only [Nat.zero_add]
          exact hsame t (by omega) (by omega))
        (by
          simp only [Nat.zero_add]
          rintro ⟨_, _, h⟩
          exact hdiag h)
      simp only [Nat.zero_add, Nat.cast_zero, List.nil_append] at hsn
      simpa using hsn)
  rw [hs, if_neg (by omega)]

/-- Round 1, diagonal `-1`: the insertion below the point `(p, p)`. -/
theorem replace_step_1m1 (A B : List α) (p : Nat) (hp : p < A.length)
    (hlen : B.length = A.length)
    (hoff : ∀ x y, x ≠ y → x < A.length → y < B.length → A[x]? ≠ B[y]?)
    (vx : List Int) (vh : List (List DiffItem)) (E0 : List DiffItem)
    (hlx : vx.length = 2 * (A.length + B.length) + 1)
    (hlh : vh.length = 2 * (A.length + B.length) + 1)
    (hx0 : xAt A B vx 0 = (p : Int)) (hh0 : hAt A B vh 0 = E0) :
    diagStep A B 1 (-1) vx vh
      = StepOutcome.next
          (vx.set ((A.length : Int) + (B.length : Int) + (-1)).toNat (p : Int))
          (vh.set ((A.length : Int) + (B.length : Int) + (-1)).toNat
            (E0 ++ [⟨Change.Insert, p - 1, p⟩])) := by
  have hs := diagStep_eval A B 1 (-1) vx vh hlx hlh (by omega) (by omega)
    (fun h => absurd rfl h) (p : Int) ((p + 1 : Nat) : Int)
    (E0 ++ [⟨Change.Insert, p - 1, p⟩])
    (by
      have e : (-1 : Int) + 1 = 0 := by norm_num
      rw [e, hx0, hh0, stepFrom_down A B 1 (-1) _ _ _ _ (Or.inl (by norm_num))]
      have e2 : (p : Int) - -1 = ((p + 1 : Nat) : Int) := by push_cast; ring
      rw [e2, if_pos ⟨by omega, by omega⟩, lineIndex_cast, lineIndex_cast]
      have hsn := snake_diag A B 0 (A.length + 1) p (p + 1)
        (E0 ++ [⟨Change.Insert, p - 1, p + 1 - 1⟩]) (by omega)
        (fun t ht => absurd ht (Nat.not_lt_zero t))
        (by
          rintro ⟨h1, h2, h3⟩
          exact hoff p (p + 1) (by omega) (by omega) (by omega) h3)
      simpa using hsn)
  rw [hs, if_neg (by omega)]

/-- Round 1, diagonal `1`: the removal to the right of the point `(p, p)`. -/
theorem replace_step_11 (A B : List α) (p : Nat) (hp : p < A.length)
    (hlen : B.length = A.length)
    (hoff : ∀ x y, x ≠ y → x < A.length → y < B.length → A[x]? ≠ B[y]?)
    (vx : List Int) (vh : List (List DiffItem)) (E0 : List DiffItem)
    (hlx : vx.length = 2 * (A.length + B.length) + 1)
    (hlh : vh.length = 2 * (A.length + B.length) + 1)
    (hx0 : xAt A B vx 0 = (p : Int)) (hh0 : hAt A B vh 0 = E0)
    (hx2 : xAt A B vx 2 = 0) :
    diagStep A B 1 1 vx vh
      = StepOutcome.next
          (vx.set ((A.length : Int) + (B.length : Int) + 1).toNat ((p + 1 : Nat) : Int))
          (vh.set ((A.length : Int) + (B.length : Int) + 1).toNat
            (E0 ++ [⟨Change.Remove, p, p - 1⟩])) := by
  have hs := diagStep_eval A B 1 1 vx vh hlx hlh (by omega) (by omega)
    (fun _ => by omega) ((p + 1 : Nat) : Int) (p : Int)
    (E0 ++ [⟨Change.Remove, p, p - 1⟩])
    (by
      have e : (1 : Int) - 1 = 0 := by norm_num
      have e1 : (1 : Int) + 1 = 2 := by norm_num
      rw [e, e1, hx0, hh0, hx2,
        stepFrom_right A B 1 1 _ _ _ _ (by
          rintro (h | h)
          · omega
          · omega)]
      have e2 : (p : Int) + 1 - 1 = (p : Int) := by ring
      rw [e2, if_pos ⟨by omega, by omega⟩, lineIndex_succ, lineIndex_cast]
      have hsn := snake_diag A B 0 (A.length + 1) (p + 1) p
        (E0 ++ [⟨Change.Remove, p, p - 1⟩]) (by omega)
        (fun t ht => absurd ht (Nat.not_lt_zero t))
        (by
          rintro ⟨h1, h2, h3⟩
          exact hoff (p + 1) p (by omega) (by omega) (by omega) h3)
      simpa using hsn)
  rw [hs, if_neg (by omega)]

/-- Round 2, diagonal `-2`: the point stored is `(p, p + 2)`. -/
theorem replace_step_2m2 (A B : List α) (p : Nat) (hp : p < A.length)
    (hlen : B.length = A.length)
    (hoff : ∀ x y, x ≠ y → x < A.length → y < B.length → A[x]? ≠ B[y]?)
    (vx : List Int) (vh : List (List DiffItem))
    (hlx : vx.length = 2 * (A.length + B.length) + 1)
    (hlh : vh.length = 2 * (A.length + B.length) + 1)
    (hx : xAt A B vx (-1) = (p : Int)) :
    ∃ h, diagStep A B 2 (-2) vx vh
      = StepOutcome.next
          (vx.set ((A.length : Int) + (B.length : Int) + (-2)).toNat (p : Int))
          (vh.set ((A.length : Int) + (B.length : Int) + (-2)).toNat h) := by
  have e : (-2 : Int) + 1 = -1 := by norm_num
  have e2 : (p : Int) - -2 = ((p + 2 : Nat) : Int) := by push_cast; ring
  have hstep : ∃ h, stepFrom A B 2 (-2) (xAt A B vx (-2 - 1)) (xAt A B vx (-2 + 1))
      (hAt A B vh (-2 - 1)) (hAt A B vh (-2 + 1)) = some ((p : Int), ((p + 2 : Nat) : Int), h) := by
    rw [e, hx, stepFrom_down A B 2 (-2) _ _ _ _ (Or.inl (by norm_num)), e2]
    have hsn := snake_diag A B 0 (A.length + 1) p (p + 2)
      (if 1 ≤ ((p + 2 : Nat) : Int) ∧ ((p + 2 : Nat) : Int) ≤ (B.length : Int) then
          hAt A B vh (-1) ++ [⟨Change.Insert, lineIndex (p : Int), lineIndex ((p + 2 : Nat) : Int)⟩]
        else if 1 ≤ (p : Int) ∧ (p : Int) ≤ (A.length : Int) then
          hAt A B vh (-1) ++ [⟨Change.Remove, lineIndex (p : Int), lineIndex ((p + 2 : Nat) : Int)⟩]
        else hAt A B vh (-1)) (by omega)
      (fun t ht => absurd ht (Nat.not_lt_zero t))
      (by
        rintro ⟨h1, h2, h3⟩
        exact hoff p (p + 2) (by omega) (by omega) (by omega) h3)
    simp only [Nat.add_zero, List.range_zero, List.map_nil, List.append_nil] at hsn
    exact ⟨_, hsn⟩
  obtain ⟨h, hst⟩ := hstep
  have hs := diagStep_eval A B 2 (-2) vx vh hlx hlh (by omega) (by omega)
    (fun h => absurd rfl h) (p : Int) ((p + 2 : Nat) : Int) h hst
  exact ⟨h, by rw [hs, if_neg (by omega)]⟩

/-- Round 2, diagonal `0`: the insertion below the point `(p + 1, p)`, the run of
unchanged lines to the end of both sequences, and the end of the computation. -/
theorem replace_step_20 (A B : List α) (p : Nat) (hp : p < A.length)
    (hlen : B.length = A.length)
    (hsame : ∀ i, i < A.length → i ≠ p → ∃ a, A[i]? = some a ∧ B[i]? = some a)
    (vx : List Int) (vh : List (List DiffItem)) (H : List DiffItem)
    (hlx : vx.length = 2 * (A.length + B.length) + 1)
    (hlh : vh.length = 2 * (A.length + B.length) + 1)
    (hxm : xAt A B vx (-1) = (p : Int)) (hx1 : xAt A B vx 1 = ((p + 1 : Nat) : Int))
    (hh1 : hAt A B vh 1 = H) :
    diagStep A B 2 0 vx vh
      = StepOutcome.done (H ++ [⟨Change.Insert, p, p⟩]
          ++ (List.range (A.length - (p + 1))).map
              (fun t => (⟨Change.Equal, p + 1 + t, p + 1 + t⟩ : DiffItem))) := by
  have hs := diagStep_eval A B 2 0 vx vh hlx hlh (by omega) (by omega)
    (fun _ => by omega) (A.length : Int) (A.length : Int)
    (H ++ [⟨Change.Insert, p, p⟩]
          ++ (List.range (A.length - (p + 1))).map
              (fun t => (⟨Change.Equal, p + 1 + t, p + 1 + t⟩ : DiffItem)))
    (by
      have e : (0 : Int) - 1 = -1 := by norm_num
      have e1 : (0 : Int) + 1 = 1 := by norm_num
      rw [e, e1, hxm, hx1, hh1,
        stepFrom_down A B 2 0 _ _ _ _ (Or.inr (by push_cast; omega))]
      have e2 : ((p + 1 : Nat) : Int) - 0 = ((p + 1 : Nat) : Int) := by ring
      rw [e2, if_pos ⟨by omega, by omega⟩, lineIndex_cast]
      have hsn := snake_diag A B (A.length - (p + 1)) (A.length + 1) (p + 1) (p + 1)
        (H ++ [⟨Change.Insert, p + 1 - 1, p + 1 - 1⟩]) (by omega)
        (fun t ht => hsame (p + 1 + t) (by omega) (by omega))
        (by
          rintro ⟨h1, _, _⟩
          omega)
      have e3 : p + 1 + (A.length - (p + 1)) = A.length := by omega
      rw [e3] at hsn
      simpa using hsn)
  rw [hs, if_pos ⟨le_refl _, by omega⟩]

theorem diagLoop_next (A B : List α) (d k : Int) (f : Nat) (vx a : List Int)
    (vh b : List (List DiffItem)) (hk : k ≤ d)
    (h : diagStep A B d k vx vh = StepOutcome.next a b) :
    diagLoop A B d (f + 1) k vx vh = diagLoop A B d f (k + 2) a b := by
  conv_lhs => unfold diagLoop
  rw [if_pos hk, h]

theorem diagLoop_done (A B : List α) (d k : Int) (f : Nat) (vx : List Int)
    (vh : List (List DiffItem)) (items : List DiffItem) (hk : k ≤ d)
    (h : diagStep A B d k vx vh = StepOutcome.done items) :
    diagLoop A B d (f + 1) k vx vh = StepOutcome.done items := by
  unfold diagLoop
  rw [if_pos hk, h]

theorem diagLoop_zero (A B : List α) (d k : Int) (vx : List Int)
    (vh : List (List DiffItem)) :
    diagLoop A B d 0 k vx vh = StepOutcome.next vx vh := by
  unfold diagLoop
  rfl

theorem roundLoop_next (A B : List α) (f d : Nat) (dI : Int) (vx a : List Int)
    (vh b : List (List DiffItem)) (hd : (d : Int) = dI)
    (h : diagLoop A B dI (d + 1) (-dI) vx vh = StepOutcome.next a b) :
    roundLoop A B (f + 1) d vx vh = roundLoop A B f (d + 1) a b := by
  conv_lhs => unfold roundLoop
  rw [hd, h]

theorem roundLoop_done (A B : List α) (f d : Nat) (dI : Int) (vx : List Int)
    (vh : List (List DiffItem)) (items : List DiffItem) (hd : (d : Int) = dI)
    (h : diagLoop A B dI (d + 1) (-dI) vx vh = StepOutcome.done items) :
    roundLoop A B (f + 1) d vx vh = CalcResult.script items := by
  unfold roundLoop
  rw [hd, h]

/-- The script of `Diff::calculate` for two sequences of the same length that
differ at line `p` only, when no line of the first one occurs at another position
of the second one. -/
theorem calculate_replace_aux (A B : List α) (p : Nat) (hp : p < A.length)
    (hlen : B.length = A.length)
    (hsame : ∀ i, i < A.length → i ≠ p → ∃ a, A[i]? = some a ∧ B[i]? = some a)
    (hdiag : A[p]? ≠ B[p]?)
    (hoff : ∀ x y, x ≠ y → x < A.length → y < B.length → A[x]? ≠ B[y]?) :
    calculate A B = CalcResult.script (replaceScript A.length p) := by
  have hl0x : (List.replicate ((A.length + B.length) * 2 + 1) (0 : Int)).length
      = 2 * (A.length + B.length) + 1 := by rw [List.length_replicate]; omega
  have hl0h : (List.replicate ((A.length + B.length) * 2 + 1) ([] : List DiffItem)).length
      = 2 * (A.length + B.length) + 1 := by rw [List.length_replicate]; omega
  -- round 0
  have D0 := replace_round0 A B p hp hlen hsame hdiag
  generalize hvx1 : (List.replicate ((A.length + B.length) * 2 + 1) (0 : Int)).set
            ((A.length : Int) + (B.length : Int) + 0).toNat (p : Int) = vx1 at D0
  generalize hvh1 : (List.replicate ((A.length + B.length) * 2 + 1) ([] : List DiffItem)).set
            ((A.length : Int) + (B.length : Int) + 0).toNat
            ((List.range p).map (fun t => (⟨Change.Equal, t, t⟩ : DiffItem))) = vh1 at D0
  have hl1x : vx1.length = 2 * (A.length + B.length) + 1 := by
    rw [← hvx1, List.length_set, hl0x]
  have hl1h : vh1.length = 2 * (A.length + B.length) + 1 := by
    rw [← hvh1, List.length_set, hl0h]
  have x1_0 : xAt A B vx1 0 = (p : Int) := by
    rw [← hvx1]; exact xAt_set_self A B _ 0 _ hl0x (by omega) (by omega)
  have h1_0 : hAt A B vh1 0 = (List.range p).map (fun t => (⟨Change.Equal, t, t⟩ : DiffItem)) := by
    rw [← hvh1]; exact hAt_set_self A B _ 0 _ hl0h (by omega) (by omega)
  have x1_2 : xAt A B vx1 2 = 0 := by
    rw [← hvx1, xAt_set_ne A B _ 0 2 _ (by omega) (by norm_num), xAt_replicate]
  have L0 : diagLoop A B 0 (0 + 1) (-0) (List.replicate ((A.length + B.length) * 2 + 1) 0)
      (List.replicate ((A.length + B.length) * 2 + 1) []) = StepOutcome.next vx1 vh1 := by
    rw [neg_zero, diagLoop_next A B 0 0 0 _ _ _ _ (le_refl _) D0, diagLoop_zero]
  -- round 1
  have D1 := replace_step_1m1 A B p hp hlen hoff vx1 vh1 _ hl1x hl1h x1_0 h1_0
  generalize hvx2 : vx1.set ((A.length : Int) + (B.length : Int) + (-1)).toNat (p : Int)
    = vx2 at D1
  generalize hvh2 : vh1.set ((A.length : Int) + (B.length : Int) + (-1)).toNat
    ((List.range p).map (fun t => (⟨Change.Equal, t, t⟩ : DiffItem))
      ++ [⟨Change.Insert, p - 1, p⟩]) = vh2 at D1
  have hl2x : vx2.length = 2 * (A.length + B.length) + 1 := by
    rw [← hvx2, List.length_set, hl1x]
  have hl2h : vh2.length = 2 * (A.length + B.length) + 1 := by
    rw [← hvh2, List.length_set, hl1h]
  have x2_0 : xAt A B vx2 0 = (p : Int) := by
    rw [← hvx2, xAt_set_ne A B _ (-1) 0 _ (by omega) (by norm_num), x1_0]
  have h2_0 : hAt A B vh2 0 = (List.range p).map (fun t => (⟨Change.Equal, t, t⟩ : DiffItem)) := by
    rw [← hvh2, hAt_set_ne A B _ (-1) 0 _ (by omega) (by norm_num), h1_0]
  have x2_2 : xAt A B vx2 2 = 0 := by
    rw [← hvx2, xAt_set_ne A B _ (-1) 2 _ (by omega) (by norm_num), x1_2]
  have x2_m1 : xAt A B vx2 (-1) = (p : Int) := by
    rw [← hvx2]; exact xAt_set_self A B _ (-1) _ hl1x (by omega) (by omega)
  have D2 := replace_step_11 A B p hp hlen hoff vx2 vh2 _ hl2x hl2h x2_0 h2_0 x2_2
  generalize hvx3 : vx2.set ((A.length : Int) + (B.length : Int) + 1).toNat
    ((p + 1 : Nat) : Int) = vx3 at D2
  generalize hvh3 : vh2.set ((A.length : Int) + (B.length : Int) + 1).toNat
    ((List.range p).map (fun t => (⟨Change.Equal, t, t⟩ : DiffItem))
      ++ [⟨Change.Remove, p, p - 1⟩]) = vh3 at D2
  have hl3x : vx3.length = 2 * (A.length + B.length) + 1 := by
    rw [← hvx3, List.length_set, hl2x]
  have hl3h : vh3.length = 2 * (A.length + B.length) + 1 := by
    rw [← hvh3, List.length_set, hl2h]
  have x3_m1 : xAt A B vx3 (-1) = (p : Int) := by
    rw [← hvx3, xAt_set_ne A B _ 1 (-1) _ (by omega) (by norm_num), x2_m1]
  have x3_1 : xAt A B vx3 1 = ((p + 1 : Nat) : Int) := by
    rw [← hvx3]; exact xAt_set_self A B _ 1 _ hl2x (by omega) (by omega)
  have h3_1 : hAt A B vh3 1 = (List.range p).map (fun t => (⟨Change.Equal, t, t⟩ : DiffItem))
      ++ [⟨Change.Remove, p, p - 1⟩] := by
    rw [← hvh3]; exact hAt_set_self A B _ 1 _ hl2h (by omega) (by omega)
  have L1 : diagLoop A B 1 (1 + 1) (-1) vx1 vh1 = StepOutcome.next vx3 vh3 := by
    rw [diagLoop_next A B 1 (-1) 1 _ _ _ _ (by norm_num) D1]
    have e : (-1 : Int) + 2 = 1 := by norm_num
    rw [e, diagLoop_next A B 1 1 0 _ _ _ _ (le_refl _) D2, diagLoop_zero]
  -- round 2
  obtain ⟨h4, D3⟩ := replace_step_2m2 A B p hp hlen hoff vx3 vh3 hl3x hl3h x3_m1
  generalize hvx4 : vx3.set ((A.length : Int) + (B.length : Int) + (-2)).toNat (p : Int)
    = vx4 at D3
  generalize hvh4 : vh3.set ((A.length : Int) + (B.length : Int) + (-2)).toNat h4
    = vh4 at D3
  have hl4x : vx4.length = 2 * (A.length + B.length) + 1 := by
    rw [← hvx4, List.length_set, hl3x]
  have hl4h : vh4.length = 2 * (A.length + B.length) + 1 := by
    rw [← hvh4, List.length_set, hl3h]
  have x4_m1 : xAt A B vx4 (-1) = (p : Int) := by
    rw [← hvx4, xAt_set_ne A B _ (-2) (-1) _ (by omega) (by norm_num), x3_m1]
  have x4_1 : xAt A B vx4 1 = ((p + 1 : Nat) : Int) := by
    rw [← hvx4, xAt_set_ne A B _ (-2) 1 _ (by omega) (by norm_num), x3_1]
  have h4_1 : hAt A B vh4 1 = (List.range p).map (fun t => (⟨Change.Equal, t, t⟩ : DiffItem))
      ++ [⟨Change.Remove, p, p - 1⟩] := by
    rw [← hvh4, hAt_set_ne A B _ (-2) 1 _ (by omega) (by norm_num), h3_1]
  have D4 := replace_step_20 A B p hp hlen hsame vx4 vh4 _ hl4x hl4h x4_m1 x4_1 h4_1
  have L2 : diagLoop A B 2 (2 + 1) (-2) vx3 vh3
      = StepOutcome.done (replaceScript A.length p) := by
    rw [diagLoop_next A B 2 (-2) 2 _ _ _ _ (by norm_num) D3]
    have e : (-2 : Int) + 2 = 0 := by norm_num
    rw [e, diagLoop_done A B 2 0 1 _ _ _ (by norm_num) D4]
    unfold replaceScript
    simp only [List.append_assoc, List.singleton_append]
  unfold calculate
  simp only []
  obtain ⟨m, hm⟩ : ∃ m, A.length + B.length + 1 = m + 3 :=
    ⟨A.length + B.length - 2, by omega⟩
  rw [hm]
  rw [roundLoop_next A B (m + 2) 0 0 _ _ _ _ (by norm_num) L0,
    roundLoop_next A B (m + 1) (0 + 1) 1 _ _ _ _ (by norm_num) L1,
    roundLoop_done A B m (0 + 1 + 1) 2 _ _ _ (by norm_num) L2]

/-- The script of `Diff::calculate` when line `p` of a sequence of pairwise distinct
lines is replaced by a line that does not occur in the sequence. -/
theorem calculate_replace (A : List α) (p : Nat) (X : α) (hnd : A.Nodup)
    (hp : p < A.length) (hX : X ∉ A) :
    calculate A (A.set p X) = CalcResult.script (replaceScript A.length p) := by
  have hlen : (A.set p X).length = A.length := List.length_set _ _ _
  apply calculate_replace_aux A (A.set p X) p hp hlen
  · intro i hi hne
    refine ⟨A[i], List.getElem?_eq_getElem hi, ?_⟩
    rw [List.getElem?_set_ne (by omega), List.getElem?_eq_getElem hi]
  · rw [List.getElem?_eq_getElem hp, List.getElem?_set_self hp]
    intro h
    apply hX
    rw [← Option.some.inj h]
    exact List.getElem_mem _
  · intro x y hxy hx hy
    rw [hlen] at hy
    rw [List.getElem?_eq_getElem hx]
    by_cases hyp : y = p
    · subst hyp
      rw [List.getElem?_set_self hy]
      intro h
      apply hX
      rw [← Option.some.inj h]
      exact List.getElem_mem _
    · rw [List.getElem?_set_ne (by omega), List.getElem?_eq_getElem hy]
      intro h
      exact hxy ((List.Nodup.getElem_inj_iff hnd).1 (Option.some.inj h))

end ReplaceProofs

/-! ## The hunk of a script with one run of changes -/

/-- A script made of `a` unchanged items, `r + 1` changes and `b` unchanged items is
printed as one hunk, with at most `C` unchanged items on each side. -/
theorem emits_one_run (items : List DiffItem) (C a r b : Nat)
    (hn : items.length < 65536) (hC : C < 65536)
    (hlen : items.length = a + (r + 1) + b)
    (hE0 : ∀ k, k < a → ∃ it, items[k]? = some it ∧ it.change = Change.Equal)
    (hR : ∀ k, a ≤ k → k < a + (r + 1) →
      ∃ it, items[k]? = some it ∧ it.change ≠ Change.Equal)
    (hE2 : ∀ k, a + (r + 1) ≤ k → k < items.length →
      ∃ it, items[k]? = some it ∧ it.change = Change.Equal) :
    Emits items C initialScan [(a - min a C, a + r + min C b)] := by
  unfold initialScan
  apply emits_equal_run items C hn _ a 0 0 0 0 0 0 0 0 1 (by omega) (le_refl _) (by omega)
    (fun k _ hk2 => hE0 k (by omega))
  intro eq2 j2
  have e1 : 0 + (max (0 + a) C - max 0 C) = a - min a C := by omega
  rw [e1]
  apply emits_change_run items C hn _ r false _ _ _ _ _ _ _ (0 + a) _ (by omega)
    (by omega) (fun h => absurd h (by simp))
    (fun k hk1 hk2 => hR k (by omega) (by omega))
  · intro hlt rem2 ins2 j3
    have := emits_tail items C hn hC (a - min a C) (0 + a + r) (0 + a) eq2 rem2 ins2 0
      (0 + a + (r + 1)) j3 (by omega) (by omega)
      (fun k hk1 hk2 => hE2 k (by omega) hk2)
    have e5 : 0 + a + r + min C (items.length - (0 + a + (r + 1))) = a + r + min C b := by
      omega
    rw [e5] at this
    exact this
  · intro hl
    have e6 : 0 + a + r = a + r + min C b := by omega
    rw [e6]

/-- The items of the script that replaces line `p` of `N` lines. -/
theorem replaceScript_getElem (N p k : Nat) (hp : p < N) (hk : k < N + 1) :
    (replaceScript N p)[k]?
      = some (if k < p then (⟨Change.Equal, k, k⟩ : DiffItem)
          else if k = p then ⟨Change.Remove, p, p - 1⟩
          else if k = p + 1 then ⟨Change.Insert, p, p⟩
          else ⟨Change.Equal, k - 1, k - 1⟩) := by
  unfold replaceScript
  by_cases h1 : k < p
  · rw [if_pos h1, List.append_assoc, List.getElem?_append_left (by simpa using h1)]
    simp [List.getElem?_map, List.getElem?_range h1]
  · rw [if_neg h1, List.append_assoc,
      List.getElem?_append_right (by simpa using Nat.le_of_not_lt h1)]
    simp only [List.length_map, List.length_range]
    by_cases h2 : k = p
    · subst h2
      simp
    · rw [if_neg h2]
      by_cases h3 : k = p + 1
      · subst h3
        simp
      · rw [if_neg h3]
        obtain ⟨t, ht⟩ : ∃ t, k - p = t + 2 := ⟨k - p - 2, by omega⟩
        rw [ht]
        simp only [List.cons_append, List.nil_append, List.getElem?_cons_succ]
        have ht2 : t < N - (p + 1) := by omega
        rw [List.getElem?_map, List.getElem?_range ht2]
        simp only [Option.map_some']
        have : p + 1 + t = k - 1 := by omega
        rw [this]

theorem replaceScript_length (N p : Nat) (hp : p < N) : (replaceScript N p).length = N + 1 := by
  unfold replaceScript
  simp only [List.length_append, List.length_map, List.length_range, List.length_cons,
    List.length_nil]
  omega

/-- The hunk printed for the script that replaces line `p` of `N` lines: it covers
the script range from `p - min p C` to `p + 1 + min C (N - (p + 1))`, and both
counts are the number of context lines plus one. -/
theorem unidiffHunks_replace (N p C : Nat) (hp : p < N) (hN : N + 1 < 65536)
    (hC : C < 65536) :
    unidiffHunks (replaceScript N p) C
      = some [⟨p - min p C, p + 1 + min C (N - (p + 1)),
          min p C + 1 + min C (N - (p + 1)), min p C + 1 + min C (N - (p + 1))⟩] := by
  have hlen := replaceScript_length N p hp
  have hget := fun k hk => replaceScript_getElem N p k hp hk
  have hE0 : ∀ k, k < p →
      ∃ it, (replaceScript N p)[k]? = some it ∧ it.change = Change.Equal := by
    intro k hk
    refine ⟨_, hget k (by omega), ?_⟩
    rw [if_pos hk]
  have hR : ∀ k, p ≤ k → k < p + (1 + 1) →
      ∃ it, (replaceScript N p)[k]? = some it ∧ it.change ≠ Change.Equal := by
    intro k hk1 hk2
    refine ⟨_, hget k (by omega), ?_⟩
    rw [if_neg (by omega)]
    by_cases h2 : k = p
    · rw [if_pos h2]; simp
    · rw [if_neg h2, if_pos (by omega)]; simp
  have hE2 : ∀ k, p + (1 + 1) ≤ k → k < (replaceScript N p).length →
      ∃ it, (replaceScript N p)[k]? = some it ∧ it.change = Change.Equal := by
    intro k hk1 hk2
    refine ⟨_, hget k (by omega), ?_⟩
    rw [if_neg (by omega), if_neg (by omega), if_neg (by omega)]
  have hemits := emits_one_run (replaceScript N p) C p 1 (N - (p + 1)) (by omega) hC
    (by omega) hE0 hR hE2
  obtain ⟨hs, hu, hm, hok⟩ := unidiffHunks_of_emits _ C (by omega) (by omega) _ hemits
  rcases hs with _ | ⟨h1, _ | ⟨h2, t⟩⟩
  · simp at hm
  · simp only [List.map_cons, List.map_nil, List.cons.injEq, Prod.mk.injEq, and_true] at hm
    obtain ⟨a1, a2⟩ := hm
    have hk := hok h1 (List.mem_singleton_self _)
    have hold := hk.old
    have hnew := hk.new
    rw [a1, a2] at hold hnew
    -- the counts of the range
    have hcount : ∀ c : Change,
        countChange c (replaceScript N p) (p - min p C) (p + 1 + min C (N - (p + 1)) + 1)
          = (if c = Change.Equal then min p C + min C (N - (p + 1)) else 1) := by
      intro c
      have r1 := countChange_equal_run (replaceScript N p) (p - min p C) (p - min p C)
        (le_refl _) (min p C) (fun k hk1 hk2 => hE0 k (by omega))
      have e1 : p - min p C + min p C = p := by omega
      rw [e1, countChange_self, countChange_self, countChange_self] at r1
      have hgp := hget p (by omega)
      rw [if_neg (by omega), if_pos rfl] at hgp
      have s1 := countChange_succ c (replaceScript N p) (p - min p C) p _ (by omega) hgp
      have hgq := hget (p + 1) (by omega)
      rw [if_neg (by omega), if_neg (by omega), if_pos rfl] at hgq
      have s2 := countChange_succ c (replaceScript N p) (p - min p C) (p + 1) _ (by omega) hgq
      have r2 := countChange_equal_run (replaceScript N p) (p - min p C) (p + 1 + 1)
        (by omega) (min C (N - (p + 1))) (fun k hk1 hk2 => hE2 k (by omega) (by omega))
      have e2 : p + 1 + 1 + min C (N - (p + 1)) = p + 1 + min C (N - (p + 1)) + 1 := by omega
      rw [e2] at r2
      cases c
      · rw [if_pos rfl]
        simp only [reduceCtorEq, if_false, Nat.add_zero] at s1 s2
        omega
      · rw [if_neg (by simp)]
        simp only [reduceCtorEq, if_false, if_true, Nat.add_zero] at s1 s2
        omega
      · rw [if_neg (by simp)]
        simp only [reduceCtorEq, if_false, if_true, Nat.add_zero] at s1 s2
        omega
    rw [hcount Change.Equal, hcount Change.Remove] at hold
    rw [hcount Change.Equal, hcount Change.Insert] at hnew
    simp only [if_true, reduceCtorEq, if_false] at hold hnew
    rw [hu]
    have : h1 = ⟨p - min p C, p + 1 + min C (N - (p + 1)),
          min p C + 1 + min C (N - (p + 1)), min p C + 1 + min C (N - (p + 1))⟩ := by
      cases h1
      simp only [HunkCall.mk.injEq] at a1 a2 hold hnew ⊢
      omega
    rw [this]
  · simp at hm

/-! ## The text of a hunk -/

theorem hunkBody_zero (original modified : List String) (items : List DiffItem) (i : Nat) :
    hunkBody original modified items 0 i = some "" := by
  unfold hunkBody
  rfl

theorem hunkBody_succ (original modified : List String) (items : List DiffItem) (n i : Nat) :
    hunkBody original modified items (n + 1) i
      = match items[i]? with
        | none => none
        | some it =>
          match bodyLine original modified it, hunkBody original modified items n (i + 1) with
          | some l, some rest => some (l ++ rest)
          | _, _ => none := by
  conv_lhs => unfold hunkBody
  all_goals rfl

/-- The body of a hunk is printed range by range. -/
theorem hunkBody_add (original modified : List String) (items : List DiffItem) :
    ∀ (n1 n2 i : Nat),
      hunkBody original modified items (n1 + n2) i
        = match hunkBody original modified items n1 i,
            hunkBody original modified items n2 (i + n1) with
          | some a, some b => some (a ++ b)
          | _, _ => none := by
  intro n1
  induction n1 with
  | zero =>
    intro n2 i
    simp only [Nat.zero_add, Nat.add_zero]
    rw [hunkBody_zero]
    cases hunkBody original modified items n2 i <;> simp
  | succ n ih =>
    intro n2 i
    have e : n + 1 + n2 = (n + n2) + 1 := by omega
    rw [e, hunkBody_succ original modified items (n + n2) i,
      hunkBody_succ original modified items n i]
    cases hit : items[i]? with
    | none => simp
    | some it =>
      simp only []
      rw [ih n2 (i + 1)]
      have e2 : i + 1 + n = i + (n + 1) := by omega
      rw [e2]
      cases bodyLine original modified it <;>
        cases hunkBody original modified items n (i + 1) <;>
        cases hunkBody original modified items n2 (i + (n + 1)) <;>
        simp [String.append_assoc]

/-- The body printed for a range of unchanged items that refer to consecutive lines
of the original sequence. -/
theorem hunkBody_equal (original modified : List String) (items : List DiffItem) :
    ∀ (n i a : Nat), a + n ≤ original.length →
      (∀ t, t < n → ∃ it, items[i + t]? = some it ∧ it.change = Change.Equal
        ∧ it.lineOld = a + t) →
      hunkBody original modified items n i
        = some (contextLines ((original.drop a).take n)) := by
  intro n
  induction n with
  | zero =>
    intro i a _ _
    unfold hunkBody contextLines
    simp
  | succ n ih =>
    intro i a ha hrun
    obtain ⟨it, hit, hc, hl⟩ := hrun 0 (by omega)
    simp only [Nat.add_zero] at hit hl
    unfold hunkBody
    rw [hit]
    simp only []
    rw [ih (i + 1) (a + 1) (by omega) (fun t ht => by
      obtain ⟨it2, h1, h2, h3⟩ := hrun (t + 1) (by omega)
      refine ⟨it2, ?_, h2, ?_⟩
      · rw [show i + 1 + t = i + (t + 1) by omega]; exact h1
      · rw [h3]; omega)]
    have hlt : a < original.length := by omega
    unfold bodyLine
    rw [hc]
    simp only []
    rw [hl, List.getElem?_eq_getElem hlt]
    simp only [Option.map_some']
    unfold contextLines
    rw [List.drop_eq_getElem_cons hlt, List.take_succ_cons, List.map_cons, List.foldr_cons]

/-- Every call of `generateHunk` for a range inside the script prints a text when
the items of the script refer to existing lines. -/
theorem hunkBody_some (original modified : List String) (items : List DiffItem)
    (hall : ∀ it ∈ items, (bodyLine original modified it).isSome = true) :
    ∀ (n i : Nat), i + n ≤ items.length →
      (hunkBody original modified items n i).isSome = true := by
  intro n
  induction n with
  | zero =>
    intro i _
    unfold hunkBody
    rfl
  | succ n ih =>
    intro i hi
    have hlt : i < items.length := by omega
    unfold hunkBody
    rw [List.getElem?_eq_getElem hlt]
    simp only []
    have h1 := hall items[i] (List.getElem_mem _)
    have h2 := ih (i + 1) (by omega)
    obtain ⟨l, hl⟩ := Option.isSome_iff_exists.1 h1
    obtain ⟨r, hr⟩ := Option.isSome_iff_exists.1 h2
    rw [hl, hr]
    rfl

theorem generateHunk_some (original modified : List String) (items : List DiffItem)
    (hall : ∀ it ∈ items, (bodyLine original modified it).isSome = true)
    (h : HunkCall) (h1 : h.start ≤ h.stop) (h2 : h.stop < items.length) :
    (generateHunk original modified items h).isSome = true := by
  unfold generateHunk hunkHeader
  have hlt : h.start < items.length := by omega
  rw [List.getElem?_eq_getElem hlt]
  simp only []
  obtain ⟨r, hr⟩ := Option.isSome_iff_exists.1
    (hunkBody_some original modified items hall (h.stop + 1 - h.start) h.start (by omega))
  rw [hr]
  rfl

theorem hunksText_some (original modified : List String) (items : List DiffItem)
    (hall : ∀ it ∈ items, (bodyLine original modified it).isSome = true) :
    ∀ hs : List HunkCall, (∀ h ∈ hs, HunkOK items h) →
      (hunksText original modified items hs).isSome = true := by
  intro hs
  induction hs with
  | nil => intro _; rfl
  | cons h t ih =>
    intro hok
    unfold hunksText
    have hk := hok h (List.mem_cons_self _ _)
    obtain ⟨a, ha⟩ := Option.isSome_iff_exists.1
      (generateHunk_some original modified items hall h hk.ordered hk.inside)
    obtain ⟨b, hb⟩ := Option.isSome_iff_exists.1
      (ih (fun h2 hh2 => hok h2 (List.mem_cons_of_mem _ hh2)))
    rw [ha, hb]
    rfl

/-- For a script of fewer than 65536 operations that refer to existing lines,
`Diff::generateUnidiff` prints its text with every vector access in range. -/
theorem generateUnidiff_some (original modified : List String) (items : List DiffItem)
    (hall : ∀ it ∈ items, (bodyLine original modified it).isSome = true)
    (hn : items.length < 65536) (C : Nat) (hC : C < 4294967296)
    (originalFilename originalStamp modifiedFilename modifiedStamp : String)
    (endingNewLine : Bool) :
    (generateUnidiff original modified items originalFilename originalStamp
      modifiedFilename modifiedStamp C endingNewLine).isSome = true := by
  obtain ⟨hs, hu, hok⟩ := unidiffHunks_spec items C hn hC
  obtain ⟨b, hb⟩ := Option.isSome_iff_exists.1
    (hunksText_some original modified items hall hs hok)
  unfold generateUnidiff
  rw [hu]
  simp only []
  rw [hb]
  rfl

/-- The text printed with three context lines when line `p` of fewer than 65535
lines is replaced: one hunk with the lines of context before the change, the old
line, the new line, and the lines of context after the change. -/
theorem generateUnidiff_replace (A : List String) (p : Nat) (X : String)
    (hp : p < A.length) (hN : A.length + 1 < 65536)
    (originalFilename originalStamp modifiedFilename modifiedStamp : String)
    (endingNewLine : Bool) :
    generateUnidiff A (A.set p X) (replaceScript A.length p) originalFilename originalStamp
        modifiedFilename modifiedStamp 3 endingNewLine
      = some ("--- " ++ originalFilename ++ "\t" ++ originalStamp ++ "\n"
          ++ "+++ " ++ modifiedFilename ++ "\t" ++ modifiedStamp ++ "\n"
          ++ ("@@ -" ++ toString (p - min p 3 + 1) ++ ","
              ++ toString (min p 3 + 1 + min 3 (A.length - (p + 1)))
              ++ " +" ++ toString (p - min p 3 + 1) ++ ","
              ++ toString (min p 3 + 1 + min 3 (A.length - (p + 1))) ++ " @@\n"
            ++ (contextLines ((A.drop (p - min p 3)).take (min p 3))
              ++ ("-" ++ A[p] ++ "\n"
                ++ ("+" ++ X ++ "\n"
                  ++ contextLines ((A.drop (p + 1)).take (min 3 (A.length - (p + 1))))))))
          ++ (if endingNewLine then "" else "\\ No newline at end of file\n")) := by
  have hu := unidiffHunks_replace A.length p 3 hp hN (by omega)
  have hget := fun k hk => replaceScript_getElem A.length p k hp hk
  -- the range line
  have hhead : hunkHeader (replaceScript A.length p)
      ⟨p - min p 3, p + 1 + min 3 (A.length - (p + 1)),
        min p 3 + 1 + min 3 (A.length - (p + 1)), min p 3 + 1 + min 3 (A.length - (p + 1))⟩
      = some ("@@ -" ++ toString (p - min p 3 + 1) ++ ","
              ++ toString (min p 3 + 1 + min 3 (A.length - (p + 1)))
              ++ " +" ++ toString (p - min p 3 + 1) ++ ","
              ++ toString (min p 3 + 1 + min 3 (A.length - (p + 1))) ++ " @@\n") := by
    unfold hunkHeader
    simp only []
    rw [hget (p - min p 3) (by omega)]
    simp only []
    by_cases h0 : p - min p 3 < p
    · rw [if_pos h0]
      simp only []
      rw [u32_of_lt _ (by omega)]
    · rw [if_neg h0, if_pos (by omega)]
      simp only []
      have e1 : p - 1 + 1 = p - min p 3 + 1 := by omega
      have e2 : p + 1 = p - min p 3 + 1 := by omega
      rw [e1, e2, u32_of_lt _ (by omega)]
  -- the body
  have hbody : hunkBody A (A.set p X) (replaceScript A.length p)
      (p + 1 + min 3 (A.length - (p + 1)) + 1 - (p - min p 3)) (p - min p 3)
      = some (contextLines ((A.drop (p - min p 3)).take (min p 3))
              ++ ("-" ++ A[p] ++ "\n"
                ++ ("+" ++ X ++ "\n"
                  ++ contextLines ((A.drop (p + 1)).take (min 3 (A.length - (p + 1))))))) := by
    have e : p + 1 + min 3 (A.length - (p + 1)) + 1 - (p - min p 3)
        = min p 3 + ((min 3 (A.length - (p + 1)) + 1) + 1) := by omega
    rw [e, hunkBody_add]
    rw [hunkBody_equal A (A.set p X) _ (min p 3) (p - min p 3) (p - min p 3) (by omega)
      (fun t ht => by
        refine ⟨_, hget (p - min p 3 + t) (by omega), ?_, ?_⟩
        · rw [if_pos (by omega)]
        · rw [if_pos (by omega)])]
    have e2 : p - min p 3 + min p 3 = p := by omega
    rw [e2, hunkBody_succ, hget p (by omega), if_neg (by omega), if_pos rfl]
    simp only []
    rw [hunkBody_succ, hget (p + 1) (by omega), if_neg (by omega), if_neg (by omega),
      if_pos rfl]
    simp only []
    rw [hunkBody_equal A (A.set p X) _ (min 3 (A.length - (p + 1))) (p + 1 + 1) (p + 1)
      (by omega)
      (fun t ht => by
        refine ⟨_, hget (p + 1 + 1 + t) (by omega), ?_, ?_⟩
        · rw [if_neg (by omega), if_neg (by omega), if_neg (by omega)]
        · rw [if_neg (by omega), if_neg (by omega), if_neg (by omega)]
          simp only []
          omega)]
    unfold bodyLine
    simp only []
    rw [List.getElem?_eq_getElem hp, List.getElem?_set_self hp]
    simp only [Option.map_some']
  unfold generateUnidiff
  rw [hu]
  simp only []
  unfold hunksText
  unfold generateHunk
  rw [hhead]
  simp only []
  rw [hbody]
  simp only [hunksText, String.append_empty]

/-! ## A script of more than 65535 operations -/

theorem manyLines_length (n : Nat) : (manyLines n).length = n := by
  unfold manyLines
  rw [List.length_map, List.length_range]

theorem manyLines_nodup (n : Nat) : (manyLines n).Nodup := by
  unfold manyLines
  apply List.Nodup.map _ (List.nodup_range n)
  intro i j hij
  have h := congrArg String.data hij
  simp only at h
  have h2 := congrArg List.length h
  simpa using h2

theorem manyLines_not_mem (n : Nat) : "b" ∉ manyLines n := by
  unfold manyLines
  intro h
  obtain ⟨i, _, hi⟩ := List.mem_map.1 h
  have h2 := congrArg String.data hi
  simp only at h2
  have h3 : 'b' ∈ List.replicate i 'a' := by
    rw [h2]
    decide
  have h4 := List.eq_of_mem_replicate h3
  revert h4
  decide

/-- A run of `m` unchanged items outside a hunk, without a bound on the length of
the script: the counters after the run, as long as none of them wraps around. -/
theorem scanLoop_equal_run (items : List DiffItem) (C : Nat)
    (hn : items.length < 4294967296) :
    ∀ (m f l hs he eq rem ins ep i j : Nat), i + m ≤ items.length →
      l + m < 65536 → hs + (max (l + m) C - max l C) < 65536 →
      eq + (min (l + m) C - min l C) < 65536 →
      (∀ k, i ≤ k → k < i + m → ∃ it, items[k]? = some it ∧ it.change = Change.Equal) →
      ∃ j2, scanLoop items C items.length (f + m) ⟨false, hs, he, l, eq, rem, ins, ep, i, j⟩
        = scanLoop items C items.length f
            ⟨false, hs + (max (l + m) C - max l C), he, l + m,
              eq + (min (l + m) C - min l C), rem, ins, ep, i + m, j2⟩ := by
  intro m
  induction m with
  | zero =>
    intro f l hs he eq rem ins ep i j _ _ _ _ _
    refine ⟨j, ?_⟩
    simp
  | succ m ih =>
    intro f l hs he eq rem ins ep i j him hl hhs heq hrun
    obtain ⟨it, hit, hc⟩ := hrun i (le_refl _) (by omega)
    have hi : i < items.length := by omega
    have hbody : scanBody items C items.length ⟨false, hs, he, l, eq, rem, ins, ep, i, j⟩
        = some (⟨false, hs + (if C ≤ l then 1 else 0), he, l + 1,
            eq + (if C ≤ l then 0 else 1), rem, ins, ep, i, j⟩, [], BodyExit.goOn) := by
      unfold scanBody
      simp only [hit, hc]
      by_cases hcl : C ≤ l
      · simp [hcl, u16_of_lt (hs + 1) (by omega), u16_of_lt (l + 1) (by omega)]
      · simp [hcl, u16_of_lt (l + 1) (by omega), u16_of_lt (eq + 1) (by omega)]
    obtain ⟨j2, hj2⟩ := ih f (l + 1) (hs + (if C ≤ l then 1 else 0)) he
      (eq + (if C ≤ l then 0 else 1)) rem ins ep (i + 1) (u32 (j + 1))
      (by omega) (by omega) (by split <;> omega) (by split <;> omega)
      (fun k hk1 hk2 => hrun k (by omega) (by omega))
    refine ⟨j2, ?_⟩
    have e0 : f + (m + 1) = (f + m) + 1 := by omega
    rw [e0]
    conv_lhs => unfold scanLoop
    rw [if_pos hi, hbody]
    simp only [nextIteration]
    rw [u32_of_lt (i + 1) (by omega), hj2]
    have e1 : hs + (if C ≤ l then 1 else 0) + (max (l + 1 + m) C - max (l + 1) C)
        = hs + (max (l + (m + 1)) C - max l C) := by
      split <;> omega
    have e2 : l + 1 + m = l + (m + 1) := by omega
    have e3 : i + 1 + m = i + (m + 1) := by omega
    have e4 : eq + (if C ≤ l then 0 else 1) + (min (l + 1 + m) C - min (l + 1) C)
        = eq + (min (l + (m + 1)) C - min l C) := by
      split <;> omega
    rw [e1, e4, e2, e3]
    cases scanLoop items C items.length f
        ⟨false, hs + (max (l + (m + 1)) C - max l C), he, l + (m + 1),
          eq + (min (l + (m + 1)) C - min l C), rem, ins, ep, i + (m + 1), j2⟩ with
    | none => rfl
    | some rest => simp

theorem scanLoop_succ (items : List DiffItem) (C n f : Nat) (s : ScanState) :
    scanLoop items C n (f + 1) s
      = if s.i < n then
          match scanBody items C n s with
          | none => none
          | some (_, hunks, BodyExit.breakLoop) => some hunks
          | some (s2, hunks, BodyExit.goOn) =>
            match scanLoop items C n f (nextIteration s2) with
            | none => none
            | some rest => some (hunks ++ rest)
        else some [] := by
  conv_lhs => unfold scanLoop
  all_goals rfl

/-- A removal followed by an insertion at the end of the script, met outside a
hunk: the hunk printed when the last item has been reached. -/
theorem scanLoop_change_pair (items : List DiffItem) (C n f hs he l eq ep i i1 j a b c d : Nat)
    (hR : items[i]? = some ⟨Change.Remove, a, b⟩)
    (hI : items[i1]? = some ⟨Change.Insert, c, d⟩)
    (hi1 : u32 (i + 1) = i1) (h1 : i < n) (h2 : i1 < n)
    (h3 : ¬ (i = pred32 n ∧ hs < n)) (h4 : i1 = pred32 n ∧ hs < n)
    (h5 : ¬ u32 (i1 + 1) < n) :
    scanLoop items C n (f + 1 + 1 + 1) ⟨false, hs, he, l, eq, 0, 0, ep, i, j⟩
      = some [⟨hs, u16 (u16 (u16 (pred32 i) + 1) + 1), u16 (eq + u16 (0 + 1)),
          u16 (eq + u16 (0 + 1))⟩] := by
  have hb1 : scanBody items C n ⟨false, hs, he, l, eq, 0, 0, ep, i, j⟩
      = some (⟨true, hs, u16 (u16 (pred32 i) + 1), l, eq, u16 (0 + 1), 0, ep, i, j⟩, [],
          BodyExit.goOn) := by
    unfold scanBody
    rw [hR]
    simp only [Bool.false_eq_true, if_false, ne_eq, reduceCtorEq, not_false_eq_true, if_true]
    unfold finalCheck
    simp only []
    rw [if_neg h3]
  have hb2 : scanBody items C n
        ⟨true, hs, u16 (u16 (pred32 i) + 1), l, eq, u16 (0 + 1), 0, ep, i1, u32 (j + 1)⟩
      = some (⟨true, hs, u16 (u16 (u16 (pred32 i) + 1) + 1), l, eq, u16 (0 + 1), u16 (0 + 1),
            ep, i1, u32 (j + 1)⟩,
          [⟨hs, u16 (u16 (u16 (pred32 i) + 1) + 1), u16 (eq + u16 (0 + 1)),
            u16 (eq + u16 (0 + 1))⟩], BodyExit.goOn) := by
    unfold scanBody
    rw [hI]
    simp only [if_true]
    unfold finalCheck
    simp only []
    rw [if_pos h4]
    rfl
  rw [scanLoop_succ]
  simp only []
  rw [if_pos h1, hb1]
  simp only [nextIteration]
  rw [hi1, scanLoop_succ]
  simp only []
  rw [if_pos h2, hb2]
  simp only [nextIteration]
  rw [scanLoop_succ]
  simp only []
  rw [if_neg h5]
  rfl

/-- The hunk printed for a script of 65535 unchanged items followed by a removal
and an insertion, with three context lines: `hunkEnd` has wrapped around to `0`,
so that the range of the hunk, from `65532` to `0`, contains no item. -/
theorem unidiffHunks_wrapped (items : List DiffItem) (hlen : items.length = 65537)
    (hE : ∀ k, k < 65535 → ∃ it, items[k]? = some it ∧ it.change = Change.Equal)
    (a b c d : Nat) (hR : items[65535]? = some ⟨Change.Remove, a, b⟩)
    (hI : items[65536]? = some ⟨Change.Insert, c, d⟩) :
    unidiffHunks items 3 = some [⟨65532, 0, 4, 4⟩] := by
  unfold unidiffHunks
  simp only []
  rw [u32_of_lt _ (by omega)]
  obtain ⟨j2, hrun⟩ := scanLoop_equal_run items 3 (by omega) 65535 (2 * items.length + 1 - 65535)
    0 0 0 0 0 0 0 0 1 (by omega) (by omega) (by omega) (by omega)
    (fun k _ hk => hE k (by omega))
  have e0 : 2 * items.length + 1 - 65535 + 65535 = 2 * items.length + 1 := by omega
  rw [e0] at hrun
  unfold initialScan
  rw [hrun, hlen]
  have e1 : 2 * 65537 + 1 - 65535 = 65537 + 1 + 1 + 1 := by norm_num
  have e2 : 0 + (max (0 + 65535) 3 - max 0 3) = 65532 := by norm_num
  have e3 : 0 + (min (0 + 65535) 3 - min 0 3) = 3 := by norm_num
  have e4 : 0 + 65535 = 65535 := by norm_num
  rw [e1, e2, e3, e4]
  rw [scanLoop_change_pair items 3 65537 65537 65532 0 65535 3 0 65535 65536 j2 a b c d hR hI
    (by decide) (by decide) (by decide) (by decide) (by decide) (by decide)]
  have p1 : u16 (u16 (u16 (pred32 65535) + 1) + 1) = 0 := by decide
  have p2 : u16 (3 + u16 (0 + 1)) = 4 := by decide
  rw [p1, p2]

/-- The hunk of the script that replaces the last of 65536 lines. -/
theorem unidiffHunks_replace_wrapped : unidiffHunks (replaceScript 65536 65535) 3 = some [⟨65532, 0, 4, 4⟩] := by
  have hget := fun k hk => replaceScript_getElem 65536 65535 k (by norm_num) hk
  apply unidiffHunks_wrapped (replaceScript 65536 65535)
      (by rw [replaceScript_length _ _ (by norm_num)]) _ 65535 (65535 - 1) 65535 65535
  · have h := hget 65535 (by norm_num)
    rw [if_neg (by norm_num), if_pos rfl] at h
    exact h
  · have h := hget 65536 (by norm_num)
    rw [if_neg (by norm_num), if_neg (by norm_num), if_pos (by norm_num)] at h
    exact h
  · intro k hk
    refine ⟨_, hget k (by omega), ?_⟩
    rw [if_pos hk]

/-- The text printed for a script whose only hunk has the range from `65532` to
`0`: the range line without body lines. -/
theorem generateUnidiff_wrapped (original modified : List String) (items : List DiffItem)
    (hu : unidiffHunks items 3 = some [⟨65532, 0, 4, 4⟩])
    (h : items[65532]? = some ⟨Change.Equal, 65532, 65532⟩) :
    generateUnidiff original modified items "a.txt" "T1" "b.txt" "T2" 3 true
      = some "--- a.txt\tT1\n+++ b.txt\tT2\n@@ -65533,4 +65533,4 @@\n" := by
  have hz : 0 + 1 - 65532 = 0 := by norm_num
  unfold generateUnidiff
  rw [hu]
  simp only []
  unfold hunksText generateHunk hunkHeader
  simp only []
  rw [h, hz, hunkBody_zero]
  simp only [hunksText]
  decide

/-! ## The hunks printed without context lines -/

theorem changedAt_lt {items : List DiffItem} {k : Nat} (h : ChangedAt items k) :
    k < items.length := by
  obtain ⟨it, hit, _⟩ := h
  by_contra hk
  rw [List.getElem?_eq_none (by omega)] at hit
  simp at hit

theorem equalAt_lt {items : List DiffItem} {k : Nat} (h : EqualAt items k) :
    k < items.length := by
  obtain ⟨it, hit, _⟩ := h
  by_contra hk
  rw [List.getElem?_eq_none (by omega)] at hit
  simp at hit

theorem not_equalAt_of_changedAt (items : List DiffItem) (k : Nat)
    (h1 : ChangedAt items k) (h2 : EqualAt items k) : False := by
  obtain ⟨a, ha, hc⟩ := h1
  obtain ⟨b, hb, he⟩ := h2
  rw [ha] at hb
  cases hb
  exact hc he

/-- The pairs listed by `changeRunsFrom` are the maximal runs of changes that begin at
or after the position reached, or at the start of the open run. -/
theorem changeRunsFrom_mem (items : List DiffItem) :
    ∀ (m i : Nat), i + m = items.length →
      ((i = 0 ∨ EqualAt items (i - 1)) →
        ∀ a b, (a, b) ∈ changeRunsFrom (items.drop i) i none
          ↔ (i ≤ a ∧ IsChangeRun items a b))
      ∧ (∀ a0, a0 < i → (∀ k, a0 ≤ k → k < i → ChangedAt items k) →
          (a0 = 0 ∨ EqualAt items (a0 - 1)) →
          ∀ a b, (a, b) ∈ changeRunsFrom (items.drop i) i (some a0)
            ↔ (a0 ≤ a ∧ IsChangeRun items a b)) := by
  intro m
  induction m with
  | zero =>
    intro i hi
    have hd : items.drop i = [] := List.drop_eq_nil_of_le (by omega)
    rw [hd]
    constructor
    · intro _ a b
      simp only [changeRunsFrom, List.not_mem_nil, false_iff]
      rintro ⟨h1, h2, h3, _⟩
      have := changedAt_lt (h3 a (le_refl _) h2)
      omega
    · intro a0 ha0 hrun hleft a b
      simp only [changeRunsFrom, List.mem_singleton, Prod.mk.injEq]
      constructor
      · rintro ⟨rfl, rfl⟩
        exact ⟨le_refl _, by omega, fun k h1 h2 => hrun k h1 (by omega), hleft,
          Or.inl (by omega)⟩
      · rintro ⟨h1, h2, h3, h4, h5⟩
        have hb := changedAt_lt (h3 b h2 (le_refl _))
        constructor
        · by_contra hne
          have ha : a0 < a := by omega
          rcases h4 with h4 | h4
          · omega
          · exact not_equalAt_of_changedAt items (a - 1)
              (hrun (a - 1) (by omega) (by omega)) h4
        · rcases h5 with h5 | h5
          · omega
          · have hlt := equalAt_lt h5
            exact absurd h5 (fun h => not_equalAt_of_changedAt items (b + 1)
              (hrun (b + 1) (by omega) (by omega)) h)
  | succ m ih =>
    intro i hi
    have hlt : i < items.length := by omega
    have hd : items.drop i = items[i] :: items.drop (i + 1) := List.drop_eq_getElem_cons hlt
    obtain ⟨ihout, ihin⟩ := ih (i + 1) (by omega)
    have hget : items[i]? = some items[i] := List.getElem?_eq_getElem hlt
    rw [hd]
    by_cases hc : items[i].change = Change.Equal
    · have hE : EqualAt items i := ⟨items[i], hget, hc⟩
      have hout := ihout (Or.inr (by simpa using hE))
      constructor
      · intro _ a b
        simp only [changeRunsFrom, hc, if_true]
        rw [hout a b]
        constructor
        · rintro ⟨h1, h2⟩
          exact ⟨by omega, h2⟩
        · rintro ⟨h1, h2⟩
          refine ⟨?_, h2⟩
          by_contra hne
          have hai : a = i := by omega
          subst hai
          exact not_equalAt_of_changedAt items a (h2.2.1 a (le_refl _) h2.1) hE
      · intro a0 ha0 hrun hleft a b
        simp only [changeRunsFrom, hc, if_true, List.mem_cons, Prod.mk.injEq]
        rw [hout a b]
        constructor
        · rintro (⟨rfl, rfl⟩ | ⟨h1, h2⟩)
          · exact ⟨le_refl _, by omega, fun k h1 h2 => hrun k h1 (by omega), hleft,
              Or.inr (by
                have e : i - 1 + 1 = i := by omega
                rw [e]
                exact hE)⟩
          · exact ⟨by omega, h2⟩
        · rintro ⟨h1, h2, h3, h4, h5⟩
          by_cases hia : i + 1 ≤ a
          · exact Or.inr ⟨hia, h2, h3, h4, h5⟩
          · left
            have hai : a ≠ i := by
              intro e
              subst e
              exact not_equalAt_of_changedAt items a (h3 a (le_refl _) h2) hE
            have hbi : b < i := by
              by_contra hbi
              exact not_equalAt_of_changedAt items i (h3 i (by omega) (by omega)) hE
            constructor
            · by_contra hne
              rcases h4 with h4 | h4
              · omega
              · exact not_equalAt_of_changedAt items (a - 1)
                  (hrun (a - 1) (by omega) (by omega)) h4
            · rcases h5 with h5 | h5
              · omega
              · by_contra hne
                exact not_equalAt_of_changedAt items (b + 1)
                  (hrun (b + 1) (by omega) (by omega)) h5
    · have hC : ChangedAt items i := ⟨items[i], hget, hc⟩
      constructor
      · intro hleft a b
        simp only [changeRunsFrom, hc, if_false]
        exact ihin i (by omega)
          (fun k h1 h2 => by
            have e : k = i := by omega
            rw [e]
            exact hC)
          hleft a b
      · intro a0 ha0 hrun hleft a b
        simp only [changeRunsFrom, hc, if_false]
        exact ihin a0 (by omega)
          (fun k h1 h2 => by
            by_cases e : k = i
            · rw [e]
              exact hC
            · exact hrun k h1 (by omega))
          hleft a b

/-- The pairs listed by `changeRuns` are the maximal runs of changes of the script. -/
theorem changeRuns_mem (items : List DiffItem) (a b : Nat) :
    (a, b) ∈ changeRuns items ↔ IsChangeRun items a b := by
  have h := (changeRunsFrom_mem items items.length 0 (by omega)).1 (Or.inl rfl) a b
  rw [List.drop_zero] at h
  unfold changeRuns
  rw [h]
  simp

/-- Without context lines the scan loop prints the maximal runs of changes. -/
theorem emits_zero_context (items : List DiffItem) (hn : items.length < 65536) :
    ∀ (m i : Nat), i + m = items.length →
      (∀ he l eq rem ins ep j, l ≤ i →
        Emits items 0 ⟨false, i, he, l, eq, rem, ins, ep, i, j⟩
          (changeRunsFrom (items.drop i) i none))
      ∧ (1 ≤ m → ∀ a0 he l eq rem ins ep j, a0 < i → he + 1 = i →
        Emits items 0 ⟨true, a0, he, l, eq, rem, ins, ep, i, j⟩
          (changeRunsFrom (items.drop i) i (some a0))) := by
  intro m
  induction m with
  | zero =>
    intro i hi
    have hd : items.drop i = [] := List.drop_eq_nil_of_le (by omega)
    rw [hd]
    constructor
    · intro he l eq rem ins ep j _
      simp only [changeRunsFrom]
      exact emits_end items 0 _ (by simp only []; omega)
    · intro h
      omega
  | succ m ih =>
    intro i hi
    have hlt : i < items.length := by omega
    have hd : items.drop i = items[i] :: items.drop (i + 1) := List.drop_eq_getElem_cons hlt
    obtain ⟨ihout, ihin⟩ := ih (i + 1) (by omega)
    have hget : items[i]? = some items[i] := List.getElem?_eq_getElem hlt
    have hnil : i + 1 = items.length → items.drop (i + 1) = [] := fun h =>
      List.drop_eq_nil_of_le (by omega)
    have hout : ∀ he l eq rem ins ep j, l ≤ i →
        Emits items 0 ⟨false, i, he, l, eq, rem, ins, ep, i, j⟩
          (changeRunsFrom (items.drop i) i none) := by
      intro he l eq rem ins ep j hl
      rw [hd]
      by_cases hc : items[i].change = Change.Equal
      · simp only [changeRunsFrom, hc, if_true]
        apply emits_equal_run items 0 hn _ 1 l i he eq rem ins ep i j (by omega)
          (le_refl _) (by omega)
          (fun k h1 h2 => by
            have e : k = i := by omega
            rw [e]
            exact ⟨items[i], hget, hc⟩)
        intro eq2 j2
        have e : i + (max (l + 1) 0 - max l 0) = i + 1 := by omega
        rw [e]
        exact ihout he (l + 1) eq2 rem ins ep j2 (by omega)
      · simp only [changeRunsFrom, hc, if_false]
        apply emits_change items 0 hn _ false i he l eq rem ins ep i j hlt (le_refl _)
          (fun h => absurd h (by simp)) ⟨items[i], hget, hc⟩
        · intro h1 rem2 ins2 j2
          exact ihin (by omega) i i l eq rem2 ins2 ep j2 (by omega) rfl
        · intro h1
          rw [hnil h1]
          simp [changeRunsFrom]
    refine ⟨hout, ?_⟩
    intro _ a0 he l eq rem ins ep j ha0 hhe
    rw [hd]
    by_cases hc : items[i].change = Change.Equal
    · simp only [changeRunsFrom, hc, if_true]
      have e : min (i + 0) items.length = i := by omega
      apply emits_close items 0 hn (by omega) _ a0 he l eq rem ins ep i j hlt hhe
        ⟨items[i], hget, hc⟩
      · intro k h1 h2
        omega
      · intro _
        have e2 : min (min (i + 0) items.length + 0) items.length = i := by omega
        rw [e2]
        exact ⟨items[i], hget, hc⟩
      · intro h1
        rw [e] at h1 ⊢
        rw [hnil h1]
        simp [changeRunsFrom]
      · intro h1
        rw [e]
        refine ⟨_, rfl, ?_⟩
        intro he2 ep2 j2
        have := hout he2 0 0 0 0 ep2 j2 (by omega)
        rw [hd] at this
        simpa only [changeRunsFrom, hc, if_true] using this
    · simp only [changeRunsFrom, hc, if_false]
      apply emits_change items 0 hn _ true a0 he l eq rem ins ep i j hlt (by omega)
        (fun _ => hhe) ⟨items[i], hget, hc⟩
      · intro h1 rem2 ins2 j2
        exact ihin (by omega) a0 i l eq rem2 ins2 ep j2 (by omega) rfl
      · intro h1
        rw [hnil h1]
        simp only [changeRunsFrom]
        have e : i + 1 - 1 = i := by omega
        rw [e]

/-- Without context lines `Diff::generateUnidiff` prints one hunk for each maximal
run of changes of a script of fewer than 65536 operations, from the first to the
last operation of the run. -/
theorem unidiffHunks_zero_context (items : List DiffItem) (hn : items.length < 65536) :
    ∃ hs, unidiffHunks items 0 = some hs
      ∧ hs.map (fun h => (h.start, h.stop)) = changeRuns items
      ∧ ∀ h ∈ hs, HunkOK items h := by
  have h := (emits_zero_context items hn items.length 0 (by omega)).1 0 0 0 0 0 0 1
    (le_refl _)
  rw [List.drop_zero] at h
  exact unidiffHunks_of_emits items 0 hn (by omega) _ h

/-- A range of the script without unchanged item has no unchanged item to count. -/
theorem countChange_equal_zero (items : List DiffItem) (a b : Nat)
    (h : ∀ k, a ≤ k → k < b → ChangedAt items k) :
    countChange Change.Equal items a b = 0 := by
  unfold countChange
  rw [List.countP_eq_zero]
  intro it hit
  obtain ⟨n, hn, hget⟩ := List.getElem_of_mem hit
  simp only [List.length_take, List.length_drop] at hn
  rw [List.getElem_take, List.getElem_drop] at hget
  obtain ⟨it2, h2, hc⟩ := h (a + n) (by omega) (by omega)
  have hlt : a + n < items.length := by omega
  rw [List.getElem?_eq_getElem hlt] at h2
  cases h2
  rw [← hget]
  simpa using hc

/-- The items of a range of the script without unchanged item are changes. -/
theorem hunkItems_changed (items : List DiffItem) (h : HunkCall)
    (hrun : ∀ k, h.start ≤ k → k ≤ h.stop → ChangedAt items k) :
    ∀ it ∈ hunkItems items h, it.change ≠ Change.Equal := by
  intro it hit
  unfold hunkItems at hit
  obtain ⟨n, hn, hget⟩ := List.getElem_of_mem hit
  simp only [List.length_take, List.length_drop] at hn
  rw [List.getElem_take, List.getElem_drop] at hget
  obtain ⟨it2, h2, hc⟩ := hrun (h.start + n) (by omega) (by omega)
  have hlt : h.start + n < items.length := by omega
  rw [List.getElem?_eq_getElem hlt] at h2
  cases h2
  rw [← hget]
  exact hc

/-! ## Scripts without change and scripts without unchanged item, of any length -/

/-- Unchanged items outside a hunk up to the end of the script print nothing,
whatever the values of the counters. -/
theorem scanLoop_all_equal (items : List DiffItem) (C n : Nat) (hn : n < 4294967296)
    (hall : ∀ k, k < n → EqualAt items k) :
    ∀ (m f : Nat) (s : ScanState), s.isHunk = false → s.i + m = n → m < f →
      scanLoop items C n f s = some [] := by
  intro m
  induction m with
  | zero =>
    intro f s _ hi hf
    obtain ⟨f, rfl⟩ : ∃ g, f = g + 1 := ⟨f - 1, by omega⟩
    rw [scanLoop_succ, if_neg (by omega)]
  | succ m ih =>
    intro f s hs hi hf
    obtain ⟨f, rfl⟩ : ∃ g, f = g + 1 := ⟨f - 1, by omega⟩
    obtain ⟨it, hit, hc⟩ := hall s.i (by omega)
    have hbody : ∃ s2, scanBody items C n s = some (s2, [], BodyExit.goOn)
        ∧ s2.isHunk = false ∧ s2.i = s.i := by
      unfold scanBody
      rw [hit]
      simp only [hs, hc, Bool.false_eq_true, if_false, ne_eq, not_true_eq_false]
      by_cases hcl : C ≤ s.linesCount
      · rw [if_pos hcl]
        exact ⟨_, rfl, rfl, rfl⟩
      · rw [if_neg hcl]
        exact ⟨_, rfl, rfl, rfl⟩
    obtain ⟨s2, hb, h1, h2⟩ := hbody
    rw [scanLoop_succ, if_pos (by omega), hb]
    simp only []
    rw [ih f (nextIteration s2) (by simp only [nextIteration]; exact h1)
      (by
        simp only [nextIteration]
        rw [h2, u32_of_lt _ (by omega)]
        omega)
      (by omega)]
    rfl

/-- A script of unchanged items is printed without any hunk, whatever its length and
the number of context lines. -/
theorem unidiffHunks_all_equal (items : List DiffItem) (C : Nat)
    (hall : ∀ it ∈ items, it.change = Change.Equal) :
    unidiffHunks items C = some [] := by
  unfold unidiffHunks
  simp only []
  have hle : u32 items.length ≤ items.length := by
    unfold u32
    exact Nat.mod_le _ _
  have hlt : u32 items.length < 4294967296 := by
    unfold u32
    exact Nat.mod_lt _ (by norm_num)
  apply scanLoop_all_equal items C (u32 items.length) hlt _ (u32 items.length)
    (2 * u32 items.length + 1) initialScan rfl (by simp [initialScan]) (by omega)
  intro k hk
  have hk2 : k < items.length := by omega
  exact ⟨items[k], List.getElem?_eq_getElem hk2, hall _ (List.getElem_mem _)⟩

theorem u16_add_u16 (a b : Nat) : u16 (u16 a + b) = u16 (a + b) := by
  unfold u16
  omega

/-- A run of changed items that reaches the end of the script, met inside a hunk:
one hunk is printed, and its end is the end of the hunk so far moved by the length
of the run, as an `unsigned short`. -/
theorem scanLoop_changes (items : List DiffItem) (C n : Nat) (hn : n < 4294967296)
    (hall : ∀ k, k < n → ChangedAt items k) :
    ∀ (m f hs he l eq rem ins ep i j : Nat), i + (m + 1) = n → hs < n → m + 1 < f →
      ∃ lo ln, scanLoop items C n f ⟨true, hs, he, l, eq, rem, ins, ep, i, j⟩
        = some [⟨hs, u16 (he + (m + 1)), lo, ln⟩] := by
  intro m
  induction m with
  | zero =>
    intro f hs he l eq rem ins ep i j hi hhs hf
    obtain ⟨f, rfl⟩ : ∃ g, f = g + 1 + 1 := ⟨f - 2, by omega⟩
    obtain ⟨it, hit, hc⟩ := hall i (by omega)
    have hfin : i = pred32 n ∧ hs < n := by
      rw [pred32_of_pos n (by omega) hn]
      omega
    have hbody : ∃ rem2 ins2, scanBody items C n ⟨true, hs, he, l, eq, rem, ins, ep, i, j⟩
        = some (⟨true, hs, u16 (he + 1), l, eq, rem2, ins2, ep, i, j⟩,
            [⟨hs, u16 (he + 1), u16 (eq + rem2), u16 (eq + ins2)⟩], BodyExit.goOn) := by
      unfold scanBody
      rw [hit]
      simp only [if_true]
      rcases hch : it.change with _ | _ | _
      · exact absurd hch hc
      · refine ⟨u16 (rem + 1), ins, ?_⟩
        simp only []
        unfold finalCheck
        rw [if_pos hfin]
        rfl
      · refine ⟨rem, u16 (ins + 1), ?_⟩
        simp only []
        unfold finalCheck
        rw [if_pos hfin]
        rfl
    obtain ⟨rem2, ins2, hb⟩ := hbody
    refine ⟨u16 (eq + rem2), u16 (eq + ins2), ?_⟩
    rw [scanLoop_succ, if_pos (by simp only []; omega), hb]
    simp only []
    rw [scanLoop_succ, if_neg (by
      simp only [nextIteration]
      rw [u32_of_lt _ (by omega)]
      omega)]
    rfl
  | succ m ih =>
    intro f hs he l eq rem ins ep i j hi hhs hf
    obtain ⟨f, rfl⟩ : ∃ g, f = g + 1 := ⟨f - 1, by omega⟩
    obtain ⟨it, hit, hc⟩ := hall i (by omega)
    have hfin : ¬ (i = pred32 n ∧ hs < n) := by
      rw [pred32_of_pos n (by omega) hn]
      omega
    have hbody : ∃ rem2 ins2, scanBody items C n ⟨true, hs, he, l, eq, rem, ins, ep, i, j⟩
        = some (⟨true, hs, u16 (he + 1), l, eq, rem2, ins2, ep, i, j⟩, [],
            BodyExit.goOn) := by
      unfold scanBody
      rw [hit]
      simp only [if_true]
      rcases hch : it.change with _ | _ | _
      · exact absurd hch hc
      · refine ⟨u16 (rem + 1), ins, ?_⟩
        simp only []
        unfold finalCheck
        rw [if_neg hfin]
      · refine ⟨rem, u16 (ins + 1), ?_⟩
        simp only []
        unfold finalCheck
        rw [if_neg hfin]
    obtain ⟨rem2, ins2, hb⟩ := hbody
    obtain ⟨lo, ln, hr⟩ := ih f hs (u16 (he + 1)) l eq rem2 ins2 ep (i + 1) (u32 (j + 1))
      (by omega) hhs (by omega)
    refine ⟨lo, ln, ?_⟩
    rw [scanLoop_succ, if_pos (by simp only []; omega), hb]
    simp only [nextIteration]
    rw [u32_of_lt (i + 1) (by omega), hr]
    simp only [List.nil_append]
    rw [u16_add_u16]
    have e : he + 1 + (m + 1) = he + (m + 1 + 1) := by omega
    rw [e]

/-- A script without unchanged item, of any length below `2 ^ 32`, is printed as one
hunk that starts at the first item; the end of the hunk is the index of the last
item as an `unsigned short`. -/
theorem unidiffHunks_changes (items : List DiffItem) (C : Nat)
    (hn : items.length < 4294967296) (hne : items ≠ [])
    (hall : ∀ it ∈ items, it.change ≠ Change.Equal) :
    ∃ lo ln, unidiffHunks items C = some [⟨0, u16 (items.length + 65535), lo, ln⟩] := by
  have hlen : 1 ≤ items.length := by
    cases items with
    | nil => exact absurd rfl hne
    | cons a t => simp
  have hch : ∀ k, k < items.length → ChangedAt items k := fun k hk =>
    ⟨items[k], List.getElem?_eq_getElem hk, hall _ (List.getElem_mem _)⟩
  unfold unidiffHunks
  simp only []
  rw [u32_of_lt _ hn]
  obtain ⟨it, hit, hc⟩ := hch 0 (by omega)
  by_cases h1 : items.length = 1
  · have hfin : (0 : Nat) = pred32 items.length ∧ 0 < items.length := by
      rw [h1]
      decide
    have hbody : ∃ rem2 ins2, scanBody items C items.length initialScan
        = some (⟨true, 0, u16 (u16 (pred32 0) + 1), 0, 0, rem2, ins2, 0, 0, 1⟩,
            [⟨0, u16 (u16 (pred32 0) + 1), u16 (0 + rem2), u16 (0 + ins2)⟩],
            BodyExit.goOn) := by
      unfold scanBody initialScan
      rw [hit]
      simp only [Bool.false_eq_true, if_false, ne_eq, hc, not_false_eq_true, if_true]
      rcases hch2 : it.change with _ | _ | _
      · exact absurd hch2 hc
      · refine ⟨u16 (0 + 1), 0, ?_⟩
        simp only []
        unfold finalCheck
        rw [if_pos hfin]
        rfl
      · refine ⟨0, u16 (0 + 1), ?_⟩
        simp only []
        unfold finalCheck
        rw [if_pos hfin]
        rfl
    obtain ⟨rem2, ins2, hb⟩ := hbody
    refine ⟨u16 (0 + rem2), u16 (0 + ins2), ?_⟩
    have e2 : 2 * items.length + 1 = 1 + 1 + 1 := by omega
    rw [e2, scanLoop_succ, if_pos (by simp only [initialScan]; omega), hb]
    simp only []
    rw [scanLoop_succ, if_neg (by
      simp only [nextIteration]
      rw [h1]
      decide)]
    have e3 : u16 (u16 (pred32 0) + 1) = u16 (items.length + 65535) := by
      rw [h1]
      decide
    rw [e3]
    rfl
  · have hfin : ¬ ((0 : Nat) = pred32 items.length ∧ 0 < items.length) := by
      rw [pred32_of_pos _ (by omega) hn]
      omega
    have hbody : ∃ rem2 ins2, scanBody items C items.length initialScan
        = some (⟨true, 0, u16 (u16 (pred32 0) + 1), 0, 0, rem2, ins2, 0, 0, 1⟩, [],
            BodyExit.goOn) := by
      unfold scanBody initialScan
      rw [hit]
      simp only [Bool.false_eq_true, if_false, ne_eq, hc, not_false_eq_true, if_true]
      rcases hch2 : it.change with _ | _ | _
      · exact absurd hch2 hc
      · refine ⟨u16 (0 + 1), 0, ?_⟩
        simp only []
        unfold finalCheck
        rw [if_neg hfin]
      · refine ⟨0, u16 (0 + 1), ?_⟩
        simp only []
        unfold finalCheck
        rw [if_neg hfin]
    obtain ⟨rem2, ins2, hb⟩ := hbody
    obtain ⟨lo, ln, hr⟩ := scanLoop_changes items C items.length hn hch
      (items.length - 2) (2 * items.length) 0 (u16 (u16 (pred32 0) + 1)) 0 0 rem2 ins2 0 1
      (u32 (1 + 1)) (by omega) (by omega) (by omega)
    refine ⟨lo, ln, ?_⟩
    rw [scanLoop_succ, if_pos (by simp only [initialScan]; omega), hb]
    simp only [nextIteration]
    have e4 : u32 (0 + 1) = 1 := by decide
    rw [e4, hr]
    simp only [List.nil_append]
    have e5 : u16 (u16 (pred32 0) + 1) = 0 := by decide
    rw [e5]
    have e6 : u16 (0 + (items.length - 2 + 1)) = u16 (items.length + 65535) := by
      unfold u16
      omega
    rw [e6]

/-! ## The text and the colour calls among the effects -/

theorem writtenText_append (a b : List Effect) :
    writtenText (a ++ b) = writtenText a ++ writtenText b := by
  induction a with
  | nil => simp [writtenText]
  | cons e t ih =>
    cases e with
    | os s => simp [writtenText, ih, String.append_assoc]
    | cerr s => simp [writtenText, ih]
    | setColor c => simp [writtenText, ih]
    | resetColor => simp [writtenText, ih]

theorem colourCalls_append (a b : List Effect) :
    colourCalls (a ++ b) = colourCalls a ++ colourCalls b := by
  unfold colourCalls
  rw [List.filter_append]

/-- The text of a colour call that is made only when colours are in use. -/
theorem writtenText_guard (useColors : Bool) (e : Effect)
    (he : ∀ t, e ≠ Effect.os t) :
    writtenText (if useColors then [e] else []) = "" := by
  cases useColors with
  | false => rfl
  | true =>
    cases e with
    | os s => exact absurd rfl (he s)
    | cerr s => rfl
    | setColor c => rfl
    | resetColor => rfl

theorem writtenText_single (t : String) : writtenText [Effect.os t] = t := by
  simp [writtenText]

/-- The text of a line written between two colour calls. -/
theorem writtenText_coloured (useColors : Bool) (c : Color) (t : String) :
    writtenText ((if useColors then [Effect.setColor c] else []) ++ [Effect.os t]
      ++ (if useColors then [Effect.resetColor] else [])) = t := by
  rw [writtenText_append, writtenText_append, writtenText_single,
    writtenText_guard useColors _ (fun t h => by cases h),
    writtenText_guard useColors _ (fun t h => by cases h)]
  simp

theorem bodyLineEffects_text (useColors : Bool) (original modified : List String)
    (it : DiffItem) :
    (bodyLineEffects useColors original modified it).map writtenText
      = bodyLine original modified it := by
  unfold bodyLineEffects bodyLine
  rcases hc : it.change with _ | _ | _
  · simp only []
    cases original[it.lineOld]? with
    | none => rfl
    | some l => simp [writtenText_single]
  · simp only []
    cases original[it.lineOld]? with
    | none => rfl
    | some l => simp only [Option.map_some']; rw [writtenText_coloured]
  · simp only []
    cases modified[it.lineNew]? with
    | none => rfl
    | some l => simp only [Option.map_some']; rw [writtenText_coloured]

theorem hunkBodyEffects_zero (useColors : Bool) (original modified : List String)
    (items : List DiffItem) (i : Nat) :
    hunkBodyEffects useColors original modified items 0 i = some [] := by
  unfold hunkBodyEffects
  rfl

theorem hunkBodyEffects_succ (useColors : Bool) (original modified : List String)
    (items : List DiffItem) (n i : Nat) :
    hunkBodyEffects useColors original modified items (n + 1) i
      = match items[i]? with
        | none => none
        | some it =>
          match bodyLineEffects useColors original modified it,
              hunkBodyEffects useColors original modified items n (i + 1) with
          | some l, some rest => some (l ++ rest)
          | _, _ => none := by
  conv_lhs => unfold hunkBodyEffects
  all_goals rfl

theorem hunkBodyEffects_text (useColors : Bool) (original modified : List String)
    (items : List DiffItem) :
    ∀ (n i : Nat), (hunkBodyEffects useColors original modified items n i).map writtenText
      = hunkBody original modified items n i := by
  intro n
  induction n with
  | zero =>
    intro i
    rw [hunkBodyEffects_zero, hunkBody_zero]
    rfl
  | succ n ih =>
    intro i
    rw [hunkBodyEffects_succ, hunkBody_succ]
    cases items[i]? with
    | none => rfl
    | some it =>
      simp only []
      rw [← bodyLineEffects_text useColors original modified it, ← ih (i + 1)]
      cases bodyLineEffects useColors original modified it with
      | none => rfl
      | some l =>
        cases hunkBodyEffects useColors original modified items n (i + 1) with
        | none => rfl
        | some rest => simp [writtenText_append]

theorem hunkHeaderEffects_text (useColors : Bool) (items : List DiffItem) (h : HunkCall) :
    (hunkHeaderEffects useColors items h).map writtenText = hunkHeader items h := by
  unfold hunkHeaderEffects hunkHeader
  cases items[h.start]? with
  | none => rfl
  | some it => simp only [Option.map_some']; rw [writtenText_coloured]

/-- The text that `Diff::generateHunk` writes to the stream does not depend on the
options. -/
theorem generateHunkEffects_text (options : Options) (original modified : List String)
    (items : List DiffItem) (h : HunkCall) :
    (generateHunkEffects options original modified items h).map writtenText
      = generateHunk original modified items h := by
  unfold generateHunkEffects generateHunk
  simp only []
  rw [← hunkHeaderEffects_text (useColorsOf options) items h,
    ← hunkBodyEffects_text (useColorsOf options) original modified items]
  cases hunkHeaderEffects (useColorsOf options) items h with
  | none => rfl
  | some hd =>
    cases hunkBodyEffects (useColorsOf options) original modified items
        (h.stop + 1 - h.start) h.start with
    | none => rfl
    | some body => simp [writtenText_append]

theorem hunksEffects_text (options : Options) (original modified : List String)
    (items : List DiffItem) :
    ∀ hs : List HunkCall,
      (hunksEffects options original modified items hs).map writtenText
        = hunksText original modified items hs := by
  intro hs
  induction hs with
  | nil => rfl
  | cons h t ih =>
    unfold hunksEffects hunksText
    rw [← generateHunkEffects_text options original modified items h, ← ih]
    cases generateHunkEffects options original modified items h with
    | none => rfl
    | some a =>
      cases hunksEffects options original modified items t with
      | none => rfl
      | some b => simp [writtenText_append]

/-- The text that `Diff::generateUnidiff` writes to the stream when the colour
handler and the dates of the files are available. -/
theorem generateUnidiffEffects_text (options : Options) (ch : ColorHandler)
    (original modified : List String) (items : List DiffItem)
    (originalFilename modifiedFilename originalStamp modifiedStamp : String)
    (endingNewLine : Bool) :
    (generateUnidiffEffects options (Except.ok ch) original modified items originalFilename
        modifiedFilename (Except.ok (originalStamp, modifiedStamp)) endingNewLine).map
      writtenText
      = generateUnidiff original modified items originalFilename originalStamp
          modifiedFilename modifiedStamp options.contextLines endingNewLine := by
  unfold generateUnidiffEffects generateUnidiff
  simp only []
  cases unidiffHunks items options.contextLines with
  | none => rfl
  | some hunks =>
    simp only []
    rw [← hunksEffects_text options original modified items hunks]
    cases hunksEffects options original modified items hunks with
    | none => rfl
    | some body =>
      simp only [Option.map_some', writtenText_append, writtenText_single,
        writtenText_guard (useColorsOf options) (Effect.setColor Color.Red)
          (fun t h => by cases h),
        writtenText_guard (useColorsOf options) (Effect.setColor Color.Green)
          (fun t h => by cases h),
        writtenText_guard (useColorsOf options) Effect.resetColor (fun t h => by cases h)]
      cases endingNewLine with
      | true =>
        simp only [writtenText, String.append_assoc, String.append_empty, String.empty_append,
          if_true]
      | false =>
        simp only [writtenText, String.append_assoc, String.append_empty, String.empty_append,
          if_false, Bool.false_eq_true]

/-! ### The colour calls when colours are not in use -/

theorem bodyLineEffects_plain (original modified : List String) (it : DiffItem)
    (l : List Effect) (h : bodyLineEffects false original modified it = some l) :
    colourCalls l = [] := by
  unfold bodyLineEffects at h
  rcases hc : it.change with _ | _ | _
  · rw [hc] at h
    simp only [] at h
    cases hl : original[it.lineOld]? with
    | none => rw [hl] at h; simp at h
    | some t =>
      rw [hl] at h
      simp only [Option.map_some', Option.some.injEq] at h
      rw [← h]
      rfl
  · rw [hc] at h
    simp only [] at h
    cases hl : original[it.lineOld]? with
    | none => rw [hl] at h; simp at h
    | some t =>
      rw [hl] at h
      simp only [Option.map_some', Option.some.injEq] at h
      rw [← h]
      rfl
  · rw [hc] at h
    simp only [] at h
    cases hl : modified[it.lineNew]? with
    | none => rw [hl] at h; simp at h
    | some t =>
      rw [hl] at h
      simp only [Option.map_some', Option.some.injEq] at h
      rw [← h]
      rfl

theorem hunkBodyEffects_plain (original modified : List String) (items : List DiffItem) :
    ∀ (n i : Nat) (l : List Effect),
      hunkBodyEffects false original modified items n i = some l → colourCalls l = [] := by
  intro n
  induction n with
  | zero =>
    intro i l h
    rw [hunkBodyEffects_zero] at h
    cases h
    rfl
  | succ n ih =>
    intro i l h
    rw [hunkBodyEffects_succ] at h
    cases hi : items[i]? with
    | none => rw [hi] at h; simp at h
    | some it =>
      rw [hi] at h
      simp only [] at h
      cases hb : bodyLineEffects false original modified it with
      | none => rw [hb] at h; simp at h
      | some a =>
        cases hr : hunkBodyEffects false original modified items n (i + 1) with
        | none => rw [hb, hr] at h; simp at h
        | some b =>
          rw [hb, hr] at h
          simp only [Option.some.injEq] at h
          rw [← h, colourCalls_append, bodyLineEffects_plain original modified it a hb,
            ih (i + 1) b hr]
          rfl

theorem generateHunkEffects_plain (options : Options) (hc : useColorsOf options = false)
    (original modified : List String) (items : List DiffItem) (h : HunkCall) (l : List Effect)
    (hl : generateHunkEffects options original modified items h = some l) :
    colourCalls l = [] := by
  unfold generateHunkEffects at hl
  simp only [hc] at hl
  cases hh : hunkHeaderEffects false items h with
  | none => rw [hh] at hl; simp at hl
  | some hd =>
    cases hb : hunkBodyEffects false original modified items (h.stop + 1 - h.start)
        h.start with
    | none => rw [hh, hb] at hl; simp at hl
    | some body =>
      rw [hh, hb] at hl
      simp only [Option.some.injEq] at hl
      rw [← hl, colourCalls_append, hunkBodyEffects_plain original modified items _ _ body hb]
      unfold hunkHeaderEffects at hh
      cases hs : items[h.start]? with
      | none => rw [hs] at hh; simp at hh
      | some it =>
        rw [hs] at hh
        simp only [Bool.false_eq_true, if_false, List.nil_append, List.append_nil,
          Option.some.injEq] at hh
        rw [← hh]
        rfl

theorem hunksEffects_plain (options : Options) (hc : useColorsOf options = false)
    (original modified : List String) (items : List DiffItem) :
    ∀ (hs : List HunkCall) (l : List Effect),
      hunksEffects options original modified items hs = some l → colourCalls l = [] := by
  intro hs
  induction hs with
  | nil =>
    intro l h
    unfold hunksEffects at h
    cases h
    rfl
  | cons h t ih =>
    intro l hl
    unfold hunksEffects at hl
    cases ha : generateHunkEffects options original modified items h with
    | none => rw [ha] at hl; simp at hl
    | some a =>
      cases hb : hunksEffects options original modified items t with
      | none => rw [ha, hb] at hl; simp at hl
      | some b =>
        rw [ha, hb] at hl
        simp only [Option.some.injEq] at hl
        rw [← hl, colourCalls_append,
          generateHunkEffects_plain options hc original modified items h a ha, ih b hb]
        rfl

/-- When colours are not in use, the colour handler is called exactly once between
its creation and its destruction: by its destructor, which resets the colour. -/
theorem generateUnidiffEffects_plain (options : Options) (hc : useColorsOf options = false)
    (ch : ColorHandler) (original modified : List String) (items : List DiffItem)
    (originalFilename modifiedFilename : String) (stamps : Except String (String × String))
    (endingNewLine : Bool) (l : List Effect)
    (hl : generateUnidiffEffects options (Except.ok ch) original modified items
      originalFilename modifiedFilename stamps endingNewLine = some l) :
    colourCalls l = [Effect.resetColor] := by
  unfold generateUnidiffEffects at hl
  simp only [hc] at hl
  cases stamps with
  | error what =>
    simp only [Option.some.injEq] at hl
    rw [← hl]
    rfl
  | ok st =>
    obtain ⟨s1, s2⟩ := st
    simp only [] at hl
    cases hu : unidiffHunks items options.contextLines with
    | none => rw [hu] at hl; simp at hl
    | some hunks =>
      rw [hu] at hl
      simp only [] at hl
      cases hb : hunksEffects options original modified items hunks with
      | none => rw [hb] at hl; simp at hl
      | some body =>
        rw [hb] at hl
        simp only [Option.some.injEq] at hl
        rw [← hl]
        simp only [colourCalls_append,
          hunksEffects_plain options hc original modified items hunks body hb]
        cases endingNewLine with
        | true => rfl
        | false => rfl

/-! ### The lines of a hunk -/

theorem concat_append (a b : List String) : concat (a ++ b) = concat a ++ concat b := by
  induction a with
  | nil => simp [concat]
  | cons s t ih => simp [concat, ih, String.append_assoc]

theorem bodyLine_specLine (A B : List String) (it : DiffItem)
    (hA : it.change ≠ Change.Insert → it.lineOld < A.length)
    (hB : it.change = Change.Insert → it.lineNew < B.length) :
    bodyLine A B it = some (specLine A B it) := by
  unfold bodyLine specLine
  rcases hc : it.change with _ | _ | _
  · have h := hA (by rw [hc]; simp)
    simp [List.getElem?_eq_getElem h]
  · have h := hA (by rw [hc]; simp)
    simp [List.getElem?_eq_getElem h]
  · have h := hB hc
    simp [List.getElem?_eq_getElem h]

/-- The body of a hunk is made of the lines of its items, in order, when the items
refer to lines that exist. -/
theorem hunkBody_specLines (A B : List String) (items : List DiffItem) :
    ∀ (n i : Nat), i + n ≤ items.length →
      (∀ it ∈ (items.drop i).take n, (it.change ≠ Change.Insert → it.lineOld < A.length)
        ∧ (it.change = Change.Insert → it.lineNew < B.length)) →
      hunkBody A B items n i = some (concat (((items.drop i).take n).map (specLine A B))) := by
  intro n
  induction n with
  | zero =>
    intro i _ _
    rw [hunkBody_zero]
    simp [concat]
  | succ n ih =>
    intro i hi hall
    have hlt : i < items.length := by omega
    have hd : items.drop i = items[i] :: items.drop (i + 1) := List.drop_eq_getElem_cons hlt
    rw [hunkBody_succ, List.getElem?_eq_getElem hlt]
    simp only []
    rw [hd] at hall ⊢
    simp only [List.take_succ_cons, List.map_cons, concat]
    have h0 := hall items[i] (by rw [List.take_succ_cons]; exact List.mem_cons_self _ _)
    rw [bodyLine_specLine A B _ h0.1 h0.2,
      ih (i + 1) (by omega) (fun it hit => hall it
        (by rw [List.take_succ_cons]; exact List.mem_cons_of_mem _ hit))]

/-! ## The last line of the text of `Diff::generateUnidiff` -/

theorem endsNL_append (a b : List Char) (ha : EndsNL a) (hb : EndsNL b) : EndsNL (a ++ b) := by
  rcases hb with hb | ⟨b2, hb⟩
  · rw [hb, List.append_nil]
    exact ha
  · right
    exact ⟨a ++ b2, by rw [hb, List.append_assoc]⟩

theorem endsGood_endsNL (t : List Char) (h : EndsGood t) : ∃ b, t = b ++ ['\n'] := by
  obtain ⟨q, c, l, ht, _⟩ := h
  exact ⟨q ++ c :: l, ht⟩

theorem endsGood_append (a b : List Char) (ha : EndsNL a) (hb : EndsGood b) :
    EndsGood (a ++ b) := by
  obtain ⟨q, c, l, ht, hq, h1, h2, h3⟩ := hb
  refine ⟨a ++ q, c, l, ?_, endsNL_append a q ha hq, h1, h2, h3⟩
  rw [ht]
  simp only [List.append_assoc]

/-- If a text that ends with a line feed is split before one of its characters, the
character is the line feed at the end or the line feed stands behind it. -/
theorem mem_of_append_eq_concat (X Y b : List Char) (t c : Char)
    (h : X ++ t :: Y = b ++ [c]) : (Y = [] ∧ t = c) ∨ c ∈ Y := by
  rcases List.eq_nil_or_concat Y with hY | ⟨Y2, y, hY⟩
  · left
    subst hY
    have h2 : X ++ [t] = b ++ [c] := h
    have h3 := List.append_inj' h2 rfl
    exact ⟨rfl, by simpa using h3.2⟩
  · right
    subst hY
    have h2 : (X ++ t :: Y2) ++ [y] = b ++ [c] := by
      rw [← h]
      simp
    have h3 := List.append_inj' h2 rfl
    have h4 : y = c := by simpa using h3.2
    rw [← h4]
    simp

/-- Two lines without line feed that end the same text after a line feed are
equal. -/
theorem last_line_unique (Q b l m : List Char) (hl : '\n' ∉ l) (hm : '\n' ∉ m)
    (h : Q ++ '\n' :: l = b ++ '\n' :: m) : l = m := by
  rcases List.append_eq_append_iff.1 h with ⟨a, _, h2⟩ | ⟨c, _, h2⟩
  · cases a with
    | nil =>
      simp only [List.nil_append, List.cons.injEq, true_and] at h2
      exact h2
    | cons x a2 =>
      simp only [List.cons_append, List.cons.injEq] at h2
      exact absurd (by rw [h2.2]; simp) hl
  · cases c with
    | nil =>
      simp only [List.nil_append, List.cons.injEq, true_and] at h2
      exact h2.symm
    | cons x c2 =>
      simp only [List.cons_append, List.cons.injEq] at h2
      exact absurd (by rw [h2.2]; simp) hm

/-- A text whose last line stands after a line feed and has no line feed does not end
with another line without line feed. -/
theorem not_ends_of_last_line (Q l m before : List Char) (hl : '\n' ∉ l) (hm : '\n' ∉ m)
    (hne : l ≠ m) (h : Q ++ '\n' :: l = before ++ m) (hb : EndsNL before) : False := by
  rcases hb with hb | ⟨b, hb⟩
  · rw [hb, List.nil_append] at h
    exact hm (by rw [← h]; simp)
  · rw [hb, List.append_assoc] at h
    exact hne (last_line_unique Q b l m hl hm h)

/-- A text that ends with a tab and characters other than the line feed does not end
with a line without tab. -/
theorem not_ends_of_tab (R s m before : List Char) (hs : '\n' ∉ s) (hm : '\t' ∉ m)
    (h : R ++ '\t' :: s = before ++ m) (hb : EndsNL before) : False := by
  rcases List.append_eq_append_iff.1 h with ⟨a, h1, h2⟩ | ⟨c, _, h2⟩
  · cases a with
    | nil =>
      simp only [List.nil_append] at h2
      exact hm (by rw [← h2]; simp)
    | cons x a2 =>
      simp only [List.cons_append, List.cons.injEq] at h2
      rcases hb with hb | ⟨b, hb⟩
      · rw [hb] at h1
        simp at h1
      · rw [hb] at h1
        rcases mem_of_append_eq_concat R a2 b x '\n' h1.symm with ⟨_, hx⟩ | hmem
        · rw [← h2.1] at hx
          exact absurd hx (by decide)
        · exact hs (by rw [h2.2]; simp [hmem])
  · exact hm (by rw [h2]; simp)

theorem bodyLine_endsGood (A B : List String) (hA : ∀ l ∈ A, '\n' ∉ l.data)
    (hB : ∀ l ∈ B, '\n' ∉ l.data) (it : DiffItem) (t : String)
    (h : bodyLine A B it = some t) : EndsGood t.data := by
  unfold bodyLine at h
  rcases hc : it.change with _ | _ | _
  · rw [hc] at h
    simp only [] at h
    cases hl : A[it.lineOld]? with
    | none => rw [hl] at h; simp at h
    | some l =>
      rw [hl] at h
      simp only [Option.map_some', Option.some.injEq] at h
      refine ⟨[], ' ', l.data, ?_, Or.inl rfl, by decide, by decide,
        hA l (List.getElem?_mem hl)⟩
      rw [← h]
      simp only [String.data_append]
      rfl
  · rw [hc] at h
    simp only [] at h
    cases hl : A[it.lineOld]? with
    | none => rw [hl] at h; simp at h
    | some l =>
      rw [hl] at h
      simp only [Option.map_some', Option.some.injEq] at h
      refine ⟨[], '-', l.data, ?_, Or.inl rfl, by decide, by decide,
        hA l (List.getElem?_mem hl)⟩
      rw [← h]
      simp only [String.data_append]
      rfl
  · rw [hc] at h
    simp only [] at h
    cases hl : B[it.lineNew]? with
    | none => rw [hl] at h; simp at h
    | some l =>
      rw [hl] at h
      simp only [Option.map_some', Option.some.injEq] at h
      refine ⟨[], '+', l.data, ?_, Or.inl rfl, by decide, by decide,
        hB l (List.getElem?_mem hl)⟩
      rw [← h]
      simp only [String.data_append]
      rfl

theorem hunkBody_ends (A B : List String) (hA : ∀ l ∈ A, '\n' ∉ l.data)
    (hB : ∀ l ∈ B, '\n' ∉ l.data) (items : List DiffItem) :
    ∀ (n i : Nat) (t : String), hunkBody A B items n i = some t →
      (n = 0 ∧ t = "") ∨ EndsGood t.data := by
  intro n
  induction n with
  | zero =>
    intro i t h
    rw [hunkBody_zero] at h
    cases h
    exact Or.inl ⟨rfl, rfl⟩
  | succ n ih =>
    intro i t h
    right
    rw [hunkBody_succ] at h
    cases hi : items[i]? with
    | none => rw [hi] at h; simp at h
    | some it =>
      rw [hi] at h
      simp only [] at h
      cases hb : bodyLine A B it with
      | none => rw [hb] at h; simp at h
      | some a =>
        cases hr : hunkBody A B items n (i + 1) with
        | none => rw [hb, hr] at h; simp at h
        | some r =>
          rw [hb, hr] at h
          simp only [Option.some.injEq] at h
          rw [← h, String.data_append]
          have ha := bodyLine_endsGood A B hA hB it a hb
          rcases ih (i + 1) r hr with ⟨_, hr2⟩ | hr2
          · rw [hr2]
            simpa using ha
          · exact endsGood_append _ _ (Or.inr (endsGood_endsNL _ ha)) hr2

theorem hunkHeader_endsNL (items : List DiffItem) (h : HunkCall) (hd : String)
    (hh : hunkHeader items h = some hd) : ∃ b, hd.data = b ++ ['\n'] := by
  unfold hunkHeader at hh
  cases hs : items[h.start]? with
  | none => rw [hs] at hh; simp at hh
  | some it =>
    rw [hs] at hh
    simp only [Option.some.injEq] at hh
    rw [← hh]
    refine ⟨("@@ -" ++ toString (u32 (it.lineOld + 1)) ++ "," ++ toString h.linesChangedOld
      ++ " +" ++ toString (u32 (it.lineNew + 1)) ++ "," ++ toString h.linesChangedNew).data
      ++ [' ', '@', '@'], ?_⟩
    rw [String.data_append, List.append_assoc]
    rfl

/-- The text of a hunk with at least one item ends with a body line. -/
theorem generateHunk_endsGood (A B : List String) (hA : ∀ l ∈ A, '\n' ∉ l.data)
    (hB : ∀ l ∈ B, '\n' ∉ l.data) (items : List DiffItem) (h : HunkCall)
    (ho : h.start ≤ h.stop) (t : String) (ht : generateHunk A B items h = some t) :
    EndsGood t.data := by
  unfold generateHunk at ht
  cases hh : hunkHeader items h with
  | none => rw [hh] at ht; simp at ht
  | some hd =>
    cases hb : hunkBody A B items (h.stop + 1 - h.start) h.start with
    | none => rw [hh, hb] at ht; simp at ht
    | some body =>
      rw [hh, hb] at ht
      simp only [Option.some.injEq] at ht
      rw [← ht, String.data_append]
      rcases hunkBody_ends A B hA hB items _ _ body hb with ⟨h0, _⟩ | hg
      · omega
      · exact endsGood_append _ _ (Or.inr (hunkHeader_endsNL items h hd hh)) hg

/-- The text of the hunks is empty when there is no hunk, and ends with a body line
otherwise. -/
theorem hunksText_ends (A B : List String) (hA : ∀ l ∈ A, '\n' ∉ l.data)
    (hB : ∀ l ∈ B, '\n' ∉ l.data) (items : List DiffItem) :
    ∀ (hs : List HunkCall) (t : String), (∀ h ∈ hs, h.start ≤ h.stop) →
      hunksText A B items hs = some t → (hs = [] ∧ t = "") ∨ EndsGood t.data := by
  intro hs
  induction hs with
  | nil =>
    intro t _ h
    unfold hunksText at h
    cases h
    exact Or.inl ⟨rfl, rfl⟩
  | cons h0 rest ih =>
    intro t ho h
    right
    unfold hunksText at h
    cases ha : generateHunk A B items h0 with
    | none => rw [ha] at h; simp at h
    | some a =>
      cases hr : hunksText A B items rest with
      | none => rw [ha, hr] at h; simp at h
      | some r =>
        rw [ha, hr] at h
        simp only [Option.some.injEq] at h
        rw [← h, String.data_append]
        have hg := generateHunk_endsGood A B hA hB items h0
          (ho h0 (List.mem_cons_self _ _)) a ha
        rcases ih r (fun x hx => ho x (List.mem_cons_of_mem _ hx)) hr with ⟨_, hr2⟩ | hr2
        · rw [hr2]
          simpa using hg
        · exact endsGood_append _ _ (Or.inr (endsGood_endsNL _ hg)) hr2

/-- The text made of a header that ends with a tab, a time stamp and a line feed,
of the text of the hunks, and of the line that reports a missing line feed when
`endingNewLine` is false, ends with that line exactly when `endingNewLine` is
false. -/
theorem endsWithLine_iff (H body : String) (endingNewLine : Bool) (R s : List Char)
    (hH : H.data = R ++ '\t' :: s ++ ['\n']) (hs : '\n' ∉ s)
    (hbody : body = "" ∨ EndsGood body.data) :
    EndsWithLine (H ++ body ++ (if endingNewLine then "" else "\\ No newline at end of file\n"))
      noNewlineLine ↔ endingNewLine = false := by
  have hm1 : '\n' ∉ noNewlineLine.data := by decide
  have hm2 : '\t' ∉ noNewlineLine.data := by decide
  have hm3 : noNewlineLine.data.head? = some '\\' := by decide
  have hX : ∃ b, (H ++ body).data = b ++ ['\n'] := by
    rw [String.data_append]
    rcases hbody with hb | hb
    · rw [hb, hH]
      exact ⟨R ++ '\t' :: s, by simp⟩
    · obtain ⟨b, hb2⟩ := endsGood_endsNL _ hb
      exact ⟨H.data ++ b, by rw [hb2, List.append_assoc]⟩
  constructor
  · intro hends
    cases endingNewLine with
    | false => rfl
    | true =>
      exfalso
      obtain ⟨before, hdata, hbefore⟩ := hends
      simp only [if_true, String.append_empty, String.data_append] at hdata
      rcases hbody with hb | hb
      · rw [hb, hH] at hdata
        have h2 : R ++ '\t' :: s = before ++ noNewlineLine.data := by
          have h3 : (R ++ '\t' :: s) ++ ['\n'] = (before ++ noNewlineLine.data) ++ ['\n'] := by
            simpa using hdata
          exact (List.append_inj' h3 rfl).1
        exact not_ends_of_tab R s _ before hs hm2 h2 hbefore
      · obtain ⟨q, c, l, hq, hqn, hc1, hc2, hl⟩ := hb
        have hHn : ∃ b, H.data = b ++ ['\n'] := ⟨R ++ '\t' :: s, by rw [hH]⟩
        have hpre : ∃ Q, H.data ++ q = Q ++ ['\n'] := by
          obtain ⟨b, hb⟩ := hHn
          rcases hqn with hq0 | ⟨q2, hq2⟩
          · exact ⟨b, by rw [hq0, List.append_nil, hb]⟩
          · exact ⟨H.data ++ q2, by rw [hq2, List.append_assoc]⟩
        obtain ⟨Q, hQ⟩ := hpre
        have h2 : Q ++ '\n' :: (c :: l) = before ++ noNewlineLine.data := by
          have h3 : (Q ++ '\n' :: (c :: l)) ++ ['\n']
              = (before ++ noNewlineLine.data) ++ ['\n'] := by
            rw [← hdata, hq]
            have e : Q ++ '\n' :: (c :: l) = (Q ++ ['\n']) ++ (c :: l) := by simp
            rw [e, ← hQ]
            simp only [List.append_assoc]
          exact (List.append_inj' h3 rfl).1
        refine not_ends_of_last_line Q (c :: l) _ before ?_ hm1 ?_ h2 hbefore
        · intro hmem
          rcases List.mem_cons.1 hmem with h4 | h4
          · exact hc2 h4.symm
          · exact hl h4
        · intro heq
          rw [← heq] at hm3
          simp only [List.head?_cons, Option.some.injEq] at hm3
          exact hc1 hm3
  · intro hnl
    rw [hnl]
    obtain ⟨b, hb⟩ := hX
    refine ⟨(H ++ body).data, ?_, Or.inr ⟨b, hb⟩⟩
    simp only [Bool.false_eq_true, if_false, String.data_append, List.append_assoc]
    rfl

/-! ## `StringHelper::getBaseFilename` and `StringHelper::isValidFilename` -/

/-- What `find_last_of` returns: no character of the set when the result is `npos`,
and otherwise the last position that holds a character of the set. -/
theorem findLastOf_spec (chars : List Char) :
    ∀ s : List Char,
      (findLastOf s chars = none → ∀ c ∈ s, c ∉ chars)
      ∧ (∀ i, findLastOf s chars = some i →
          ∃ c, s[i]? = some c ∧ c ∈ chars ∧ ∀ d ∈ s.drop (i + 1), d ∉ chars) := by
  intro s
  induction s with
  | nil =>
    constructor
    · intro _ c hc
      simp at hc
    · intro i h
      simp [findLastOf] at h
  | cons x t ih =>
    obtain ⟨ih1, ih2⟩ := ih
    constructor
    · intro h c hc
      unfold findLastOf at h
      cases hf : findLastOf t chars with
      | some j => rw [hf] at h; simp at h
      | none =>
        rw [hf] at h
        simp only [] at h
        by_cases hx : chars.contains x = true
        · rw [if_pos hx] at h
          simp at h
        · rcases List.mem_cons.1 hc with hcx | hct
          · rw [hcx]
            simpa using hx
          · exact ih1 hf c hct
    · intro i h
      unfold findLastOf at h
      cases hf : findLastOf t chars with
      | some j =>
        rw [hf] at h
        simp only [Option.some.injEq] at h
        obtain ⟨c, h1, h2, h3⟩ := ih2 j hf
        refine ⟨c, ?_, h2, ?_⟩
        · rw [← h]
          simpa using h1
        · rw [← h]
          simpa using h3
      | none =>
        rw [hf] at h
        simp only [] at h
        by_cases hx : chars.contains x = true
        · rw [if_pos hx] at h
          simp only [Option.some.injEq] at h
          refine ⟨x, ?_, by simpa using hx, ?_⟩
          · rw [← h]
            simp
          · rw [← h]
            simpa using ih1 hf
        · rw [if_neg hx] at h
          simp at h

/-- The base name is what follows the last slash or backslash of the path. -/
theorem getBaseFilename_spec (path : String) :
    ∃ dir : List Char, path.data = dir ++ (getBaseFilename path).data
      ∧ (∀ c ∈ (getBaseFilename path).data, c ≠ '/' ∧ c ≠ '\\')
      ∧ (dir = [] ∨ ∃ d, dir = d ++ ['/'] ∨ dir = d ++ ['\\']) := by
  obtain ⟨h1, h2⟩ := findLastOf_spec ['/', '\\'] path.data
  unfold getBaseFilename
  cases hf : findLastOf path.data ['/', '\\'] with
  | none =>
    refine ⟨[], by simp, ?_, Or.inl rfl⟩
    intro c hc
    have := h1 hf c (by simpa using hc)
    simpa using this
  | some i =>
    obtain ⟨c, hc1, hc2, hc3⟩ := h2 i hf
    have hi : i < path.data.length := by
      by_contra hge
      rw [List.getElem?_eq_none (by omega)] at hc1
      simp at hc1
    refine ⟨path.data.take (i + 1), by simp, ?_, Or.inr ⟨path.data.take i, ?_⟩⟩
    · intro d hd
      have := hc3 d hd
      simpa using this
    · have e : path.data.take (i + 1) = path.data.take i ++ [c] := by
        rw [List.take_succ, hc1]
        rfl
      rw [e]
      simp only [List.mem_cons, List.mem_singleton, List.not_mem_nil, or_false] at hc2
      rcases hc2 with hc2 | hc2
      · left
        rw [hc2]
      · right
        rw [hc2]

/-- The result of `StringHelper::isValidFilename` in terms of the base name: the name
is refused when its base name is empty, is longer than 255 bytes, holds one of the
characters `: * ? " < > |`, or is a reserved name when its letters are made capital
letters. -/
theorem isValidFilename_iff (str : String) :
    isValidFilename str = false
      ↔ ((getBaseFilename str).data = [] ∨ 255 < (getBaseFilename str).utf8ByteSize
        ∨ (∃ c ∈ (getBaseFilename str).data, c ∈ [':', '*', '?', '"', '<', '>', '|'])
        ∨ toUppercase (getBaseFilename str) ∈ reservedNames) := by
  obtain ⟨dir, _, hsep, _⟩ := getBaseFilename_spec str
  have hcont : contains (getBaseFilename str) "\\/:*?\"<>|" = true
      ↔ ∃ c ∈ (getBaseFilename str).data, c ∈ [':', '*', '?', '"', '<', '>', '|'] := by
    unfold contains
    rw [List.any_eq_true]
    constructor
    · rintro ⟨c, hc, hin⟩
      refine ⟨c, hc, ?_⟩
      have h2 : c ∈ ['\\', '/', ':', '*', '?', '"', '<', '>', '|'] := by
        simpa using hin
      have hs := hsep c hc
      simp only [List.mem_cons, List.mem_singleton, List.not_mem_nil, or_false] at h2 ⊢
      rcases h2 with h | h | h
      · exact absurd h hs.2
      · exact absurd h hs.1
      · exact h
    · rintro ⟨c, hc, hin⟩
      refine ⟨c, hc, ?_⟩
      have h2 : c ∈ ['\\', '/', ':', '*', '?', '"', '<', '>', '|'] := by
        simp only [List.mem_cons, List.mem_singleton, List.not_mem_nil, or_false] at hin ⊢
        exact Or.inr (Or.inr hin)
      simpa using h2
  have hres : reservedNames.contains (toUppercase (getBaseFilename str)) = true
      ↔ toUppercase (getBaseFilename str) ∈ reservedNames := by
    simp
  unfold isValidFilename isInVector
  simp only [Bool.not_eq_false', Bool.or_eq_true, decide_eq_true_eq, gt_iff_lt, hcont, hres]
  constructor
  · intro h
    by_cases p1 : (getBaseFilename str).data = []
    · exact Or.inl p1
    by_cases p2 : 255 < (getBaseFilename str).utf8ByteSize
    · exact Or.inr (Or.inl p2)
    by_cases p3 : ∃ c ∈ (getBaseFilename str).data, c ∈ [':', '*', '?', '"', '<', '>', '|']
    · exact Or.inr (Or.inr (Or.inl p3))
    by_cases p4 : toUppercase (getBaseFilename str) ∈ reservedNames
    · exact Or.inr (Or.inr (Or.inr p4))
    rcases h with ((h | h) | h) | h
    · exact absurd h p1
    · exact absurd h p2
    · exact absurd h p3
    · exact absurd h p4
  · rintro (p | p | p | p)
    · exact Or.inl (Or.inl (Or.inl p))
    · exact Or.inl (Or.inl (Or.inr p))
    · exact Or.inl (Or.inr p)
    · exact Or.inr p

/-! ## `StringHelper::str2uint` on decimal renderings -/

theorem digitChar_digit (m : Nat) (h : m < 10) :
    (Nat.digitChar m).isDigit = true ∧ digitValue (Nat.digitChar m) = m := by
  interval_cases m <;> decide

theorem digitsValue_acc :
    ∀ (ds : List Char) (acc : Nat),
      digitsValue ds acc = acc * 10 ^ ds.length + digitsValue ds 0 := by
  intro ds
  induction ds with
  | nil => intro acc; simp [digitsValue]
  | cons c t ih =>
    intro acc
    unfold digitsValue
    rw [ih (10 * acc + digitValue c), ih (10 * 0 + digitValue c)]
    simp only [List.length_cons, pow_succ]
    ring

theorem toDigitsCore_value :
    ∀ (fuel n : Nat) (ds : List Char), n < fuel →
      digitsValue (Nat.toDigitsCore 10 fuel n ds) 0
        = n * 10 ^ ds.length + digitsValue ds 0 := by
  intro fuel
  induction fuel with
  | zero => intro n ds h; omega
  | succ fuel ih =>
    intro n ds h
    unfold Nat.toDigitsCore
    simp only []
    have hd := (digitChar_digit (n % 10) (Nat.mod_lt _ (by norm_num))).2
    have e1 : digitsValue (Nat.digitChar (n % 10) :: ds) 0
        = (n % 10) * 10 ^ ds.length + digitsValue ds 0 := by
      conv_lhs => unfold digitsValue
      rw [digitsValue_acc, hd]
      simp
    by_cases h0 : n / 10 = 0
    · rw [if_pos h0, e1]
      have e : n % 10 = n := by omega
      rw [e]
    · rw [if_neg h0, ih (n / 10) _ (by omega)]
      rw [e1]
      simp only [List.length_cons, pow_succ]
      have hn : n = 10 * (n / 10) + n % 10 := (Nat.div_add_mod n 10).symm
      conv_rhs => rw [hn]
      ring

theorem toDigitsCore_isDigit :
    ∀ (fuel n : Nat) (ds : List Char), (∀ c ∈ ds, c.isDigit = true) →
      ∀ c ∈ Nat.toDigitsCore 10 fuel n ds, c.isDigit = true := by
  intro fuel
  induction fuel with
  | zero =>
    intro n ds h c hc
    unfold Nat.toDigitsCore at hc
    exact h c hc
  | succ fuel ih =>
    intro n ds h c hc
    unfold Nat.toDigitsCore at hc
    simp only [] at hc
    have hd := (digitChar_digit (n % 10) (Nat.mod_lt _ (by norm_num))).1
    have hall : ∀ c ∈ Nat.digitChar (n % 10) :: ds, c.isDigit = true := by
      intro c hc
      rcases List.mem_cons.1 hc with h1 | h1
      · rw [h1]
        exact hd
      · exact h c h1
    by_cases h0 : n / 10 = 0
    · rw [if_pos h0] at hc
      exact hall c hc
    · rw [if_neg h0] at hc
      exact ih (n / 10) _ hall c hc

theorem toDigitsCore_ne_nil :
    ∀ (fuel n : Nat) (ds : List Char), (fuel ≠ 0 ∨ ds ≠ []) →
      Nat.toDigitsCore 10 fuel n ds ≠ [] := by
  intro fuel
  induction fuel with
  | zero =>
    intro n ds h
    unfold Nat.toDigitsCore
    rcases h with h | h
    · exact absurd rfl h
    · exact h
  | succ fuel ih =>
    intro n ds _
    unfold Nat.toDigitsCore
    simp only []
    by_cases h0 : n / 10 = 0
    · rw [if_pos h0]
      simp
    · rw [if_neg h0]
      exact ih (n / 10) _ (Or.inr (by simp))

/-- The decimal rendering of a natural number is a non-empty list of digits whose
value is the number. -/
theorem natRepr_spec (m : Nat) :
    (toString m).data ≠ [] ∧ (∀ c ∈ (toString m).data, c.isDigit = true)
      ∧ digitsValue (toString m).data 0 = m := by
  have e : (toString m).data = Nat.toDigitsCore 10 (m + 1) m [] := rfl
  rw [e]
  refine ⟨toDigitsCore_ne_nil _ _ _ (Or.inl (by omega)),
    toDigitsCore_isDigit _ _ _ (fun c hc => by simp at hc), ?_⟩
  rw [toDigitsCore_value _ _ _ (by omega)]
  simp [digitsValue]

theorem natRepr_injective (a b : Nat) (h : toString a = toString b) : a = b := by
  have h1 := (natRepr_spec a).2.2
  rw [h, (natRepr_spec b).2.2] at h1
  exact h1.symm

theorem isDigit_not_special (c : Char) (h : c.isDigit = true) :
    isSpace c = false ∧ c ≠ '-' ∧ c ≠ '+' := by
  refine ⟨?_, ?_, ?_⟩
  · unfold isSpace
    simp only [Bool.or_eq_false_iff, decide_eq_false_iff_not]
    refine ⟨⟨⟨⟨⟨?_, ?_⟩, ?_⟩, ?_⟩, ?_⟩, ?_⟩ <;>
    · intro e
      rw [e] at h
      revert h
      decide
  · intro e
    rw [e] at h
    revert h
    decide
  · intro e
    rw [e] at h
    revert h
    decide

/-- `std::stoll` reads a non-empty list of digits as its value. -/
theorem stoll_digits (ds : List Char) (hne : ds ≠ []) (hd : ∀ c ∈ ds, c.isDigit = true) :
    stoll ⟨ds⟩
      = if (digitsValue ds 0 : Int) ≤ 9223372036854775807 then
          Run.value (digitsValue ds 0 : Int)
        else Run.raise (Failure.outOfRange "stoll") := by
  obtain ⟨c, t, rfl⟩ := List.exists_cons_of_ne_nil hne
  obtain ⟨h1, h2, h3⟩ := isDigit_not_special c (hd c (List.mem_cons_self _ _))
  have htw : List.takeWhile Char.isDigit (c :: t) = c :: t :=
    List.takeWhile_eq_self_iff.2 hd
  unfold stoll
  simp only [List.dropWhile_cons, h1, Bool.false_eq_true, if_false, List.head?_cons,
    Option.some.injEq, h2, h3, or_self, decide_False, htw]
  rw [if_neg (by simp)]
  by_cases hr : (digitsValue (c :: t) 0 : Int) ≤ 9223372036854775807
  · rw [if_pos hr, if_pos ⟨by omega, hr⟩]
  · rw [if_neg hr, if_neg (fun h => hr h.2)]

/-- `std::stoll` reads a minus sign followed by a non-empty list of digits as the
opposite of their value. -/
theorem stoll_minus_digits (ds : List Char) (hne : ds ≠ [])
    (hd : ∀ c ∈ ds, c.isDigit = true) :
    stoll ⟨'-' :: ds⟩
      = if -9223372036854775808 ≤ -(digitsValue ds 0 : Int) then
          Run.value (-(digitsValue ds 0 : Int))
        else Run.raise (Failure.outOfRange "stoll") := by
  have htw : List.takeWhile Char.isDigit ds = ds := List.takeWhile_eq_self_iff.2 hd
  have hsp : isSpace '-' = false := by decide
  unfold stoll
  simp only [List.dropWhile_cons, hsp, Bool.false_eq_true, if_false, List.head?_cons,
    true_or, if_true, List.drop_succ_cons, List.drop_zero, htw, decide_True]
  rw [if_neg hne]
  by_cases hr : -9223372036854775808 ≤ -(digitsValue ds 0 : Int)
  · rw [if_pos hr, if_pos ⟨hr, by omega⟩]
  · rw [if_neg hr, if_neg (fun h => hr h.1)]

/-- `StringHelper::str2uint` on the decimal rendering of an integer: the number when
it is an `unsigned int`, and an exception otherwise. -/
theorem str2uint_toString (n : Int) :
    str2uint (toString n)
      = if 0 ≤ n ∧ n ≤ 4294967295 then Run.value n.toNat
        else if -9223372036854775808 ≤ n ∧ n ≤ 9223372036854775807 then
          Run.raise (Failure.rangeError "value is out of acceptable range")
        else Run.raise (Failure.outOfRange "stoll") := by
  cases n with
  | ofNat m =>
    obtain ⟨h1, h2, h3⟩ := natRepr_spec m
    have e : toString (Int.ofNat m) = ⟨(toString m).data⟩ := rfl
    unfold str2uint
    rw [e, stoll_digits _ h1 h2, h3]
    simp only [Int.ofNat_eq_coe]
    by_cases hr : (m : Int) ≤ 9223372036854775807
    · rw [if_pos hr]
      simp only []
      by_cases hu : (m : Int) ≤ 4294967295
      · rw [if_pos ⟨by omega, hu⟩, if_pos ⟨by omega, hu⟩]
      · rw [if_neg (fun h => hu h.2), if_neg (fun h => hu h.2), if_pos ⟨by omega, hr⟩]
    · rw [if_neg hr]
      simp only []
      rw [if_neg (fun h => hr (by omega)), if_neg (fun h => hr h.2)]
  | negSucc m =>
    obtain ⟨h1, h2, h3⟩ := natRepr_spec (m + 1)
    have e : toString (Int.negSucc m) = ⟨'-' :: (toString (m + 1)).data⟩ := rfl
    unfold str2uint
    rw [e, stoll_minus_digits _ h1 h2, h3]
    have hneg : Int.negSucc m = -((m + 1 : Nat) : Int) := rfl
    rw [hneg]
    by_cases hr : -9223372036854775808 ≤ -((m + 1 : Nat) : Int)
    · rw [if_pos hr]
      simp only []
      rw [if_neg (fun h => by omega), if_neg (fun h => by omega), if_pos ⟨hr, by omega⟩]
    · rw [if_neg hr]
      simp only []
      rw [if_neg (fun h => by omega), if_neg (fun h => hr h.1)]

/-- `StringHelper::str2uint` on the decimal rendering of an `unsigned int`. -/
theorem str2uint_natRepr (a : Nat) (ha : a < 4294967296) :
    str2uint (toString a) = Run.value a := by
  have h := str2uint_toString (a : Int)
  have e : toString (a : Int) = toString a := rfl
  rw [e, if_pos ⟨by omega, by omega⟩] at h
  simpa using h

/-! ## `ArgParser::parse` -/

theorem parseTokens_cons (a : String) (rest : List String) (args : List Argument) :
    parseTokens (a :: rest) args
      = match getArgumentIndex args a with
        | some index =>
          match args[index]? with
          | none => Run.undefined
          | some arg =>
            if arg.isBool then
              match setValue args index "true" with
              | none => Run.undefined
              | some args2 => parseTokens rest args2
            else
              match rest with
              | [] => Run.raise (Failure.invalidArgument "invalid arguments")
              | v :: rest2 =>
                if getArgumentIndex args v = none then
                  match setValue args index v with
                  | none => Run.undefined
                  | some args2 => parseTokens rest2 args2
                else Run.raise (Failure.invalidArgument "invalid arguments")
        | none =>
          match findChar a.data '=' with
          | none => Run.raise (Failure.invalidArgument "invalid arguments")
          | some pos =>
            match getArgumentIndex args ⟨a.data.take pos⟩ with
            | none => Run.raise (Failure.invalidArgument "invalid arguments")
            | some index =>
              match setValue args index ⟨a.data.drop (pos + 1)⟩ with
              | none => Run.undefined
              | some args2 => parseTokens rest args2 := by
  conv_lhs => unfold parseTokens
  all_goals rfl

theorem parseLoop_succ (argv : List String) (argvCount fuel i : Nat) (args : List Argument) :
    parseLoop argv argvCount (fuel + 1) i args
      = if i < argvCount - 2 then
          match argv[i]? with
          | none => Run.undefined
          | some a =>
            match getArgumentIndex args a with
            | some index =>
              match args[index]? with
              | none => Run.undefined
              | some arg =>
                if arg.isBool then
                  match setValue args index "true" with
                  | none => Run.undefined
                  | some args2 => parseLoop argv argvCount fuel (i + 1) args2
                else if i + 1 < argvCount - 2 then
                  match argv[i + 1]? with
                  | none => Run.undefined
                  | some v =>
                    if getArgumentIndex args v = none then
                      match setValue args index v with
                      | none => Run.undefined
                      | some args2 => parseLoop argv argvCount fuel (i + 1 + 1) args2
                    else Run.raise (Failure.invalidArgument "invalid arguments")
                else Run.raise (Failure.invalidArgument "invalid arguments")
            | none =>
              match findChar a.data '=' with
              | none => Run.raise (Failure.invalidArgument "invalid arguments")
              | some pos =>
                match getArgumentIndex args ⟨a.data.take pos⟩ with
                | none => Run.raise (Failure.invalidArgument "invalid arguments")
                | some index =>
                  match setValue args index ⟨a.data.drop (pos + 1)⟩ with
                  | none => Run.undefined
                  | some args2 => parseLoop argv argvCount fuel (i + 1) args2
        else Run.value args := by
  conv_lhs => unfold parseLoop
  all_goals rfl

/-- The loop of `ArgParser::parse` reads the arguments before the two paths one after
the other: it is the recursion `parseTokens` over what it has still to read. -/
theorem parseLoop_eq_tokens (argv : List String) :
    ∀ (fuel i : Nat) (args : List Argument), i ≤ argv.length - 2 →
      argv.length - 2 - i < fuel →
      parseLoop argv argv.length fuel i args
        = parseTokens ((argv.take (argv.length - 2)).drop i) args := by
  intro fuel
  induction fuel with
  | zero => intro i args _ h; omega
  | succ fuel ih =>
    intro i args hi hf
    rw [parseLoop_succ]
    by_cases hlt : i < argv.length - 2
    · have hT : i < (argv.take (argv.length - 2)).length := by
        rw [List.length_take]
        omega
      have hd : (argv.take (argv.length - 2)).drop i
          = argv[i] :: (argv.take (argv.length - 2)).drop (i + 1) := by
        rw [List.drop_eq_getElem_cons hT, List.getElem_take]
      have hget : argv[i]? = some argv[i] := List.getElem?_eq_getElem (by omega)
      rw [if_pos hlt, hget, hd, parseTokens_cons]
      simp only []
      cases hidx : getArgumentIndex args argv[i] with
      | none =>
        simp only []
        cases hfc : findChar argv[i].data '=' with
        | none => rfl
        | some pos =>
          simp only []
          cases hidx2 : getArgumentIndex args ⟨argv[i].data.take pos⟩ with
          | none => rfl
          | some index =>
            simp only []
            cases hset : setValue args index ⟨argv[i].data.drop (pos + 1)⟩ with
            | none => rfl
            | some args2 =>
              simp only []
              exact ih (i + 1) args2 (by omega) (by omega)
      | some index =>
        simp only []
        cases harg : args[index]? with
        | none => rfl
        | some arg =>
          simp only []
          by_cases hb : arg.isBool = true
          · rw [if_pos hb, if_pos hb]
            cases hset : setValue args index "true" with
            | none => rfl
            | some args2 =>
              simp only []
              exact ih (i + 1) args2 (by omega) (by omega)
          · rw [if_neg hb, if_neg hb]
            by_cases hlt2 : i + 1 < argv.length - 2
            · have hT2 : i + 1 < (argv.take (argv.length - 2)).length := by
                rw [List.length_take]
                omega
              have hd2 : (argv.take (argv.length - 2)).drop (i + 1)
                  = argv[i + 1] :: (argv.take (argv.length - 2)).drop (i + 1 + 1) := by
                rw [List.drop_eq_getElem_cons hT2, List.getElem_take]
              have hget2 : argv[i + 1]? = some argv[i + 1] :=
                List.getElem?_eq_getElem (by omega)
              rw [if_pos hlt2, hget2, hd2]
              simp only []
              by_cases hv : getArgumentIndex args argv[i + 1] = none
              · rw [if_pos hv, if_pos hv]
                cases hset : setValue args index argv[i + 1] with
                | none => rfl
                | some args2 =>
                  simp only []
                  exact ih (i + 1 + 1) args2 (by omega) (by omega)
              · rw [if_neg hv, if_neg hv]
            · have hd2 : (argv.take (argv.length - 2)).drop (i + 1) = [] :=
                List.drop_eq_nil_of_le (by rw [List.length_take]; omega)
              rw [if_neg hlt2, hd2]
    · have hd : (argv.take (argv.length - 2)).drop i = [] :=
        List.drop_eq_nil_of_le (by rw [List.length_take]; omega)
      rw [if_neg hlt, hd]
      rfl

/-! ### The arguments of `main` -/

theorem getArgumentIndex_shape (x : String) :
    ∀ (args args2 : List Argument),
      args.map (fun a => (a.name, a.isBool)) = args2.map (fun a => (a.name, a.isBool)) →
      getArgumentIndex args x = getArgumentIndex args2 x := by
  intro args
  induction args with
  | nil =>
    intro args2 h
    cases args2 with
    | nil => rfl
    | cons b t => simp at h
  | cons a t ih =>
    intro args2 h
    cases args2 with
    | nil => simp at h
    | cons b t2 =>
      simp only [List.map_cons, List.cons.injEq, Prod.mk.injEq] at h
      unfold getArgumentIndex
      rw [h.1.1, ih t2 h.2]

theorem getArgumentIndex_name (x : String) :
    ∀ (args : List Argument) (i : Nat), getArgumentIndex args x = some i →
      ∃ a, args[i]? = some a ∧ a.name = x := by
  intro args
  induction args with
  | nil => intro i h; simp [getArgumentIndex] at h
  | cons a t ih =>
    intro i h
    unfold getArgumentIndex at h
    by_cases hn : a.name = x
    · rw [if_pos hn] at h
      simp only [Option.some.injEq] at h
      rw [← h]
      exact ⟨a, by simp, hn⟩
    · rw [if_neg hn] at h
      cases hj : getArgumentIndex t x with
      | none => rw [hj] at h; simp at h
      | some j =>
        rw [hj] at h
        simp only [Option.some.injEq] at h
        obtain ⟨b, hb1, hb2⟩ := ih j hj
        rw [← h]
        exact ⟨b, by simpa using hb1, hb2⟩

theorem getArgumentIndex_none (x : String) :
    ∀ (args : List Argument), (∀ a ∈ args, a.name ≠ x) → getArgumentIndex args x = none := by
  intro args
  induction args with
  | nil => intro _; rfl
  | cons a t ih =>
    intro h
    unfold getArgumentIndex
    rw [if_neg (h a (List.mem_cons_self _ _)), ih (fun b hb => h b (List.mem_cons_of_mem _ hb))]

theorem setValue_shape (args args2 : List Argument) (i : Nat) (v : String)
    (h : setValue args i v = some args2) :
    args2.map (fun a => (a.name, a.isBool)) = args.map (fun a => (a.name, a.isBool)) := by
  unfold setValue at h
  cases ha : args[i]? with
  | none => rw [ha] at h; simp at h
  | some a =>
    rw [ha] at h
    simp only [Option.some.injEq] at h
    rw [← h]
    apply List.ext_getElem?
    intro k
    simp only [List.getElem?_map, List.getElem?_set]
    by_cases hk : i = k
    · subst hk
      rw [if_pos rfl, ha]
      have hlt : i < args.length := by
        by_contra hge
        rw [List.getElem?_eq_none (by omega)] at ha
        simp at ha
      simp [hlt]
    · rw [if_neg hk]

/-- No name of an argument of `main` holds the delimiter `=`. -/
theorem registered_no_delim : ∀ a ∈ registered, '=' ∉ a.name.data := by
  decide

/-- A string that holds the delimiter `=` is not the name of an argument of `main`. -/
theorem getArgumentIndex_delim (s : String) (hs : '=' ∈ s.data) :
    getArgumentIndex registered s = none := by
  apply getArgumentIndex_none
  intro a ha hn
  exact registered_no_delim a ha (by rw [hn]; exact hs)

/-- The arguments of `main` that take a value are found, and are not boolean. -/
theorem registered_valueFlag (f : String) (hf : f ∈ valueFlags) :
    ∃ idx r, getArgumentIndex registered f = some idx ∧ registered[idx]? = some r
      ∧ r.isBool = false ∧ '=' ∉ f.data := by
  unfold valueFlags at hf
  simp only [List.mem_cons, List.mem_singleton, List.not_mem_nil, or_false] at hf
  rcases hf with rfl | rfl | rfl | rfl
  · exact ⟨6, _, rfl, rfl, rfl, by decide⟩
  · exact ⟨7, _, rfl, rfl, rfl, by decide⟩
  · exact ⟨8, _, rfl, rfl, rfl, by decide⟩
  · exact ⟨9, _, rfl, rfl, rfl, by decide⟩

/-- An argument of `main` that is not boolean is one of those that take a value. -/
theorem valueFlag_of_registered (t : String) (idx : Nat) (r : Argument)
    (h1 : getArgumentIndex registered t = some idx) (h2 : registered[idx]? = some r)
    (h3 : r.isBool = false) : t ∈ valueFlags := by
  obtain ⟨a, ha1, ha2⟩ := getArgumentIndex_name t registered idx h1
  rw [h2] at ha1
  cases ha1
  have hlt : idx < 10 := by
    by_contra hge
    rw [List.getElem?_eq_none (by simp [registered]; omega)] at h2
    simp at h2
  rw [← ha2]
  interval_cases idx <;> simp [registered] at h2 <;> subst h2 <;> revert h3 <;> decide

theorem findChar_append (f v : List Char) (c : Char) (hf : c ∉ f) :
    findChar (f ++ c :: v) c = some f.length := by
  induction f with
  | nil => simp [findChar]
  | cons x t ih =>
    have hx : x ≠ c := fun e => hf (by rw [e]; simp)
    have ht : c ∉ t := fun h => hf (by simp [h])
    show findChar (x :: (t ++ c :: v)) c = some (t.length + 1)
    unfold findChar
    rw [if_neg hx, ih ht]

theorem getLast?_cons_of_ne_nil (t : String) (l : List String) (h : l ≠ []) :
    (t :: l).getLast? = l.getLast? := by
  cases l with
  | nil => exact absurd rfl h
  | cons b l2 => exact List.getLast?_cons_cons

/-- The single token `f=v` and the two tokens `f v` leave the same list of arguments,
when they are read as an option. -/
theorem parseTokens_equals_head (f v : String) (post : List String) (hf : f ∈ valueFlags)
    (hv : getArgumentIndex registered v = none) (args : List Argument)
    (hshape : args.map (fun a => (a.name, a.isBool))
      = registered.map (fun a => (a.name, a.isBool))) :
    parseTokens ((f ++ "=" ++ v) :: post) args = parseTokens (f :: v :: post) args := by
  obtain ⟨idx, r, hidx, hr, hbool, hnd⟩ := registered_valueFlag f hf
  have hdata : (f ++ "=" ++ v).data = f.data ++ '=' :: v.data := by
    simp only [String.data_append, List.append_assoc]
    rfl
  have h1 : getArgumentIndex args (f ++ "=" ++ v) = none := by
    rw [getArgumentIndex_shape _ args registered hshape]
    exact getArgumentIndex_delim _ (by rw [hdata]; simp)
  have h2 : getArgumentIndex args f = some idx := by
    rw [getArgumentIndex_shape _ args registered hshape]
    exact hidx
  have h3 : getArgumentIndex args v = none := by
    rw [getArgumentIndex_shape _ args registered hshape]
    exact hv
  have h4 : ∃ arg, args[idx]? = some arg ∧ arg.isBool = false := by
    have hm : (args.map (fun a => (a.name, a.isBool)))[idx]?
        = (registered.map (fun a => (a.name, a.isBool)))[idx]? := by rw [hshape]
    rw [List.getElem?_map, List.getElem?_map, hr] at hm
    cases ha : args[idx]? with
    | none => rw [ha] at hm; simp at hm
    | some arg =>
      rw [ha] at hm
      simp only [Option.map_some', Option.some.injEq, Prod.mk.injEq] at hm
      exact ⟨arg, rfl, by rw [hm.2, hbool]⟩
  obtain ⟨arg, harg, hab⟩ := h4
  rw [parseTokens_cons, parseTokens_cons, h1, h2]
  simp only [harg, hab, Bool.false_eq_true, if_false, h3, if_true]
  rw [hdata, findChar_append _ _ _ hnd]
  simp only []
  have e1 : (⟨List.take f.data.length (f.data ++ '=' :: v.data)⟩ : String) = f := by
    rw [List.take_left' rfl]
  have e2 : (⟨List.drop (f.data.length + 1) (f.data ++ '=' :: v.data)⟩ : String) = v := by
    have e3 : f.data ++ '=' :: v.data = (f.data ++ ['=']) ++ v.data := by simp
    rw [e3, List.drop_left' (by simp)]
  rw [e1, e2, h2]

/-- The single token `f=v` and the two tokens `f v` leave the same list of arguments
after arguments that do not end with a name that waits for its value. -/
theorem parseTokens_equals_form (f v : String) (post : List String) (hf : f ∈ valueFlags)
    (hv : getArgumentIndex registered v = none) :
    ∀ (n : Nat) (pre : List String) (args : List Argument), pre.length ≤ n →
      args.map (fun a => (a.name, a.isBool))
        = registered.map (fun a => (a.name, a.isBool)) →
      (∀ g, pre.getLast? = some g → g ∉ valueFlags) →
      parseTokens (pre ++ (f ++ "=" ++ v) :: post) args
        = parseTokens (pre ++ f :: v :: post) args := by
  intro n
  induction n with
  | zero =>
    intro pre args hlen hshape _
    have hp : pre = [] := List.eq_nil_of_length_eq_zero (by omega)
    rw [hp]
    exact parseTokens_equals_head f v post hf hv args hshape
  | succ n ih =>
    intro pre args hlen hshape hlast
    cases pre with
    | nil => exact parseTokens_equals_head f v post hf hv args hshape
    | cons t pre2 =>
      have hlast2 : pre2 ≠ [] → ∀ g, pre2.getLast? = some g → g ∉ valueFlags := by
        intro hne g hg
        apply hlast g
        rw [getLast?_cons_of_ne_nil t pre2 hne]
        exact hg
      have ih2 : ∀ args2 : List Argument,
          args2.map (fun a => (a.name, a.isBool))
            = registered.map (fun a => (a.name, a.isBool)) →
          parseTokens (pre2 ++ (f ++ "=" ++ v) :: post) args2
            = parseTokens (pre2 ++ f :: v :: post) args2 := by
        intro args2 hs2
        apply ih pre2 args2 (by simpa using hlen) hs2
        intro g hg
        by_cases hne : pre2 = []
        · rw [hne] at hg
          simp at hg
        · exact hlast2 hne g hg
      simp only [List.cons_append]
      rw [parseTokens_cons, parseTokens_cons]
      cases hidx : getArgumentIndex args t with
      | none =>
        simp only []
        cases hfc : findChar t.data '=' with
        | none => rfl
        | some pos =>
          simp only []
          cases hidx2 : getArgumentIndex args ⟨t.data.take pos⟩ with
          | none => rfl
          | some index =>
            simp only []
            cases hset : setValue args index ⟨t.data.drop (pos + 1)⟩ with
            | none => rfl
            | some args2 =>
              simp only []
              exact ih2 args2 (by rw [setValue_shape args args2 _ _ hset, hshape])
      | some index =>
        simp only []
        cases harg : args[index]? with
        | none => rfl
        | some arg =>
          simp only []
          by_cases hb : arg.isBool = true
          · rw [if_pos hb, if_pos hb]
            cases hset : setValue args index "true" with
            | none => rfl
            | some args2 =>
              simp only []
              exact ih2 args2 (by rw [setValue_shape args args2 _ _ hset, hshape])
          · rw [if_neg hb, if_neg hb]
            cases pre2 with
            | nil =>
              exfalso
              have hm : (args.map (fun a => (a.name, a.isBool)))[index]?
                  = (registered.map (fun a => (a.name, a.isBool)))[index]? := by rw [hshape]
              rw [List.getElem?_map, List.getElem?_map, harg] at hm
              cases hr : registered[index]? with
              | none => rw [hr] at hm; simp at hm
              | some r =>
                rw [hr] at hm
                simp only [Option.map_some', Option.some.injEq, Prod.mk.injEq] at hm
                have hidx3 : getArgumentIndex registered t = some index := by
                  rw [← getArgumentIndex_shape _ args registered hshape]
                  exact hidx
                have := valueFlag_of_registered t index r hidx3 hr
                  (by rw [← hm.2]; simpa using hb)
                exact hlast t (by simp) this
            | cons v2 pre3 =>
              simp only [List.cons_append]
              by_cases hv2 : getArgumentIndex args v2 = none
              · rw [if_pos hv2, if_pos hv2]
                cases hset : setValue args index v2 with
                | none => rfl
                | some args2 =>
                  simp only []
                  apply ih pre3 args2 (by simp at hlen; omega)
                    (by rw [setValue_shape args args2 _ _ hset, hshape])
                  intro g hg
                  by_cases hne : pre3 = []
                  · rw [hne] at hg
                    simp at hg
                  · apply hlast2 (by simp) g
                    rw [getLast?_cons_of_ne_nil v2 pre3 hne]
                    exact hg
              · rw [if_neg hv2, if_neg hv2]

theorem take_paths (X : List String) (p1 p2 : String) :
    (X ++ [p1, p2]).take ((X ++ [p1, p2]).length - 2) = X := by
  rw [List.take_left']
  simp

/-- `ArgParser::parse` when the first argument does not ask for help: the loop over
the arguments before the two paths. -/
theorem parse_eq_tokens (X : List String) (p1 p2 : String) (args : List Argument)
    (hh : (X ++ [p1, p2])[0]? ≠ some "-h" ∧ (X ++ [p1, p2])[0]? ≠ some "--help") :
    parse (X ++ [p1, p2]) args = parseTokens X args := by
  have hlen : 2 ≤ (X ++ [p1, p2]).length := by simp
  unfold parse
  simp only []
  rw [if_neg (by
      rintro ⟨_, h | h⟩
      · exact hh.1 h
      · exact hh.2 h),
    if_neg (by omega), parseLoop_eq_tokens _ _ 0 args (by omega) (by omega), List.drop_zero,
    take_paths]

/-- `ArgParser::parse` when the first argument asks for help: what follows is not
read. -/
theorem parse_help (h : String) (rest : List String) (args : List Argument)
    (hh : h = "-h" ∨ h = "--help") :
    parse (h :: rest) args
      = match getArgumentIndex args h with
        | none => Run.undefined
        | some index =>
          match setValue args index "true" with
          | none => Run.undefined
          | some args2 => Run.value args2 := by
  unfold parse
  simp only [List.length_cons, List.getElem?_cons_zero, Option.some.injEq]
  rw [if_pos ⟨by omega, hh⟩]
  all_goals rfl

/-- The option written as the single token `f=v` and as the two tokens `f v` leaves
the same list of arguments, or the same failure, when it does not follow the name of
an argument that takes a value. -/
theorem parse_equals_form (f v : String) (pre post : List String) (p1 p2 : String)
    (hf : f ∈ valueFlags) (hv : getArgumentIndex registered v = none)
    (hlast : ∀ g, pre.getLast? = some g → g ∉ valueFlags) :
    parse (pre ++ (f ++ "=" ++ v) :: post ++ [p1, p2]) registered
      = parse (pre ++ f :: v :: post ++ [p1, p2]) registered := by
  obtain ⟨idx, r, hidx, hr, hbool, hnd⟩ := registered_valueFlag f hf
  have hdata : (f ++ "=" ++ v).data = f.data ++ '=' :: v.data := by
    simp only [String.data_append, List.append_assoc]
    rfl
  have hfh : f ≠ "-h" ∧ f ≠ "--help" := by
    unfold valueFlags at hf
    simp only [List.mem_cons, List.mem_singleton, List.not_mem_nil, or_false] at hf
    rcases hf with rfl | rfl | rfl | rfl <;> decide
  have hfv : f ++ "=" ++ v ≠ "-h" ∧ f ++ "=" ++ v ≠ "--help" := by
    constructor
    · intro e
      have h1 : '=' ∈ ("-h" : String).data := by rw [← e, hdata]; simp
      revert h1
      decide
    · intro e
      have h1 : '=' ∈ ("--help" : String).data := by rw [← e, hdata]; simp
      revert h1
      decide
  cases pre with
  | nil =>
    simp only [List.nil_append]
    rw [parse_eq_tokens _ _ _ _ (by simpa using hfv), parse_eq_tokens _ _ _ _ (by simpa using hfh)]
    exact parseTokens_equals_form f v post hf hv 0 [] registered (le_refl _) rfl hlast
  | cons h t =>
    by_cases hh : h = "-h" ∨ h = "--help"
    · simp only [List.cons_append]
      rw [parse_help h _ _ hh, parse_help h _ _ hh]
    · rw [parse_eq_tokens _ _ _ _ (by
          simp only [List.cons_append, List.getElem?_cons_zero, ne_eq, Option.some.injEq]
          exact ⟨fun e => hh (Or.inl e), fun e => hh (Or.inr e)⟩),
        parse_eq_tokens _ _ _ _ (by
          simp only [List.cons_append, List.getElem?_cons_zero, ne_eq, Option.some.injEq]
          exact ⟨fun e => hh (Or.inl e), fun e => hh (Or.inr e)⟩)]
      exact parseTokens_equals_form f v post hf hv _ (h :: t) registered (le_refl _) rfl hlast

/-! ## `AppController::parseArguments`: the number of context lines -/

theorem parseTokens_value (f v : String) (rest : List String) (args : List Argument)
    (idx : Nat) (arg : Argument) (h1 : getArgumentIndex args f = some idx)
    (h2 : args[idx]? = some arg) (h3 : arg.isBool = false)
    (h4 : getArgumentIndex args v = none) :
    parseTokens (f :: v :: rest) args
      = parseTokens rest (args.set idx { arg with value := v }) := by
  rw [parseTokens_cons, h1]
  simp only [h2]
  rw [if_neg (by rw [h3]; simp), if_pos h4]
  unfold setValue
  rw [h2]

/-- The names of the arguments of `main` begin with a hyphen. -/
theorem registered_head : ∀ a ∈ registered, a.name.data.head? = some '-' := by
  decide

/-- The decimal rendering of a natural number is not the name of an argument of
`main`. -/
theorem getArgumentIndex_natRepr (a : Nat) :
    getArgumentIndex registered (toString a) = none := by
  apply getArgumentIndex_none
  intro r hr hn
  have h1 := registered_head r hr
  rw [hn] at h1
  obtain ⟨hne, hd, _⟩ := natRepr_spec a
  obtain ⟨c, t, hct⟩ := List.exists_cons_of_ne_nil hne
  rw [hct] at h1 hd
  simp only [List.head?_cons, Option.some.injEq] at h1
  have := hd c (List.mem_cons_self _ _)
  rw [h1] at this
  revert this
  decide

theorem natRepr_eq_three (a : Nat) : toString a = "3" ↔ a = 3 := by
  constructor
  · intro h
    exact natRepr_injective a 3 (by rw [h]; rfl)
  · intro h
    rw [h]
    rfl

/-- The number of context lines that `AppController::parseArguments` takes from the
values of `-n` and `--lines`, when both are decimal renderings of numbers of the
type `unsigned int`: the value of `-n` unless it is `3`, and the value of `--lines`
otherwise. -/
theorem contextLinesOf_decimal (a b : Nat) (ha : a < 4294967296) (hb : b < 4294967296) :
    contextLinesOf (toString a) (toString b) 3 = Run.value (if a ≠ 3 then a else b) := by
  unfold contextLinesOf
  by_cases h3 : a = 3
  · have ea : toString a = "3" := (natRepr_eq_three a).2 h3
    by_cases h4 : b = 3
    · have e3 : (toString 3 : String) = "3" := rfl
      simp only [h3, h4, e3, ne_eq, not_true_eq_false, if_false, and_self, if_true]
    · have eb : ¬ toString b = "3" := fun e => h4 ((natRepr_eq_three b).1 e)
      simp only [ea, eb, ne_eq, not_true_eq_false, if_false, not_false_eq_true, if_true, h3]
      exact str2uint_natRepr b hb
  · have ea : ¬ toString a = "3" := fun e => h3 ((natRepr_eq_three a).1 e)
    simp only [ea, ne_eq, not_false_eq_true, if_true, h3]
    exact str2uint_natRepr a ha

/-- `AppController::parseArguments` when the command line holds, before the two
paths, only values for `-n` and `--lines`: the two paths are checked, and the
options keep their default values but for the number of context lines. -/
theorem parseArguments_context (X : List String) (p1 p2 : String) (parsed : List Argument)
    (n l : String) (c : Nat)
    (hparse : parse (X ++ [p1, p2]) registered = Run.value parsed)
    (hvals : parsed = (registered.set 8 ⟨"-n", false, n⟩).set 9 ⟨"--lines", false, l⟩)
    (hc : contextLinesOf n l 3 = Run.value c) :
    parseArguments (X ++ [p1, p2]) registered
      = if isValidFilename p1 = false ∨ isValidFilename p2 = false then
          Run.raise (Failure.invalidArgument "input file name is not valid")
        else Run.value (some ⟨⟨false, false, false, c, ""⟩, p1, p2⟩) := by
  have e1 : getArgumentValue parsed "-h" = "false" := by rw [hvals]; rfl
  have e2 : getArgumentValue parsed "--help" = "false" := by rw [hvals]; rfl
  have e3 : getArgumentValue parsed "-c" = "false" := by rw [hvals]; rfl
  have e4 : getArgumentValue parsed "--color" = "false" := by rw [hvals]; rfl
  have e5 : getArgumentValue parsed "-a" = "false" := by rw [hvals]; rfl
  have e6 : getArgumentValue parsed "--force-ansi" = "false" := by rw [hvals]; rfl
  have e7 : getArgumentValue parsed "-o" = "" := by rw [hvals]; rfl
  have e8 : getArgumentValue parsed "--out-file" = "" := by rw [hvals]; rfl
  have e9 : getArgumentValue parsed "-n" = n := by rw [hvals]; rfl
  have e10 : getArgumentValue parsed "--lines" = l := by rw [hvals]; rfl
  have hft : ("false" : String) ≠ "true" := by decide
  have l1 : (X ++ [p1, p2])[(X ++ [p1, p2]).length - 2]? = some p1 := by
    have e : (X ++ [p1, p2]).length - 2 = X.length := by simp
    rw [e, List.getElem?_append_right (le_refl _)]
    simp
  have l2 : (X ++ [p1, p2])[(X ++ [p1, p2]).length - 1]? = some p2 := by
    have e : (X ++ [p1, p2]).length - 1 = X.length + 1 := by simp
    rw [e, List.getElem?_append_right (by omega)]
    simp
  unfold parseArguments
  rw [hparse]
  simp only [e1, e2, e3, e4, e5, e6, e7, e8, e9, e10, hft, or_self, if_false, ne_eq,
    not_true_eq_false, false_and, decide_False, Bool.or_self, hc, l1, l2]

/-- `AppController::parseArguments` refuses a path of the output file that
`StringHelper::isValidFilename` refuses. -/
theorem parseArguments_output (o p1 p2 : String) (ho : getArgumentIndex registered o = none)
    (hne : o ≠ "") (hbad : isValidFilename o = false) :
    parseArguments (["-o", o] ++ [p1, p2]) registered
      = Run.raise (Failure.invalidArgument "output file name is not valid") := by
  have hparse : parse (["-o", o] ++ [p1, p2]) registered
      = Run.value (registered.set 6 ⟨"-o", false, o⟩) := by
    rw [parse_eq_tokens _ _ _ _ (by simp),
      parseTokens_value "-o" o [] registered 6 ⟨"-o", false, ""⟩ rfl rfl rfl ho]
    rfl
  have e1 : getArgumentValue (registered.set 6 ⟨"-o", false, o⟩) "-h" = "false" := rfl
  have e2 : getArgumentValue (registered.set 6 ⟨"-o", false, o⟩) "--help" = "false" := rfl
  have e7 : getArgumentValue (registered.set 6 ⟨"-o", false, o⟩) "-o" = o := rfl
  have hft : ("false" : String) ≠ "true" := by decide
  unfold parseArguments
  rw [hparse]
  simp only [e1, e2, e7, hft, or_self, if_false, ne_eq, hne, not_false_eq_true, if_true,
    hbad, and_self]

/-! ## Further facts on the text and on the effects -/

/-- The text of the hunks is the concatenation of the texts of the calls of
`generateHunk`, in the order of the calls. -/
theorem hunksText_concat (A B : List String) (items : List DiffItem) :
    ∀ (hs : List HunkCall) (t : String), hunksText A B items hs = some t →
      ∃ texts, List.Forall₂ (fun h x => generateHunk A B items h = some x) hs texts
        ∧ t = concat texts := by
  intro hs
  induction hs with
  | nil =>
    intro t h
    unfold hunksText at h
    cases h
    exact ⟨[], List.Forall₂.nil, rfl⟩
  | cons h0 rest ih =>
    intro t h
    unfold hunksText at h
    cases ha : generateHunk A B items h0 with
    | none => rw [ha] at h; simp at h
    | some a =>
      cases hr : hunksText A B items rest with
      | none => rw [ha, hr] at h; simp at h
      | some r =>
        rw [ha, hr] at h
        simp only [Option.some.injEq] at h
        obtain ⟨texts, hf, ht⟩ := ih r hr
        refine ⟨a :: texts, List.Forall₂.cons ha hf, ?_⟩
        rw [← h, ht]
        rfl

/-- What the effects do to the console depends on the calls of the colour handler
only. -/
theorem consoleEffects_colourCalls (ch : ColorHandler) :
    ∀ effects : List Effect, consoleEffects ch effects = consoleEffects ch (colourCalls effects) := by
  intro effects
  induction effects with
  | nil => rfl
  | cons e t ih =>
    cases e with
    | os s =>
      have e1 : colourCalls (Effect.os s :: t) = colourCalls t := rfl
      rw [e1, ← ih]
      rfl
    | cerr s =>
      have e1 : colourCalls (Effect.cerr s :: t) = colourCalls t := rfl
      rw [e1, ← ih]
      rfl
    | setColor c =>
      have e1 : colourCalls (Effect.setColor c :: t) = Effect.setColor c :: colourCalls t := rfl
      rw [e1]
      show ch.apply (some c) ++ consoleEffects ch t
        = ch.apply (some c) ++ consoleEffects ch (colourCalls t)
      rw [ih]
    | resetColor =>
      have e1 : colourCalls (Effect.resetColor :: t) = Effect.resetColor :: colourCalls t := rfl
      rw [e1]
      show ch.apply none ++ consoleEffects ch t
        = ch.apply none ++ consoleEffects ch (colourCalls t)
      rw [ih]

/-- The effects of `Diff::generateUnidiff` exist for a script of fewer than 65536
operations that refer to existing lines, when the colour handler has been created
and the dates of the files are available. -/
theorem generateUnidiffEffects_some (options : Options) (ch : ColorHandler)
    (original modified : List String) (items : List DiffItem)
    (hall : ∀ it ∈ items, (bodyLine original modified it).isSome = true)
    (hn : items.length < 65536) (hC : options.contextLines < 4294967296)
    (originalFilename modifiedFilename originalStamp modifiedStamp : String)
    (endingNewLine : Bool) :
    ∃ effects, generateUnidiffEffects options (Except.ok ch) original modified items
        originalFilename modifiedFilename (Except.ok (originalStamp, modifiedStamp))
        endingNewLine = some effects := by
  have h1 := generateUnidiffEffects_text options ch original modified items originalFilename
    modifiedFilename originalStamp modifiedStamp endingNewLine
  have h2 := generateUnidiff_some original modified items hall hn options.contextLines hC
    originalFilename originalStamp modifiedFilename modifiedStamp endingNewLine
  cases he : generateUnidiffEffects options (Except.ok ch) original modified items
      originalFilename modifiedFilename (Except.ok (originalStamp, modifiedStamp))
      endingNewLine with
  | none =>
    rw [he] at h1
    rw [← h1] at h2
    simp at h2
  | some effects => exact ⟨effects, rfl⟩

/-! ## The accesses of `Diff::calculate` to `v_x` and `v_history` -/

section Indices

variable {α : Type} [DecidableEq α]

theorem vecWrite_length {β : Type} (v v2 : List β) (idx : Int) (b : β)
    (h : vecWrite v idx b = some v2) : v2.length = v.length := by
  unfold vecWrite at h
  split at h
  · rw [← Option.some.inj h, List.length_set]
  · cases h

theorem vecRead_bounds {β : Type} (v : List β) (idx : Int)
    (h : (vecRead v idx).isSome = true) : 0 ≤ idx ∧ idx < (v.length : Int) := by
  unfold vecRead at h
  by_cases h0 : 0 ≤ idx
  · rw [if_pos h0] at h
    obtain ⟨b, hb⟩ := Option.isSome_iff_exists.1 h
    have hlt := (List.getElem?_eq_some_iff.1 hb).1
    refine ⟨h0, ?_⟩
    omega
  · rw [if_neg h0] at h
    cases h

theorem diagStep_length (A B : List α) (d k : Int) (vx vx2 : List Int)
    (vh vh2 : List (List DiffItem))
    (h : diagStep A B d k vx vh = StepOutcome.next vx2 vh2) :
    vx2.length = vx.length ∧ vh2.length = vh.length := by
  unfold diagStep at h
  simp only [] at h
  cases hadv : advance A B d k vx vh with
  | none =>
    rw [hadv] at h
    cases h
  | some r =>
    obtain ⟨x, y, history⟩ := r
    rw [hadv] at h
    simp only [] at h
    split at h
    · cases h
    · cases hw1 : vecWrite vx ((A.length : Int) + (B.length : Int) + k) x with
      | none =>
        rw [hw1] at h
        cases h
      | some w1 =>
        cases hw2 : vecWrite vh ((A.length : Int) + (B.length : Int) + k) history with
        | none =>
          rw [hw1, hw2] at h
          cases h
        | some w2 =>
          rw [hw1, hw2] at h
          simp only [StepOutcome.next.injEq] at h
          rw [← h.1, ← h.2]
          exact ⟨vecWrite_length _ _ _ _ hw1, vecWrite_length _ _ _ _ hw2⟩

theorem diagLoop_length (A B : List α) (d : Int) :
    ∀ (fuel : Nat) (k : Int) (vx vx2 : List Int) (vh vh2 : List (List DiffItem)),
      diagLoop A B d fuel k vx vh = StepOutcome.next vx2 vh2 →
      vx2.length = vx.length ∧ vh2.length = vh.length := by
  intro fuel
  induction fuel with
  | zero =>
    intro k vx vx2 vh vh2 h
    unfold diagLoop at h
    simp only [StepOutcome.next.injEq] at h
    rw [← h.1, ← h.2]
    exact ⟨rfl, rfl⟩
  | succ n ih =>
    intro k vx vx2 vh vh2 h
    unfold diagLoop at h
    by_cases hk : k ≤ d
    · rw [if_pos hk] at h
      cases hstep : diagStep A B d k vx vh with
      | done items =>
        rw [hstep] at h
        cases h
      | fault =>
        rw [hstep] at h
        cases h
      | next vx3 vh3 =>
        rw [hstep] at h
        simp only [] at h
        obtain ⟨e1, e2⟩ := diagStep_length A B d k vx vx3 vh vh3 hstep
        obtain ⟨e3, e4⟩ := ih (k + 2) vx3 vx2 vh3 vh2 h
        exact ⟨e3.trans e1, e4.trans e2⟩
    · rw [if_neg hk] at h
      simp only [StepOutcome.next.injEq] at h
      rw [← h.1, ← h.2]
      exact ⟨rfl, rfl⟩

/-- The states visited by the loop over `k`: the value of `d`, the range of `k`, and
the sizes of the two vectors. -/
theorem diagVisits_mem (A B : List α) (d : Int) (L : Nat) :
    ∀ (fuel : Nat) (k : Int) (vx : List Int) (vh : List (List DiffItem)),
      vx.length = L → vh.length = L →
      ∀ s ∈ diagVisits A B d fuel k vx vh,
        s.d = d ∧ k ≤ s.k ∧ s.k ≤ d ∧ s.v_x.length = L ∧ s.v_history.length = L := by
  intro fuel
  induction fuel with
  | zero =>
    intro k vx vh _ _ s hs
    unfold diagVisits at hs
    cases hs
  | succ n ih =>
    intro k vx vh hx hh s hs
    unfold diagVisits at hs
    by_cases hk : k ≤ d
    · rw [if_pos hk] at hs
      rcases List.mem_cons.1 hs with hs | hs
      · rw [hs]
        exact ⟨rfl, le_refl _, hk, hx, hh⟩
      · cases hstep : diagStep A B d k vx vh with
        | done items =>
          rw [hstep] at hs
          cases hs
        | fault =>
          rw [hstep] at hs
          cases hs
        | next vx3 vh3 =>
          rw [hstep] at hs
          simp only [] at hs
          obtain ⟨e1, e2⟩ := diagStep_length A B d k vx vx3 vh vh3 hstep
          obtain ⟨h1, h2, h3, h4, h5⟩ := ih (k + 2) vx3 vh3 (e1.trans hx) (e2.trans hh) s hs
          exact ⟨h1, by omega, h3, h4, h5⟩
    · rw [if_neg hk] at hs
      cases hs

/-- No iteration of the loop over `k` leaves a vector when the loop does not. -/
theorem diagVisits_defined (A B : List α) (d : Int) :
    ∀ (fuel : Nat) (k : Int) (vx : List Int) (vh : List (List DiffItem)),
      diagLoop A B d fuel k vx vh ≠ StepOutcome.fault →
      ∀ s ∈ diagVisits A B d fuel k vx vh,
        diagStep A B s.d s.k s.v_x s.v_history ≠ StepOutcome.fault := by
  intro fuel
  induction fuel with
  | zero =>
    intro k vx vh _ s hs
    unfold diagVisits at hs
    cases hs
  | succ n ih =>
    intro k vx vh hl s hs
    unfold diagVisits at hs
    unfold diagLoop at hl
    by_cases hk : k ≤ d
    · rw [if_pos hk] at hs hl
      cases hstep : diagStep A B d k vx vh with
      | done items =>
        rw [hstep] at hs
        rcases List.mem_cons.1 hs with hs | hs
        · rw [hs, hstep]
          exact fun h => by cases h
        · cases hs
      | fault =>
        rw [hstep] at hl
        exact absurd rfl hl
      | next vx3 vh3 =>
        rw [hstep] at hs hl
        simp only [] at hs hl
        rcases List.mem_cons.1 hs with hs | hs
        · rw [hs, hstep]
          exact fun h => by cases h
        · exact ih (k + 2) vx3 vh3 hl s hs
    · rw [if_neg hk] at hs
      cases hs

/-- The states visited in the rounds from `d` on. -/
theorem roundVisits_mem (A B : List α) (L : Nat) :
    ∀ (fuel d : Nat) (vx : List Int) (vh : List (List DiffItem)),
      vx.length = L → vh.length = L →
      ∀ s ∈ roundVisits A B fuel d vx vh,
        (d : Int) ≤ s.d ∧ s.d < (d : Int) + fuel ∧ -s.d ≤ s.k ∧ s.k ≤ s.d
          ∧ s.v_x.length = L ∧ s.v_history.length = L := by
  intro fuel
  induction fuel with
  | zero =>
    intro d vx vh _ _ s hs
    unfold roundVisits at hs
    cases hs
  | succ n ih =>
    intro d vx vh hx hh s hs
    unfold roundVisits at hs
    rcases List.mem_append.1 hs with hs | hs
    · obtain ⟨h1, h2, h3, h4, h5⟩ := diagVisits_mem A B (d : Int) L _ _ vx vh hx hh s hs
      rw [h1]
      refine ⟨le_refl _, ?_, h2, ?_, h4, h5⟩
      · push_cast
        omega
      · exact h3
    · cases hloop : diagLoop A B (d : Int) (d + 1) (-(d : Int)) vx vh with
      | done items =>
        rw [hloop] at hs
        cases hs
      | fault =>
        rw [hloop] at hs
        cases hs
      | next vx3 vh3 =>
        rw [hloop] at hs
        simp only [] at hs
        obtain ⟨e1, e2⟩ := diagLoop_length A B (d : Int) _ _ vx vx3 vh vh3 hloop
        obtain ⟨h1, h2, h3, h4, h5, h6⟩ :=
          ih (d + 1) vx3 vh3 (e1.trans hx) (e2.trans hh) s hs
        refine ⟨?_, ?_, h3, h4, h5, h6⟩
        · push_cast at h1
          omega
        · push_cast at h2 ⊢
          omega

/-- No iteration of `Diff::calculate` leaves a vector when its result is not the
fault. -/
theorem roundVisits_defined (A B : List α) :
    ∀ (fuel d : Nat) (vx : List Int) (vh : List (List DiffItem)),
      roundLoop A B fuel d vx vh ≠ CalcResult.outOfRange →
      ∀ s ∈ roundVisits A B fuel d vx vh,
        diagStep A B s.d s.k s.v_x s.v_history ≠ StepOutcome.fault := by
  intro fuel
  induction fuel with
  | zero =>
    intro d vx vh _ s hs
    unfold roundVisits at hs
    cases hs
  | succ n ih =>
    intro d vx vh hl s hs
    unfold roundVisits at hs
    unfold roundLoop at hl
    cases hloop : diagLoop A B (d : Int) (d + 1) (-(d : Int)) vx vh with
    | done items =>
      rw [hloop] at hs
      simp only [List.append_nil] at hs
      exact diagVisits_defined A B (d : Int) _ _ vx vh
        (by rw [hloop]; exact fun h => by cases h) s hs
    | fault =>
      rw [hloop] at hl
      exact absurd rfl hl
    | next vx3 vh3 =>
      rw [hloop] at hs hl
      simp only [] at hs hl
      rcases List.mem_append.1 hs with hs | hs
      · exact diagVisits_defined A B (d : Int) _ _ vx vh
          (by rw [hloop]; exact fun h => by cases h) s hs
      · exact ih (d + 1) vx3 vh3 hl s hs

/-- The first state visited by `Diff::calculate`. -/
theorem visits_first (A B : List α) :
    (⟨0, 0, List.replicate ((A.length + B.length) * 2 + 1) 0,
        List.replicate ((A.length + B.length) * 2 + 1) []⟩ : LoopState) ∈ visits A B := by
  unfold visits
  simp only []
  unfold roundVisits
  apply List.mem_append_left
  unfold diagVisits
  simp

/-- For a non-empty modified sequence, at every pair `(d, k)` visited by
`Diff::calculate` the vectors have their allocated size and every index used lies
inside them. -/
theorem visits_indices (A B : List α) (hB : 1 ≤ B.length) :
    ∀ s ∈ visits A B,
      s.v_x.length = 2 * (A.length + B.length) + 1
        ∧ s.v_history.length = 2 * (A.length + B.length) + 1
        ∧ 0 ≤ s.d ∧ s.d ≤ ((A.length + B.length : Nat) : Int)
        ∧ -s.d ≤ s.k ∧ s.k ≤ s.d
        ∧ (0 ≤ ((A.length + B.length : Nat) : Int) + s.k + 1
            ∧ ((A.length + B.length : Nat) : Int) + s.k + 1
              ≤ 2 * ((A.length + B.length : Nat) : Int))
        ∧ (s.k ≠ -s.d → 0 ≤ ((A.length + B.length : Nat) : Int) + s.k - 1)
        ∧ diagStep A B s.d s.k s.v_x s.v_history ≠ StepOutcome.fault := by
  intro s hs
  have hagree := visits_agree A B hB s hs
  obtain ⟨h, e, hcalc, _, _⟩ := calculate_spec A B hB
  have hdef : diagStep A B s.d s.k s.v_x s.v_history ≠ StepOutcome.fault := by
    unfold visits at hs
    unfold calculate at hcalc
    simp only [] at hs hcalc
    exact roundVisits_defined A B _ 0 _ _ (by rw [hcalc]; exact fun h => by cases h) s hs
  unfold visits at hs
  simp only [] at hs
  obtain ⟨h1, h2, h3, h4, h5, h6⟩ :=
    roundVisits_mem A B ((A.length + B.length) * 2 + 1) _ 0 _ _
      (List.length_replicate _ _) (List.length_replicate _ _) s hs
  have hlx : s.v_x.length = 2 * (A.length + B.length) + 1 := by omega
  have hlh : s.v_history.length = 2 * (A.length + B.length) + 1 := by omega
  push_cast at h1 h2
  refine ⟨hlx, hlh, by omega, by push_cast; omega, h3, h4, ?_, ?_, hdef⟩
  · by_cases hk : s.k = -s.d
    · push_cast
      omega
    · obtain ⟨_, hsome⟩ := hagree
      unfold fromRight at hsome
      rw [if_neg hk] at hsome
      cases hr : vecRead s.v_x ((A.length : Int) + (B.length : Int) + s.k + 1) with
      | none =>
        rw [hr] at hsome
        cases hl : vecRead s.v_x ((A.length : Int) + (B.length : Int) + s.k - 1) with
        | none => rw [hl] at hsome; cases hsome
        | some l => rw [hl] at hsome; cases hsome
      | some r =>
        have hb := vecRead_bounds s.v_x _ (by rw [hr]; rfl)
        rw [hlx] at hb
        push_cast at hb ⊢
        omega
  · intro hk
    push_cast
    omega

end Indices

/-! ## `StringHelper::getBaseFilename` applied twice -/

theorem findLastOf_none (chars : List Char) :
    ∀ s : List Char, (∀ c ∈ s, c ∉ chars) → findLastOf s chars = none := by
  intro s
  induction s with
  | nil =>
    intro _
    rfl
  | cons c rest ih =>
    intro h
    unfold findLastOf
    rw [ih (fun d hd => h d (List.mem_cons_of_mem _ hd))]
    simp only []
    have hc : chars.contains c = false := by
      have := h c (List.mem_cons_self _ _)
      simpa using this
    rw [hc]
    rfl

/-- A string without `/` and `\` is its own base name. -/
theorem getBaseFilename_plain (p : String) (h : ∀ c ∈ p.data, c ≠ '/' ∧ c ≠ '\\') :
    getBaseFilename p = p := by
  unfold getBaseFilename
  rw [findLastOf_none ['/', '\\'] p.data (fun c hc => by
    have := h c hc
    simp only [List.mem_cons, List.mem_singleton, List.not_mem_nil, or_false, not_or]
    exact this)]
  rfl

theorem getBaseFilename_idem (p : String) :
    getBaseFilename (getBaseFilename p) = getBaseFilename p := by
  obtain ⟨_, _, h, _⟩ := getBaseFilename_spec p
  exact getBaseFilename_plain _ h

theorem isValidFilename_base (p : String) :
    isValidFilename (getBaseFilename p) = isValidFilename p := by
  unfold isValidFilename
  rw [getBaseFilename_idem]

/-! ## The first hunk printed by the scan loop -/

/-- An unchanged item inside a hunk: either a hunk that starts at `hunkStart` is
printed, or nothing is printed and the loop goes on inside the hunk at an item of
the script. -/
theorem closeHunk_first (items : List DiffItem) (C : Nat) (hn : items.length < 65536)
    (hC : C < 4294967296) (s : ScanState) (hinv : ScanInv items s)
    (hi : s.i < items.length) (hh : s.isHunk = true) (it : DiffItem)
    (hit : items[s.i]? = some it) (hc : it.change = Change.Equal)
    (s2 : ScanState) (hs : List HunkCall) (ex : BodyExit)
    (hb : closeHunk items C items.length s = some (s2, hs, ex)) :
    (∃ h rest, hs = h :: rest ∧ h.start = s.hunkStart ∧ s.i ≤ h.stop + 1)
      ∨ (hs = [] ∧ ex = BodyExit.goOn ∧ (nextIteration s2).hunkStart = s.hunkStart
          ∧ s.i ≤ (nextIteration s2).i ∧ (nextIteration s2).i < items.length) := by
  obtain ⟨hEnd, hStart⟩ := hinv.inHunk hh
  have hsum := countChange_sum_le items s.hunkStart s.i
  have heq := hinv.equals
  have hend1 : min (u32 (s.hunkEnd + C + 1)) items.length ≤ items.length :=
    Nat.min_le_right _ _
  obtain ⟨found, j1, hla, hj1, hrun, hfound, hnot⟩ :=
    lookAhead_spec items (min (u32 (s.hunkEnd + C + 1)) items.length) hn hend1
      (items.length + 1) (s.hunkEnd + 1) s.hunkEnd s.equalsCount rfl (by omega) (by omega)
  have hj1n : j1 ≤ items.length := by
    cases found with
    | true => have := (hfound rfl).1; omega
    | false => have := hnot rfl; omega
  have hpred : pred32 j1 = j1 - 1 := pred32_of_pos j1 (by omega) (by omega)
  have ei : u32 (pred32 j1 + 1) = j1 := by
    rw [hpred, u32_of_lt _ (by omega)]; omega
  unfold closeHunk at hb
  simp only [] at hb
  rw [hla] at hb
  simp only [] at hb
  by_cases hbrk : j1 = pred32 items.length
  · rw [if_pos hbrk] at hb
    simp only [Option.some.injEq, Prod.mk.injEq] at hb
    obtain ⟨_, e2, _⟩ := hb
    refine Or.inl ⟨_, [], e2.symm, rfl, ?_⟩
    simp only [hunkOf]
    omega
  · rw [if_neg hbrk] at hb
    cases found with
    | true =>
      simp only [if_true] at hb
      simp only [Option.some.injEq, Prod.mk.injEq] at hb
      obtain ⟨e1, e2, e3⟩ := hb
      have hlt := (hfound rfl).1
      refine Or.inr ⟨e2.symm, e3.symm, ?_, ?_, ?_⟩
      · rw [← e1]; rfl
      · rw [← e1]
        simp only [nextIteration]
        rw [ei]
        omega
      · rw [← e1]
        simp only [nextIteration]
        rw [ei]
        omega
    | false =>
      simp only [Bool.false_eq_true, if_false] at hb
      have hend2 : min (u32 (min (u32 (s.hunkEnd + C + 1)) items.length + C)) items.length
          ≤ items.length := Nat.min_le_right _ _
      obtain ⟨m, j2, hmc, hm⟩ :=
        mergeCheck_spec items
          (min (u32 (min (u32 (s.hunkEnd + C + 1)) items.length + C)) items.length)
          (by omega) hend2 (items.length + 1) (pred32 j1) false (by omega)
      rw [hmc] at hb
      simp only [] at hb
      cases m with
      | true =>
        simp only [if_true] at hb
        simp only [Option.some.injEq, Prod.mk.injEq] at hb
        obtain ⟨e1, e2, e3⟩ := hb
        have hlt : j1 < items.length := by
          rcases hm rfl with h | ⟨h1, h2, _⟩
          · exact absurd h (by simp)
          · rw [hpred] at h1
            omega
        refine Or.inr ⟨e2.symm, e3.symm, ?_, ?_, ?_⟩
        · rw [← e1]; rfl
        · rw [← e1]
          simp only [nextIteration]
          rw [ei]
          omega
        · rw [← e1]
          simp only [nextIteration]
          rw [ei]
          exact hlt
      | false =>
        simp only [Bool.false_eq_true, if_false] at hb
        simp only [Option.some.injEq, Prod.mk.injEq] at hb
        obtain ⟨_, e2, _⟩ := hb
        refine Or.inl ⟨_, _, e2.symm, rfl, ?_⟩
        simp only [hunkOf]
        omega

/-- One iteration of the scan loop at or after a changed item `p` that no printed
hunk covers yet: either a hunk is printed, which starts at `hunkStart` and covers
`p`, or nothing is printed and the loop goes on at an item of the script. -/
theorem scanBody_first (items : List DiffItem) (C : Nat) (hn : items.length < 65536)
    (hC : C < 4294967296) (s : ScanState) (hinv : ScanInv items s)
    (hi : s.i < items.length) (p : Nat) (hp1 : s.hunkStart ≤ p) (hp2 : p ≤ s.i)
    (hp : ChangedAt items p)
    (s2 : ScanState) (hs : List HunkCall) (ex : BodyExit)
    (hb : scanBody items C items.length s = some (s2, hs, ex)) :
    (∃ h rest, hs = h :: rest ∧ h.start = s.hunkStart ∧ p ≤ h.stop)
      ∨ (hs = [] ∧ ex = BodyExit.goOn ∧ (nextIteration s2).hunkStart = s.hunkStart
          ∧ p ≤ (nextIteration s2).i ∧ (nextIteration s2).i < items.length) := by
  have hit : items[s.i]? = some items[s.i] := List.getElem?_eq_getElem hi
  have hpredn : pred32 items.length = items.length - 1 :=
    pred32_of_pos _ (by omega) (by omega)
  have hu : u32 (s.i + 1) = s.i + 1 := u32_of_lt _ (by omega)
  have hin : p < s.i → s.isHunk = true := by
    intro hlt
    cases hf : s.isHunk with
    | true => rfl
    | false =>
      obtain ⟨it, h1, h2⟩ := hinv.outside hf p hp1 hlt
      obtain ⟨it2, h3, h4⟩ := hp
      rw [h1] at h3
      rw [← Option.some.inj h3] at h4
      exact absurd h2 h4
  -- a changed item, inside or outside a hunk
  have hchange : ∀ (s3 : ScanState), s3.hunkStart = s.hunkStart → s3.i = s.i →
      s3.hunkEnd = s.i →
      some (s3, finalCheck items.length s3, BodyExit.goOn) = some (s2, hs, ex) →
      (∃ h rest, hs = h :: rest ∧ h.start = s.hunkStart ∧ p ≤ h.stop)
        ∨ (hs = [] ∧ ex = BodyExit.goOn ∧ (nextIteration s2).hunkStart = s.hunkStart
            ∧ p ≤ (nextIteration s2).i ∧ (nextIteration s2).i < items.length) := by
    intro s3 h1 h2 h3 hb3
    simp only [Option.some.injEq, Prod.mk.injEq] at hb3
    obtain ⟨e1, e2, e3⟩ := hb3
    have hstart := hinv.start_le
    by_cases hl : s.i + 1 = items.length
    · have hfin : finalCheck items.length s3 = [hunkOf s3] := by
        unfold finalCheck
        rw [if_pos ⟨by rw [h2, hpredn]; omega, by rw [h1]; omega⟩]
      rw [hfin] at e2
      refine Or.inl ⟨_, [], e2.symm, ?_, ?_⟩
      · simp only [hunkOf]; exact h1
      · simp only [hunkOf]; rw [h3]; exact hp2
    · have hfin : finalCheck items.length s3 = [] := by
        unfold finalCheck
        rw [if_neg (by rw [h2, hpredn]; omega)]
      rw [hfin] at e2
      refine Or.inr ⟨e2.symm, e3.symm, ?_, ?_, ?_⟩
      · rw [← e1]; exact h1
      · rw [← e1]
        simp only [nextIteration]
        rw [h2, hu]
        omega
      · rw [← e1]
        simp only [nextIteration]
        rw [h2, hu]
        omega
  unfold scanBody at hb
  rw [hit] at hb
  simp only [] at hb
  rcases hc : items[s.i].change with _ | _ | _
  · have hlt : p < s.i := by
      rcases Nat.lt_or_ge p s.i with h | h
      · exact h
      · have e : p = s.i := by omega
        obtain ⟨it2, h3, h4⟩ := hp
        rw [e, hit] at h3
        rw [← Option.some.inj h3] at h4
        exact absurd hc h4
    have hh := hin hlt
    simp only [hh, hc, if_true] at hb
    rcases closeHunk_first items C hn hC s hinv hi hh _ hit hc s2 hs ex hb with
      ⟨h, rest, e1, e2, e3⟩ | h
    · exact Or.inl ⟨h, rest, e1, e2, by omega⟩
    · obtain ⟨e1, e2, e3, e4, e5⟩ := h
      exact Or.inr ⟨e1, e2, e3, by omega, e5⟩
  · cases hh : s.isHunk with
    | true =>
      obtain ⟨hEnd, _⟩ := hinv.inHunk hh
      simp only [hh, hc, if_true] at hb
      refine hchange _ ?_ ?_ ?_ hb
      · rfl
      · rfl
      · simp only []
        rw [u16_of_lt _ (by omega)]
        omega
    | false =>
      simp only [hh, hc, Bool.false_eq_true, if_false, ne_eq, not_false_eq_true, if_true,
        reduceCtorEq] at hb
      refine hchange _ ?_ ?_ ?_ hb
      · rfl
      · rfl
      · simp only []
        exact u16_pred_succ s.i (by omega)
  · cases hh : s.isHunk with
    | true =>
      obtain ⟨hEnd, _⟩ := hinv.inHunk hh
      simp only [hh, hc, if_true] at hb
      refine hchange _ ?_ ?_ ?_ hb
      · rfl
      · rfl
      · simp only []
        rw [u16_of_lt _ (by omega)]
        omega
    | false =>
      simp only [hh, hc, Bool.false_eq_true, if_false, ne_eq, not_false_eq_true, if_true,
        reduceCtorEq] at hb
      refine hchange _ ?_ ?_ ?_ hb
      · rfl
      · rfl
      · simp only []
        exact u16_pred_succ s.i (by omega)

/-- The scan loop at or after a changed item `p` that no printed hunk covers yet:
a hunk is printed, and the first one printed starts at `hunkStart` and covers
`p`. -/
theorem scanLoop_first (items : List DiffItem) (C : Nat) (hn : items.length < 65536)
    (hC : C < 4294967296) (p : Nat) (hp : ChangedAt items p) :
    ∀ (fuel : Nat) (s : ScanState) (hs : List HunkCall), ScanInv items s →
      s.i < items.length → s.hunkStart ≤ p → p ≤ s.i →
      scanLoop items C items.length fuel s = some hs →
      ∃ h rest, hs = h :: rest ∧ h.start = s.hunkStart ∧ p ≤ h.stop := by
  intro fuel
  induction fuel with
  | zero =>
    intro s hs _ _ _ _ hl
    unfold scanLoop at hl
    cases hl
  | succ n ih =>
    intro s hs hinv hi hp1 hp2 hl
    rw [scanLoop_succ, if_pos hi] at hl
    obtain ⟨s2, hs1, ex, hb, _, hnext⟩ := scanBody_spec items C hn hC s hinv hi
    rw [hb] at hl
    rcases scanBody_first items C hn hC s hinv hi p hp1 hp2 hp s2 hs1 ex hb with
      ⟨h, rest, e1, e2, e3⟩ | ⟨e1, e2, e3, e4, e5⟩
    · cases ex with
      | breakLoop =>
        simp only [Option.some.injEq] at hl
        exact ⟨h, rest, by rw [← hl, e1], e2, e3⟩
      | goOn =>
        simp only [] at hl
        cases hr : scanLoop items C items.length n (nextIteration s2) with
        | none =>
          rw [hr] at hl
          cases hl
        | some rest2 =>
          rw [hr] at hl
          simp only [Option.some.injEq] at hl
          exact ⟨h, rest ++ rest2, by rw [← hl, e1]; rfl, e2, e3⟩
    · subst e1 e2
      simp only [] at hl
      cases hr : scanLoop items C items.length n (nextIteration s2) with
      | none =>
        rw [hr] at hl
        cases hl
      | some rest2 =>
        rw [hr] at hl
        simp only [Option.some.injEq, List.nil_append] at hl
        obtain ⟨h, rest, e6, e7, e8⟩ :=
          ih (nextIteration s2) rest2 (hnext rfl).1 e5 (by rw [e3]; exact hp1) e4 hr
        exact ⟨h, rest, by rw [← hl, e6], by rw [e7, e3], e8⟩

/-- The first hunk of `Diff::generateUnidiff`: when the first changed item of the
script is at index `pos`, a hunk is printed, and the first hunk printed starts at
index `pos - C`, or at `0` when `pos < C`, and covers `pos`. -/
theorem unidiffHunks_first (items : List DiffItem) (C pos : Nat)
    (hn : items.length < 65536) (hC : C < 4294967296) (hpos : ChangedAt items pos)
    (hbefore : ∀ k, k < pos → EqualAt items k) :
    ∃ h rest, unidiffHunks items C = some (h :: rest) ∧ h.start = pos - C
      ∧ pos ≤ h.stop := by
  have hlt : pos < items.length := changedAt_lt hpos
  obtain ⟨hs, hu, _⟩ := unidiffHunks_spec items C hn hC
  have hu2 := hu
  unfold unidiffHunks at hu2
  simp only [] at hu2
  rw [u32_of_lt _ (by omega)] at hu2
  have e1 : 2 * items.length + 1 = (2 * items.length + 1 - pos) + pos := by omega
  rw [e1] at hu2
  unfold initialScan at hu2
  obtain ⟨j2, hrun⟩ := scanLoop_equal_run items C (by omega) pos (2 * items.length + 1 - pos)
    0 0 0 0 0 0 0 0 1 (by omega) (by omega) (by omega) (by omega)
    (fun k _ hk => hbefore k (by omega))
  rw [hrun] at hu2
  have e2 : 0 + (max (0 + pos) C - max 0 C) = pos - C := by omega
  have e3 : 0 + (min (0 + pos) C - min 0 C) = min pos C := by omega
  have e4 : 0 + pos = pos := by omega
  rw [e2, e3, e4] at hu2
  have hcount := countChange_equal_run items (pos - C) (pos - C) (le_refl _) (min pos C)
    (fun k hk1 hk2 => hbefore k (by omega))
  have e5 : pos - C + min pos C = pos := by omega
  rw [e5, countChange_self, countChange_self, countChange_self] at hcount
  obtain ⟨hc1, hc2, hc3⟩ := hcount
  have hinv : ScanInv items ⟨false, pos - C, 0, pos, min pos C, 0, 0, 0, pos, j2⟩ := by
    refine ⟨?_, ?_, ?_, ?_, ?_, ?_, ?_⟩
    · simp only []; omega
    · simp only []; omega
    · simp only []; rw [hc1]; omega
    · simp only []; rw [hc2]
    · simp only []; rw [hc3]
    · intro hf
      exact absurd hf (by simp)
    · intro _ k hk1 hk2
      exact hbefore k hk2
  obtain ⟨h, rest, e6, e7, e8⟩ := scanLoop_first items C hn hC pos hpos _ _ hs hinv hlt
    (by simp only []; omega) (le_refl _) hu2
  refine ⟨h, rest, by rw [hu, e6], e7, e8⟩

/-! ## A script on which the scan loop does not end -/

theorem longInsertScript_length : longInsertScript.length = 65538 := by
  unfold longInsertScript
  rw [List.length_append, List.length_map, List.length_range]
  rfl

theorem longInsertScript_insert (k : Nat) (hk : k < 65537) :
    longInsertScript[k]? = some ⟨Change.Insert, 0, k⟩ := by
  unfold longInsertScript
  rw [List.getElem?_append_left (by rw [List.length_map, List.length_range]; exact hk),
    List.getElem?_map, List.getElem?_range hk]
  rfl

theorem longInsertScript_equal :
    longInsertScript[65537]? = some ⟨Change.Equal, 0, 65537⟩ := by
  unfold longInsertScript
  rw [List.getElem?_append_right (by rw [List.length_map, List.length_range])]
  rw [List.length_map, List.length_range]
  rfl

theorem lookAhead_change (items : List DiffItem) (endPos f j hunkEnd equalsCount : Nat)
    (it : DiffItem) (hj : j < endPos) (hit : items[j]? = some it)
    (hc : it.change ≠ Change.Equal) :
    lookAhead items endPos (f + 1) j hunkEnd equalsCount
      = some (true, j, hunkEnd, equalsCount) := by
  unfold lookAhead
  rw [if_pos hj, hit]
  simp only []
  rw [if_pos hc]

/-- An insertion of the long script met inside a hunk: nothing is printed, and the
end of the hunk moves by one, as an `unsigned short`. -/
theorem cycle_insert (items : List DiffItem) (hlen : items.length = 65538)
    (hins : ∀ k, k < 65537 → items[k]? = some ⟨Change.Insert, 0, k⟩)
    (heq : items[65537]? = some ⟨Change.Equal, 0, 65537⟩)
    (C b hs l eq rem ins ep i j : Nat) (h1 : i ≤ 65536) :
    scanBody items C items.length
        ⟨true, hs, b, l, eq, rem, ins, ep, i, j⟩
      = some (⟨true, hs, u16 (b + 1), l, eq, rem, u16 (ins + 1), ep, i, j⟩, [],
          BodyExit.goOn) := by
  have hfin : ∀ s : ScanState, s.i = i → finalCheck items.length s = [] := by
    intro s hs
    unfold finalCheck
    rw [hlen, hs]
    have e : pred32 65538 = 65537 := by decide
    rw [e, if_neg (by omega)]
  unfold scanBody
  rw [hins i (by omega)]
  simp only [if_true]
  rw [hfin _ rfl]

/-- The unchanged line at the end of the long script, met when the end of the hunk
has wrapped around to `0`: the look-ahead finds the insertion at index `1`, nothing
is printed, and the loop goes back to index `1`. -/
theorem cycle_close (items : List DiffItem) (hlen : items.length = 65538)
    (hins : ∀ k, k < 65537 → items[k]? = some ⟨Change.Insert, 0, k⟩)
    (heq : items[65537]? = some ⟨Change.Equal, 0, 65537⟩)
    (C hs l eq rem ins ep j : Nat) (hC1 : 1 ≤ C) (hC2 : C < 4294967295) :
    scanBody items C items.length
        ⟨true, hs, 0, l, eq, rem, ins, ep, 65537, j⟩
      = some (⟨true, hs, 0, 0, eq, rem, ins, min (u32 (0 + C + 1)) items.length,
          0, 1⟩, [], BodyExit.goOn) := by
  have hend : 1 < min (u32 (0 + C + 1)) items.length := by
    rw [hlen, u32_of_lt _ (by omega)]
    omega
  have hla := lookAhead_change items
    (min (u32 (0 + C + 1)) items.length) items.length 1 0 eq
    ⟨Change.Insert, 0, 1⟩ hend (hins 1 (by norm_num)) (by simp)
  have e1 : pred32 1 = 0 := by decide
  have e2 : (1 : Nat) ≠ pred32 items.length := by
    rw [hlen]
    decide
  unfold scanBody
  rw [heq]
  simp only [if_true]
  unfold closeHunk
  simp only [Nat.zero_add] at hla ⊢
  rw [hla]
  simp only []
  rw [if_neg e2, e1]
  simp

/-- One iteration of the scan loop over the long script inside the hunk: nothing is
printed, no access leaves the script, and the loop goes on inside the hunk at an
index from `1` to `65537`. -/
theorem cycle_step (items : List DiffItem) (hlen : items.length = 65538)
    (hins : ∀ k, k < 65537 → items[k]? = some ⟨Change.Insert, 0, k⟩)
    (heq : items[65537]? = some ⟨Change.Equal, 0, 65537⟩)
    (C : Nat) (hC1 : 1 ≤ C) (hC2 : C < 4294967295) (s : ScanState)
    (h1 : s.isHunk = true) (h2 : 1 ≤ s.i) (h3 : s.i ≤ 65537)
    (h4 : s.hunkEnd = u16 (s.i + 65535)) :
    ∃ s2, scanBody items C items.length s
        = some (s2, [], BodyExit.goOn)
      ∧ (nextIteration s2).isHunk = true ∧ 1 ≤ (nextIteration s2).i
      ∧ (nextIteration s2).i ≤ 65537
      ∧ (nextIteration s2).hunkEnd = u16 ((nextIteration s2).i + 65535) := by
  obtain ⟨b, hs, he, l, eq, rem, ins, ep, i, j⟩ := s
  simp only [] at h1 h2 h3 h4
  rw [h1, h4]
  by_cases hi : i ≤ 65536
  · refine ⟨_, cycle_insert items hlen hins heq C _ hs l eq rem ins ep i j hi, rfl, ?_, ?_, ?_⟩
    · simp only [nextIteration]
      rw [u32_of_lt _ (by omega)]
      omega
    · simp only [nextIteration]
      rw [u32_of_lt _ (by omega)]
      omega
    · simp only [nextIteration]
      rw [u32_of_lt _ (by omega)]
      unfold u16
      omega
  · have ei : i = 65537 := by omega
    subst ei
    have e0 : u16 (65537 + 65535) = 0 := by decide
    rw [e0]
    refine ⟨_, cycle_close items hlen hins heq C hs l eq rem ins ep j hC1 hC2, rfl, ?_, ?_, ?_⟩
    · simp only [nextIteration]
      decide
    · simp only [nextIteration]
      decide
    · simp only [nextIteration]
      decide

/-- The first iteration of the scan loop over the long script. -/
theorem cycle_start (items : List DiffItem) (hlen : items.length = 65538)
    (hins : ∀ k, k < 65537 → items[k]? = some ⟨Change.Insert, 0, k⟩)
    (heq : items[65537]? = some ⟨Change.Equal, 0, 65537⟩)
    (C : Nat) :
    scanBody items C items.length initialScan
      = some (⟨true, 0, 0, 0, 0, 0, 1, 0, 0, 1⟩, [], BodyExit.goOn) := by
  have hfin : ∀ s : ScanState, s.i = 0 → finalCheck items.length s = [] := by
    intro s hs
    unfold finalCheck
    rw [hlen, hs]
    have e : pred32 65538 = 65537 := by decide
    rw [e, if_neg (by omega)]
  unfold scanBody initialScan
  rw [hins 0 (by norm_num)]
  simp only [Bool.false_eq_true, if_false, ne_eq, not_false_eq_true, if_true, reduceCtorEq]
  rw [hfin _ rfl]
  have e1 : u16 (u16 (pred32 0) + 1) = 0 := by decide
  have e2 : u16 (0 + 1) = 1 := by decide
  rw [e1, e2]

/-- Inside the hunk of the long script the scan loop performs any number of
iterations. -/
theorem cycle_iterate (items : List DiffItem) (hlen : items.length = 65538)
    (hins : ∀ k, k < 65537 → items[k]? = some ⟨Change.Insert, 0, k⟩)
    (heq : items[65537]? = some ⟨Change.Equal, 0, 65537⟩)
    (C : Nat) (hC1 : 1 ≤ C) (hC2 : C < 4294967295) :
    ∀ (n : Nat) (s : ScanState), s.isHunk = true → 1 ≤ s.i → s.i ≤ 65537 →
      s.hunkEnd = u16 (s.i + 65535) →
      ∃ s2, scanIterate items C items.length n s = some s2
        ∧ 1 ≤ s2.i ∧ s2.i ≤ 65537 := by
  intro n
  induction n with
  | zero =>
    intro s _ h2 h3 _
    exact ⟨s, rfl, h2, h3⟩
  | succ n ih =>
    intro s h1 h2 h3 h4
    obtain ⟨s2, hb, g1, g2, g3, g4⟩ := cycle_step items hlen hins heq C hC1 hC2 s h1 h2 h3 h4
    obtain ⟨s3, hs3, g5, g6⟩ := ih (nextIteration s2) g1 g2 g3 g4
    refine ⟨s3, ?_, g5, g6⟩
    unfold scanIterate
    rw [if_pos (by rw [hlen]; omega), hb]
    exact hs3

/-- Inside the hunk of the long script the scan loop has no result, whatever the
bound on the number of its iterations. -/
theorem cycle_scanLoop (items : List DiffItem) (hlen : items.length = 65538)
    (hins : ∀ k, k < 65537 → items[k]? = some ⟨Change.Insert, 0, k⟩)
    (heq : items[65537]? = some ⟨Change.Equal, 0, 65537⟩)
    (C : Nat) (hC1 : 1 ≤ C) (hC2 : C < 4294967295) :
    ∀ (fuel : Nat) (s : ScanState), s.isHunk = true → 1 ≤ s.i → s.i ≤ 65537 →
      s.hunkEnd = u16 (s.i + 65535) →
      scanLoop items C items.length fuel s = none := by
  intro fuel
  induction fuel with
  | zero =>
    intro s _ _ _ _
    unfold scanLoop
    rfl
  | succ n ih =>
    intro s h1 h2 h3 h4
    obtain ⟨s2, hb, g1, g2, g3, g4⟩ := cycle_step items hlen hins heq C hC1 hC2 s h1 h2 h3 h4
    rw [scanLoop_succ, if_pos (by rw [hlen]; omega), hb]
    simp only []
    rw [ih (nextIteration s2) g1 g2 g3 g4]

/-- The scan loop over a script of 65537 insertions and one unchanged line, from the
initial state. -/
theorem cycle_loops (items : List DiffItem) (hlen : items.length = 65538)
    (hins : ∀ k, k < 65537 → items[k]? = some ⟨Change.Insert, 0, k⟩)
    (heq : items[65537]? = some ⟨Change.Equal, 0, 65537⟩)
    (C : Nat) (hC1 : 1 ≤ C) (hC2 : C < 4294967295) :
    (∀ n, ∃ s, scanIterate items C items.length n initialScan = some s
        ∧ s.i < items.length)
      ∧ ∀ fuel, scanLoop items C items.length fuel initialScan = none := by
  have hnext : nextIteration ⟨true, 0, 0, 0, 0, 0, 1, 0, 0, 1⟩
      = ⟨true, 0, 0, 0, 0, 0, 1, 0, 1, 2⟩ := by decide
  have e0 : (0 : Nat) = u16 (1 + 65535) := by decide
  constructor
  · intro n
    cases n with
    | zero =>
      refine ⟨initialScan, rfl, ?_⟩
      rw [hlen]
      decide
    | succ n =>
      obtain ⟨s, hs, _, g2⟩ := cycle_iterate items hlen hins heq C hC1 hC2 n
        ⟨true, 0, 0, 0, 0, 0, 1, 0, 1, 2⟩ rfl (le_refl _) (by norm_num) e0
      refine ⟨s, ?_, by rw [hlen]; omega⟩
      unfold scanIterate
      rw [if_pos (by rw [hlen]; decide), cycle_start items hlen hins heq]
      simp only []
      rw [hnext]
      exact hs
  · intro fuel
    cases fuel with
    | zero =>
      unfold scanLoop
      rfl
    | succ n =>
      rw [scanLoop_succ, if_pos (by rw [hlen]; decide), cycle_start items hlen hins heq]
      simp only []
      rw [hnext, cycle_scanLoop items hlen hins heq C hC1 hC2 n _ rfl (le_refl _)
        (by norm_num) e0]

/-- The scan loop over the long script, from the initial state: after any number of
iterations the loop is at an item of the script, and it has no result. -/
theorem longInsertScript_loops (C : Nat) (hC1 : 1 ≤ C) (hC2 : C < 4294967295) :
    (∀ n, ∃ s, scanIterate longInsertScript C longInsertScript.length n initialScan = some s
        ∧ s.i < longInsertScript.length)
      ∧ ∀ fuel, scanLoop longInsertScript C longInsertScript.length fuel initialScan
          = none :=
  cycle_loops longInsertScript longInsertScript_length longInsertScript_insert
    longInsertScript_equal C hC1 hC2

/-! ## A context count that is at least the length of the script -/

/-- An unchanged item inside a hunk when the context count is at least the length
of the script: either the hunk is printed and the loop ends, and the hunk ends at
the last item, or at the item before it when the look-ahead has found a change in
the last item; or nothing is printed and the loop goes on at an item of the script
that is not the last one. -/
theorem closeHunk_whole (items : List DiffItem) (C : Nat) (hn : items.length < 65536)
    (hCn : items.length ≤ C) (hCs : C + items.length < 4294967296)
    (s : ScanState) (hinv : ScanInv items s)
    (hi : s.i < items.length) (hh : s.isHunk = true) (it : DiffItem)
    (hit : items[s.i]? = some it) (hc : it.change = Change.Equal)
    (s2 : ScanState) (hs : List HunkCall) (ex : BodyExit)
    (hb : closeHunk items C items.length s = some (s2, hs, ex)) :
    (∃ h, hs = [h] ∧ h.start = s.hunkStart
        ∧ (ex = BodyExit.goOn → ¬ (nextIteration s2).i < items.length)
        ∧ ((h.stop + 1 = items.length ∧ EqualAt items h.stop)
          ∨ (h.stop + 2 = items.length ∧ ChangedAt items (h.stop + 1)
              ∧ EqualAt items h.stop ∧ s.i ≤ h.stop)))
      ∨ (hs = [] ∧ ex = BodyExit.goOn ∧ (nextIteration s2).hunkStart = s.hunkStart
          ∧ s.i ≤ (nextIteration s2).i ∧ (nextIteration s2).i + 1 < items.length) := by
  obtain ⟨hEnd, hStart⟩ := hinv.inHunk hh
  have hsum := countChange_sum_le items s.hunkStart s.i
  have heq := hinv.equals
  have hend1 : min (u32 (s.hunkEnd + C + 1)) items.length = items.length := by
    rw [u32_of_lt _ (by omega)]
    omega
  have hend2 : min (u32 (items.length + C)) items.length = items.length := by
    rw [u32_of_lt _ (by omega)]
    omega
  obtain ⟨found, j1, hla, hj1, hrun, hfound, hnot⟩ :=
    lookAhead_spec items items.length hn (le_refl _)
      (items.length + 1) (s.hunkEnd + 1) s.hunkEnd s.equalsCount rfl (by omega) (by omega)
  have hj1n : j1 ≤ items.length := by
    cases found with
    | true => have := (hfound rfl).1; omega
    | false => have := hnot rfl; omega
  have hpred : pred32 j1 = j1 - 1 := pred32_of_pos j1 (by omega) (by omega)
  have hpredn : pred32 items.length = items.length - 1 :=
    pred32_of_pos _ (by omega) (by omega)
  have ei : u32 (pred32 j1 + 1) = j1 := by
    rw [hpred, u32_of_lt _ (by omega)]; omega
  have hgt : found = true → s.i < j1 := by
    intro hf
    obtain ⟨hlt, it2, hit2, hne⟩ := hfound hf
    rcases Nat.lt_or_ge s.i j1 with h | h
    · exact h
    · have e : j1 = s.i := by omega
      rw [e, hit] at hit2
      rw [← Option.some.inj hit2] at hne
      exact absurd hc hne
  unfold closeHunk at hb
  simp only [] at hb
  rw [hend1, hla] at hb
  simp only [] at hb
  by_cases hbrk : j1 = pred32 items.length
  · rw [if_pos hbrk] at hb
    simp only [Option.some.injEq, Prod.mk.injEq] at hb
    obtain ⟨_, e2, e3⟩ := hb
    have hf : found = true := by
      cases found with
      | true => rfl
      | false =>
        have := hnot rfl
        omega
    have hlt := hgt hf
    obtain ⟨_, it2, hit2, hne⟩ := hfound hf
    refine Or.inl ⟨_, e2.symm, rfl, (fun h => by rw [← e3] at h; cases h), Or.inr ?_⟩
    simp only [hunkOf]
    have e4 : j1 - 1 + 1 = j1 := by omega
    rw [e4]
    exact ⟨by omega, ⟨it2, hit2, hne⟩, hrun (j1 - 1) (by omega) (by omega), by omega⟩
  · rw [if_neg hbrk] at hb
    cases found with
    | true =>
      simp only [if_true] at hb
      simp only [Option.some.injEq, Prod.mk.injEq] at hb
      obtain ⟨e1, e2, e3⟩ := hb
      have hlt := (hfound rfl).1
      refine Or.inr ⟨e2.symm, e3.symm, ?_, ?_, ?_⟩
      · rw [← e1]; rfl
      · rw [← e1]
        simp only [nextIteration]
        rw [ei]
        omega
      · rw [← e1]
        simp only [nextIteration]
        rw [ei]
        omega
    | false =>
      simp only [Bool.false_eq_true, if_false] at hb
      rw [hend2] at hb
      have hj1e : j1 = items.length := by
        have := hnot rfl
        omega
      obtain ⟨m, j2, hmc, hm⟩ :=
        mergeCheck_spec items items.length (by omega) (le_refl _) (items.length + 1)
          (pred32 j1) false (by omega)
      rw [hmc] at hb
      simp only [] at hb
      cases m with
      | true =>
        rcases hm rfl with h | ⟨_, h2, _⟩
        · exact absurd h (by simp)
        · omega
      | false =>
        simp only [Bool.false_eq_true, if_false] at hb
        have ehs : u16 (j1 - 1 + 1) = j1 := by rw [u16_of_lt _ (by omega)]; omega
        have hfin : finalCheck items.length
            { isHunk := false, hunkStart := u16 (j1 - 1 + 1), hunkEnd := j1 - 1,
              linesCount := 0, equalsCount := 0, removesCount := 0, insertsCount := 0,
              endPos := items.length,
              i := pred32 (u16 (j1 - 1 + 1)), j := u32 (pred32 (u16 (j1 - 1 + 1)) + 1) }
            = [] := by
          unfold finalCheck
          simp only [ehs, hpred, hpredn]
          rw [if_neg (by omega)]
        rw [hfin] at hb
        simp only [Option.some.injEq, Prod.mk.injEq] at hb
        obtain ⟨e1, e2, e3⟩ := hb
        refine Or.inl ⟨_, e2.symm, rfl, fun _ => ?_, Or.inl ?_⟩
        · rw [← e1]
          simp only [nextIteration, ehs, ei]
          omega
        · simp only [hunkOf]
          exact ⟨by omega, hrun (j1 - 1) (by omega) (by omega)⟩

/-- One iteration of the scan loop at or after the first changed item `pos`, when
the context count is at least the length of the script and no hunk has been printed:
either one hunk is printed and the loop ends, or nothing is printed and the loop
goes on. The printed hunk starts at `hunkStart`; it ends at the item before the last
one exactly when the last item is a change, the item before it is unchanged, and
`pos` lies before both. -/
theorem scanBody_whole (items : List DiffItem) (C : Nat) (hn : items.length < 65536)
    (hCn : items.length ≤ C) (hCs : C + items.length < 4294967296)
    (s : ScanState) (hinv : ScanInv items s)
    (hi : s.i < items.length) (pos : Nat) (hp1 : s.hunkStart ≤ pos) (hp2 : pos ≤ s.i)
    (hp : ChangedAt items pos)
    (hw : s.i + 1 = items.length →
      ¬ (ChangedAt items (items.length - 1) ∧ EqualAt items (items.length - 2)
          ∧ pos + 2 < items.length))
    (s2 : ScanState) (hs : List HunkCall) (ex : BodyExit)
    (hb : scanBody items C items.length s = some (s2, hs, ex)) :
    (∃ h, hs = [h] ∧ h.start = s.hunkStart
        ∧ (ex = BodyExit.goOn → ¬ (nextIteration s2).i < items.length)
        ∧ ((ChangedAt items (items.length - 1) ∧ EqualAt items (items.length - 2)
              ∧ pos + 2 < items.length) → h.stop + 2 = items.length)
        ∧ (¬ (ChangedAt items (items.length - 1) ∧ EqualAt items (items.length - 2)
              ∧ pos + 2 < items.length) → h.stop + 1 = items.length))
      ∨ (hs = [] ∧ ex = BodyExit.goOn ∧ (nextIteration s2).hunkStart = s.hunkStart
          ∧ pos ≤ (nextIteration s2).i ∧ (nextIteration s2).i < items.length
          ∧ ((nextIteration s2).i + 1 = items.length →
              ¬ (ChangedAt items (items.length - 1) ∧ EqualAt items (items.length - 2)
                  ∧ pos + 2 < items.length))) := by
  have hit : items[s.i]? = some items[s.i] := List.getElem?_eq_getElem hi
  have hpredn : pred32 items.length = items.length - 1 :=
    pred32_of_pos _ (by omega) (by omega)
  have hu : u32 (s.i + 1) = s.i + 1 := u32_of_lt _ (by omega)
  have hin : pos < s.i → s.isHunk = true := by
    intro hlt
    cases hf : s.isHunk with
    | true => rfl
    | false =>
      obtain ⟨it, h1, h2⟩ := hinv.outside hf pos hp1 hlt
      obtain ⟨it2, h3, h4⟩ := hp
      rw [h1] at h3
      rw [← Option.some.inj h3] at h4
      exact absurd h2 h4
  -- a changed item, inside or outside a hunk
  have hchange : items[s.i].change ≠ Change.Equal →
      ∀ (s3 : ScanState), s3.hunkStart = s.hunkStart → s3.i = s.i →
      s3.hunkEnd = s.i →
      some (s3, finalCheck items.length s3, BodyExit.goOn) = some (s2, hs, ex) →
      (∃ h, hs = [h] ∧ h.start = s.hunkStart
          ∧ (ex = BodyExit.goOn → ¬ (nextIteration s2).i < items.length)
          ∧ ((ChangedAt items (items.length - 1) ∧ EqualAt items (items.length - 2)
                ∧ pos + 2 < items.length) → h.stop + 2 = items.length)
          ∧ (¬ (ChangedAt items (items.length - 1) ∧ EqualAt items (items.length - 2)
                ∧ pos + 2 < items.length) → h.stop + 1 = items.length))
        ∨ (hs = [] ∧ ex = BodyExit.goOn ∧ (nextIteration s2).hunkStart = s.hunkStart
            ∧ pos ≤ (nextIteration s2).i ∧ (nextIteration s2).i < items.length
            ∧ ((nextIteration s2).i + 1 = items.length →
                ¬ (ChangedAt items (items.length - 1) ∧ EqualAt items (items.length - 2)
                    ∧ pos + 2 < items.length))) := by
    intro hne s3 h1 h2 h3 hb3
    simp only [Option.some.injEq, Prod.mk.injEq] at hb3
    obtain ⟨e1, e2, e3⟩ := hb3
    have hstart := hinv.start_le
    by_cases hl : s.i + 1 = items.length
    · have hfin : finalCheck items.length s3 = [hunkOf s3] := by
        unfold finalCheck
        rw [if_pos ⟨by rw [h2, hpredn]; omega, by rw [h1]; omega⟩]
      rw [hfin] at e2
      refine Or.inl ⟨_, e2.symm, ?_, ?_, ?_, ?_⟩
      · simp only [hunkOf]; exact h1
      · intro _
        rw [← e1]
        simp only [nextIteration]
        rw [h2, hu]
        omega
      · intro hd
        exact absurd hd (hw hl)
      · intro _
        simp only [hunkOf]
        rw [h3]
        exact hl
    · have hfin : finalCheck items.length s3 = [] := by
        unfold finalCheck
        rw [if_neg (by rw [h2, hpredn]; omega)]
      rw [hfin] at e2
      refine Or.inr ⟨e2.symm, e3.symm, ?_, ?_, ?_, ?_⟩
      · rw [← e1]; exact h1
      · rw [← e1]
        simp only [nextIteration]
        rw [h2, hu]
        omega
      · rw [← e1]
        simp only [nextIteration]
        rw [h2, hu]
        omega
      · rw [← e1]
        simp only [nextIteration]
        rw [h2, hu]
        intro hlast hd
        have e4 : items.length - 2 = s.i := by omega
        rw [e4] at hd
        exact not_equalAt_of_changedAt items s.i ⟨_, hit, hne⟩ hd.2.1
  unfold scanBody at hb
  rw [hit] at hb
  simp only [] at hb
  rcases hc : items[s.i].change with _ | _ | _
  · have hlt : pos < s.i := by
      rcases Nat.lt_or_ge pos s.i with h | h
      · exact h
      · have e : pos = s.i := by omega
        obtain ⟨it2, h3, h4⟩ := hp
        rw [e, hit] at h3
        rw [← Option.some.inj h3] at h4
        exact absurd hc h4
    have hh := hin hlt
    simp only [hh, hc, if_true] at hb
    rcases closeHunk_whole items C hn hCn hCs s hinv hi hh _ hit hc s2 hs ex hb with
      ⟨h, e1, e2, e3, e4⟩ | h
    · refine Or.inl ⟨h, e1, e2, e3, ?_, ?_⟩
      · intro hd
        rcases e4 with ⟨e5, e6⟩ | ⟨e5, _⟩
        · have e7 : items.length - 1 = h.stop := by omega
          rw [e7] at hd
          exact absurd e6 (fun he => not_equalAt_of_changedAt items h.stop hd.1 he)
        · exact e5
      · intro hnd
        rcases e4 with ⟨e5, _⟩ | ⟨e5, e6, e7, e8⟩
        · exact e5
        · exfalso
          apply hnd
          have e9 : items.length - 1 = h.stop + 1 := by omega
          have e10 : items.length - 2 = h.stop := by omega
          rw [e9, e10]
          exact ⟨e6, e7, by omega⟩
    · obtain ⟨e1, e2, e3, e4, e5⟩ := h
      exact Or.inr ⟨e1, e2, e3, by omega, by omega, fun hl => by omega⟩
  · have hne : items[s.i].change ≠ Change.Equal := by rw [hc]; simp
    cases hh : s.isHunk with
    | true =>
      obtain ⟨hEnd, _⟩ := hinv.inHunk hh
      simp only [hh, hc, if_true] at hb
      refine hchange hne _ ?_ ?_ ?_ hb
      · rfl
      · rfl
      · simp only []
        rw [u16_of_lt _ (by omega)]
        omega
    | false =>
      simp only [hh, hc, Bool.false_eq_true, if_false, ne_eq, not_false_eq_true, if_true,
        reduceCtorEq] at hb
      refine hchange hne _ ?_ ?_ ?_ hb
      · rfl
      · rfl
      · simp only []
        exact u16_pred_succ s.i (by omega)
  · have hne : items[s.i].change ≠ Change.Equal := by rw [hc]; simp
    cases hh : s.isHunk with
    | true =>
      obtain ⟨hEnd, _⟩ := hinv.inHunk hh
      simp only [hh, hc, if_true] at hb
      refine hchange hne _ ?_ ?_ ?_ hb
      · rfl
      · rfl
      · simp only []
        rw [u16_of_lt _ (by omega)]
        omega
    | false =>
      simp only [hh, hc, Bool.false_eq_true, if_false, ne_eq, not_false_eq_true, if_true,
        reduceCtorEq] at hb
      refine hchange hne _ ?_ ?_ ?_ hb
      · rfl
      · rfl
      · simp only []
        exact u16_pred_succ s.i (by omega)

/-- The scan loop at or after the first changed item `pos`, when the context count is
at least the length of the script and no hunk has been printed: exactly one hunk is
printed. -/
theorem scanLoop_whole (items : List DiffItem) (C : Nat) (hn : items.length < 65536)
    (hCn : items.length ≤ C) (hCs : C + items.length < 4294967296)
    (pos : Nat) (hp : ChangedAt items pos) :
    ∀ (fuel : Nat) (s : ScanState) (hs : List HunkCall), ScanInv items s →
      s.i < items.length → s.hunkStart ≤ pos → pos ≤ s.i →
      (s.i + 1 = items.length →
        ¬ (ChangedAt items (items.length - 1) ∧ EqualAt items (items.length - 2)
            ∧ pos + 2 < items.length)) →
      scanLoop items C items.length fuel s = some hs →
      ∃ h, hs = [h] ∧ h.start = s.hunkStart
        ∧ ((ChangedAt items (items.length - 1) ∧ EqualAt items (items.length - 2)
              ∧ pos + 2 < items.length) → h.stop + 2 = items.length)
        ∧ (¬ (ChangedAt items (items.length - 1) ∧ EqualAt items (items.length - 2)
              ∧ pos + 2 < items.length) → h.stop + 1 = items.length) := by
  intro fuel
  induction fuel with
  | zero =>
    intro s hs _ _ _ _ _ hl
    unfold scanLoop at hl
    cases hl
  | succ n ih =>
    intro s hs hinv hi hp1 hp2 hw hl
    rw [scanLoop_succ, if_pos hi] at hl
    obtain ⟨s2, hs1, ex, hb, _, hnext⟩ :=
      scanBody_spec items C hn (by omega) s hinv hi
    rw [hb] at hl
    rcases scanBody_whole items C hn hCn hCs s hinv hi pos hp1 hp2 hp hw s2 hs1 ex hb with
      ⟨h, e1, e2, e3, e4, e5⟩ | ⟨e1, e2, e3, e4, e5, e6⟩
    · cases ex with
      | breakLoop =>
        simp only [Option.some.injEq] at hl
        exact ⟨h, by rw [← hl, e1], e2, e4, e5⟩
      | goOn =>
        simp only [] at hl
        cases hr : scanLoop items C items.length n (nextIteration s2) with
        | none =>
          rw [hr] at hl
          cases hl
        | some rest2 =>
          rw [hr] at hl
          simp only [Option.some.injEq] at hl
          have hrest : rest2 = [] := by
            cases n with
            | zero =>
              unfold scanLoop at hr
              cases hr
            | succ k =>
              rw [scanLoop_succ, if_neg (e3 rfl)] at hr
              exact (Option.some.inj hr).symm
          exact ⟨h, by rw [← hl, e1, hrest]; rfl, e2, e4, e5⟩
    · subst e1 e2
      simp only [] at hl
      cases hr : scanLoop items C items.length n (nextIteration s2) with
      | none =>
        rw [hr] at hl
        cases hl
      | some rest2 =>
        rw [hr] at hl
        simp only [Option.some.injEq, List.nil_append] at hl
        obtain ⟨h, e7, e8, e9, e10⟩ :=
          ih (nextIteration s2) rest2 (hnext rfl).1 e5 (by rw [e3]; exact hp1) e4 e6 hr
        exact ⟨h, by rw [← hl, e7], by rw [e8, e3], e9, e10⟩

/-- The hunks of `Diff::generateUnidiff` when the context count is at least the
length of the script and the sum of both is in the range of `unsigned int`: one
hunk is printed, from the first item of the script to its last item, or to the
item before the last one when the last item is a change that follows an unchanged
item and is not the first change. -/
theorem unidiffHunks_whole (items : List DiffItem) (C pos : Nat)
    (hn : items.length < 65536) (hCn : items.length ≤ C)
    (hCs : C + items.length < 4294967296) (hpos : ChangedAt items pos)
    (hbefore : ∀ k, k < pos → EqualAt items k) :
    ∃ h, unidiffHunks items C = some [h] ∧ h.start = 0
      ∧ ((ChangedAt items (items.length - 1) ∧ EqualAt items (items.length - 2)
            ∧ pos + 2 < items.length) → h.stop + 2 = items.length)
      ∧ (¬ (ChangedAt items (items.length - 1) ∧ EqualAt items (items.length - 2)
            ∧ pos + 2 < items.length) → h.stop + 1 = items.length) := by
  have hlt : pos < items.length := changedAt_lt hpos
  obtain ⟨hs, hu, _⟩ := unidiffHunks_spec items C hn (by omega)
  have hu2 := hu
  unfold unidiffHunks at hu2
  simp only [] at hu2
  rw [u32_of_lt _ (by omega)] at hu2
  have e1 : 2 * items.length + 1 = (2 * items.length + 1 - pos) + pos := by omega
  rw [e1] at hu2
  unfold initialScan at hu2
  obtain ⟨j2, hrun⟩ := scanLoop_equal_run items C (by omega) pos (2 * items.length + 1 - pos)
    0 0 0 0 0 0 0 0 1 (by omega) (by omega) (by omega) (by omega)
    (fun k _ hk => hbefore k (by omega))
  rw [hrun] at hu2
  have e2 : 0 + (max (0 + pos) C - max 0 C) = 0 := by omega
  have e3 : 0 + (min (0 + pos) C - min 0 C) = pos := by omega
  have e4 : 0 + pos = pos := by omega
  rw [e2, e3, e4] at hu2
  have hcount := countChange_equal_run items 0 0 (le_refl _) pos
    (fun k hk1 hk2 => hbefore k (by omega))
  rw [e4, countChange_self, countChange_self, countChange_self] at hcount
  obtain ⟨hc1, hc2, hc3⟩ := hcount
  have hinv : ScanInv items ⟨false, 0, 0, pos, pos, 0, 0, 0, pos, j2⟩ := by
    refine ⟨?_, ?_, ?_, ?_, ?_, ?_, ?_⟩
    · simp only []; omega
    · simp only []; omega
    · simp only []; rw [hc1]; omega
    · simp only []; rw [hc2]
    · simp only []; rw [hc3]
    · intro hf
      exact absurd hf (by simp)
    · intro _ k hk1 hk2
      exact hbefore k hk2
  obtain ⟨h, e6, e7, e8, e9⟩ := scanLoop_whole items C hn hCn hCs pos hpos _ _ hs hinv hlt
    (by simp only []; omega) (le_refl _)
    (by
      simp only []
      intro hl hd
      omega) hu2
  exact ⟨h, by rw [hu, e6], e7, e8, e9⟩

/-! ## The iterations of the scan loop -/

/-- The state after `n` iterations of the scan loop satisfies the loop invariant, and
the termination measure has decreased by at least `n`. -/
theorem scanIterate_spec (items : List DiffItem) (C : Nat) (hn : items.length < 65536)
    (hC : C < 4294967296) :
    ∀ (n : Nat) (s s2 : ScanState), ScanInv items s →
      scanIterate items C items.length n s = some s2 →
      ScanInv items s2 ∧ n + scanMeasure items s2 ≤ scanMeasure items s := by
  intro n
  induction n with
  | zero =>
    intro s s2 hinv h
    unfold scanIterate at h
    rw [← Option.some.inj h]
    exact ⟨hinv, by omega⟩
  | succ n ih =>
    intro s s2 hinv h
    unfold scanIterate at h
    by_cases hi : s.i < items.length
    · rw [if_pos hi] at h
      obtain ⟨s3, hs, ex, hb, _, hnext⟩ := scanBody_spec items C hn hC s hinv hi
      rw [hb] at h
      cases ex with
      | breakLoop => cases h
      | goOn =>
        simp only [] at h
        obtain ⟨g1, g2⟩ := hnext rfl
        obtain ⟨g3, g4⟩ := ih (nextIteration s3) s2 g1 h
        exact ⟨g3, by omega⟩
    · rw [if_neg hi] at h
      cases h

/-- The scan loop of a script of fewer than 65536 operations ends, within
`2 * itemCount` iterations, and prints its hunks. -/
theorem scanLoop_terminates (items : List DiffItem) (C : Nat) (hn : items.length < 65536)
    (hC : C < 4294967296) :
    (∃ hs, ∀ fuel, 2 * items.length < fuel →
        scanLoop items C items.length fuel initialScan = some hs)
      ∧ (∀ n s, scanIterate items C items.length n initialScan = some s →
          n + scanMeasure items s ≤ 2 * items.length)
      ∧ scanIterate items C items.length (2 * items.length + 1) initialScan = none := by
  have hm : scanMeasure items initialScan = 2 * items.length := by
    unfold scanMeasure initialScan
    simp
  have hiter : ∀ n s, scanIterate items C items.length n initialScan = some s →
      n + scanMeasure items s ≤ 2 * items.length := by
    intro n s h
    have := (scanIterate_spec items C hn hC n initialScan s (scanInv_initial items) h).2
    omega
  refine ⟨?_, hiter, ?_⟩
  · obtain ⟨hs, hu, _⟩ := unidiffHunks_spec items C hn hC
    unfold unidiffHunks at hu
    simp only [] at hu
    rw [u32_of_lt _ (by omega)] at hu
    refine ⟨hs, fun fuel hf => ?_⟩
    have := scanLoop_mono items C items.length _ _ _ hu (fuel - (2 * items.length + 1))
    have e : 2 * items.length + 1 + (fuel - (2 * items.length + 1)) = fuel := by omega
    rw [e] at this
    exact this
  · cases h : scanIterate items C items.length (2 * items.length + 1) initialScan with
    | none => rfl
    | some s =>
      have := hiter _ s h
      omega

/-- No iteration of the scan loop of a script of fewer than 65536 operations reads
`items` outside its range: at every state that the loop reaches the body is
defined, and the calls of `generateHunk` that it makes are for ranges inside the
script. -/
theorem scanIterate_defined (items : List DiffItem) (C : Nat) (hn : items.length < 65536)
    (hC : C < 4294967296) (n : Nat) (s : ScanState)
    (h : scanIterate items C items.length n initialScan = some s)
    (hi : s.i < items.length) :
    ∃ s2 hs ex, scanBody items C items.length s = some (s2, hs, ex)
      ∧ ∀ g ∈ hs, HunkOK items g := by
  obtain ⟨hinv, _⟩ := scanIterate_spec items C hn hC n initialScan s (scanInv_initial items) h
  obtain ⟨s2, hs, ex, hb, hok, _⟩ := scanBody_spec items C hn hC s hinv hi
  exact ⟨s2, hs, ex, hb, hok⟩

/-! ## The script of one line with lines inserted before it -/

section InsertBefore

variable {α : Type} [DecidableEq α]

/-- The paths of the edit graph of the sequence `[x0]` and a sequence that ends with
its only occurrence of `x0`. -/
theorem path_insert_before (x0 : α) (L : List α) (hx : x0 ∉ L) (h : List DiffItem)
    (x y e : Nat) (hp : Path [x0] (L ++ [x0]) h x y e) :
    (x = 0 ∧ e = y ∧ h = (List.range y).map (fun j => (⟨Change.Insert, 0, j⟩ : DiffItem)))
      ∨ (x = 1 ∧ y + 1 ≤ e)
      ∨ (x = 1 ∧ y = L.length + 1 ∧ e = L.length
          ∧ h = (List.range L.length).map (fun j => (⟨Change.Insert, 0, j⟩ : DiffItem))
              ++ [⟨Change.Equal, 0, L.length⟩]) := by
  induction hp with
  | nil => exact Or.inl ⟨rfl, rfl, rfl⟩
  | @equal h x y e _ hab ih =>
    obtain ⟨a, ha, hb⟩ := hab
    have hx0 : x = 0 := by
      by_contra hne
      rw [List.getElem?_eq_none (by simp; omega)] at ha
      cases ha
    subst hx0
    have ha2 : a = x0 := by
      simp at ha
      exact ha.symm
    subst ha2
    have hy : y = L.length := by
      rcases Nat.lt_trichotomy y L.length with hlt | heq | hgt
      · rw [List.getElem?_append_left hlt] at hb
        exact absurd (List.getElem?_mem hb) hx
      · exact heq
      · rw [List.getElem?_eq_none (by simp; omega)] at hb
        cases hb
    subst hy
    rcases ih with ⟨_, e1, e2⟩ | ⟨e1, _⟩ | ⟨e1, _⟩
    · exact Or.inr (Or.inr ⟨rfl, rfl, e1, by rw [e2]⟩)
    · omega
    · omega
  | @remove h x y e _ hlt ih =>
    have hx0 : x = 0 := by
      simp at hlt
      exact hlt
    subst hx0
    rcases ih with ⟨_, e1, _⟩ | ⟨e1, _⟩ | ⟨e1, _⟩
    · exact Or.inr (Or.inl ⟨rfl, by omega⟩)
    · omega
    · omega
  | @insert h x y e _ hlt ih =>
    rw [List.length_append, List.length_singleton] at hlt
    rcases ih with ⟨e0, e1, e2⟩ | ⟨e1, e2⟩ | ⟨_, e1, _⟩
    · subst e0
      refine Or.inl ⟨rfl, by omega, ?_⟩
      rw [List.range_succ, List.map_append, e2]
      rfl
    · exact Or.inr (Or.inl ⟨e1, by omega⟩)
    · omega

/-- The script of `Diff::calculate` for an original sequence of one line and a
modified sequence that puts lines different from it before that line: the
insertions of these lines, then the unchanged line. -/
theorem calculate_insert_before (x0 : α) (L : List α) (hx : x0 ∉ L) :
    calculate [x0] (L ++ [x0])
      = CalcResult.script
          ((List.range L.length).map (fun j => (⟨Change.Insert, 0, j⟩ : DiffItem))
            ++ [⟨Change.Equal, 0, L.length⟩]) := by
  obtain ⟨s, e, hs, hp, hmin⟩ := calculate_spec [x0] (L ++ [x0]) (by simp)
  have hlenB : (L ++ [x0]).length = L.length + 1 := by simp
  rw [hlenB] at hp hmin
  have hreach : Reach [x0] (L ++ [x0]) 1 (L.length + 1) L.length :=
    Reach.diag (reach_down_only [x0] (L ++ [x0]) L.length (by simp)) ⟨x0, by simp, by simp⟩
  have hle := hmin _ hreach
  rw [hs]
  rcases path_insert_before x0 L hx s _ _ e hp with ⟨e0, _⟩ | ⟨_, e1⟩ | ⟨_, _, _, e2⟩
  · simp at e0
  · omega
  · rw [e2]

end InsertBefore

/-- The long script is the script of `Diff::calculate` for an original file of one
line and a modified file that puts 65537 other lines before that line. -/
theorem calculate_longInsert :
    calculate ["b"] (manyLines 65537 ++ ["b"]) = CalcResult.script longInsertScript := by
  have h := calculate_insert_before "b" (manyLines 65537) (manyLines_not_mem 65537)
  rw [manyLines_length] at h
  exact h

/-! ## The number of context lines, from the texts of `-n` and `--lines` -/

/-- The number of context lines depends on the texts stored for `-n` and `--lines`:
the first one is converted unless it is the text `3`, then the second one unless it
is the text `3`. -/
theorem contextLinesOf_texts (n l : String) :
    contextLinesOf n l 3
      = if n ≠ "3" then str2uint n else if l ≠ "3" then str2uint l else Run.value 3 := by
  unfold contextLinesOf
  by_cases hn : n = "3"
  · by_cases hl : l = "3"
    · simp only [hn, hl, ne_eq, not_true_eq_false, if_false, and_self, if_true]
    · simp only [hn, hl, ne_eq, not_true_eq_false, if_false, not_false_eq_true, if_true]
  · simp only [hn, ne_eq, not_false_eq_true, if_true]

/-- `AppController::parseArguments` when the command line holds, before the two
paths, only values for `-n` and `--lines`: the number of context lines is converted
from the stored texts, then the two paths are checked. -/
theorem parseArguments_values (X : List String) (p1 p2 : String) (parsed : List Argument)
    (n l : String)
    (hparse : parse (X ++ [p1, p2]) registered = Run.value parsed)
    (hvals : parsed = (registered.set 8 ⟨"-n", false, n⟩).set 9 ⟨"--lines", false, l⟩) :
    parseArguments (X ++ [p1, p2]) registered
      = (if n ≠ "3" then str2uint n else if l ≠ "3" then str2uint l
          else Run.value 3).andThen
          (fun c =>
            if isValidFilename p1 = false ∨ isValidFilename p2 = false then
              Run.raise (Failure.invalidArgument "input file name is not valid")
            else Run.value (some ⟨⟨false, false, false, c, ""⟩, p1, p2⟩)) := by
  have e1 : getArgumentValue parsed "-h" = "false" := by rw [hvals]; rfl
  have e2 : getArgumentValue parsed "--help" = "false" := by rw [hvals]; rfl
  have e3 : getArgumentValue parsed "-c" = "false" := by rw [hvals]; rfl
  have e4 : getArgumentValue parsed "--color" = "false" := by rw [hvals]; rfl
  have e5 : getArgumentValue parsed "-a" = "false" := by rw [hvals]; rfl
  have e6 : getArgumentValue parsed "--force-ansi" = "false" := by rw [hvals]; rfl
  have e7 : getArgumentValue parsed "-o" = "" := by rw [hvals]; rfl
  have e8 : getArgumentValue parsed "--out-file" = "" := by rw [hvals]; rfl
  have e9 : getArgumentValue parsed "-n" = n := by rw [hvals]; rfl
  have e10 : getArgumentValue parsed "--lines" = l := by rw [hvals]; rfl
  have hft : ("false" : String) ≠ "true" := by decide
  have l1 : (X ++ [p1, p2])[(X ++ [p1, p2]).length - 2]? = some p1 := by
    have e : (X ++ [p1, p2]).length - 2 = X.length := by simp
    rw [e, List.getElem?_append_right (le_refl _)]
    simp
  have l2 : (X ++ [p1, p2])[(X ++ [p1, p2]).length - 1]? = some p2 := by
    have e : (X ++ [p1, p2]).length - 1 = X.length + 1 := by simp
    rw [e, List.getElem?_append_right (by omega)]
    simp
  unfold parseArguments
  rw [hparse]
  simp only [e1, e2, e3, e4, e5, e6, e7, e8, e9, e10, hft, or_self, if_false, ne_eq,
    not_true_eq_false, false_and, decide_False, Bool.or_self, l1, l2]
  rw [contextLinesOf_texts]
  cases (if n ≠ "3" then str2uint n else if l ≠ "3" then str2uint l else Run.value 3) with
  | value c => rfl
  | raise e => rfl
  | undefined => rfl

/-- The number of context lines of every run of `AppController::parseArguments` that
returns `true`: it is converted from the text that `ArgParser::parse` has stored for
`-n` unless this text is `3`, then from the text stored for `--lines` unless this
text is `3`, and it is `3` otherwise. -/
theorem parseArguments_count (argv : List String) (parsed : List Argument)
    (settings : Settings)
    (hparse : parse argv registered = Run.value parsed)
    (hres : parseArguments argv registered = Run.value (some settings)) :
    (if getArgumentValue parsed "-n" ≠ "3" then str2uint (getArgumentValue parsed "-n")
      else if getArgumentValue parsed "--lines" ≠ "3" then
        str2uint (getArgumentValue parsed "--lines")
      else Run.value 3) = Run.value settings.options.contextLines := by
  unfold parseArguments at hres
  rw [hparse] at hres
  simp only [] at hres
  rw [contextLinesOf_texts] at hres
  by_cases h1 : getArgumentValue parsed "-h" = "true" ∨ getArgumentValue parsed "--help" = "true"
  · rw [if_pos h1] at hres
    cases hres
  · rw [if_neg h1] at hres
    generalize (if getArgumentValue parsed "-o" ≠ "" then getArgumentValue parsed "-o"
      else if getArgumentValue parsed "--out-file" ≠ "" then
        getArgumentValue parsed "--out-file"
      else "") = o at hres
    by_cases h2 : o ≠ "" ∧ isValidFilename o = false
    · rw [if_pos h2] at hres
      cases hres
    · rw [if_neg h2] at hres
      generalize (if getArgumentValue parsed "-n" ≠ "3" then
          str2uint (getArgumentValue parsed "-n")
        else if getArgumentValue parsed "--lines" ≠ "3" then
          str2uint (getArgumentValue parsed "--lines")
        else Run.value 3) = r at hres ⊢
      cases r with
      | raise e => cases hres
      | undefined => cases hres
      | value c =>
        simp only [] at hres
        split at hres
        · rename_i q1 q2 _ _
          by_cases h3 : isValidFilename q1 = false ∨ isValidFilename q2 = false
          · rw [if_pos h3] at hres
            cases hres
          · rw [if_neg h3] at hres
            cases hres
            rfl
        · cases hres

/-- The command lines that give `-n` and `--lines` in either order, one of them, or
none, before the two paths. -/
theorem parseArguments_context_texts (tn tl p1 p2 : String)
    (hn : getArgumentIndex registered tn = none) (hl : getArgumentIndex registered tl = none)
    (hp : p1 ≠ "-h" ∧ p1 ≠ "--help") :
    parseArguments ["-n", tn, "--lines", tl, p1, p2] registered
        = (if tn ≠ "3" then str2uint tn else if tl ≠ "3" then str2uint tl
            else Run.value 3).andThen
            (fun c =>
              if isValidFilename p1 = false ∨ isValidFilename p2 = false then
                Run.raise (Failure.invalidArgument "input file name is not valid")
              else Run.value (some ⟨⟨false, false, false, c, ""⟩, p1, p2⟩))
      ∧ parseArguments ["--lines", tl, "-n", tn, p1, p2] registered
        = parseArguments ["-n", tn, "--lines", tl, p1, p2] registered
      ∧ parseArguments ["-n", tn, p1, p2] registered
        = (str2uint tn).andThen
            (fun c =>
              if isValidFilename p1 = false ∨ isValidFilename p2 = false then
                Run.raise (Failure.invalidArgument "input file name is not valid")
              else Run.value (some ⟨⟨false, false, false, c, ""⟩, p1, p2⟩))
      ∧ parseArguments ["--lines", tl, p1, p2] registered
        = (str2uint tl).andThen
            (fun c =>
              if isValidFilename p1 = false ∨ isValidFilename p2 = false then
                Run.raise (Failure.invalidArgument "input file name is not valid")
              else Run.value (some ⟨⟨false, false, false, c, ""⟩, p1, p2⟩))
      ∧ parseArguments [p1, p2] registered
        = if isValidFilename p1 = false ∨ isValidFilename p2 = false then
            Run.raise (Failure.invalidArgument "input file name is not valid")
          else Run.value (some ⟨⟨false, false, false, 3, ""⟩, p1, p2⟩) := by
  have h3 : str2uint "3" = Run.value 3 := by decide
  have hfirst : parseArguments ["-n", tn, "--lines", tl, p1, p2] registered
      = (if tn ≠ "3" then str2uint tn else if tl ≠ "3" then str2uint tl
          else Run.value 3).andThen
          (fun c =>
            if isValidFilename p1 = false ∨ isValidFilename p2 = false then
              Run.raise (Failure.invalidArgument "input file name is not valid")
            else Run.value (some ⟨⟨false, false, false, c, ""⟩, p1, p2⟩)) := by
    have hparse : parse (["-n", tn, "--lines", tl] ++ [p1, p2]) registered
        = Run.value ((registered.set 8 ⟨"-n", false, tn⟩).set 9 ⟨"--lines", false, tl⟩) := by
      rw [parse_eq_tokens _ _ _ _ (by simp)]
      exact (parseTokens_value "-n" tn _ registered 8 ⟨"-n", false, "3"⟩
          rfl rfl rfl hn).trans
        ((parseTokens_value "--lines" tl []
          (registered.set 8 ⟨"-n", false, tn⟩) 9 ⟨"--lines", false, "3"⟩ rfl rfl rfl
          ((getArgumentIndex_shape tl (registered.set 8 ⟨"-n", false, tn⟩)
            registered rfl).trans hl)).trans rfl)
    exact parseArguments_values _ p1 p2 _ tn tl hparse rfl
  refine ⟨hfirst, ?_, ?_, ?_, ?_⟩
  · rw [hfirst]
    have hparse : parse (["--lines", tl, "-n", tn] ++ [p1, p2]) registered
        = Run.value ((registered.set 8 ⟨"-n", false, tn⟩).set 9 ⟨"--lines", false, tl⟩) := by
      rw [parse_eq_tokens _ _ _ _ (by simp)]
      exact (parseTokens_value "--lines" tl _ registered 9 ⟨"--lines", false, "3"⟩
          rfl rfl rfl hl).trans
        ((parseTokens_value "-n" tn []
          (registered.set 9 ⟨"--lines", false, tl⟩) 8 ⟨"-n", false, "3"⟩ rfl rfl rfl
          ((getArgumentIndex_shape tn (registered.set 9 ⟨"--lines", false, tl⟩)
            registered rfl).trans hn)).trans rfl)
    exact parseArguments_values _ p1 p2 _ tn tl hparse rfl
  · have hparse : parse (["-n", tn] ++ [p1, p2]) registered
        = Run.value ((registered.set 8 ⟨"-n", false, tn⟩).set 9
            ⟨"--lines", false, "3"⟩) := by
      rw [parse_eq_tokens _ _ _ _ (by simp),
        parseTokens_value "-n" tn _ registered 8 ⟨"-n", false, "3"⟩ rfl rfl rfl hn]
      rfl
    have h := parseArguments_values _ p1 p2 _ tn "3" hparse rfl
    have e : (if tn ≠ "3" then str2uint tn
        else if ("3" : String) ≠ "3" then str2uint "3" else Run.value 3) = str2uint tn := by
      by_cases h0 : tn = "3"
      · rw [if_neg (by simpa using h0), if_neg (by simp), h0, h3]
      · rw [if_pos h0]
    rw [e] at h
    exact h
  · have hparse : parse (["--lines", tl] ++ [p1, p2]) registered
        = Run.value ((registered.set 8 ⟨"-n", false, "3"⟩).set 9
            ⟨"--lines", false, tl⟩) := by
      rw [parse_eq_tokens _ _ _ _ (by simp),
        parseTokens_value "--lines" tl _ registered 9 ⟨"--lines", false, "3"⟩
          rfl rfl rfl hl]
      rfl
    have h := parseArguments_values _ p1 p2 _ "3" tl hparse rfl
    have e : (if ("3" : String) ≠ "3" then str2uint "3"
        else if tl ≠ "3" then str2uint tl else Run.value 3) = str2uint tl := by
      rw [if_neg (by simp)]
      by_cases h0 : tl = "3"
      · rw [if_neg (by simpa using h0), h0, h3]
      · rw [if_pos h0]
    rw [e] at h
    exact h
  · have hparse : parse ([] ++ [p1, p2]) registered
        = Run.value ((registered.set 8 ⟨"-n", false, "3"⟩).set 9 ⟨"--lines", false, "3"⟩) := by
      rw [parse_eq_tokens _ _ _ _ (by
        simp only [List.nil_append, List.getElem?_cons_zero, ne_eq, Option.some.injEq]
        exact hp)]
      rfl
    have h := parseArguments_values _ p1 p2 _ "3" "3" hparse rfl
    rw [if_neg (by simp), if_neg (by simp)] at h
    exact h

/-! ## Body lines of insertions and unchanged lines -/

/-- The body line of an insertion of an existing line of the modified file. -/
theorem bodyLine_insert_defined (A B : List String) (i j : Nat) (hj : j < B.length) :
    (bodyLine A B ⟨Change.Insert, i, j⟩).isSome = true := by
  show ((B[j]?).map (fun l => "+" ++ l ++ "\n")).isSome = true
  rw [List.getElem?_eq_getElem hj]
  rfl

/-- The body line of an unchanged line of the original file. -/
theorem bodyLine_equal_defined (A B : List String) (i j : Nat) (hi : i < A.length) :
    (bodyLine A B ⟨Change.Equal, i, j⟩).isSome = true := by
  show ((A[i]?).map (fun l => " " ++ l ++ "\n")).isSome = true
  rw [List.getElem?_eq_getElem hi]
  rfl

/-- `Diff::generateUnidiff` has no result when its scan loop has none. -/
theorem generateUnidiff_no_hunks (A B : List String) (items : List DiffItem)
    (originalFilename originalStamp modifiedFilename modifiedStamp : String)
    (C : Nat) (endingNewLine : Bool) (h : unidiffHunks items C = none) :
    generateUnidiff A B items originalFilename originalStamp modifiedFilename
      modifiedStamp C endingNewLine = none := by
  unfold generateUnidiff
  rw [h]

/-! ## Claims -/

section Claims

variable {α : Type} [DecidableEq α]

/-- C1. For every original sequence `A` and every non-empty modified sequence `B`,
`Diff::calculate` leaves a script in `items`; its `Equal` and `Remove` operations
carry the original indices `0, ..., N - 1` in order, once each; its `Equal` and
`Insert` operations carry the modified indices `0, ..., M - 1` in order, once each;
and replaying it yields exactly `B`. -/
theorem C1_calculate_transforms (A B : List α) (hB : B ≠ []) :
    ∃ s, calculate A B = CalcResult.script s
      ∧ originalIndices s = List.range A.length
      ∧ modifiedIndices s = List.range B.length
      ∧ replay A B s = B := by
  have hlen : 1 ≤ B.length := by
    cases B with
    | nil => exact absurd rfl hB
    | cons b t => simp
  obtain ⟨s, e, hs, hp, _⟩ := calculate_spec A B hlen
  have hv := valid_of_path A B s A.length B.length e hp
  exact ⟨s, hs, hv.olds, hv.news, replay_of_valid A B s A.length e hv⟩

/-- Instance of C1 for `A = ["a", "b"]` and `B = ["b", "c"]`. -/
theorem C1_calculate_transforms_witness :
    (["b", "c"] : List String) ≠ []
      ∧ ∃ s, calculate ["a", "b"] ["b", "c"] = CalcResult.script s
        ∧ originalIndices s = List.range 2
        ∧ modifiedIndices s = List.range 2
        ∧ replay ["a", "b"] ["b", "c"] s = ["b", "c"] :=
  ⟨by decide, C1_calculate_transforms ["a", "b"] ["b", "c"] (by decide)⟩

/-- C2. For every original sequence `A` and every non-empty modified sequence `B`,
the number of operations other than `Equal` in the script of `Diff::calculate` is
`N + M - 2 * LCS(A, B)`, and no script that transforms `A` into `B` has fewer
operations other than `Equal`. Here `LCS(A, B)` is the value of the recurrence
`lcsLength`, which is attained by a common subsequence of `A` and `B` and bounds the
length of every common subsequence. -/
theorem C2_calculate_minimal (A B : List α) (hB : B ≠ []) :
    ∃ s, calculate A B = CalcResult.script s
      ∧ 2 * lcsLength A B A.length B.length ≤ A.length + B.length
      ∧ editCount s = A.length + B.length - 2 * lcsLength A B A.length B.length
      ∧ (∀ s2, Transforms A B s2 → editCount s ≤ editCount s2)
      ∧ (∃ l : List α, l.Sublist A ∧ l.Sublist B
          ∧ l.length = lcsLength A B A.length B.length)
      ∧ ∀ l : List α, l.Sublist A → l.Sublist B →
          l.length ≤ lcsLength A B A.length B.length := by
  have hlcs := lcsLength_isLongest A B (A.length + B.length) A.length B.length rfl
    (le_refl _) (le_refl _)
  rw [List.take_length, List.take_length] at hlcs
  have hlen : 1 ≤ B.length := by
    cases B with
    | nil => exact absurd rfl hB
    | cons b t => simp
  obtain ⟨s, e, hs, hp, hmin⟩ := calculate_spec A B hlen
  have hv := valid_of_path A B s A.length B.length e hp
  have hr := reach_of_path A B s A.length B.length e hp
  have hlow := reach_lower A B A.length B.length e hr
  obtain ⟨e0, hr0, he0⟩ := reach_exists A B (A.length + B.length) A.length B.length rfl
    (le_refl _) (le_refl _)
  have hle := hmin e0 hr0
  have hcost := hv.cost
  refine ⟨s, hs, by omega, by omega, ?_, hlcs.1, hlcs.2⟩
  intro s2 ht
  have hv2 := valid_of_transforms A B s2 ht
  have hr2 := reach_of_valid A B s2 A.length B.length (editCount s2) hv2 (le_refl _)
    (le_refl _)
  have := hmin (editCount s2) hr2
  omega

/-- Instance of C2 for `A = ["a", "b"]` and `B = ["b", "c"]`. -/
theorem C2_calculate_minimal_witness :
    (["b", "c"] : List String) ≠ []
      ∧ ∃ s, calculate ["a", "b"] ["b", "c"] = CalcResult.script s
        ∧ 2 * lcsLength ["a", "b"] ["b", "c"] 2 2 ≤ 2 + 2
        ∧ editCount s = 2 + 2 - 2 * lcsLength ["a", "b"] ["b", "c"] 2 2
        ∧ (∀ s2, Transforms ["a", "b"] ["b", "c"] s2 → editCount s ≤ editCount s2)
        ∧ (∃ l : List String, l.Sublist ["a", "b"] ∧ l.Sublist ["b", "c"]
            ∧ l.length = lcsLength ["a", "b"] ["b", "c"] 2 2)
        ∧ ∀ l : List String, l.Sublist ["a", "b"] → l.Sublist ["b", "c"] →
            l.length ≤ lcsLength ["a", "b"] ["b", "c"] 2 2 :=
  ⟨by decide, C2_calculate_minimal ["a", "b"] ["b", "c"] (by decide)⟩

/-- C3. On `A = ["a", "b"]`, `B = ["b", "c"]` with three context lines the script is
`Remove`, `Equal`, `Insert`, and `Diff::generateUnidiff` prints the single hunk of
the script range `[0, 1]`: the `Insert` at index `2` is in no hunk and the line
`+c` is missing from the output. -/
theorem C3_last_change_not_printed :
    calculate ["a", "b"] ["b", "c"]
        = CalcResult.script
            [⟨Change.Remove, 0, 0⟩, ⟨Change.Equal, 1, 0⟩, ⟨Change.Insert, 1, 1⟩]
      ∧ unidiffHunks [⟨Change.Remove, 0, 0⟩, ⟨Change.Equal, 1, 0⟩, ⟨Change.Insert, 1, 1⟩] 3
        = some [⟨0, 1, 2, 1⟩]
      ∧ generateUnidiff ["a", "b"] ["b", "c"]
          [⟨Change.Remove, 0, 0⟩, ⟨Change.Equal, 1, 0⟩, ⟨Change.Insert, 1, 1⟩]
          "a.txt" "T1" "b.txt" "T2" 3 true
        = some "--- a.txt\tT1\n+++ b.txt\tT2\n@@ -1,2 +1,1 @@\n-a\n b\n" := by
  refine ⟨by decide, by decide, by decide⟩

/-- C4. For every script of fewer than 65536 operations and every context count `C`
(an `unsigned int`), `Diff::generateUnidiff` assembles its hunks, and each hunk
printed for the script range `[start, stop]` lies inside the script and has a
header whose first count is the number of `Equal` and `Remove` operations of that
range and whose second count is the number of its `Equal` and `Insert`
operations. -/
theorem C4_header_counts (items : List DiffItem) (C : Nat) (hn : items.length < 65536)
    (hC : C < 4294967296) :
    ∃ hs, unidiffHunks items C = some hs
      ∧ ∀ h ∈ hs, h.start ≤ h.stop ∧ h.stop < items.length
        ∧ h.linesChangedOld
          = (hunkItems items h).countP
              (fun it => decide (it.change = Change.Equal ∨ it.change = Change.Remove))
        ∧ h.linesChangedNew
          = (hunkItems items h).countP
              (fun it => decide (it.change = Change.Equal ∨ it.change = Change.Insert)) := by
  obtain ⟨hs, hu, hok⟩ := unidiffHunks_spec items C hn hC
  refine ⟨hs, hu, ?_⟩
  intro h hmem
  have hk := hok h hmem
  refine ⟨hk.ordered, hk.inside, ?_, ?_⟩
  · rw [countP_or_eq _ _ _ (by decide), hk.old]
    rfl
  · rw [countP_or_eq _ _ _ (by decide), hk.new]
    rfl

/-- Instance of C4 for the script `Remove`, `Equal`, `Insert` and `C = 3`. -/
theorem C4_header_counts_witness :
    ([⟨Change.Remove, 0, 0⟩, ⟨Change.Equal, 1, 0⟩, ⟨Change.Insert, 1, 1⟩]
        : List DiffItem).length < 65536
      ∧ 3 < 4294967296
      ∧ ∃ hs, unidiffHunks
            [⟨Change.Remove, 0, 0⟩, ⟨Change.Equal, 1, 0⟩, ⟨Change.Insert, 1, 1⟩] 3 = some hs
        ∧ ∀ h ∈ hs, h.start ≤ h.stop
          ∧ h.stop < ([⟨Change.Remove, 0, 0⟩, ⟨Change.Equal, 1, 0⟩, ⟨Change.Insert, 1, 1⟩]
              : List DiffItem).length
          ∧ h.linesChangedOld
            = (hunkItems
                [⟨Change.Remove, 0, 0⟩, ⟨Change.Equal, 1, 0⟩, ⟨Change.Insert, 1, 1⟩]
                h).countP
                (fun it => decide (it.change = Change.Equal ∨ it.change = Change.Remove))
          ∧ h.linesChangedNew
            = (hunkItems
                [⟨Change.Remove, 0, 0⟩, ⟨Change.Equal, 1, 0⟩, ⟨Change.Insert, 1, 1⟩]
                h).countP
                (fun it => decide (it.change = Change.Equal ∨ it.change = Change.Insert)) :=
  ⟨by decide, by decide,
    C4_header_counts [⟨Change.Remove, 0, 0⟩, ⟨Change.Equal, 1, 0⟩, ⟨Change.Insert, 1, 1⟩] 3
      (by decide) (by decide)⟩

/-- C5. On `A = [a, b, c, d, e, f, g]`, `B = [A, b, c, d, e, f, G]` with three
context lines the two changes, separated by five unchanged lines, are printed in
two hunks, `@@ -1,4 +1,4 @@` and `@@ -5,3 +5,3 @@`, not in one hunk
`@@ -1,7 +1,7 @@`. -/
theorem C5_changes_not_coalesced :
    calculate ["a", "b", "c", "d", "e", "f", "g"] ["A", "b", "c", "d", "e", "f", "G"]
        = CalcResult.script
            [⟨Change.Remove, 0, 0⟩, ⟨Change.Insert, 0, 0⟩, ⟨Change.Equal, 1, 1⟩,
             ⟨Change.Equal, 2, 2⟩, ⟨Change.Equal, 3, 3⟩, ⟨Change.Equal, 4, 4⟩,
             ⟨Change.Equal, 5, 5⟩, ⟨Change.Remove, 6, 5⟩, ⟨Change.Insert, 6, 6⟩]
      ∧ unidiffHunks
          [⟨Change.Remove, 0, 0⟩, ⟨Change.Insert, 0, 0⟩, ⟨Change.Equal, 1, 1⟩,
           ⟨Change.Equal, 2, 2⟩, ⟨Change.Equal, 3, 3⟩, ⟨Change.Equal, 4, 4⟩,
           ⟨Change.Equal, 5, 5⟩, ⟨Change.Remove, 6, 5⟩, ⟨Change.Insert, 6, 6⟩] 3
        = some [⟨0, 4, 4, 4⟩, ⟨5, 8, 3, 3⟩]
      ∧ generateUnidiff ["a", "b", "c", "d", "e", "f", "g"]
          ["A", "b", "c", "d", "e", "f", "G"]
          [⟨Change.Remove, 0, 0⟩, ⟨Change.Insert, 0, 0⟩, ⟨Change.Equal, 1, 1⟩,
           ⟨Change.Equal, 2, 2⟩, ⟨Change.Equal, 3, 3⟩, ⟨Change.Equal, 4, 4⟩,
           ⟨Change.Equal, 5, 5⟩, ⟨Change.Remove, 6, 5⟩, ⟨Change.Insert, 6, 6⟩]
          "a.txt" "T1" "b.txt" "T2" 3 true
        = some ("--- a.txt\tT1\n+++ b.txt\tT2\n"
            ++ "@@ -1,4 +1,4 @@\n-a\n+A\n b\n c\n d\n"
            ++ "@@ -5,3 +5,3 @@\n e\n f\n-g\n+G\n") := by
  refine ⟨by decide, by decide, by decide⟩

/-- C8. On `A = [a, b, c]`, `B = [a, X, c]` without context lines the only hunk is
printed with the range line `@@ -2,1 +1,1 @@`, although its `Insert` line `X` is
line `2` of the modified sequence and line `1` of that sequence is `a`. -/
theorem C8_modified_start_off_by_one :
    calculate ["a", "b", "c"] ["a", "X", "c"]
        = CalcResult.script
            [⟨Change.Equal, 0, 0⟩, ⟨Change.Remove, 1, 0⟩, ⟨Change.Insert, 1, 1⟩,
             ⟨Change.Equal, 2, 2⟩]
      ∧ generateUnidiff ["a", "b", "c"] ["a", "X", "c"]
          [⟨Change.Equal, 0, 0⟩, ⟨Change.Remove, 1, 0⟩, ⟨Change.Insert, 1, 1⟩,
           ⟨Change.Equal, 2, 2⟩]
          "a.txt" "T1" "b.txt" "T2" 0 true
        = some "--- a.txt\tT1\n+++ b.txt\tT2\n@@ -2,1 +1,1 @@\n-b\n+X\n"
      ∧ (["a", "X", "c"] : List String)[1]? = some "X"
      ∧ (["a", "X", "c"] : List String)[0]? = some "a" := by
  refine ⟨by decide, by decide, by decide, by decide⟩

/-- C9. With an empty modified sequence `Diff::calculate` reads `v_x` outside its
allocated range: for one original line, for two original lines, and for two empty
sequences. -/
theorem C9_empty_modified_out_of_range :
    calculate ["a"] ([] : List String) = CalcResult.outOfRange
      ∧ calculate ["a", "b"] ([] : List String) = CalcResult.outOfRange
      ∧ calculate ([] : List String) ([] : List String) = CalcResult.outOfRange := by
  refine ⟨by decide, by decide, by decide⟩

/-- The histories of paths of the edit graph of an empty original sequence consist
of insertions recorded at original line `0`. -/
theorem path_nil_left (B : List α) (h : List DiffItem) (x y e : Nat)
    (hp : Path ([] : List α) B h x y e) :
    x = 0 ∧ h = (List.range y).map (fun j => (⟨Change.Insert, 0, j⟩ : DiffItem)) := by
  induction hp with
  | nil => exact ⟨rfl, rfl⟩
  | equal _ hab _ =>
    obtain ⟨a, ha, _⟩ := hab
    simp at ha
  | remove _ hx _ => simp at hx
  | @insert h x y e _ _ ih =>
    obtain ⟨hx, hh⟩ := ih
    subst hx
    refine ⟨rfl, ?_⟩
    rw [List.range_succ, List.map_append, hh]
    rfl

/-- The script of `Diff::calculate` for an empty original sequence and a non-empty
modified sequence. -/
theorem calculate_nil_left (B : List α) (hB : B ≠ []) :
    calculate ([] : List α) B
      = CalcResult.script
          ((List.range B.length).map (fun j => (⟨Change.Insert, 0, j⟩ : DiffItem))) := by
  have hlen : 1 ≤ B.length := by
    cases B with
    | nil => exact absurd rfl hB
    | cons b t => simp
  obtain ⟨s, e, hs, hp, _⟩ := calculate_spec ([] : List α) B hlen
  rw [hs, (path_nil_left B s _ _ e hp).2]

/-- C6. For every context count `C` and every script of fewer than 65536 operations
that consists of unchanged items, a non-empty run of changes, exactly `2 * C + 1`
unchanged items, a second non-empty run of changes, and unchanged items,
`Diff::generateUnidiff` prints exactly two hunks: the first one contains the first
run (with at most `C` items of context on each side) and ends before the second
run, the second one contains the second run. -/
theorem C6_two_separate_hunks (C : Nat) (E0 R1 E1 R2 E2 : List DiffItem)
    (hE0 : ∀ it ∈ E0, it.change = Change.Equal)
    (hR1 : ∀ it ∈ R1, it.change ≠ Change.Equal) (hR1ne : R1 ≠ [])
    (hE1 : ∀ it ∈ E1, it.change = Change.Equal) (hgap : E1.length = 2 * C + 1)
    (hR2 : ∀ it ∈ R2, it.change ≠ Change.Equal) (hR2ne : R2 ≠ [])
    (hE2 : ∀ it ∈ E2, it.change = Change.Equal)
    (hn : (E0 ++ R1 ++ E1 ++ R2 ++ E2).length < 65536) :
    ∃ h1 h2, unidiffHunks (E0 ++ R1 ++ E1 ++ R2 ++ E2) C = some [h1, h2]
      ∧ h1.start = E0.length - min E0.length C
      ∧ h1.stop = E0.length + R1.length - 1 + C
      ∧ h2.start = E0.length + R1.length + C + 1
      ∧ h2.stop = E0.length + R1.length + E1.length + R2.length - 1 + min C E2.length
      ∧ (h1.start ≤ E0.length ∧ E0.length + R1.length - 1 ≤ h1.stop
          ∧ h1.stop < E0.length + R1.length + E1.length)
      ∧ (h1.stop < h2.start ∧ h2.start ≤ E0.length + R1.length + E1.length
          ∧ E0.length + R1.length + E1.length + R2.length - 1 ≤ h2.stop) := by
  obtain ⟨h1, h2, hu, a1, a2, a3, a4⟩ :=
    unidiffHunks_two_runs C E0 R1 E1 R2 E2 hE0 hR1 hR1ne hE1 hgap hR2 hR2ne hE2 hn
  have hr1 : 1 ≤ R1.length := by
    cases R1 with
    | nil => exact absurd rfl hR1ne
    | cons a t => simp
  exact ⟨h1, h2, hu, a1, a2, a3, a4, ⟨by omega, by omega, by omega⟩,
    ⟨by omega, by omega, by omega⟩⟩

/-- Instance of C6 for `C = 1` and the script `Equal`, `Remove`, three `Equal`,
`Insert`. -/
theorem C6_two_separate_hunks_witness :
    (∀ it ∈ ([⟨Change.Equal, 0, 0⟩] : List DiffItem), it.change = Change.Equal)
      ∧ (∀ it ∈ ([⟨Change.Remove, 1, 0⟩] : List DiffItem), it.change ≠ Change.Equal)
      ∧ ([⟨Change.Remove, 1, 0⟩] : List DiffItem) ≠ []
      ∧ (∀ it ∈ ([⟨Change.Equal, 2, 1⟩, ⟨Change.Equal, 3, 2⟩, ⟨Change.Equal, 4, 3⟩]
            : List DiffItem), it.change = Change.Equal)
      ∧ ([⟨Change.Equal, 2, 1⟩, ⟨Change.Equal, 3, 2⟩, ⟨Change.Equal, 4, 3⟩]
            : List DiffItem).length = 2 * 1 + 1
      ∧ (∀ it ∈ ([⟨Change.Insert, 4, 4⟩] : List DiffItem), it.change ≠ Change.Equal)
      ∧ ([⟨Change.Insert, 4, 4⟩] : List DiffItem) ≠ []
      ∧ (∀ it ∈ ([] : List DiffItem), it.change = Change.Equal)
      ∧ (([⟨Change.Equal, 0, 0⟩] : List DiffItem) ++ ([⟨Change.Remove, 1, 0⟩] : List DiffItem)
            ++ ([⟨Change.Equal, 2, 1⟩, ⟨Change.Equal, 3, 2⟩, ⟨Change.Equal, 4, 3⟩]
                : List DiffItem)
            ++ ([⟨Change.Insert, 4, 4⟩] : List DiffItem) ++ ([] : List DiffItem)).length < 65536
      ∧ ∃ h1 h2,
          unidiffHunks (([⟨Change.Equal, 0, 0⟩] : List DiffItem) ++ ([⟨Change.Remove, 1, 0⟩] : List DiffItem)
            ++ ([⟨Change.Equal, 2, 1⟩, ⟨Change.Equal, 3, 2⟩, ⟨Change.Equal, 4, 3⟩]
                : List DiffItem)
            ++ ([⟨Change.Insert, 4, 4⟩] : List DiffItem) ++ ([] : List DiffItem)) 1 = some [h1, h2]
          ∧ h1.start = 1 - min 1 1 ∧ h1.stop = 1 + 1 - 1 + 1
          ∧ h2.start = 1 + 1 + 1 + 1 ∧ h2.stop = 1 + 1 + 3 + 1 - 1 + min 1 0
          ∧ (h1.start ≤ 1 ∧ 1 + 1 - 1 ≤ h1.stop ∧ h1.stop < 1 + 1 + 3)
          ∧ (h1.stop < h2.start ∧ h2.start ≤ 1 + 1 + 3 ∧ 1 + 1 + 3 + 1 - 1 ≤ h2.stop) :=
  ⟨by decide, by decide, by decide, by decide, by decide, by decide, by decide, by decide,
    by decide,
    C6_two_separate_hunks 1 [⟨Change.Equal, 0, 0⟩] [⟨Change.Remove, 1, 0⟩]
      [⟨Change.Equal, 2, 1⟩, ⟨Change.Equal, 3, 2⟩, ⟨Change.Equal, 4, 3⟩]
      [⟨Change.Insert, 4, 4⟩] [] (by decide) (by decide) (by decide) (by decide) (by decide)
      (by decide) (by decide) (by decide) (by decide)⟩

/-- C7, as stated, fails: for `A = []` and `B = ["hello"]` the hunk is printed with
the range line `@@ -1,0 +1,1 @@`, not `@@ -0,0 +1,1 @@`. -/
theorem C7_header_not_zero :
    calculate ([] : List String) ["hello"] = CalcResult.script [⟨Change.Insert, 0, 0⟩]
      ∧ generateUnidiff [] ["hello"] [⟨Change.Insert, 0, 0⟩] "a.txt" "T1" "b.txt" "T2" 3 true
        = some "--- a.txt\tT1\n+++ b.txt\tT2\n@@ -1,0 +1,1 @@\n+hello\n"
      ∧ generateUnidiff [] ["hello"] [⟨Change.Insert, 0, 0⟩] "a.txt" "T1" "b.txt" "T2" 3 true
        ≠ some "--- a.txt\tT1\n+++ b.txt\tT2\n@@ -0,0 +1,1 @@\n+hello\n" := by
  refine ⟨by decide, by decide, by decide⟩

/-- C7, amended. For the empty original sequence, every non-empty modified sequence
`B` of `M < 65536` lines and every context count, the output consists of the two
file lines, exactly one hunk whose range line is `@@ -1,0 +1,M @@`, followed by the
`M` body lines `'+' B[j]` in order, and the note on the missing final newline when
it applies. -/
theorem C7_empty_original_hunk (B : List String) (hB : B ≠ []) (hM : B.length < 65536)
    (C : Nat) (hC : C < 4294967296)
    (originalFilename originalStamp modifiedFilename modifiedStamp : String)
    (endingNewLine : Bool) :
    ∃ items, calculate ([] : List String) B = CalcResult.script items
      ∧ unidiffHunks items C = some [⟨0, B.length - 1, 0, B.length⟩]
      ∧ generateUnidiff [] B items originalFilename originalStamp modifiedFilename
          modifiedStamp C endingNewLine
        = some ("--- " ++ originalFilename ++ "\t" ++ originalStamp ++ "\n"
            ++ "+++ " ++ modifiedFilename ++ "\t" ++ modifiedStamp ++ "\n"
            ++ ("@@ -1,0 +1," ++ toString B.length ++ " @@\n"
              ++ (B.map (fun l => "+" ++ l ++ "\n")).foldr (fun a b => a ++ b) "")
            ++ (if endingNewLine then "" else "\\ No newline at end of file\n")) := by
  have hlen : 1 ≤ B.length := by
    cases B with
    | nil => exact absurd rfl hB
    | cons b t => simp
  have hu := unidiffHunks_inserts B.length C hlen hM hC
  refine ⟨_, calculate_nil_left B hB, hu, ?_⟩
  unfold generateUnidiff
  simp only [hu, hunksText, generateHunk_inserts B hlen, String.append_empty]

/-- Instance of C7, amended, for `B = ["hello"]` and three context lines. -/
theorem C7_empty_original_hunk_witness :
    (["hello"] : List String) ≠ [] ∧ (["hello"] : List String).length < 65536
      ∧ 3 < 4294967296
      ∧ ∃ items, calculate ([] : List String) ["hello"] = CalcResult.script items
        ∧ unidiffHunks items 3 = some [⟨0, 1 - 1, 0, 1⟩]
        ∧ generateUnidiff [] ["hello"] items "a.txt" "T1" "b.txt" "T2" 3 true
          = some ("--- " ++ "a.txt" ++ "\t" ++ "T1" ++ "\n"
              ++ "+++ " ++ "b.txt" ++ "\t" ++ "T2" ++ "\n"
              ++ ("@@ -1,0 +1," ++ toString 1 ++ " @@\n"
                ++ (["hello"].map (fun l => "+" ++ l ++ "\n")).foldr (fun a b => a ++ b) "")
              ++ (if true then "" else "\\ No newline at end of file\n")) :=
  ⟨by decide, by decide, by decide,
    C7_empty_original_hunk ["hello"] (by decide) (by decide) 3 (by decide)
      "a.txt" "T1" "b.txt" "T2" true⟩

/-- C10. For the empty original sequence and every modified sequence `B` of
`M ≥ 1` lines, `Diff::calculate` yields exactly the `M` operations
`Insert (0, 0), Insert (0, 1), ..., Insert (0, M - 1)`, in that order. -/
theorem C10_empty_original_inserts (B : List α) (hB : B ≠ []) :
    calculate ([] : List α) B
      = CalcResult.script
          ((List.range B.length).map (fun j => (⟨Change.Insert, 0, j⟩ : DiffItem))) :=
  calculate_nil_left B hB

/-- Instance of C10 for `B = ["x", "y"]`. -/
theorem C10_empty_original_inserts_witness :
    (["x", "y"] : List String) ≠ []
      ∧ calculate ([] : List String) ["x", "y"]
        = CalcResult.script
            ((List.range 2).map (fun j => (⟨Change.Insert, 0, j⟩ : DiffItem))) :=
  ⟨by decide, C10_empty_original_inserts ["x", "y"] (by decide)⟩

end Claims

/-! ## Claims, continued -/

section Claims2

variable {α : Type} [DecidableEq α]

/-- C11. For every non-empty sequence `A` of `N` lines the script of
`Diff::calculate` for the pair `(A, A)` consists solely of the `N` operations
`Equal (0, 0), Equal (1, 1), ..., Equal (N - 1, N - 1)`. -/
theorem C11_identical_inputs (A : List α) (hA : A ≠ []) :
    calculate A A
      = CalcResult.script
          ((List.range A.length).map (fun i => (⟨Change.Equal, i, i⟩ : DiffItem))) :=
  calculate_same A hA

/-- Instance of C11 for `A = ["a", "b"]`. -/
theorem C11_identical_inputs_witness :
    (["a", "b"] : List String) ≠ []
      ∧ calculate ["a", "b"] ["a", "b"]
        = CalcResult.script
            ((List.range 2).map (fun i => (⟨Change.Equal, i, i⟩ : DiffItem))) :=
  ⟨by decide, C11_identical_inputs ["a", "b"] (by decide)⟩

/-- C12. For every original sequence `A` and every non-empty modified sequence `B`,
`Diff::calculate` returns a script from inside its loops: the loop over `d` is not
left with `d > MAX`, so that the `throw` after it is not reached, and no vector is
accessed outside its allocated range. -/
theorem C12_throw_unreachable (A B : List α) (hB : B ≠ []) :
    (∃ s, calculate A B = CalcResult.script s)
      ∧ calculate A B ≠ CalcResult.exhausted
      ∧ calculate A B ≠ CalcResult.outOfRange := by
  have hlen : 1 ≤ B.length := by
    cases B with
    | nil => exact absurd rfl hB
    | cons b t => simp
  obtain ⟨s, e, hs, _, _⟩ := calculate_spec A B hlen
  rw [hs]
  exact ⟨⟨s, rfl⟩, by simp, by simp⟩

/-- Instance of C12 for `A = ["a", "b"]` and `B = ["b", "c"]`. -/
theorem C12_throw_unreachable_witness :
    (["b", "c"] : List String) ≠ []
      ∧ (∃ s, calculate ["a", "b"] ["b", "c"] = CalcResult.script s)
      ∧ calculate ["a", "b"] ["b", "c"] ≠ CalcResult.exhausted
      ∧ calculate ["a", "b"] ["b", "c"] ≠ CalcResult.outOfRange :=
  ⟨by decide, C12_throw_unreachable ["a", "b"] ["b", "c"] (by decide)⟩

/-- C13. Swap symmetry: for all non-empty sequences `A` and `B` the script for
`(B, A)` has as many operations other than `Equal` as the script for `(A, B)`; its
number of `Insert` operations is the number of `Remove` operations of the script
for `(A, B)`, and its number of `Remove` operations is the number of `Insert`
operations of the script for `(A, B)`. -/
theorem C13_swap_symmetry (A B : List α) (hA : A ≠ []) (hB : B ≠ []) :
    ∃ s1 s2, calculate A B = CalcResult.script s1 ∧ calculate B A = CalcResult.script s2
      ∧ editCount s2 = editCount s1
      ∧ changeCount Change.Insert s2 = changeCount Change.Remove s1
      ∧ changeCount Change.Remove s2 = changeCount Change.Insert s1 := by
  have hlenA : 1 ≤ A.length := by
    cases A with
    | nil => exact absurd rfl hA
    | cons a t => simp
  have hlenB : 1 ≤ B.length := by
    cases B with
    | nil => exact absurd rfl hB
    | cons b t => simp
  obtain ⟨s1, e1, hs1, hp1, hmin1⟩ := calculate_spec A B hlenB
  obtain ⟨s2, e2, hs2, hp2, hmin2⟩ := calculate_spec B A hlenA
  have hv1 := valid_of_path A B s1 _ _ e1 hp1
  have hv2 := valid_of_path B A s2 _ _ e2 hp2
  have hr1 := reach_of_path A B s1 _ _ e1 hp1
  have hr2 := reach_of_path B A s2 _ _ e2 hp2
  have h12 := hmin1 e2 (reach_swap B A _ _ e2 hr2)
  have h21 := hmin2 e1 (reach_swap A B _ _ e1 hr1)
  obtain ⟨a1, a2, a3⟩ := valid_counts A B s1 _ _ e1 hv1
  obtain ⟨b1, b2, b3⟩ := valid_counts B A s2 _ _ e2 hv2
  have c1 := hv1.cost
  have c2 := hv2.cost
  exact ⟨s1, s2, hs1, hs2, by omega, by omega, by omega⟩

/-- Instance of C13 for `A = ["a", "b"]` and `B = ["b", "c"]`. -/
theorem C13_swap_symmetry_witness :
    (["a", "b"] : List String) ≠ [] ∧ (["b", "c"] : List String) ≠ []
      ∧ ∃ s1 s2, calculate ["a", "b"] ["b", "c"] = CalcResult.script s1
        ∧ calculate ["b", "c"] ["a", "b"] = CalcResult.script s2
        ∧ editCount s2 = editCount s1
        ∧ changeCount Change.Insert s2 = changeCount Change.Remove s1
        ∧ changeCount Change.Remove s2 = changeCount Change.Insert s1 :=
  ⟨by decide, by decide, C13_swap_symmetry ["a", "b"] ["b", "c"] (by decide) (by decide)⟩

/-- C14. For every original sequence `A` and every non-empty modified sequence `B`,
along the script of `Diff::calculate` the recorded original line numbers never
decrease and the recorded modified line numbers never decrease (each entry is at
most every later entry). -/
theorem C14_indices_monotone (A B : List α) (hB : B ≠ []) :
    ∃ s, calculate A B = CalcResult.script s
      ∧ (s.map DiffItem.lineOld).Pairwise (fun a b => a ≤ b)
      ∧ (s.map DiffItem.lineNew).Pairwise (fun a b => a ≤ b) := by
  have hlen : 1 ≤ B.length := by
    cases B with
    | nil => exact absurd rfl hB
    | cons b t => simp
  obtain ⟨s, e, hs, hp, _⟩ := calculate_spec A B hlen
  obtain ⟨_, h1, h2⟩ := path_sorted A B s _ _ e hp
  exact ⟨s, hs, h1, h2⟩

/-- Instance of C14 for `A = ["a", "c"]` and `B = ["b", "a"]`. -/
theorem C14_indices_monotone_witness :
    (["b", "a"] : List String) ≠ []
      ∧ ∃ s, calculate ["a", "c"] ["b", "a"] = CalcResult.script s
        ∧ (s.map DiffItem.lineOld).Pairwise (fun a b => a ≤ b)
        ∧ (s.map DiffItem.lineNew).Pairwise (fun a b => a ≤ b) :=
  ⟨by decide, C14_indices_monotone ["a", "c"] ["b", "a"] (by decide)⟩

/-- C15. For every original sequence `A` and every non-empty modified sequence `B`,
every operation of the script of `Diff::calculate` refers to existing lines: an
`Equal` has `i < N`, `j < M` and `A[i] = B[j]`, a `Remove` has `i < N`, an `Insert`
has `j < M`. Hence the line that `Diff::generateHunk` reads for an item exists,
every call of `generateHunk` for a range inside the script prints its text without
an access outside a vector, and so does `Diff::generateUnidiff` when the script
has fewer than 65536 operations. -/
theorem C15_script_in_bounds (A B : List String) (hB : B ≠ []) :
    ∃ s, calculate A B = CalcResult.script s
      ∧ (∀ it ∈ s,
          (it.change = Change.Equal → it.lineOld < A.length ∧ it.lineNew < B.length
            ∧ A[it.lineOld]? = B[it.lineNew]?)
          ∧ (it.change = Change.Remove → it.lineOld < A.length)
          ∧ (it.change = Change.Insert → it.lineNew < B.length))
      ∧ (∀ it ∈ s, (bodyLine A B it).isSome = true)
      ∧ (∀ h : HunkCall, h.start ≤ h.stop → h.stop < s.length →
          (generateHunk A B s h).isSome = true)
      ∧ (s.length < 65536 → ∀ C : Nat, C < 4294967296 →
          ∀ (originalFilename originalStamp modifiedFilename modifiedStamp : String)
            (endingNewLine : Bool),
            (generateUnidiff A B s originalFilename originalStamp modifiedFilename
              modifiedStamp C endingNewLine).isSome = true) := by
  have hlen : 1 ≤ B.length := by
    cases B with
    | nil => exact absurd rfl hB
    | cons b t => simp
  obtain ⟨s, e, hs, hp, _⟩ := calculate_spec A B hlen
  have hb := path_in_bounds A B s _ _ e hp
  have hall : ∀ it ∈ s, (bodyLine A B it).isSome = true := by
    intro it hit
    obtain ⟨h1, h2, h3⟩ := hb it hit
    unfold bodyLine
    cases hc : it.change
    · simp only []
      rw [List.getElem?_eq_getElem (h1 hc).1]
      rfl
    · simp only []
      rw [List.getElem?_eq_getElem (h2 hc)]
      rfl
    · simp only []
      rw [List.getElem?_eq_getElem (h3 hc)]
      rfl
  exact ⟨s, hs, hb, hall, fun h h1 h2 => generateHunk_some A B s hall h h1 h2,
    fun hn C hC n1 n2 n3 n4 e => generateUnidiff_some A B s hall hn C hC n1 n2 n3 n4 e⟩

/-- Instance of C15 for `A = ["a", "b"]` and `B = ["b", "c"]`. -/
theorem C15_script_in_bounds_witness :
    (["b", "c"] : List String) ≠ []
      ∧ ∃ s, calculate ["a", "b"] ["b", "c"] = CalcResult.script s
        ∧ (∀ it ∈ s,
            (it.change = Change.Equal → it.lineOld < (["a", "b"] : List String).length
              ∧ it.lineNew < (["b", "c"] : List String).length
              ∧ (["a", "b"] : List String)[it.lineOld]? = (["b", "c"] : List String)[it.lineNew]?)
            ∧ (it.change = Change.Remove → it.lineOld < (["a", "b"] : List String).length)
            ∧ (it.change = Change.Insert → it.lineNew < (["b", "c"] : List String).length))
        ∧ (∀ it ∈ s, (bodyLine ["a", "b"] ["b", "c"] it).isSome = true)
        ∧ (∀ h : HunkCall, h.start ≤ h.stop → h.stop < s.length →
            (generateHunk ["a", "b"] ["b", "c"] s h).isSome = true)
        ∧ (s.length < 65536 → ∀ C : Nat, C < 4294967296 →
            ∀ (originalFilename originalStamp modifiedFilename modifiedStamp : String)
              (endingNewLine : Bool),
              (generateUnidiff ["a", "b"] ["b", "c"] s originalFilename originalStamp
                modifiedFilename modifiedStamp C endingNewLine).isSome = true) :=
  ⟨by decide, C15_script_in_bounds ["a", "b"] ["b", "c"] (by decide)⟩

/-- C16. When the modified sequence is not empty, at every pair `(d, k)` visited by
`Diff::calculate` the code's condition selects the neighbouring diagonal that the
specification prescribes, it reads `v_x` inside its allocated range, and for
`d > 0` and `k = d` it selects `k - 1`. For `A = ["a"]` and an empty `B` the pair
`(1, 1)` is visited, the specification prescribes `k - 1` there, and the code's
condition reads `v_x[MAX + k + 1]` outside the three allocated elements. -/
theorem C16_predecessor_choice :
    (∀ (A B : List String), B ≠ [] → ∀ s ∈ visits A B,
        fromRight s.v_x ((A.length : Int) + (B.length : Int)) s.d s.k
            = choosePredecessor
                (fun j => vecRead s.v_x ((A.length : Int) + (B.length : Int) + j)) s.d s.k
          ∧ (fromRight s.v_x ((A.length : Int) + (B.length : Int)) s.d s.k).isSome = true
          ∧ (0 < s.d → s.k = s.d →
              fromRight s.v_x ((A.length : Int) + (B.length : Int)) s.d s.k = some false))
      ∧ visits ["a"] ([] : List String)
          = [⟨0, 0, [0, 0, 0], [[], [], []]⟩, ⟨1, -1, [0, 0, 0], [[], [], []]⟩,
             ⟨1, 1, [0, 0, 0], [[], [], []]⟩]
      ∧ choosePredecessor (fun j => vecRead [0, 0, 0] (1 + j)) 1 1 = some false
      ∧ fromRight [0, 0, 0] 1 1 1 = none
      ∧ calculate ["a"] ([] : List String) = CalcResult.outOfRange := by
  refine ⟨?_, by decide, by decide, by decide, by decide⟩
  intro A B hB s hs
  have hlen : 1 ≤ B.length := by
    cases B with
    | nil => exact absurd rfl hB
    | cons b t => simp
  have h := visits_agree A B hlen s hs
  unfold ChoiceAgrees at h
  refine ⟨h.1, h.2, ?_⟩
  intro hd hk
  rw [h.1]
  unfold choosePredecessor
  rw [if_neg (by omega), if_neg (by simpa using hk)]

/-- C17, as stated, fails: on `A = ["a", "c"]`, `B = ["b", "a"]` the pair
`(d, k) = (2, 0)` is visited with the same value `1` stored for the diagonals `-1`
and `1`; the code's condition is false, the step is taken from `k - 1`, `x` becomes
`2` and a `Remove` is appended to the history of the diagonal `-1`, which ends the
script. -/
theorem C17_tie_takes_removal :
    (visits ["a", "c"] ["b", "a"])[4]?
        = some ⟨2, 0, [0, 0, 1, 1, 0, 1, 0, 0, 0],
            [[], [],
             [⟨Change.Insert, 0, 0⟩, ⟨Change.Equal, 0, 1⟩, ⟨Change.Remove, 0, 2⟩],
             [⟨Change.Insert, 0, 0⟩, ⟨Change.Equal, 0, 1⟩], [],
             [⟨Change.Remove, 0, 0⟩], [], [], []]⟩
      ∧ vecRead [0, 0, 1, 1, 0, 1, 0, 0, 0] (4 + 0 - 1) = some (1 : Int)
      ∧ vecRead [0, 0, 1, 1, 0, 1, 0, 0, 0] (4 + 0 + 1) = some (1 : Int)
      ∧ fromRight [0, 0, 1, 1, 0, 1, 0, 0, 0] 4 2 0 = some false
      ∧ advance ["a", "c"] ["b", "a"] 2 0 [0, 0, 1, 1, 0, 1, 0, 0, 0]
          [[], [],
           [⟨Change.Insert, 0, 0⟩, ⟨Change.Equal, 0, 1⟩, ⟨Change.Remove, 0, 2⟩],
           [⟨Change.Insert, 0, 0⟩, ⟨Change.Equal, 0, 1⟩], [],
           [⟨Change.Remove, 0, 0⟩], [], [], []]
        = some (2, 2, [⟨Change.Insert, 0, 0⟩, ⟨Change.Equal, 0, 1⟩, ⟨Change.Remove, 1, 1⟩])
      ∧ calculate ["a", "c"] ["b", "a"]
        = CalcResult.script
            [⟨Change.Insert, 0, 0⟩, ⟨Change.Equal, 0, 1⟩, ⟨Change.Remove, 1, 1⟩] := by
  refine ⟨by decide, by decide, by decide, by decide, by decide, by decide⟩

/-- C17, amended. Whenever `Diff::calculate` processes a diagonal `k ≠ -d` for which
the same `x` is stored for the two neighbouring diagonals `k - 1` and `k + 1`, its
condition is false and it takes the step from `k - 1`: `x` becomes the stored value
plus one, the history is that of the diagonal `k - 1`, a `Remove` is appended to
it when `1 ≤ x ≤ N`, and the run of unchanged lines starts from there. -/
theorem C17_tie_prefers_removal (A B : List α) (d k : Int) (v_x : List Int)
    (v_history : List (List DiffItem)) (xl : Int) (hl : List DiffItem) (hk : k ≠ -d)
    (h1 : vecRead v_x ((A.length : Int) + (B.length : Int) + k - 1) = some xl)
    (h2 : vecRead v_x ((A.length : Int) + (B.length : Int) + k + 1) = some xl)
    (h3 : vecRead v_history ((A.length : Int) + (B.length : Int) + k - 1) = some hl) :
    fromRight v_x ((A.length : Int) + (B.length : Int)) d k = some false
      ∧ advance A B d k v_x v_history
        = snake A B (A.length + 1) (xl + 1) (xl + 1 - k)
            (if 1 ≤ xl + 1 ∧ xl + 1 ≤ (A.length : Int) then
              hl ++ [⟨Change.Remove, lineIndex (xl + 1), lineIndex (xl + 1 - k)⟩]
            else hl) := by
  have hf : fromRight v_x ((A.length : Int) + (B.length : Int)) d k = some false := by
    unfold fromRight
    rw [if_neg hk, h1, h2]
    simp
  refine ⟨hf, ?_⟩
  unfold advance
  simp only [hf, h1, h3, Bool.false_eq_true, if_false, ite_self]

/-- Instance of C17, amended, for the pair `(2, 0)` visited on `A = ["a", "c"]`,
`B = ["b", "a"]`. -/
theorem C17_tie_prefers_removal_witness :
    (0 : Int) ≠ -2
      ∧ vecRead [0, 0, 1, 1, 0, 1, 0, 0, 0]
          (((["a", "c"] : List String).length : Int)
            + ((["b", "a"] : List String).length : Int) + 0 - 1) = some (1 : Int)
      ∧ vecRead [0, 0, 1, 1, 0, 1, 0, 0, 0]
          (((["a", "c"] : List String).length : Int)
            + ((["b", "a"] : List String).length : Int) + 0 + 1) = some (1 : Int)
      ∧ vecRead
          ([[], [],
            [⟨Change.Insert, 0, 0⟩, ⟨Change.Equal, 0, 1⟩, ⟨Change.Remove, 0, 2⟩],
            [⟨Change.Insert, 0, 0⟩, ⟨Change.Equal, 0, 1⟩], [],
            [⟨Change.Remove, 0, 0⟩], [], [], []] : List (List DiffItem))
          (((["a", "c"] : List String).length : Int)
            + ((["b", "a"] : List String).length : Int) + 0 - 1)
          = some [⟨Change.Insert, 0, 0⟩, ⟨Change.Equal, 0, 1⟩]
      ∧ fromRight [0, 0, 1, 1, 0, 1, 0, 0, 0]
          (((["a", "c"] : List String).length : Int)
            + ((["b", "a"] : List String).length : Int)) 2 0 = some false
      ∧ advance ["a", "c"] ["b", "a"] 2 0 [0, 0, 1, 1, 0, 1, 0, 0, 0]
          [[], [],
           [⟨Change.Insert, 0, 0⟩, ⟨Change.Equal, 0, 1⟩, ⟨Change.Remove, 0, 2⟩],
           [⟨Change.Insert, 0, 0⟩, ⟨Change.Equal, 0, 1⟩], [],
           [⟨Change.Remove, 0, 0⟩], [], [], []]
        = snake ["a", "c"] ["b", "a"] ((["a", "c"] : List String).length + 1) (1 + 1)
            (1 + 1 - 0)
            (if 1 ≤ (1 : Int) + 1 ∧ (1 : Int) + 1 ≤ ((["a", "c"] : List String).length : Int) then
              [⟨Change.Insert, 0, 0⟩, ⟨Change.Equal, 0, 1⟩]
                ++ [⟨Change.Remove, lineIndex (1 + 1), lineIndex (1 + 1 - 0)⟩]
            else [⟨Change.Insert, 0, 0⟩, ⟨Change.Equal, 0, 1⟩]) :=
  ⟨by decide, by decide, by decide, by decide,
    C17_tie_prefers_removal ["a", "c"] ["b", "a"] 2 0 [0, 0, 1, 1, 0, 1, 0, 0, 0]
      [[], [],
       [⟨Change.Insert, 0, 0⟩, ⟨Change.Equal, 0, 1⟩, ⟨Change.Remove, 0, 2⟩],
       [⟨Change.Insert, 0, 0⟩, ⟨Change.Equal, 0, 1⟩], [],
       [⟨Change.Remove, 0, 0⟩], [], [], []]
      1 [⟨Change.Insert, 0, 0⟩, ⟨Change.Equal, 0, 1⟩] (by decide) (by decide) (by decide)
      (by decide)⟩

/-- C18 fails for a large file, where the end of the hunk, an `unsigned short`, wraps
around: when the last of 65536 pairwise distinct lines is replaced, the script has
65537 operations, the only hunk is printed for the script range from `65532` to
`0`, which contains no item, and the output consists of the two file lines and the
range line `@@ -65533,4 +65533,4 @@` without any body line: neither the old line
nor the new line is printed. -/
theorem C18_large_file_hunk_without_body :
    calculate (manyLines 65536) ((manyLines 65536).set 65535 "b")
        = CalcResult.script (replaceScript 65536 65535)
      ∧ unidiffHunks (replaceScript 65536 65535) 3 = some [⟨65532, 0, 4, 4⟩]
      ∧ hunkItems (replaceScript 65536 65535) ⟨65532, 0, 4, 4⟩ = []
      ∧ generateUnidiff (manyLines 65536) ((manyLines 65536).set 65535 "b")
          (replaceScript 65536 65535) "a.txt" "T1" "b.txt" "T2" 3 true
        = some "--- a.txt\tT1\n+++ b.txt\tT2\n@@ -65533,4 +65533,4 @@\n" := by
  have hz : 0 + 1 - 65532 = 0 := by norm_num
  have h := replaceScript_getElem 65536 65535 65532 (by norm_num) (by norm_num)
  rw [if_pos (by norm_num)] at h
  refine ⟨?_, unidiffHunks_replace_wrapped, ?_,
    generateUnidiff_wrapped _ _ _ unidiffHunks_replace_wrapped h⟩
  · have hc := calculate_replace (manyLines 65536) 65535 "b" (manyLines_nodup _)
      (by rw [manyLines_length]; norm_num) (manyLines_not_mem _)
    rw [manyLines_length] at hc
    exact hc
  · unfold hunkItems
    simp only []
    rw [hz, List.take_zero]

/-- C18, for the files whose script fits the `unsigned short` positions of a hunk.
For every sequence `A` of fewer than 65535 pairwise distinct lines, every index `p < N` and every line `X` that does not occur in `A`, with
three context lines: the script of `A` and `A` with line `p` replaced by `X` is
the removal followed by the insertion between the unchanged lines; exactly one
hunk is printed; it covers the original lines `max 1 (p - 2)` to
`min N (p + 4)`; its range line carries the same start and the same count, at
most `7`, on both sides; and its body is the context before the change, the old
line, the new line, and the context after the change. -/
theorem C18_single_line_change (A : List String) (p : Nat) (X : String)
    (hnd : A.Nodup) (hp : p < A.length) (hX : X ∉ A) (hN : A.length + 1 < 65536)
    (originalFilename originalStamp modifiedFilename modifiedStamp : String)
    (endingNewLine : Bool) :
    calculate A (A.set p X) = CalcResult.script (replaceScript A.length p)
      ∧ unidiffHunks (replaceScript A.length p) 3
        = some [⟨p - min p 3, p + 1 + min 3 (A.length - (p + 1)),
            min p 3 + 1 + min 3 (A.length - (p + 1)),
            min p 3 + 1 + min 3 (A.length - (p + 1))⟩]
      ∧ p - min p 3 + 1 = max 1 (p - 2)
      ∧ p + 1 + min 3 (A.length - (p + 1)) = min A.length (p + 4)
      ∧ min p 3 + 1 + min 3 (A.length - (p + 1)) ≤ 7
      ∧ generateUnidiff A (A.set p X) (replaceScript A.length p) originalFilename
          originalStamp modifiedFilename modifiedStamp 3 endingNewLine
        = some ("--- " ++ originalFilename ++ "\t" ++ originalStamp ++ "\n"
            ++ "+++ " ++ modifiedFilename ++ "\t" ++ modifiedStamp ++ "\n"
            ++ ("@@ -" ++ toString (p - min p 3 + 1) ++ ","
                ++ toString (min p 3 + 1 + min 3 (A.length - (p + 1)))
                ++ " +" ++ toString (p - min p 3 + 1) ++ ","
                ++ toString (min p 3 + 1 + min 3 (A.length - (p + 1))) ++ " @@\n"
              ++ (contextLines ((A.drop (p - min p 3)).take (min p 3))
                ++ ("-" ++ A[p] ++ "\n"
                  ++ ("+" ++ X ++ "\n"
                    ++ contextLines ((A.drop (p + 1)).take (min 3 (A.length - (p + 1))))))))
            ++ (if endingNewLine then "" else "\\ No newline at end of file\n")) :=
  ⟨calculate_replace A p X hnd hp hX,
    unidiffHunks_replace A.length p 3 hp hN (by omega),
    by omega, by omega, by omega,
    generateUnidiff_replace A p X hp hN originalFilename originalStamp modifiedFilename
      modifiedStamp endingNewLine⟩

/-- Instance of C18 for `A = ["1", "2", "3", "4", "5"]`, `p = 2` and
`X = "X"`; the text is `@@ -1,5 +1,5 @@` followed by ` 1`, ` 2`, `-3`, `+X`, ` 4`,
` 5`. -/
theorem C18_single_line_change_witness :
    (["1", "2", "3", "4", "5"] : List String).Nodup
      ∧ 2 < (["1", "2", "3", "4", "5"] : List String).length
      ∧ "X" ∉ (["1", "2", "3", "4", "5"] : List String)
      ∧ (["1", "2", "3", "4", "5"] : List String).length + 1 < 65536
      ∧ (calculate ["1", "2", "3", "4", "5"] ((["1", "2", "3", "4", "5"] : List String).set 2 "X")
          = CalcResult.script (replaceScript (["1", "2", "3", "4", "5"] : List String).length 2)
        ∧ unidiffHunks (replaceScript (["1", "2", "3", "4", "5"] : List String).length 2) 3
          = some [⟨2 - min 2 3, 2 + 1 + min 3 ((["1", "2", "3", "4", "5"] : List String).length - (2 + 1)),
              min 2 3 + 1 + min 3 ((["1", "2", "3", "4", "5"] : List String).length - (2 + 1)),
              min 2 3 + 1 + min 3 ((["1", "2", "3", "4", "5"] : List String).length - (2 + 1))⟩]
        ∧ 2 - min 2 3 + 1 = max 1 (2 - 2)
        ∧ 2 + 1 + min 3 ((["1", "2", "3", "4", "5"] : List String).length - (2 + 1))
          = min (["1", "2", "3", "4", "5"] : List String).length (2 + 4)
        ∧ min 2 3 + 1 + min 3 ((["1", "2", "3", "4", "5"] : List String).length - (2 + 1)) ≤ 7
        ∧ generateUnidiff ["1", "2", "3", "4", "5"]
            ((["1", "2", "3", "4", "5"] : List String).set 2 "X")
            (replaceScript (["1", "2", "3", "4", "5"] : List String).length 2)
            "a.txt" "T1" "b.txt" "T2" 3 true
          = some ("--- " ++ "a.txt" ++ "\t" ++ "T1" ++ "\n"
              ++ "+++ " ++ "b.txt" ++ "\t" ++ "T2" ++ "\n"
              ++ ("@@ -" ++ toString (2 - min 2 3 + 1) ++ ","
                  ++ toString (min 2 3 + 1
                      + min 3 ((["1", "2", "3", "4", "5"] : List String).length - (2 + 1)))
                  ++ " +" ++ toString (2 - min 2 3 + 1) ++ ","
                  ++ toString (min 2 3 + 1
                      + min 3 ((["1", "2", "3", "4", "5"] : List String).length - (2 + 1)))
                  ++ " @@\n"
                ++ (contextLines (((["1", "2", "3", "4", "5"] : List String).drop (2 - min 2 3)).take
                      (min 2 3))
                  ++ ("-" ++ (["1", "2", "3", "4", "5"] : List String)[2] ++ "\n"
                    ++ ("+" ++ "X" ++ "\n"
                      ++ contextLines (((["1", "2", "3", "4", "5"] : List String).drop (2 + 1)).take
                          (min 3 ((["1", "2", "3", "4", "5"] : List String).length - (2 + 1))))))))
              ++ (if true then "" else "\\ No newline at end of file\n")))
      ∧ generateUnidiff ["1", "2", "3", "4", "5"] ["1", "2", "X", "4", "5"]
          [⟨Change.Equal, 0, 0⟩, ⟨Change.Equal, 1, 1⟩, ⟨Change.Remove, 2, 1⟩,
           ⟨Change.Insert, 2, 2⟩, ⟨Change.Equal, 3, 3⟩, ⟨Change.Equal, 4, 4⟩]
          "a.txt" "T1" "b.txt" "T2" 3 true
        = some "--- a.txt\tT1\n+++ b.txt\tT2\n@@ -1,5 +1,5 @@\n 1\n 2\n-3\n+X\n 4\n 5\n" :=
  ⟨by decide, by decide, by decide, by decide,
    C18_single_line_change ["1", "2", "3", "4", "5"] 2 "X" (by decide) (by decide)
      (by decide) (by decide) "a.txt" "T1" "b.txt" "T2" true,
    by decide⟩

/-- C19. For every script of fewer than 65536 operations and every context count
`C` (an `unsigned int`), `Diff::generateUnidiff` assembles its hunks; each hunk
covers a script range `[start, stop]` with `start ≤ stop` inside the script, and
the hunks are ordered and do not overlap: each hunk ends strictly before every
later hunk starts, in particular before the next one. -/
theorem C19_hunks_ordered (items : List DiffItem) (C : Nat) (hn : items.length < 65536)
    (hC : C < 4294967296) :
    ∃ hs, unidiffHunks items C = some hs
      ∧ (∀ h ∈ hs, h.start ≤ h.stop ∧ h.stop < items.length)
      ∧ hs.Pairwise (fun a b => a.stop < b.start)
      ∧ hs.Chain' (fun a b => a.stop < b.start) := by
  obtain ⟨hs, hu, hok, hp⟩ := unidiffHunks_order items C hn hC
  exact ⟨hs, hu, fun h hh => ⟨(hok h hh).ordered, (hok h hh).inside⟩, hp,
    List.Pairwise.chain' hp⟩

/-- Instance of C19 for the script of `A = [a, b, c, d, e, f, g]`,
`B = [A, b, c, d, e, f, G]` and `C = 3`, which is printed in two hunks. -/
theorem C19_hunks_ordered_witness :
    ([⟨Change.Remove, 0, 0⟩, ⟨Change.Insert, 0, 0⟩, ⟨Change.Equal, 1, 1⟩,
        ⟨Change.Equal, 2, 2⟩, ⟨Change.Equal, 3, 3⟩, ⟨Change.Equal, 4, 4⟩,
        ⟨Change.Equal, 5, 5⟩, ⟨Change.Remove, 6, 5⟩, ⟨Change.Insert, 6, 6⟩]
        : List DiffItem).length < 65536
      ∧ 3 < 4294967296
      ∧ ∃ hs, unidiffHunks
            [⟨Change.Remove, 0, 0⟩, ⟨Change.Insert, 0, 0⟩, ⟨Change.Equal, 1, 1⟩,
             ⟨Change.Equal, 2, 2⟩, ⟨Change.Equal, 3, 3⟩, ⟨Change.Equal, 4, 4⟩,
             ⟨Change.Equal, 5, 5⟩, ⟨Change.Remove, 6, 5⟩, ⟨Change.Insert, 6, 6⟩] 3 = some hs
        ∧ (∀ h ∈ hs, h.start ≤ h.stop
            ∧ h.stop < ([⟨Change.Remove, 0, 0⟩, ⟨Change.Insert, 0, 0⟩, ⟨Change.Equal, 1, 1⟩,
                ⟨Change.Equal, 2, 2⟩, ⟨Change.Equal, 3, 3⟩, ⟨Change.Equal, 4, 4⟩,
                ⟨Change.Equal, 5, 5⟩, ⟨Change.Remove, 6, 5⟩, ⟨Change.Insert, 6, 6⟩]
                : List DiffItem).length)
        ∧ hs.Pairwise (fun a b => a.stop < b.start)
        ∧ hs.Chain' (fun a b => a.stop < b.start) :=
  ⟨by decide, by decide,
    C19_hunks_ordered
      [⟨Change.Remove, 0, 0⟩, ⟨Change.Insert, 0, 0⟩, ⟨Change.Equal, 1, 1⟩,
       ⟨Change.Equal, 2, 2⟩, ⟨Change.Equal, 3, 3⟩, ⟨Change.Equal, 4, 4⟩,
       ⟨Change.Equal, 5, 5⟩, ⟨Change.Remove, 6, 5⟩, ⟨Change.Insert, 6, 6⟩] 3
      (by decide) (by decide)⟩

/-- C20. On `A = [a, b, c, d, e, f, g, h]`, `B = [b, c, e, f, g, h]` with one
context line the first hunk is printed for the script range `[0, 2]`: its items are
the removal of `a` followed by the two unchanged lines `b` and `c`, one unchanged
line more than the context count after its last change. -/
theorem C20_trailing_context_exceeds :
    calculate ["a", "b", "c", "d", "e", "f", "g", "h"] ["b", "c", "e", "f", "g", "h"]
        = CalcResult.script
            [⟨Change.Remove, 0, 0⟩, ⟨Change.Equal, 1, 0⟩, ⟨Change.Equal, 2, 1⟩,
             ⟨Change.Remove, 3, 1⟩, ⟨Change.Equal, 4, 2⟩, ⟨Change.Equal, 5, 3⟩,
             ⟨Change.Equal, 6, 4⟩, ⟨Change.Equal, 7, 5⟩]
      ∧ unidiffHunks
          [⟨Change.Remove, 0, 0⟩, ⟨Change.Equal, 1, 0⟩, ⟨Change.Equal, 2, 1⟩,
           ⟨Change.Remove, 3, 1⟩, ⟨Change.Equal, 4, 2⟩, ⟨Change.Equal, 5, 3⟩,
           ⟨Change.Equal, 6, 4⟩, ⟨Change.Equal, 7, 5⟩] 1
        = some [⟨0, 2, 3, 2⟩, ⟨3, 4, 2, 1⟩]
      ∧ hunkItems
          [⟨Change.Remove, 0, 0⟩, ⟨Change.Equal, 1, 0⟩, ⟨Change.Equal, 2, 1⟩,
           ⟨Change.Remove, 3, 1⟩, ⟨Change.Equal, 4, 2⟩, ⟨Change.Equal, 5, 3⟩,
           ⟨Change.Equal, 6, 4⟩, ⟨Change.Equal, 7, 5⟩] ⟨0, 2, 3, 2⟩
        = [⟨Change.Remove, 0, 0⟩, ⟨Change.Equal, 1, 0⟩, ⟨Change.Equal, 2, 1⟩]
      ∧ generateUnidiff ["a", "b", "c", "d", "e", "f", "g", "h"]
          ["b", "c", "e", "f", "g", "h"]
          [⟨Change.Remove, 0, 0⟩, ⟨Change.Equal, 1, 0⟩, ⟨Change.Equal, 2, 1⟩,
           ⟨Change.Remove, 3, 1⟩, ⟨Change.Equal, 4, 2⟩, ⟨Change.Equal, 5, 3⟩,
           ⟨Change.Equal, 6, 4⟩, ⟨Change.Equal, 7, 5⟩]
          "a.txt" "T1" "b.txt" "T2" 1 true
        = some ("--- a.txt\tT1\n+++ b.txt\tT2\n"
            ++ "@@ -1,3 +1,2 @@\n-a\n b\n c\n"
            ++ "@@ -4,2 +2,1 @@\n-d\n e\n") := by
  refine ⟨by decide, by decide, by decide, by decide⟩

end Claims2

/-! ## Claims C21 to C30 -/

section Claims3

/-- C21. With the context count `C = 0`, for every script of fewer than 65536
operations `Diff::generateUnidiff` prints exactly one hunk for each maximal run of
consecutive operations that are not `Equal`: the ranges of the hunks, in order, are
the list `changeRuns` of these runs, in which a pair is listed exactly when it is a
maximal run. Every hunk covers exactly its run, it contains no `Equal` operation,
its two counts are the numbers of its `Remove` and of its `Insert` operations, and
at least one operation of the script lies between two hunks. -/
theorem C21_zero_context_runs (items : List DiffItem) (hn : items.length < 65536) :
    ∃ hs, unidiffHunks items 0 = some hs
      ∧ hs.map (fun h => (h.start, h.stop)) = changeRuns items
      ∧ (∀ a b, (a, b) ∈ changeRuns items ↔ IsChangeRun items a b)
      ∧ hs.Pairwise (fun h1 h2 => h1.stop + 1 < h2.start)
      ∧ ∀ h ∈ hs, IsChangeRun items h.start h.stop
          ∧ (∀ it ∈ hunkItems items h, it.change ≠ Change.Equal)
          ∧ h.linesChangedOld = countChange Change.Remove items h.start (h.stop + 1)
          ∧ h.linesChangedNew = countChange Change.Insert items h.start (h.stop + 1) := by
  obtain ⟨hs, hu, hm, hok⟩ := unidiffHunks_zero_context items hn
  obtain ⟨hs2, hu2, _, hp⟩ := unidiffHunks_order items 0 hn (by norm_num)
  have hsame : hs2 = hs := by
    rw [hu] at hu2
    exact (Option.some.inj hu2).symm
  rw [hsame] at hp
  have hrun : ∀ h ∈ hs, IsChangeRun items h.start h.stop := fun h hh =>
    (changeRuns_mem items _ _).1 (by
      rw [← hm]
      exact List.mem_map.2 ⟨h, hh, rfl⟩)
  refine ⟨hs, hu, hm, changeRuns_mem items, ?_, ?_⟩
  · refine List.Pairwise.imp_of_mem ?_ hp
    intro h1 h2 hh1 hh2 hlt
    obtain ⟨_, hc1, _, _⟩ := hrun h1 hh1
    obtain ⟨ho2, _, hl2, _⟩ := hrun h2 hh2
    by_contra hge
    have he : h2.start - 1 = h1.stop := by omega
    rcases hl2 with hl2 | hl2
    · omega
    · rw [he] at hl2
      have ho1 := (hrun h1 hh1).1
      exact not_equalAt_of_changedAt items h1.stop (hc1 h1.stop ho1 (le_refl _)) hl2
  · intro h hh
    obtain ⟨ho, hc, hl, hr⟩ := hrun h hh
    have hz := countChange_equal_zero items h.start (h.stop + 1)
      (fun k h1 h2 => hc k h1 (by omega))
    refine ⟨⟨ho, hc, hl, hr⟩, hunkItems_changed items h hc, ?_, ?_⟩
    · rw [(hok h hh).old, hz, Nat.zero_add]
    · rw [(hok h hh).new, hz, Nat.zero_add]

/-- Instance of C21 for a script with an insertion, an unchanged line, two removals
and an unchanged line: its maximal runs of changes are `[0, 0]` and `[2, 3]`. -/
theorem C21_zero_context_runs_witness :
    ([⟨Change.Insert, 0, 0⟩, ⟨Change.Equal, 0, 1⟩, ⟨Change.Remove, 1, 1⟩,
        ⟨Change.Remove, 2, 1⟩, ⟨Change.Equal, 3, 2⟩] : List DiffItem).length < 65536
      ∧ changeRuns [⟨Change.Insert, 0, 0⟩, ⟨Change.Equal, 0, 1⟩, ⟨Change.Remove, 1, 1⟩,
          ⟨Change.Remove, 2, 1⟩, ⟨Change.Equal, 3, 2⟩] = [(0, 0), (2, 3)]
      ∧ unidiffHunks [⟨Change.Insert, 0, 0⟩, ⟨Change.Equal, 0, 1⟩, ⟨Change.Remove, 1, 1⟩,
          ⟨Change.Remove, 2, 1⟩, ⟨Change.Equal, 3, 2⟩] 0 = some [⟨0, 0, 0, 1⟩, ⟨2, 3, 2, 0⟩]
      ∧ ∃ hs, unidiffHunks [⟨Change.Insert, 0, 0⟩, ⟨Change.Equal, 0, 1⟩,
            ⟨Change.Remove, 1, 1⟩, ⟨Change.Remove, 2, 1⟩, ⟨Change.Equal, 3, 2⟩] 0 = some hs
        ∧ hs.map (fun h => (h.start, h.stop))
          = changeRuns [⟨Change.Insert, 0, 0⟩, ⟨Change.Equal, 0, 1⟩, ⟨Change.Remove, 1, 1⟩,
              ⟨Change.Remove, 2, 1⟩, ⟨Change.Equal, 3, 2⟩]
        ∧ (∀ a b, (a, b) ∈ changeRuns [⟨Change.Insert, 0, 0⟩, ⟨Change.Equal, 0, 1⟩,
              ⟨Change.Remove, 1, 1⟩, ⟨Change.Remove, 2, 1⟩, ⟨Change.Equal, 3, 2⟩]
            ↔ IsChangeRun [⟨Change.Insert, 0, 0⟩, ⟨Change.Equal, 0, 1⟩,
              ⟨Change.Remove, 1, 1⟩, ⟨Change.Remove, 2, 1⟩, ⟨Change.Equal, 3, 2⟩] a b)
        ∧ hs.Pairwise (fun h1 h2 => h1.stop + 1 < h2.start)
        ∧ ∀ h ∈ hs, IsChangeRun [⟨Change.Insert, 0, 0⟩, ⟨Change.Equal, 0, 1⟩,
              ⟨Change.Remove, 1, 1⟩, ⟨Change.Remove, 2, 1⟩, ⟨Change.Equal, 3, 2⟩]
              h.start h.stop
            ∧ (∀ it ∈ hunkItems [⟨Change.Insert, 0, 0⟩, ⟨Change.Equal, 0, 1⟩,
                ⟨Change.Remove, 1, 1⟩, ⟨Change.Remove, 2, 1⟩, ⟨Change.Equal, 3, 2⟩] h,
                it.change ≠ Change.Equal)
            ∧ h.linesChangedOld = countChange Change.Remove [⟨Change.Insert, 0, 0⟩,
                ⟨Change.Equal, 0, 1⟩, ⟨Change.Remove, 1, 1⟩, ⟨Change.Remove, 2, 1⟩,
                ⟨Change.Equal, 3, 2⟩] h.start (h.stop + 1)
            ∧ h.linesChangedNew = countChange Change.Insert [⟨Change.Insert, 0, 0⟩,
                ⟨Change.Equal, 0, 1⟩, ⟨Change.Remove, 1, 1⟩, ⟨Change.Remove, 2, 1⟩,
                ⟨Change.Equal, 3, 2⟩] h.start (h.stop + 1) :=
  ⟨by decide, by decide, by decide,
    C21_zero_context_runs
      [⟨Change.Insert, 0, 0⟩, ⟨Change.Equal, 0, 1⟩, ⟨Change.Remove, 1, 1⟩,
       ⟨Change.Remove, 2, 1⟩, ⟨Change.Equal, 3, 2⟩] (by decide)⟩

/-- C22 fails for a long script, where the end of the hunk, an `unsigned short`,
wraps around: the script of an empty original file and a modified file of 65537
lines consists of 65537 insertions and has no `Equal` operation, and the only hunk
printed for it, with three context lines, covers the script range from `0` to `0`,
that is its first operation only: the other 65536 inserted lines are not printed. -/
theorem C22_long_script_first_item_only :
    calculate ([] : List String) (manyLines 65537)
        = CalcResult.script
            ((List.range 65537).map (fun j => (⟨Change.Insert, 0, j⟩ : DiffItem)))
      ∧ ((List.range 65537).map (fun j => (⟨Change.Insert, 0, j⟩ : DiffItem))).length = 65537
      ∧ (∀ it ∈ (List.range 65537).map (fun j => (⟨Change.Insert, 0, j⟩ : DiffItem)),
          it.change ≠ Change.Equal)
      ∧ ∃ lo ln, unidiffHunks
          ((List.range 65537).map (fun j => (⟨Change.Insert, 0, j⟩ : DiffItem))) 3
        = some [⟨0, 0, lo, ln⟩] := by
  have hlen : ((List.range 65537).map (fun j => (⟨Change.Insert, 0, j⟩ : DiffItem))).length
      = 65537 := by
    rw [List.length_map, List.length_range]
  have hall : ∀ it ∈ (List.range 65537).map (fun j => (⟨Change.Insert, 0, j⟩ : DiffItem)),
      it.change ≠ Change.Equal := by
    intro it hit
    obtain ⟨j, _, hj⟩ := List.mem_map.1 hit
    rw [← hj]
    simp
  have hne : (List.range 65537).map (fun j => (⟨Change.Insert, 0, j⟩ : DiffItem)) ≠ [] := by
    intro h
    rw [h] at hlen
    exact absurd hlen (by decide)
  have hB : manyLines 65537 ≠ [] := by
    intro h
    have h2 := manyLines_length 65537
    rw [h] at h2
    exact absurd h2 (by decide)
  refine ⟨?_, hlen, hall, ?_⟩
  · have hc := calculate_nil_left (manyLines 65537) hB
    rw [manyLines_length] at hc
    exact hc
  · obtain ⟨lo, ln, h⟩ := unidiffHunks_changes _ 3 (by rw [hlen]; norm_num) hne hall
    rw [hlen] at h
    have e : u16 (65537 + 65535) = 0 := by decide
    rw [e] at h
    exact ⟨lo, ln, h⟩

/-- C22, for the scripts that fit the `unsigned short` positions of a hunk. For
every script of at least one and at most 65536 operations that contains no `Equal`
operation and every context count `C`, `Diff::generateUnidiff`
prints a single hunk, which covers the script from its first to its last operation:
its items are the whole script. -/
theorem C22_script_without_equal (items : List DiffItem) (C : Nat) (hne : items ≠ [])
    (hall : ∀ it ∈ items, it.change ≠ Change.Equal) (hn : items.length ≤ 65536) :
    ∃ h, unidiffHunks items C = some [h] ∧ h.start = 0 ∧ h.stop = items.length - 1
      ∧ hunkItems items h = items := by
  have hlen : 1 ≤ items.length := by
    cases items with
    | nil => exact absurd rfl hne
    | cons a t => simp
  obtain ⟨lo, ln, h⟩ := unidiffHunks_changes items C (by omega) hne hall
  have e : u16 (items.length + 65535) = items.length - 1 := by
    unfold u16
    omega
  rw [e] at h
  refine ⟨_, h, rfl, rfl, ?_⟩
  unfold hunkItems
  simp only [List.drop_zero]
  rw [List.take_of_length_le (by omega)]

/-- Instance of C22 for a script of a removal followed by an insertion, with three
context lines. -/
theorem C22_script_without_equal_witness :
    ([⟨Change.Remove, 0, 0⟩, ⟨Change.Insert, 0, 0⟩] : List DiffItem) ≠ []
      ∧ (∀ it ∈ ([⟨Change.Remove, 0, 0⟩, ⟨Change.Insert, 0, 0⟩] : List DiffItem),
          it.change ≠ Change.Equal)
      ∧ ([⟨Change.Remove, 0, 0⟩, ⟨Change.Insert, 0, 0⟩] : List DiffItem).length ≤ 65536
      ∧ ∃ h, unidiffHunks [⟨Change.Remove, 0, 0⟩, ⟨Change.Insert, 0, 0⟩] 3 = some [h]
        ∧ h.start = 0
        ∧ h.stop = ([⟨Change.Remove, 0, 0⟩, ⟨Change.Insert, 0, 0⟩] : List DiffItem).length - 1
        ∧ hunkItems [⟨Change.Remove, 0, 0⟩, ⟨Change.Insert, 0, 0⟩] h
          = [⟨Change.Remove, 0, 0⟩, ⟨Change.Insert, 0, 0⟩] :=
  ⟨by decide, by decide, by decide,
    C22_script_without_equal [⟨Change.Remove, 0, 0⟩, ⟨Change.Insert, 0, 0⟩] 3 (by decide)
      (by decide) (by decide)⟩

/-- C23, as stated, fails when the modified file does not end with a line feed: for
`A = B = ["x", "y"]` the script consists of two `Equal` operations, no hunk is
printed, and the output is the two header lines followed by the line
`\ No newline at end of file`. -/
theorem C23_line_after_the_headers :
    calculate ["x", "y"] ["x", "y"]
        = CalcResult.script [⟨Change.Equal, 0, 0⟩, ⟨Change.Equal, 1, 1⟩]
      ∧ unidiffHunks [⟨Change.Equal, 0, 0⟩, ⟨Change.Equal, 1, 1⟩] 3 = some []
      ∧ generateUnidiff ["x", "y"] ["x", "y"] [⟨Change.Equal, 0, 0⟩, ⟨Change.Equal, 1, 1⟩]
          "a.txt" "T1" "b.txt" "T2" 3 false
        = some "--- a.txt\tT1\n+++ b.txt\tT2\n\\ No newline at end of file\n" := by
  refine ⟨by decide, by decide, by decide⟩

/-- C23, amended. For every script that consists of `Equal` operations only, of any
length, and every context count `C`, `Diff::generateUnidiff` prints no hunk: the
output is the two header lines, followed by the line `\ No newline at end of file`
when the modified file does not end with a line feed. -/
theorem C23_all_equal_no_hunk (A B : List String) (items : List DiffItem)
    (originalFilename originalStamp modifiedFilename modifiedStamp : String)
    (C : Nat) (endingNewLine : Bool) (hall : ∀ it ∈ items, it.change = Change.Equal) :
    unidiffHunks items C = some []
      ∧ generateUnidiff A B items originalFilename originalStamp modifiedFilename
          modifiedStamp C endingNewLine
        = some ("--- " ++ originalFilename ++ "\t" ++ originalStamp ++ "\n"
            ++ "+++ " ++ modifiedFilename ++ "\t" ++ modifiedStamp ++ "\n"
            ++ (if endingNewLine then "" else "\\ No newline at end of file\n")) := by
  have hu := unidiffHunks_all_equal items C hall
  refine ⟨hu, ?_⟩
  unfold generateUnidiff
  rw [hu]
  simp only [hunksText, String.append_empty]

/-- Instance of C23 for the script of `A = B = ["x", "y"]`, with three context lines
and a modified file that ends with a line feed. -/
theorem C23_all_equal_no_hunk_witness :
    (∀ it ∈ ([⟨Change.Equal, 0, 0⟩, ⟨Change.Equal, 1, 1⟩] : List DiffItem),
        it.change = Change.Equal)
      ∧ unidiffHunks [⟨Change.Equal, 0, 0⟩, ⟨Change.Equal, 1, 1⟩] 3 = some []
      ∧ generateUnidiff ["x", "y"] ["x", "y"] [⟨Change.Equal, 0, 0⟩, ⟨Change.Equal, 1, 1⟩]
          "a.txt" "T1" "b.txt" "T2" 3 true
        = some ("--- " ++ "a.txt" ++ "\t" ++ "T1" ++ "\n"
            ++ "+++ " ++ "b.txt" ++ "\t" ++ "T2" ++ "\n"
            ++ (if true then "" else "\\ No newline at end of file\n")) :=
  ⟨by decide,
    C23_all_equal_no_hunk ["x", "y"] ["x", "y"] [⟨Change.Equal, 0, 0⟩, ⟨Change.Equal, 1, 1⟩]
      "a.txt" "T1" "b.txt" "T2" 3 true (by decide)⟩

/-- C24. For every hunk range `[start, stop]` inside the script whose operations
refer to existing lines, `Diff::generateHunk` writes to the stream the range line
`@@ -a,b +c,d @@`, where `a` and `c` are the `unsigned int` values of
`lineOld + 1` and `lineNew + 1` of `items[start]` and `b`, `d` are the two counts
it is given, and then, for each operation of `items[start..stop]` in order, exactly
one body line: `' ' + A[i]` for `Equal`, `'-' + A[i]` for `Remove`, `'+' + B[j]` for
`Insert`, each ended by a line feed. The text written to the stream is the same
for all options, with or without colours: the colours are calls of the colour
handler between the writes. -/
theorem C24_hunk_text (options : Options) (A B : List String) (items : List DiffItem)
    (h : HunkCall) (h1 : h.start ≤ h.stop) (h2 : h.stop < items.length)
    (hA : ∀ it ∈ hunkItems items h, it.change ≠ Change.Insert → it.lineOld < A.length)
    (hB : ∀ it ∈ hunkItems items h, it.change = Change.Insert → it.lineNew < B.length) :
    ∃ first effects, items[h.start]? = some first
      ∧ generateHunkEffects options A B items h = some effects
      ∧ writtenText effects
        = "@@ -" ++ toString (u32 (first.lineOld + 1)) ++ "," ++ toString h.linesChangedOld
            ++ " +" ++ toString (u32 (first.lineNew + 1)) ++ ","
            ++ toString h.linesChangedNew ++ " @@\n"
            ++ concat ((hunkItems items h).map (specLine A B))
      ∧ (first.lineOld < 4294967295 → u32 (first.lineOld + 1) = first.lineOld + 1)
      ∧ (first.lineNew < 4294967295 → u32 (first.lineNew + 1) = first.lineNew + 1)
      ∧ ((hunkItems items h).map (specLine A B)).length = h.stop + 1 - h.start
      ∧ ∀ options2 : Options,
          (generateHunkEffects options2 A B items h).map writtenText
            = some (writtenText effects) := by
  have hlt : h.start < items.length := by omega
  have hbody := hunkBody_specLines A B items (h.stop + 1 - h.start) h.start (by omega)
    (fun it hit => ⟨hA it hit, hB it hit⟩)
  have htext : generateHunk A B items h
      = some ("@@ -" ++ toString (u32 (items[h.start].lineOld + 1)) ++ ","
          ++ toString h.linesChangedOld
          ++ " +" ++ toString (u32 (items[h.start].lineNew + 1)) ++ ","
          ++ toString h.linesChangedNew ++ " @@\n"
          ++ concat ((hunkItems items h).map (specLine A B))) := by
    unfold generateHunk hunkHeader
    rw [List.getElem?_eq_getElem hlt, hbody]
    rfl
  have heff := generateHunkEffects_text options A B items h
  rw [htext] at heff
  obtain ⟨effects, he1, he2⟩ := Option.map_eq_some'.1 heff
  refine ⟨items[h.start], effects, List.getElem?_eq_getElem hlt, he1, he2,
    fun hl => u32_of_lt _ (by omega), fun hl => u32_of_lt _ (by omega), ?_, ?_⟩
  · unfold hunkItems
    rw [List.length_map, List.length_take, List.length_drop]
    omega
  · intro options2
    rw [generateHunkEffects_text options2 A B items h, htext, he2]

/-- Instance of C24 for the script of `A = ["a", "b"]`, `B = ["a", "c"]` and the hunk
that covers it, with colours in use. -/
theorem C24_hunk_text_witness :
    writtenText
        [Effect.setColor Color.Magenta, Effect.os "@@ -1,2 +1,2 @@\n", Effect.resetColor,
          Effect.os " a\n", Effect.setColor Color.Red, Effect.os "-b\n", Effect.resetColor,
          Effect.setColor Color.Green, Effect.os "+c\n", Effect.resetColor]
        = "@@ -1,2 +1,2 @@\n a\n-b\n+c\n"
      ∧ generateHunkEffects ⟨true, false, false, 3, ""⟩ ["a", "b"] ["a", "c"]
          [⟨Change.Equal, 0, 0⟩, ⟨Change.Remove, 1, 1⟩, ⟨Change.Insert, 1, 1⟩] ⟨0, 2, 2, 2⟩
        = some [Effect.setColor Color.Magenta, Effect.os "@@ -1,2 +1,2 @@\n",
            Effect.resetColor, Effect.os " a\n", Effect.setColor Color.Red, Effect.os "-b\n",
            Effect.resetColor, Effect.setColor Color.Green, Effect.os "+c\n",
            Effect.resetColor]
      ∧ ∃ first effects,
          ([⟨Change.Equal, 0, 0⟩, ⟨Change.Remove, 1, 1⟩, ⟨Change.Insert, 1, 1⟩]
            : List DiffItem)[(⟨0, 2, 2, 2⟩ : HunkCall).start]? = some first
        ∧ generateHunkEffects ⟨true, false, false, 3, ""⟩ ["a", "b"] ["a", "c"]
            [⟨Change.Equal, 0, 0⟩, ⟨Change.Remove, 1, 1⟩, ⟨Change.Insert, 1, 1⟩] ⟨0, 2, 2, 2⟩
          = some effects
        ∧ writtenText effects
          = "@@ -" ++ toString (u32 (first.lineOld + 1)) ++ ","
              ++ toString (⟨0, 2, 2, 2⟩ : HunkCall).linesChangedOld
              ++ " +" ++ toString (u32 (first.lineNew + 1)) ++ ","
              ++ toString (⟨0, 2, 2, 2⟩ : HunkCall).linesChangedNew ++ " @@\n"
              ++ concat ((hunkItems [⟨Change.Equal, 0, 0⟩, ⟨Change.Remove, 1, 1⟩,
                  ⟨Change.Insert, 1, 1⟩] ⟨0, 2, 2, 2⟩).map (specLine ["a", "b"] ["a", "c"]))
        ∧ (first.lineOld < 4294967295 → u32 (first.lineOld + 1) = first.lineOld + 1)
        ∧ (first.lineNew < 4294967295 → u32 (first.lineNew + 1) = first.lineNew + 1)
        ∧ ((hunkItems [⟨Change.Equal, 0, 0⟩, ⟨Change.Remove, 1, 1⟩, ⟨Change.Insert, 1, 1⟩]
              ⟨0, 2, 2, 2⟩).map (specLine ["a", "b"] ["a", "c"])).length
            = (⟨0, 2, 2, 2⟩ : HunkCall).stop + 1 - (⟨0, 2, 2, 2⟩ : HunkCall).start
        ∧ ∀ options2 : Options,
            (generateHunkEffects options2 ["a", "b"] ["a", "c"]
              [⟨Change.Equal, 0, 0⟩, ⟨Change.Remove, 1, 1⟩, ⟨Change.Insert, 1, 1⟩]
              ⟨0, 2, 2, 2⟩).map writtenText
              = some (writtenText effects) :=
  ⟨by decide, by decide,
    C24_hunk_text ⟨true, false, false, 3, ""⟩ ["a", "b"] ["a", "c"]
      [⟨Change.Equal, 0, 0⟩, ⟨Change.Remove, 1, 1⟩, ⟨Change.Insert, 1, 1⟩] ⟨0, 2, 2, 2⟩
      (by decide) (by decide) (by decide) (by decide)⟩

/-- C25 fails for a long script. For an original file of the one line `b` and a
modified file of 65537 other lines followed by the line `b`, the script of
`Diff::calculate` consists of 65537 insertions and one unchanged line, and every
operation refers to an existing line. With three context lines the scan loop of
`Diff::generateUnidiff`, which runs after the two header lines have been written,
never ends on this script: after any number of iterations it is at an item of the
script. The function does not return, whatever the file names, the time stamps and
the end of the modified file: no text is completed, and the line
`\ No newline at end of file` is never written. -/
theorem C25_long_script_no_text :
    calculate ["b"] (manyLines 65537 ++ ["b"]) = CalcResult.script longInsertScript
      ∧ (∀ it ∈ longInsertScript,
          (bodyLine ["b"] (manyLines 65537 ++ ["b"]) it).isSome = true)
      ∧ (∀ n, ∃ s,
          scanIterate longInsertScript 3 longInsertScript.length n initialScan = some s
            ∧ s.i < longInsertScript.length)
      ∧ ∀ (originalFilename originalStamp modifiedFilename modifiedStamp : String)
          (endingNewLine : Bool),
          generateUnidiff ["b"] (manyLines 65537 ++ ["b"]) longInsertScript
            originalFilename originalStamp modifiedFilename modifiedStamp 3 endingNewLine
            = none := by
  have hloops := longInsertScript_loops 3 (by norm_num) (by norm_num)
  refine ⟨calculate_longInsert, ?_, hloops.1, ?_⟩
  · intro it hit
    unfold longInsertScript at hit
    rcases List.mem_append.1 hit with h | h
    · obtain ⟨j, hj, e⟩ := List.mem_map.1 h
      rw [← e]
      refine bodyLine_insert_defined _ _ 0 j ?_
      rw [List.length_append, manyLines_length]
      have := List.mem_range.1 hj
      simp only [List.length_singleton]
      omega
    · rw [List.mem_singleton.1 h]
      exact bodyLine_equal_defined _ _ 0 65537 (Nat.zero_lt_succ 0)
  · intro originalFilename originalStamp modifiedFilename modifiedStamp endingNewLine
    have e : u32 longInsertScript.length = longInsertScript.length := by
      rw [longInsertScript_length]
      decide
    have hu : unidiffHunks longInsertScript 3 = none := by
      unfold unidiffHunks
      simp only []
      rw [e]
      exact hloops.2 _
    exact generateUnidiff_no_hunks _ _ _ _ _ _ _ _ _ hu

/-- C25, for the scripts that fit the `unsigned short` positions of a hunk. For
every script of fewer than 65536 operations that refer to existing lines, the text produced by `Diff::generateUnidiff` is the line
`--- <original file name>\t<time stamp>`, the line
`+++ <modified file name>\t<time stamp>`, then the texts of the hunks, which follow
one another in script order, and then the line `\ No newline at end of file` when
the modified file does not end with a line feed. When no line of the two files and
no time stamp of the modified file holds a line feed, the text ends with the line
`\ No newline at end of file` if and only if the modified file does not end with a
line feed, whether hunks are printed or not. -/
theorem C25_output_shape (A B : List String) (items : List DiffItem)
    (originalFilename originalStamp modifiedFilename modifiedStamp : String)
    (C : Nat) (endingNewLine : Bool)
    (hn : items.length < 65536) (hC : C < 4294967296)
    (hall : ∀ it ∈ items, (bodyLine A B it).isSome = true)
    (hA : ∀ l ∈ A, '\n' ∉ l.data) (hB : ∀ l ∈ B, '\n' ∉ l.data)
    (hst : '\n' ∉ modifiedStamp.data) :
    ∃ hs texts text, unidiffHunks items C = some hs
      ∧ hs.Pairwise (fun h1 h2 => h1.stop < h2.start)
      ∧ List.Forall₂ (fun h t => generateHunk A B items h = some t) hs texts
      ∧ generateUnidiff A B items originalFilename originalStamp modifiedFilename
          modifiedStamp C endingNewLine = some text
      ∧ text = "--- " ++ originalFilename ++ "\t" ++ originalStamp ++ "\n"
          ++ "+++ " ++ modifiedFilename ++ "\t" ++ modifiedStamp ++ "\n"
          ++ concat texts
          ++ (if endingNewLine then "" else "\\ No newline at end of file\n")
      ∧ (EndsWithLine text noNewlineLine ↔ endingNewLine = false) := by
  obtain ⟨hs, hu, hok, hp⟩ := unidiffHunks_order items C hn hC
  obtain ⟨body, hb⟩ := Option.isSome_iff_exists.1 (hunksText_some A B items hall hs hok)
  obtain ⟨texts, hf, ht⟩ := hunksText_concat A B items hs body hb
  have hbody : body = "" ∨ EndsGood body.data := by
    rcases hunksText_ends A B hA hB items hs body (fun h hh => (hok h hh).ordered) hb with
      ⟨_, h0⟩ | hg
    · exact Or.inl h0
    · exact Or.inr hg
  have hH : ("--- " ++ originalFilename ++ "\t" ++ originalStamp ++ "\n"
      ++ "+++ " ++ modifiedFilename ++ "\t" ++ modifiedStamp ++ "\n").data
      = ("--- " ++ originalFilename ++ "\t" ++ originalStamp ++ "\n"
          ++ "+++ " ++ modifiedFilename).data ++ '\t' :: modifiedStamp.data ++ ['\n'] := by
    simp only [String.data_append, List.append_assoc]
    rfl
  refine ⟨hs, texts, _, hu, hp, hf, ?_, rfl, ?_⟩
  · unfold generateUnidiff
    rw [hu]
    simp only []
    rw [hb, ht]
  · rw [← ht]
    exact endsWithLine_iff _ body endingNewLine _ _ hH hst hbody

/-- Instance of C25 for `A = ["a"]`, `B = ["b"]` and a modified file without line feed
at its end. -/
theorem C25_output_shape_witness :
    generateUnidiff ["a"] ["b"] [⟨Change.Remove, 0, 0⟩, ⟨Change.Insert, 0, 0⟩]
        "a.txt" "T1" "b.txt" "T2" 3 false
        = some "--- a.txt\tT1\n+++ b.txt\tT2\n@@ -1,1 +1,1 @@\n-a\n+b\n\\ No newline at end of file\n"
      ∧ ∃ hs texts text,
          unidiffHunks [⟨Change.Remove, 0, 0⟩, ⟨Change.Insert, 0, 0⟩] 3 = some hs
        ∧ hs.Pairwise (fun h1 h2 => h1.stop < h2.start)
        ∧ List.Forall₂
            (fun h t => generateHunk ["a"] ["b"]
              [⟨Change.Remove, 0, 0⟩, ⟨Change.Insert, 0, 0⟩] h = some t) hs texts
        ∧ generateUnidiff ["a"] ["b"] [⟨Change.Remove, 0, 0⟩, ⟨Change.Insert, 0, 0⟩]
            "a.txt" "T1" "b.txt" "T2" 3 false = some text
        ∧ text = "--- " ++ "a.txt" ++ "\t" ++ "T1" ++ "\n"
            ++ "+++ " ++ "b.txt" ++ "\t" ++ "T2" ++ "\n"
            ++ concat texts
            ++ (if false then "" else "\\ No newline at end of file\n")
        ∧ (EndsWithLine text noNewlineLine ↔ false = false) :=
  ⟨by decide,
    C25_output_shape ["a"] ["b"] [⟨Change.Remove, 0, 0⟩, ⟨Change.Insert, 0, 0⟩]
      "a.txt" "T1" "b.txt" "T2" 3 false (by decide) (by decide) (by decide) (by decide)
      (by decide) (by decide)⟩

/-- C26, as stated, fails on both command lines of the claim: for
`-n 5 --lines 7 a b` the count used is `5`, not the value `7` of the flag given
last, and for `--lines 7 -n 3 a b` it is `7`, not the value `3` of the flag given
last. -/
theorem C26_last_flag_does_not_win :
    parseArguments ["-n", "5", "--lines", "7", "a", "b"] registered
        = Run.value (some ⟨⟨false, false, false, 5, ""⟩, "a", "b"⟩)
      ∧ parseArguments ["--lines", "7", "-n", "3", "a", "b"] registered
        = Run.value (some ⟨⟨false, false, false, 7, ""⟩, "a", "b"⟩) := by
  refine ⟨by decide, by decide⟩

/-- C26, amended. `-n` and `--lines` both set the context-line count, and the order
in which they are given does not matter: the count depends on the texts `tn` and
`tl` of the two values. For all texts `tn` and `tl` that are not names of options
and all names of the two files, on the command lines `-n tn --lines tl p1 p2` and
`--lines tl -n tn p1 p2` the count is `str2uint(tn)` unless `tn` is the text `3`,
and when `tn` is the text `3` it is `str2uint(tl)` unless `tl` is the text `3`, and
`3` otherwise; on `-n tn p1 p2` it is `str2uint(tn)`; on `--lines tl p1 p2` it is
`str2uint(tl)`; and on `p1 p2` it is `3`. An exception of `str2uint` ends the
function; otherwise the names of the two files are checked next. On every command
line for which `AppController::parseArguments` returns `true`, the count follows
the same rule from the texts that `ArgParser::parse` has stored for `-n` and
`--lines`. For every number `a` of the type `unsigned int`, `str2uint` of its
decimal rendering is `a`. -/
theorem C26_count_from_flag_texts (tn tl p1 p2 : String)
    (hn : getArgumentIndex registered tn = none) (hl : getArgumentIndex registered tl = none)
    (hp : p1 ≠ "-h" ∧ p1 ≠ "--help") :
    parseArguments ["-n", tn, "--lines", tl, p1, p2] registered
        = (if tn ≠ "3" then str2uint tn else if tl ≠ "3" then str2uint tl
            else Run.value 3).andThen
            (fun c =>
              if isValidFilename p1 = false ∨ isValidFilename p2 = false then
                Run.raise (Failure.invalidArgument "input file name is not valid")
              else Run.value (some ⟨⟨false, false, false, c, ""⟩, p1, p2⟩))
      ∧ parseArguments ["--lines", tl, "-n", tn, p1, p2] registered
        = parseArguments ["-n", tn, "--lines", tl, p1, p2] registered
      ∧ parseArguments ["-n", tn, p1, p2] registered
        = (str2uint tn).andThen
            (fun c =>
              if isValidFilename p1 = false ∨ isValidFilename p2 = false then
                Run.raise (Failure.invalidArgument "input file name is not valid")
              else Run.value (some ⟨⟨false, false, false, c, ""⟩, p1, p2⟩))
      ∧ parseArguments ["--lines", tl, p1, p2] registered
        = (str2uint tl).andThen
            (fun c =>
              if isValidFilename p1 = false ∨ isValidFilename p2 = false then
                Run.raise (Failure.invalidArgument "input file name is not valid")
              else Run.value (some ⟨⟨false, false, false, c, ""⟩, p1, p2⟩))
      ∧ parseArguments [p1, p2] registered
        = (if isValidFilename p1 = false ∨ isValidFilename p2 = false then
            Run.raise (Failure.invalidArgument "input file name is not valid")
          else Run.value (some ⟨⟨false, false, false, 3, ""⟩, p1, p2⟩))
      ∧ (∀ (argv : List String) (parsed : List Argument) (settings : Settings),
          parse argv registered = Run.value parsed →
          parseArguments argv registered = Run.value (some settings) →
          (if getArgumentValue parsed "-n" ≠ "3" then
              str2uint (getArgumentValue parsed "-n")
            else if getArgumentValue parsed "--lines" ≠ "3" then
              str2uint (getArgumentValue parsed "--lines")
            else Run.value 3) = Run.value settings.options.contextLines)
      ∧ ∀ a : Nat, a < 4294967296 → str2uint (toString a) = Run.value a :=
  have h := parseArguments_context_texts tn tl p1 p2 hn hl hp
  ⟨h.1, h.2.1, h.2.2.1, h.2.2.2.1, h.2.2.2.2, parseArguments_count, str2uint_natRepr⟩

/-- Instance of C26 for the texts `03` of `-n` and `7` of `--lines` and the files `a`
and `b`: the text `03` is not the text `3`, and the count is `3` in either order. -/
theorem C26_count_from_flag_texts_witness :
    parseArguments ["-n", "03", "--lines", "7", "a", "b"] registered
        = Run.value (some ⟨⟨false, false, false, 3, ""⟩, "a", "b"⟩)
      ∧ parseArguments ["--lines", "7", "-n", "03", "a", "b"] registered
        = Run.value (some ⟨⟨false, false, false, 3, ""⟩, "a", "b"⟩)
      ∧ getArgumentIndex registered "03" = none
      ∧ getArgumentIndex registered "7" = none
      ∧ (("a" : String) ≠ "-h" ∧ ("a" : String) ≠ "--help")
      ∧ parseArguments ["-n", "03", "--lines", "7", "a", "b"] registered
        = (if ("03" : String) ≠ "3" then str2uint "03"
            else if ("7" : String) ≠ "3" then str2uint "7" else Run.value 3).andThen
            (fun c =>
              if isValidFilename "a" = false ∨ isValidFilename "b" = false then
                Run.raise (Failure.invalidArgument "input file name is not valid")
              else Run.value (some ⟨⟨false, false, false, c, ""⟩, "a", "b"⟩))
      ∧ parseArguments ["--lines", "7", "-n", "03", "a", "b"] registered
        = parseArguments ["-n", "03", "--lines", "7", "a", "b"] registered
      ∧ parseArguments ["-n", "03", "a", "b"] registered
        = (str2uint "03").andThen
            (fun c =>
              if isValidFilename "a" = false ∨ isValidFilename "b" = false then
                Run.raise (Failure.invalidArgument "input file name is not valid")
              else Run.value (some ⟨⟨false, false, false, c, ""⟩, "a", "b"⟩))
      ∧ parseArguments ["--lines", "7", "a", "b"] registered
        = (str2uint "7").andThen
            (fun c =>
              if isValidFilename "a" = false ∨ isValidFilename "b" = false then
                Run.raise (Failure.invalidArgument "input file name is not valid")
              else Run.value (some ⟨⟨false, false, false, c, ""⟩, "a", "b"⟩))
      ∧ parseArguments ["a", "b"] registered
        = (if isValidFilename "a" = false ∨ isValidFilename "b" = false then
            Run.raise (Failure.invalidArgument "input file name is not valid")
          else Run.value (some ⟨⟨false, false, false, 3, ""⟩, "a", "b"⟩))
      ∧ (∀ (argv : List String) (parsed : List Argument) (settings : Settings),
          parse argv registered = Run.value parsed →
          parseArguments argv registered = Run.value (some settings) →
          (if getArgumentValue parsed "-n" ≠ "3" then
              str2uint (getArgumentValue parsed "-n")
            else if getArgumentValue parsed "--lines" ≠ "3" then
              str2uint (getArgumentValue parsed "--lines")
            else Run.value 3) = Run.value settings.options.contextLines)
      ∧ ∀ a : Nat, a < 4294967296 → str2uint (toString a) = Run.value a :=
  ⟨by decide, by decide, by decide, by decide, by decide,
    C26_count_from_flag_texts "03" "7" "a" "b" (by decide) (by decide) (by decide)⟩

/-- C27, as stated, fails on the input of the claim: the name `dir/file.txt` holds the
character `/`, and `StringHelper::isValidFilename` returns `true` for it, since only
the base name `file.txt` is checked. -/
theorem C27_directory_part_not_checked :
    '/' ∈ ("dir/file.txt" : String).data
      ∧ getBaseFilename "dir/file.txt" = "file.txt"
      ∧ isValidFilename "dir/file.txt" = true := by
  refine ⟨by decide, by decide, by decide⟩

/-- C27, amended. `StringHelper::isValidFilename` checks the base name of its
argument, which is what follows the last `/` or `\` of the argument: it returns
`false` exactly when the base name is empty, or longer than 255 bytes, or contains
one of the characters `: * ? " < > |`, or is one of the reserved names when its
letters are made capital letters, and `true` otherwise. The check is applied to
the two input paths, and to the path of the output file when one is given:
`AppController::parseArguments` fails when the check fails. -/
theorem C27_base_name_checked :
    (∀ str : String, ∃ dir : List Char, str.data = dir ++ (getBaseFilename str).data
        ∧ (∀ c ∈ (getBaseFilename str).data, c ≠ '/' ∧ c ≠ '\\')
        ∧ (dir = [] ∨ ∃ d, dir = d ++ ['/'] ∨ dir = d ++ ['\\'])
        ∧ (isValidFilename str = false
            ↔ ((getBaseFilename str).data = [] ∨ 255 < (getBaseFilename str).utf8ByteSize
              ∨ (∃ c ∈ (getBaseFilename str).data, c ∈ [':', '*', '?', '"', '<', '>', '|'])
              ∨ toUppercase (getBaseFilename str) ∈ reservedNames)))
      ∧ (∀ p1 p2 : String, p1 ≠ "-h" → p1 ≠ "--help" →
          parseArguments [p1, p2] registered
            = if isValidFilename p1 = false ∨ isValidFilename p2 = false then
                Run.raise (Failure.invalidArgument "input file name is not valid")
              else Run.value (some ⟨⟨false, false, false, 3, ""⟩, p1, p2⟩))
      ∧ (∀ o p1 p2 : String, getArgumentIndex registered o = none → o ≠ "" →
          isValidFilename o = false →
          parseArguments ["-o", o, p1, p2] registered
            = Run.raise (Failure.invalidArgument "output file name is not valid")) := by
  refine ⟨?_, ?_, ?_⟩
  · intro str
    obtain ⟨dir, h1, h2, h3⟩ := getBaseFilename_spec str
    exact ⟨dir, h1, h2, h3, isValidFilename_iff str⟩
  · intro p1 p2 hp1 hp2
    have hparse : parse ([] ++ [p1, p2]) registered
        = Run.value ((registered.set 8 ⟨"-n", false, "3"⟩).set 9 ⟨"--lines", false, "3"⟩) := by
      rw [parse_eq_tokens _ _ _ _ (by
        simp only [List.nil_append, List.getElem?_cons_zero, ne_eq, Option.some.injEq]
        exact ⟨hp1, hp2⟩)]
      rfl
    exact parseArguments_context _ p1 p2 _ _ _ _ hparse rfl
      (by decide : contextLinesOf "3" "3" 3 = Run.value 3)
  · intro o p1 p2 ho hne hbad
    exact parseArguments_output o p1 p2 ho hne hbad

/-- C28, as stated, fails when the option follows the name of an argument that takes
a value: after `-o`, the two tokens `-n 5` make `ArgParser::parse` fail, since `-n`
is the name of an argument, and the single token `-n=5` is taken as the value of
`-o`. -/
theorem C28_after_value_flag_differs :
    parse ["-o", "-n", "5", "a", "b"] registered
        = Run.raise (Failure.invalidArgument "invalid arguments")
      ∧ parse ["-o", "-n=5", "a", "b"] registered
        = Run.value
            [⟨"-h", true, "false"⟩, ⟨"--help", true, "false"⟩, ⟨"-c", true, "false"⟩,
              ⟨"--color", true, "false"⟩, ⟨"-a", true, "false"⟩,
              ⟨"--force-ansi", true, "false"⟩, ⟨"-o", false, "-n=5"⟩,
              ⟨"--out-file", false, ""⟩, ⟨"-n", false, "3"⟩, ⟨"--lines", false, "3"⟩] := by
  refine ⟨by decide, by decide⟩

/-- C28, amended. For every value flag `f` of `-o`, `--out-file`, `-n`, `--lines`,
every value `v` that is not the name of a registered flag, and all arguments before
and after the option, followed by the two file paths, such that the option does not
directly follow the name of a value flag: `ArgParser::parse` leaves exactly the
same argument values, or fails in the same way, when the option is written as the
single token `f=v` as when it is written as the two tokens `f v`. -/
theorem C28_equals_form (f v : String) (pre post : List String) (p1 p2 : String)
    (hf : f ∈ valueFlags) (hv : getArgumentIndex registered v = none)
    (hlast : ∀ g, pre.getLast? = some g → g ∉ valueFlags) :
    parse (pre ++ (f ++ "=" ++ v) :: post ++ [p1, p2]) registered
      = parse (pre ++ f :: v :: post ++ [p1, p2]) registered :=
  parse_equals_form f v pre post p1 p2 hf hv hlast

/-- Instance of C28 for the command lines `-c -n=5 -a a b` and `-c -n 5 -a a b`. -/
theorem C28_equals_form_witness :
    "-n" ∈ valueFlags ∧ getArgumentIndex registered "5" = none
      ∧ (∀ g, (["-c"] : List String).getLast? = some g → g ∉ valueFlags)
      ∧ parse (["-c"] ++ ("-n" ++ "=" ++ "5") :: ["-a"] ++ ["a", "b"]) registered
        = parse (["-c"] ++ "-n" :: "5" :: ["-a"] ++ ["a", "b"]) registered :=
  ⟨by decide, by decide,
    fun g hg => by
      have e : g = "-c" := by simpa using hg.symm
      rw [e]
      decide,
    C28_equals_form "-n" "5" ["-c"] ["-a"] "a" "b" (by decide) (by decide)
      (fun g hg => by
        have e : g = "-c" := by simpa using hg.symm
        rw [e]
        decide)⟩

/-- C29. For every integer `n`, `StringHelper::str2uint` applied to the decimal
rendering of `n` returns `n` when `0 ≤ n ≤ 4294967295`; otherwise it throws, and
never returns a value: a `std::range_error` with the message
`value is out of acceptable range` when `n` is outside that range and inside the
range of `long long`, and the `std::out_of_range` of `std::stoll` when `n` is
outside the range of `long long`. -/
theorem C29_str2uint_range (n : Int) :
    str2uint (toString n)
      = if 0 ≤ n ∧ n ≤ 4294967295 then Run.value n.toNat
        else if -9223372036854775808 ≤ n ∧ n ≤ 9223372036854775807 then
          Run.raise (Failure.rangeError "value is out of acceptable range")
        else Run.raise (Failure.outOfRange "stoll") :=
  str2uint_toString n

/-- C30. Whenever colours are not requested or the output goes to a file, for every
script of fewer than 65536 operations that refer to existing lines, the effects of
`Diff::generateUnidiff` between the creation and the destruction of the colour
handler contain exactly one call of the colour handler: the call of `resetColor`
made by its destructor. On the systems other than Windows the handler uses escape
codes, so that this call writes the escape code `ESC [0m` to the standard
output. -/
theorem C30_destructor_resets_colour (options : Options)
    (hplain : options.useColors = false ∨ options.outputToFile = true)
    (ch : ColorHandler) (A B : List String) (items : List DiffItem)
    (hall : ∀ it ∈ items, (bodyLine A B it).isSome = true) (hn : items.length < 65536)
    (hC : options.contextLines < 4294967296)
    (originalFilename modifiedFilename originalStamp modifiedStamp : String)
    (endingNewLine : Bool) :
    ∃ effects, generateUnidiffEffects options (Except.ok ch) A B items originalFilename
          modifiedFilename (Except.ok (originalStamp, modifiedStamp)) endingNewLine
        = some effects
      ∧ colourCalls effects = [Effect.resetColor]
      ∧ consoleEffects ch effects = ch.apply none
      ∧ ColorHandler.create false options.forceAnsiCodes true true = Except.ok ⟨false, true⟩
      ∧ consoleEffects ⟨false, true⟩ effects = [ConsoleEffect.cout "\x1b[0m"] := by
  have hc : useColorsOf options = false := by
    unfold useColorsOf
    rcases hplain with h | h
    · rw [h]
      rfl
    · rw [h]
      simp
  obtain ⟨effects, he⟩ := generateUnidiffEffects_some options ch A B items hall hn hC
    originalFilename modifiedFilename originalStamp modifiedStamp endingNewLine
  have hcalls := generateUnidiffEffects_plain options hc ch A B items originalFilename
    modifiedFilename (Except.ok (originalStamp, modifiedStamp)) endingNewLine effects he
  refine ⟨effects, he, hcalls, ?_, rfl, ?_⟩
  · rw [consoleEffects_colourCalls, hcalls]
    simp [consoleEffects]
  · rw [consoleEffects_colourCalls, hcalls]
    rfl

/-- Instance of C30 for `A = ["a"]`, `B = ["b"]` with the default options, on a system
other than Windows: the effects end with the call of `resetColor`. -/
theorem C30_destructor_resets_colour_witness :
    generateUnidiffEffects ⟨false, false, false, 3, ""⟩ (Except.ok ⟨false, true⟩) ["a"] ["b"]
        [⟨Change.Remove, 0, 0⟩, ⟨Change.Insert, 0, 0⟩] "a.txt" "b.txt"
        (Except.ok ("T1", "T2")) true
        = some [Effect.os "--- a.txt\tT1\n", Effect.os "+++ b.txt\tT2\n",
            Effect.os "@@ -1,1 +1,1 @@\n", Effect.os "-a\n", Effect.os "+b\n",
            Effect.resetColor]
      ∧ ∃ effects, generateUnidiffEffects ⟨false, false, false, 3, ""⟩
            (Except.ok ⟨false, true⟩) ["a"] ["b"]
            [⟨Change.Remove, 0, 0⟩, ⟨Change.Insert, 0, 0⟩] "a.txt" "b.txt"
            (Except.ok ("T1", "T2")) true
          = some effects
        ∧ colourCalls effects = [Effect.resetColor]
        ∧ consoleEffects ⟨false, true⟩ effects = (⟨false, true⟩ : ColorHandler).apply none
        ∧ ColorHandler.create false (⟨false, false, false, 3, ""⟩ : Options).forceAnsiCodes
            true true = Except.ok ⟨false, true⟩
        ∧ consoleEffects ⟨false, true⟩ effects = [ConsoleEffect.cout "\x1b[0m"] :=
  ⟨by decide,
    C30_destructor_resets_colour ⟨false, false, false, 3, ""⟩ (Or.inl rfl) ⟨false, true⟩
      ["a"] ["b"] [⟨Change.Remove, 0, 0⟩, ⟨Change.Insert, 0, 0⟩] (by decide) (by decide)
      (by decide) "a.txt" "b.txt" "T1" "T2" true⟩

end Claims3

/-! ## Claims C31 to C38 -/

section Claims4

/-- C31. For every UTC offset in the range of `long long`, except its least value,
`DateTime::format` ends the time stamp with the sign of the offset, the hours
`|offset| div 3600` filled to two digits, and then the number
`(|offset| mod 3600) * 60`, filled to two digits: the remaining seconds are
multiplied by 60 where the minutes `(|offset| mod 3600) div 60` are meant. The
result is the rendering `±HHMM` of the specification when the offset is a whole
number of hours. -/
theorem C31_offset_minutes_multiplied (dt : DateTime)
    (h1 : -9223372036854775808 < dt.offset) (h2 : dt.offset ≤ 9223372036854775807) :
    dt.format
        = some (dateTimeText dt ++ (if 0 ≤ dt.offset then "+" else "-")
            ++ setw2 (toString (dt.offset.natAbs / 3600))
            ++ setw2 (toString (dt.offset.natAbs % 3600 * 60)))
      ∧ (dt.offset.natAbs % 3600 = 0 →
          dt.format = some (dateTimeText dt ++ specOffset dt.offset)) := by
  have e : dt.offset.natAbs - dt.offset.natAbs / 3600 * 3600 = dt.offset.natAbs % 3600 := by
    omega
  have hf : dt.format
      = some (dateTimeText dt ++ (if 0 ≤ dt.offset then "+" else "-")
          ++ setw2 (toString (dt.offset.natAbs / 3600))
          ++ setw2 (toString (dt.offset.natAbs % 3600 * 60))) := by
    unfold DateTime.format dateTimeText
    rw [if_pos ⟨h1, h2⟩]
    simp only []
    rw [e]
  refine ⟨hf, ?_⟩
  intro h0
  rw [hf]
  unfold specOffset
  rw [h0]
  simp only [String.append_assoc]

/-- Instance of C31 for the offset of 19800 seconds, five hours and a half: the
time stamp ends with `+05108000`, where the specification prescribes `+0530`. -/
theorem C31_offset_minutes_multiplied_witness :
    DateTime.format ⟨2024, 1, 2, 3, 4, 5, 6, 19800⟩ = some "2024-01-02 03:04:05.6 +05108000"
      ∧ specOffset 19800 = "+0530"
      ∧ DateTime.format ⟨2024, 1, 2, 3, 4, 5, 6, -3600⟩ = some "2024-01-02 03:04:05.6 -0100"
      ∧ (-9223372036854775808 : Int) < (⟨2024, 1, 2, 3, 4, 5, 6, 19800⟩ : DateTime).offset
      ∧ (⟨2024, 1, 2, 3, 4, 5, 6, 19800⟩ : DateTime).offset ≤ 9223372036854775807
      ∧ (DateTime.format ⟨2024, 1, 2, 3, 4, 5, 6, 19800⟩
          = some (dateTimeText ⟨2024, 1, 2, 3, 4, 5, 6, 19800⟩
              ++ (if 0 ≤ (⟨2024, 1, 2, 3, 4, 5, 6, 19800⟩ : DateTime).offset then "+" else "-")
              ++ setw2 (toString
                  ((⟨2024, 1, 2, 3, 4, 5, 6, 19800⟩ : DateTime).offset.natAbs / 3600))
              ++ setw2 (toString
                  ((⟨2024, 1, 2, 3, 4, 5, 6, 19800⟩ : DateTime).offset.natAbs % 3600 * 60)))
        ∧ ((⟨2024, 1, 2, 3, 4, 5, 6, 19800⟩ : DateTime).offset.natAbs % 3600 = 0 →
            DateTime.format ⟨2024, 1, 2, 3, 4, 5, 6, 19800⟩
              = some (dateTimeText ⟨2024, 1, 2, 3, 4, 5, 6, 19800⟩
                  ++ specOffset (⟨2024, 1, 2, 3, 4, 5, 6, 19800⟩ : DateTime).offset))) :=
  ⟨by decide, by decide, by decide, by decide, by decide,
    C31_offset_minutes_multiplied ⟨2024, 1, 2, 3, 4, 5, 6, 19800⟩ (by decide) (by decide)⟩

/-- C32. For every original sequence `A` of `N` pairwise distinct lines, every index
`p < N` and every line `X` that does not occur in `A`, the script of
`Diff::calculate` for `A` and `A` with line `p` replaced by `X` is exactly: the
`Equal` operations `(i, i)` for `i < p`, then the `Remove` of original line `p`,
then the `Insert` of modified line `p`, then the `Equal` operations `(i, i)` for
`p < i < N`. The removed line is listed before the inserted one. -/
theorem C32_replaced_line_script (A : List String) (p : Nat) (X : String)
    (hnd : A.Nodup) (hp : p < A.length) (hX : X ∉ A) :
    ∃ script, calculate A (A.set p X) = CalcResult.script script
      ∧ script
        = (List.range p).map (fun i => (⟨Change.Equal, i, i⟩ : DiffItem))
          ++ [⟨Change.Remove, p, p - 1⟩, ⟨Change.Insert, p, p⟩]
          ++ (List.range (A.length - (p + 1))).map
              (fun t => (⟨Change.Equal, p + 1 + t, p + 1 + t⟩ : DiffItem))
      ∧ script.length = A.length + 1
      ∧ (∀ i, i < p → script[i]? = some ⟨Change.Equal, i, i⟩)
      ∧ (∃ r, script[p]? = some r ∧ r.change = Change.Remove ∧ r.lineOld = p)
      ∧ (∃ a, script[p + 1]? = some a ∧ a.change = Change.Insert ∧ a.lineNew = p)
      ∧ (∀ i, p < i → i < A.length → script[i + 1]? = some ⟨Change.Equal, i, i⟩) := by
  refine ⟨replaceScript A.length p, calculate_replace A p X hnd hp hX, rfl,
    replaceScript_length A.length p hp, ?_, ?_, ?_, ?_⟩
  · intro i hi
    rw [replaceScript_getElem A.length p i hp (by omega), if_pos hi]
  · refine ⟨⟨Change.Remove, p, p - 1⟩, ?_, rfl, rfl⟩
    rw [replaceScript_getElem A.length p p hp (by omega), if_neg (by omega), if_pos rfl]
  · refine ⟨⟨Change.Insert, p, p⟩, ?_, rfl, rfl⟩
    rw [replaceScript_getElem A.length p (p + 1) hp (by omega), if_neg (by omega),
      if_neg (by omega), if_pos rfl]
  · intro i hi1 hi2
    rw [replaceScript_getElem A.length p (i + 1) hp (by omega), if_neg (by omega),
      if_neg (by omega), if_neg (by omega)]
    rfl

/-- Instance of C32 for `A = ["1", "2", "3", "4", "5"]`, `p = 2` and `X = "X"`. -/
theorem C32_replaced_line_script_witness :
    (["1", "2", "3", "4", "5"] : List String).Nodup
      ∧ 2 < (["1", "2", "3", "4", "5"] : List String).length
      ∧ "X" ∉ (["1", "2", "3", "4", "5"] : List String)
      ∧ calculate ["1", "2", "3", "4", "5"] ["1", "2", "X", "4", "5"]
          = CalcResult.script [⟨Change.Equal, 0, 0⟩, ⟨Change.Equal, 1, 1⟩,
              ⟨Change.Remove, 2, 1⟩, ⟨Change.Insert, 2, 2⟩, ⟨Change.Equal, 3, 3⟩,
              ⟨Change.Equal, 4, 4⟩]
      ∧ ∃ script,
          calculate ["1", "2", "3", "4", "5"]
              ((["1", "2", "3", "4", "5"] : List String).set 2 "X")
            = CalcResult.script script
        ∧ script
          = (List.range 2).map (fun i => (⟨Change.Equal, i, i⟩ : DiffItem))
            ++ [⟨Change.Remove, 2, 2 - 1⟩, ⟨Change.Insert, 2, 2⟩]
            ++ (List.range ((["1", "2", "3", "4", "5"] : List String).length - (2 + 1))).map
                (fun t => (⟨Change.Equal, 2 + 1 + t, 2 + 1 + t⟩ : DiffItem))
        ∧ script.length = (["1", "2", "3", "4", "5"] : List String).length + 1
        ∧ (∀ i, i < 2 → script[i]? = some ⟨Change.Equal, i, i⟩)
        ∧ (∃ r, script[2]? = some r ∧ r.change = Change.Remove ∧ r.lineOld = 2)
        ∧ (∃ a, script[2 + 1]? = some a ∧ a.change = Change.Insert ∧ a.lineNew = 2)
        ∧ (∀ i, 2 < i → i < (["1", "2", "3", "4", "5"] : List String).length →
            script[i + 1]? = some ⟨Change.Equal, i, i⟩) :=
  ⟨by decide, by decide, by decide, by decide,
    C32_replaced_line_script ["1", "2", "3", "4", "5"] 2 "X" (by decide) (by decide)
      (by decide)⟩

/-- C33. For every script of fewer than 65536 operations whose first operation that
is not `Equal` is at index `pos`, and every context count `C` of the type
`unsigned int`, `Diff::generateUnidiff` prints a hunk, and the first hunk printed
starts at the script index `max(0, pos - C)` and covers `pos`: exactly
`min(pos, C)` operations, all of them `Equal`, precede the first change in it. -/
theorem C33_first_hunk_start (items : List DiffItem) (C pos : Nat)
    (hn : items.length < 65536) (hC : C < 4294967296) (hpos : ChangedAt items pos)
    (hbefore : ∀ k, k < pos → EqualAt items k) :
    ∃ h rest, unidiffHunks items C = some (h :: rest)
      ∧ (h.start : Int) = max 0 ((pos : Int) - (C : Int))
      ∧ h.start ≤ pos ∧ pos ≤ h.stop
      ∧ pos - h.start = min pos C
      ∧ ∀ k, h.start ≤ k → k < pos → EqualAt items k := by
  obtain ⟨h, rest, hu, hs, hstop⟩ := unidiffHunks_first items C pos hn hC hpos hbefore
  refine ⟨h, rest, hu, ?_, by omega, hstop, by omega, fun k _ hk => hbefore k hk⟩
  rw [hs]
  omega

/-- Instance of C33 for a script of four unchanged lines, a removal and an
unchanged line, with three context lines: the hunk starts at index `1`. -/
theorem C33_first_hunk_start_witness :
    unidiffHunks [⟨Change.Equal, 0, 0⟩, ⟨Change.Equal, 1, 1⟩, ⟨Change.Equal, 2, 2⟩,
        ⟨Change.Equal, 3, 3⟩, ⟨Change.Remove, 4, 3⟩, ⟨Change.Equal, 5, 4⟩] 3
        = some [⟨1, 5, 5, 4⟩]
      ∧ ∃ h rest,
          unidiffHunks [⟨Change.Equal, 0, 0⟩, ⟨Change.Equal, 1, 1⟩, ⟨Change.Equal, 2, 2⟩,
            ⟨Change.Equal, 3, 3⟩, ⟨Change.Remove, 4, 3⟩, ⟨Change.Equal, 5, 4⟩] 3
            = some (h :: rest)
        ∧ (h.start : Int) = max 0 (((4 : Nat) : Int) - ((3 : Nat) : Int))
        ∧ h.start ≤ 4 ∧ 4 ≤ h.stop
        ∧ 4 - h.start = min 4 3
        ∧ ∀ k, h.start ≤ k → k < 4 →
            EqualAt [⟨Change.Equal, 0, 0⟩, ⟨Change.Equal, 1, 1⟩, ⟨Change.Equal, 2, 2⟩,
              ⟨Change.Equal, 3, 3⟩, ⟨Change.Remove, 4, 3⟩, ⟨Change.Equal, 5, 4⟩] k :=
  ⟨by decide,
    C33_first_hunk_start
      [⟨Change.Equal, 0, 0⟩, ⟨Change.Equal, 1, 1⟩, ⟨Change.Equal, 2, 2⟩,
        ⟨Change.Equal, 3, 3⟩, ⟨Change.Remove, 4, 3⟩, ⟨Change.Equal, 5, 4⟩] 3 4
      (by decide) (by decide) ⟨⟨Change.Remove, 4, 3⟩, rfl, by decide⟩
      (fun k hk => by
        interval_cases k
        · exact ⟨_, rfl, rfl⟩
        · exact ⟨_, rfl, rfl⟩
        · exact ⟨_, rfl, rfl⟩
        · exact ⟨_, rfl, rfl⟩)⟩

/-- C34. For every script of fewer than 65536 operations whose first operation that
is not `Equal` is at index `pos`, and every context count `C` that is at least the
length of the script and whose sum with that length is in the range of
`unsigned int`, `Diff::generateUnidiff` prints exactly one hunk, which starts at
index `0`. The hunk ends at the last operation of the script, except when the last
operation is a change, the operation before it is `Equal` and `pos` lies before
both: then the hunk ends at the operation before the last one, and the last
operation is not printed. -/
theorem C34_large_context_one_hunk (items : List DiffItem) (C pos : Nat)
    (hn : items.length < 65536) (hCn : items.length ≤ C)
    (hCs : C + items.length < 4294967296) (hpos : ChangedAt items pos)
    (hbefore : ∀ k, k < pos → EqualAt items k) :
    ∃ h, unidiffHunks items C = some [h] ∧ h.start = 0
      ∧ ((ChangedAt items (items.length - 1) ∧ EqualAt items (items.length - 2)
            ∧ pos + 2 < items.length) → h.stop + 2 = items.length)
      ∧ (¬ (ChangedAt items (items.length - 1) ∧ EqualAt items (items.length - 2)
            ∧ pos + 2 < items.length) → h.stop + 1 = items.length) :=
  unidiffHunks_whole items C pos hn hCn hCs hpos hbefore

/-- Instance of C34 for the script `Remove`, `Equal`, `Insert` of `A = ["a", "b"]` and
`B = ["b", "c"]` with three context lines: the hunk covers the script indices `0`
and `1`, and the insertion is not printed. With `C = 4294967295` the sum
`hunkEnd + C + 1` wraps around: for the script of `A = ["a", "b", "c", "d", "e"]`
and `B = ["a", "b", "d", "e"]` the hunk ends at the removal, without the two
unchanged lines that follow it. -/
theorem C34_large_context_one_hunk_witness :
    calculate ["a", "b"] ["b", "c"]
        = CalcResult.script [⟨Change.Remove, 0, 0⟩, ⟨Change.Equal, 1, 0⟩, ⟨Change.Insert, 1, 1⟩]
      ∧ unidiffHunks [⟨Change.Remove, 0, 0⟩, ⟨Change.Equal, 1, 0⟩, ⟨Change.Insert, 1, 1⟩] 3
        = some [⟨0, 1, 2, 1⟩]
      ∧ generateUnidiff ["a", "b"] ["b", "c"]
          [⟨Change.Remove, 0, 0⟩, ⟨Change.Equal, 1, 0⟩, ⟨Change.Insert, 1, 1⟩]
          "a.txt" "T1" "b.txt" "T2" 3 true
        = some "--- a.txt\tT1\n+++ b.txt\tT2\n@@ -1,2 +1,1 @@\n-a\n b\n"
      ∧ calculate ["a", "b", "c", "d", "e"] ["a", "b", "d", "e"]
        = CalcResult.script [⟨Change.Equal, 0, 0⟩, ⟨Change.Equal, 1, 1⟩,
            ⟨Change.Remove, 2, 1⟩, ⟨Change.Equal, 3, 2⟩, ⟨Change.Equal, 4, 3⟩]
      ∧ unidiffHunks [⟨Change.Equal, 0, 0⟩, ⟨Change.Equal, 1, 1⟩, ⟨Change.Remove, 2, 1⟩,
          ⟨Change.Equal, 3, 2⟩, ⟨Change.Equal, 4, 3⟩] 4294967295
        = some [⟨0, 2, 3, 2⟩]
      ∧ ∃ h, unidiffHunks
            [⟨Change.Remove, 0, 0⟩, ⟨Change.Equal, 1, 0⟩, ⟨Change.Insert, 1, 1⟩] 3 = some [h]
        ∧ h.start = 0
        ∧ ((ChangedAt [⟨Change.Remove, 0, 0⟩, ⟨Change.Equal, 1, 0⟩, ⟨Change.Insert, 1, 1⟩]
              (([⟨Change.Remove, 0, 0⟩, ⟨Change.Equal, 1, 0⟩, ⟨Change.Insert, 1, 1⟩]
                : List DiffItem).length - 1)
            ∧ EqualAt [⟨Change.Remove, 0, 0⟩, ⟨Change.Equal, 1, 0⟩, ⟨Change.Insert, 1, 1⟩]
              (([⟨Change.Remove, 0, 0⟩, ⟨Change.Equal, 1, 0⟩, ⟨Change.Insert, 1, 1⟩]
                : List DiffItem).length - 2)
            ∧ 0 + 2 < ([⟨Change.Remove, 0, 0⟩, ⟨Change.Equal, 1, 0⟩, ⟨Change.Insert, 1, 1⟩]
                : List DiffItem).length) →
            h.stop + 2 = ([⟨Change.Remove, 0, 0⟩, ⟨Change.Equal, 1, 0⟩,
              ⟨Change.Insert, 1, 1⟩] : List DiffItem).length)
        ∧ (¬ (ChangedAt [⟨Change.Remove, 0, 0⟩, ⟨Change.Equal, 1, 0⟩, ⟨Change.Insert, 1, 1⟩]
              (([⟨Change.Remove, 0, 0⟩, ⟨Change.Equal, 1, 0⟩, ⟨Change.Insert, 1, 1⟩]
                : List DiffItem).length - 1)
            ∧ EqualAt [⟨Change.Remove, 0, 0⟩, ⟨Change.Equal, 1, 0⟩, ⟨Change.Insert, 1, 1⟩]
              (([⟨Change.Remove, 0, 0⟩, ⟨Change.Equal, 1, 0⟩, ⟨Change.Insert, 1, 1⟩]
                : List DiffItem).length - 2)
            ∧ 0 + 2 < ([⟨Change.Remove, 0, 0⟩, ⟨Change.Equal, 1, 0⟩, ⟨Change.Insert, 1, 1⟩]
                : List DiffItem).length) →
            h.stop + 1 = ([⟨Change.Remove, 0, 0⟩, ⟨Change.Equal, 1, 0⟩,
              ⟨Change.Insert, 1, 1⟩] : List DiffItem).length) :=
  ⟨by decide, by decide, by decide, by decide, by decide,
    C34_large_context_one_hunk
      [⟨Change.Remove, 0, 0⟩, ⟨Change.Equal, 1, 0⟩, ⟨Change.Insert, 1, 1⟩] 3 0
      (by decide) (by decide) (by decide) ⟨⟨Change.Remove, 0, 0⟩, rfl, by decide⟩
      (fun k hk => absurd hk (Nat.not_lt_zero k))⟩

/-- C35. For every original sequence `A` of `N` lines and every non-empty modified
sequence `B` of `M` lines, with `MAX = N + M`: `Diff::calculate` returns a script,
and at every pair `(d, k)` at which the body of its inner loop is entered, the
first one being `(0, 0)`, the vectors `v_x` and `v_history` have their `2 * MAX + 1`
elements, `0 ≤ d ≤ MAX` and `-d ≤ k ≤ d`, the index `MAX + k + 1`, which is read in
every iteration, and the index `MAX + k`, which is written, lie in the range from
`0` to `2 * MAX`, so does the index `MAX + k - 1`, which is read when `k ≠ -d`, and
no access of the iteration leaves a vector. -/
theorem C35_vector_indices (A B : List String) (hB : B ≠ []) :
    (∃ script, calculate A B = CalcResult.script script)
      ∧ (⟨0, 0, List.replicate ((A.length + B.length) * 2 + 1) 0,
            List.replicate ((A.length + B.length) * 2 + 1) []⟩ : LoopState) ∈ visits A B
      ∧ ∀ s ∈ visits A B,
          s.v_x.length = 2 * (A.length + B.length) + 1
            ∧ s.v_history.length = 2 * (A.length + B.length) + 1
            ∧ 0 ≤ s.d ∧ s.d ≤ ((A.length + B.length : Nat) : Int)
            ∧ -s.d ≤ s.k ∧ s.k ≤ s.d
            ∧ (0 ≤ ((A.length + B.length : Nat) : Int) + s.k + 1
                ∧ ((A.length + B.length : Nat) : Int) + s.k + 1
                  ≤ 2 * ((A.length + B.length : Nat) : Int))
            ∧ (0 ≤ ((A.length + B.length : Nat) : Int) + s.k
                ∧ ((A.length + B.length : Nat) : Int) + s.k
                  ≤ 2 * ((A.length + B.length : Nat) : Int))
            ∧ (s.k ≠ -s.d →
                0 ≤ ((A.length + B.length : Nat) : Int) + s.k - 1
                  ∧ ((A.length + B.length : Nat) : Int) + s.k - 1
                    ≤ 2 * ((A.length + B.length : Nat) : Int))
            ∧ diagStep A B s.d s.k s.v_x s.v_history ≠ StepOutcome.fault := by
  have hlen : 1 ≤ B.length := by
    cases B with
    | nil => exact absurd rfl hB
    | cons b t => simp
  obtain ⟨script, e, hcalc, _, _⟩ := calculate_spec A B hlen
  refine ⟨⟨script, hcalc⟩, visits_first A B, ?_⟩
  intro s hs
  obtain ⟨g1, g2, g3, g4, g5, g6, g7, g8, g9⟩ := visits_indices A B hlen s hs
  refine ⟨g1, g2, g3, g4, g5, g6, g7, ⟨by omega, by omega⟩, fun hk => ⟨g8 hk, by omega⟩, g9⟩

/-- Instance of C35 for `A = ["a"]` and `B = ["b"]`: five pairs `(d, k)` are visited,
with vectors of five elements. -/
theorem C35_vector_indices_witness :
    (["b"] : List String) ≠ []
      ∧ (visits ["a"] ["b"]).map (fun s => (s.d, s.k))
          = [(0, 0), (1, -1), (1, 1), (2, -2), (2, 0)]
      ∧ (∃ script, calculate ["a"] ["b"] = CalcResult.script script)
      ∧ (⟨0, 0, List.replicate (((["a"] : List String).length
              + (["b"] : List String).length) * 2 + 1) 0,
            List.replicate (((["a"] : List String).length
              + (["b"] : List String).length) * 2 + 1) []⟩ : LoopState) ∈ visits ["a"] ["b"]
      ∧ ∀ s ∈ visits ["a"] ["b"],
          s.v_x.length = 2 * ((["a"] : List String).length + (["b"] : List String).length) + 1
            ∧ s.v_history.length
              = 2 * ((["a"] : List String).length + (["b"] : List String).length) + 1
            ∧ 0 ≤ s.d
            ∧ s.d ≤ (((["a"] : List String).length + (["b"] : List String).length : Nat) : Int)
            ∧ -s.d ≤ s.k ∧ s.k ≤ s.d
            ∧ (0 ≤ (((["a"] : List String).length + (["b"] : List String).length : Nat) : Int)
                  + s.k + 1
                ∧ (((["a"] : List String).length + (["b"] : List String).length : Nat) : Int)
                    + s.k + 1
                  ≤ 2 * (((["a"] : List String).length
                      + (["b"] : List String).length : Nat) : Int))
            ∧ (0 ≤ (((["a"] : List String).length + (["b"] : List String).length : Nat) : Int)
                  + s.k
                ∧ (((["a"] : List String).length + (["b"] : List String).length : Nat) : Int)
                    + s.k
                  ≤ 2 * (((["a"] : List String).length
                      + (["b"] : List String).length : Nat) : Int))
            ∧ (s.k ≠ -s.d →
                0 ≤ (((["a"] : List String).length + (["b"] : List String).length : Nat) : Int)
                    + s.k - 1
                  ∧ (((["a"] : List String).length + (["b"] : List String).length : Nat) : Int)
                      + s.k - 1
                    ≤ 2 * (((["a"] : List String).length
                        + (["b"] : List String).length : Nat) : Int))
            ∧ diagStep ["a"] ["b"] s.d s.k s.v_x s.v_history ≠ StepOutcome.fault :=
  ⟨by decide, by decide, C35_vector_indices ["a"] ["b"] (by decide)⟩

/-- C36. For every script of at most 65535 operations and every context count `C` of
the type `unsigned int`, no access of `Diff::generateUnidiff` and `generateHunk` to
`items` leaves the script: at every state that the scan loop reaches, its body,
with the reads `items[i]`, `items[j]` and `items[j + 1]` of the two look-ahead
loops, is defined, and every call `generateHunk(start, end, ...)` that it makes has
`start ≤ end < itemCount`; the scan ends with the list of these calls, and for each
of them the reads `items[start]` of the range line and `items[k]` for
`start ≤ k ≤ end` of the body are inside the script. -/
theorem C36_reads_inside_script (items : List DiffItem) (C : Nat)
    (hn : items.length ≤ 65535) (hC : C < 4294967296) :
    (∀ n s, scanIterate items C items.length n initialScan = some s →
        s.i < items.length →
        ∃ s2 hs ex, scanBody items C items.length s = some (s2, hs, ex)
          ∧ ∀ g ∈ hs, g.start ≤ g.stop ∧ g.stop < items.length)
      ∧ ∃ hs, unidiffHunks items C = some hs
        ∧ ∀ g ∈ hs, g.start ≤ g.stop ∧ g.stop < items.length
            ∧ (hunkHeader items g).isSome = true
            ∧ (hunkItems items g).length = g.stop + 1 - g.start
            ∧ ∀ k, g.start ≤ k → k ≤ g.stop → (items[k]?).isSome = true := by
  have hn2 : items.length < 65536 := by omega
  constructor
  · intro n s h hi
    obtain ⟨s2, hs, ex, hb, hok⟩ := scanIterate_defined items C hn2 hC n s h hi
    exact ⟨s2, hs, ex, hb, fun g hg => ⟨(hok g hg).ordered, (hok g hg).inside⟩⟩
  · obtain ⟨hs, hu, hok⟩ := unidiffHunks_spec items C hn2 hC
    refine ⟨hs, hu, fun g hg => ?_⟩
    have h1 := (hok g hg).ordered
    have h2 := (hok g hg).inside
    refine ⟨h1, h2, ?_, ?_, ?_⟩
    · unfold hunkHeader
      rw [List.getElem?_eq_getElem (by omega)]
      rfl
    · unfold hunkItems
      rw [List.length_take, List.length_drop]
      omega
    · intro k _ hk
      rw [List.getElem?_eq_getElem (by omega)]
      rfl

/-- Instance of C36 for the script `Remove`, `Equal`, `Insert` with three context
lines. -/
theorem C36_reads_inside_script_witness :
    ([⟨Change.Remove, 0, 0⟩, ⟨Change.Equal, 1, 0⟩, ⟨Change.Insert, 1, 1⟩]
        : List DiffItem).length ≤ 65535
      ∧ (3 : Nat) < 4294967296
      ∧ (∀ n s, scanIterate [⟨Change.Remove, 0, 0⟩, ⟨Change.Equal, 1, 0⟩, ⟨Change.Insert, 1, 1⟩]
            3 ([⟨Change.Remove, 0, 0⟩, ⟨Change.Equal, 1, 0⟩, ⟨Change.Insert, 1, 1⟩]
              : List DiffItem).length n initialScan = some s →
          s.i < ([⟨Change.Remove, 0, 0⟩, ⟨Change.Equal, 1, 0⟩, ⟨Change.Insert, 1, 1⟩]
            : List DiffItem).length →
          ∃ s2 hs ex,
            scanBody [⟨Change.Remove, 0, 0⟩, ⟨Change.Equal, 1, 0⟩, ⟨Change.Insert, 1, 1⟩] 3
              ([⟨Change.Remove, 0, 0⟩, ⟨Change.Equal, 1, 0⟩, ⟨Change.Insert, 1, 1⟩]
                : List DiffItem).length s = some (s2, hs, ex)
            ∧ ∀ g ∈ hs, g.start ≤ g.stop
              ∧ g.stop < ([⟨Change.Remove, 0, 0⟩, ⟨Change.Equal, 1, 0⟩,
                  ⟨Change.Insert, 1, 1⟩] : List DiffItem).length)
      ∧ ∃ hs, unidiffHunks
            [⟨Change.Remove, 0, 0⟩, ⟨Change.Equal, 1, 0⟩, ⟨Change.Insert, 1, 1⟩] 3 = some hs
        ∧ ∀ g ∈ hs, g.start ≤ g.stop
            ∧ g.stop < ([⟨Change.Remove, 0, 0⟩, ⟨Change.Equal, 1, 0⟩, ⟨Change.Insert, 1, 1⟩]
                : List DiffItem).length
            ∧ (hunkHeader [⟨Change.Remove, 0, 0⟩, ⟨Change.Equal, 1, 0⟩, ⟨Change.Insert, 1, 1⟩]
                g).isSome = true
            ∧ (hunkItems [⟨Change.Remove, 0, 0⟩, ⟨Change.Equal, 1, 0⟩, ⟨Change.Insert, 1, 1⟩]
                g).length = g.stop + 1 - g.start
            ∧ ∀ k, g.start ≤ k → k ≤ g.stop →
                (([⟨Change.Remove, 0, 0⟩, ⟨Change.Equal, 1, 0⟩, ⟨Change.Insert, 1, 1⟩]
                  : List DiffItem)[k]?).isSome = true :=
  ⟨by decide, by decide,
    C36_reads_inside_script
      [⟨Change.Remove, 0, 0⟩, ⟨Change.Equal, 1, 0⟩, ⟨Change.Insert, 1, 1⟩] 3
      (by decide) (by decide)⟩

/-- C37 fails for a long script, where the end of the hunk, an `unsigned short`,
wraps around while the counters of the loop are `unsigned int`: for an original
file of the one line `b` and a modified file of 65537 other lines followed by the
line `b`, the script of `Diff::calculate` consists of 65537 insertions and one
unchanged line. With three context lines the scan loop of `Diff::generateUnidiff`
never ends on this script: after any number of iterations it is at an item of the
script, no access has left the script, and the loop has no result, whatever the
bound on the number of its iterations. -/
theorem C37_long_script_never_ends :
    calculate ["b"] (manyLines 65537 ++ ["b"]) = CalcResult.script longInsertScript
      ∧ longInsertScript.length = 65538
      ∧ (∀ n, ∃ s,
          scanIterate longInsertScript 3 longInsertScript.length n initialScan = some s
            ∧ s.i < longInsertScript.length)
      ∧ (∀ fuel, scanLoop longInsertScript 3 longInsertScript.length fuel initialScan = none)
      ∧ unidiffHunks longInsertScript 3 = none := by
  have hloops := longInsertScript_loops 3 (by norm_num) (by norm_num)
  refine ⟨calculate_longInsert, longInsertScript_length, hloops.1, hloops.2, ?_⟩
  have e : u32 longInsertScript.length = longInsertScript.length := by
    rw [longInsertScript_length]
    decide
  unfold unidiffHunks
  simp only []
  rw [e]
  exact hloops.2 _

/-- C37, for the scripts that fit the `unsigned short` positions of a hunk. For
every script of fewer than 65536 operations and every context count `C` of the type
`unsigned int`, the scan loop of `Diff::generateUnidiff` ends
and prints its hunks: with `n` operations it ends within `2 * n` iterations. After
`k` iterations the measure `2 * (n - i) + (1 if isHunk, else 0)` of the state is at
most `2 * n - k`: an index is visited again only after the hunk that was open at
the first visit has been closed. -/
theorem C37_scan_loop_terminates (items : List DiffItem) (C : Nat)
    (hn : items.length < 65536) (hC : C < 4294967296) :
    (∃ hs, ∀ fuel, 2 * items.length < fuel →
        scanLoop items C items.length fuel initialScan = some hs)
      ∧ (∀ n s, scanIterate items C items.length n initialScan = some s →
          n + scanMeasure items s ≤ 2 * items.length)
      ∧ scanIterate items C items.length (2 * items.length + 1) initialScan = none :=
  scanLoop_terminates items C hn hC

/-- Instance of C37 for the script `Remove`, `Equal`, `Insert` with no context line
and with the greatest context count. -/
theorem C37_scan_loop_terminates_witness :
    unidiffHunks [⟨Change.Remove, 0, 0⟩, ⟨Change.Equal, 1, 0⟩, ⟨Change.Insert, 1, 1⟩] 0
        = some [⟨0, 0, 1, 0⟩, ⟨2, 2, 0, 1⟩]
      ∧ unidiffHunks [⟨Change.Remove, 0, 0⟩, ⟨Change.Equal, 1, 0⟩, ⟨Change.Insert, 1, 1⟩]
          4294967295 = some [⟨0, 0, 1, 0⟩, ⟨1, 2, 1, 2⟩]
      ∧ ([⟨Change.Remove, 0, 0⟩, ⟨Change.Equal, 1, 0⟩, ⟨Change.Insert, 1, 1⟩]
          : List DiffItem).length < 65536
      ∧ (4294967295 : Nat) < 4294967296
      ∧ (∃ hs, ∀ fuel,
          2 * ([⟨Change.Remove, 0, 0⟩, ⟨Change.Equal, 1, 0⟩, ⟨Change.Insert, 1, 1⟩]
            : List DiffItem).length < fuel →
          scanLoop [⟨Change.Remove, 0, 0⟩, ⟨Change.Equal, 1, 0⟩, ⟨Change.Insert, 1, 1⟩]
            4294967295 ([⟨Change.Remove, 0, 0⟩, ⟨Change.Equal, 1, 0⟩, ⟨Change.Insert, 1, 1⟩]
              : List DiffItem).length fuel initialScan = some hs)
      ∧ (∀ n s,
          scanIterate [⟨Change.Remove, 0, 0⟩, ⟨Change.Equal, 1, 0⟩, ⟨Change.Insert, 1, 1⟩]
            4294967295 ([⟨Change.Remove, 0, 0⟩, ⟨Change.Equal, 1, 0⟩, ⟨Change.Insert, 1, 1⟩]
              : List DiffItem).length n initialScan = some s →
          n + scanMeasure [⟨Change.Remove, 0, 0⟩, ⟨Change.Equal, 1, 0⟩, ⟨Change.Insert, 1, 1⟩] s
            ≤ 2 * ([⟨Change.Remove, 0, 0⟩, ⟨Change.Equal, 1, 0⟩, ⟨Change.Insert, 1, 1⟩]
              : List DiffItem).length)
      ∧ scanIterate [⟨Change.Remove, 0, 0⟩, ⟨Change.Equal, 1, 0⟩, ⟨Change.Insert, 1, 1⟩]
          4294967295 ([⟨Change.Remove, 0, 0⟩, ⟨Change.Equal, 1, 0⟩, ⟨Change.Insert, 1, 1⟩]
            : List DiffItem).length
          (2 * ([⟨Change.Remove, 0, 0⟩, ⟨Change.Equal, 1, 0⟩, ⟨Change.Insert, 1, 1⟩]
            : List DiffItem).length + 1) initialScan = none :=
  ⟨by decide, by decide, by decide, by decide,
    C37_scan_loop_terminates
      [⟨Change.Remove, 0, 0⟩, ⟨Change.Equal, 1, 0⟩, ⟨Change.Insert, 1, 1⟩] 4294967295
      (by decide) (by decide)⟩

/-- C38. `StringHelper::isValidFilename` depends only on the base name of its
argument. For every path `p`, `getBaseFilename(p)` is what follows the last `/` or
`\` of `p`, the whole of `p` when `p` holds neither; it holds neither `/` nor `\`;
`getBaseFilename(getBaseFilename(p)) = getBaseFilename(p)`; and
`isValidFilename(p) = isValidFilename(getBaseFilename(p))`, so that two paths with
the same base name are both valid or both not valid. -/
theorem C38_base_name_only (p q : String) :
    (∃ dir : List Char, p.data = dir ++ (getBaseFilename p).data
        ∧ (dir = [] ∨ ∃ d, dir = d ++ ['/'] ∨ dir = d ++ ['\\']))
      ∧ ((∀ c ∈ p.data, c ≠ '/' ∧ c ≠ '\\') → getBaseFilename p = p)
      ∧ (∀ c ∈ (getBaseFilename p).data, c ≠ '/' ∧ c ≠ '\\')
      ∧ getBaseFilename (getBaseFilename p) = getBaseFilename p
      ∧ isValidFilename p = isValidFilename (getBaseFilename p)
      ∧ (getBaseFilename p = getBaseFilename q → isValidFilename p = isValidFilename q) := by
  obtain ⟨dir, h1, h2, h3⟩ := getBaseFilename_spec p
  refine ⟨⟨dir, h1, h3⟩, getBaseFilename_plain p, h2, getBaseFilename_idem p,
    (isValidFilename_base p).symm, ?_⟩
  intro h
  rw [← isValidFilename_base p, ← isValidFilename_base q, h]

end Claims4

end Cdiff
